import Mathlib

/-!
# cracker.cc : candidate-mutation engine

A shallow embedding of `src/cracker.cc`.  The working buffer `pwdMutated`
is a byte array whose cells are either written (`some b`) or still
indeterminate (`none`, never written since the array was declared on the
stack).  Pointers into the buffer are indices.  Reading an indeterminate
cell, or a cell outside the array, is a fault.  Every loop of the source is
a recursive function; loops without a syntactic bound take fuel.
-/

namespace Cracker

set_option linter.unusedTactic false
set_option linter.unreachableTactic false
set_option linter.unusedVariables false

/-- `#define MAX_PWD_LEN 100`. -/
def MAX_PWD_LEN : Nat := 100

/-- Size of `char pwdMutated[MAX_PWD_LEN * 2 + 1]`. -/
def BUF_LEN : Nat := MAX_PWD_LEN * 2 + 1

/-- A C string without its terminator: the bytes before the first NUL. -/
abbrev Str := List Nat

/-- Memory cells of `pwdMutated`: `none` is an indeterminate byte. -/
abbrev Mem := List (Option Nat)

/-- The freshly declared `pwdMutated` array: nothing written yet. -/
def freshBuf : Mem := List.replicate BUF_LEN none

/-- Read `*(pwdMutated + i)`; `none` when out of bounds or indeterminate. -/
def rd (m : Mem) (i : Nat) : Option Nat := (m.get? i).join

/-- Write `*(pwdMutated + i) = v`; `none` when out of bounds. -/
def wr (m : Mem) (i : Nat) (v : Nat) : Option Mem :=
  if i < m.length then some (m.set i (some v)) else none

/-- The bytes of the C string starting at the head of the cell list. -/
def cstrL : List (Option Nat) → Option Str
  | [] => none
  | none :: _ => none
  | some 0 :: _ => some []
  | some (c + 1) :: r => (cstrL r).map (fun s => (c + 1) :: s)

/-- The C string starting at `pwdMutated + i`. -/
def cstrAt (m : Mem) (i : Nat) : Option Str := cstrL (m.drop i)

/-- `strlen(pwdMutated + i)`. -/
def strlenAt (m : Mem) (i : Nat) : Option Nat := (cstrAt m i).map List.length

/-- `memmove(pwdMutated + dst, pwdMutated + src, len)`: the cells are copied
as they are (copying an indeterminate byte is not a read of its value);
`none` when either range leaves the array. -/
def memmove (m : Mem) (dst src len : Nat) : Option Mem :=
  if src + len ≤ m.length ∧ dst + len ≤ m.length then
    some (m.take dst ++ (m.drop src).take len ++ m.drop (dst + len))
  else none

/-- `memcpy(pwdMutated, seedPwd, seedPwdLen + 1)`. -/
def memcpySeed (m : Mem) (seed : Str) : Mem :=
  (seed.map some ++ [some 0]) ++ m.drop (seed.length + 1)

/-- Why a run stopped before its normal end. -/
inductive Stop where
  | found (pwd : Str)
  | fault
  | fuel
  | abort
  deriving DecidableEq, Repr

/-- What the run does that can be observed from outside: the composition
announced at line 430 (`DBG1("(edits, trans, adds, dels): ...")`) and each
call of `testMatch` with the candidate it sees. -/
inductive Ev where
  | comp (edits trans adds dels : Nat)
  | test (pwd : Str)
  deriving DecidableEq, Repr

/-- The machine state: the buffer and the events so far, most recent
first. -/
structure St where
  buf : Mem
  log : List Ev
  deriving DecidableEq, Repr

deriving instance DecidableEq for Except

/-- A computation over the state that may stop early. -/
abbrev M (α : Type) := St → Except Stop α × St

/-- Sequencing: a stopped computation stays stopped. -/
def M.bind {α β : Type} (x : M α) (f : α → M β) : M β := fun s =>
  match x s with
  | (Except.ok a, s1) => f a s1
  | (Except.error e, s1) => (Except.error e, s1)

/-- Return a value. -/
def M.pure {α : Type} (a : α) : M α := fun s => (Except.ok a, s)

instance : Monad M where
  pure := M.pure
  bind := M.bind

/-- Stop the run. -/
def halt {α : Type} (e : Stop) : M α := fun s => (Except.error e, s)

/-- Lift a memory access: `none` is a fault. -/
def liftO {α : Type} : Option α → M α
  | some a => M.pure a
  | none => halt Stop.fault

/-- The current buffer. -/
def getBuf : M Mem := fun s => (Except.ok s.buf, s)

/-- Replace the buffer. -/
def setBuf (m : Mem) : M Unit := fun s => (Except.ok (), { s with buf := m })

/-- The oracle as the generator sees it: a predicate on the candidate. -/
abbrev Oracle := Str → Bool

/-- `if (testMatch()) throw FoundPwd(pwdMutated);`: the candidate is the C
string at the start of the buffer; it is recorded, handed to the oracle, and
an accepted candidate stops the run with the live buffer content. -/
def testAndThrow (o : Oracle) : M Unit := fun s =>
  match cstrAt s.buf 0 with
  | none => (Except.error Stop.fault, s)
  | some c =>
    let s1 : St := { s with log := Ev.test c :: s.log }
    if o c then (Except.error (Stop.found c), s1) else (Except.ok (), s1)

/-! ## searchIterateDels -/

/-- Lines 279-282: `for (delPos = k - 1; delPos >= 0; delPos--)` saves the
character under each deletion pointer and closes the gap, highest pointer
first. -/
def delsDelete (delsArr : List Nat) : Nat → List Nat → M (List Nat)
  | 0, savedArr => M.pure savedArr
  | k + 1, savedArr =>
    M.bind (liftO delsArr[k]?) fun p =>
    M.bind getBuf fun m =>
    M.bind (liftO (rd m p)) fun c =>
    M.bind (liftO (strlenAt m (p + 1))) fun n =>
    M.bind (liftO (memmove m p (p + 1) (n + 1))) fun m1 =>
    M.bind (setBuf m1) fun _ =>
    delsDelete delsArr k (savedArr.set k c)

/-- Lines 287-290: `for (delPos = i; delPos < i + k; delPos++)` reopens
each gap and puts the saved character back, lowest pointer first. -/
def delsRestore (delsArr savedArr : List Nat) : Nat → Nat → M Unit
  | 0, _ => M.pure ()
  | k + 1, i =>
    M.bind (liftO delsArr[i]?) fun p =>
    M.bind (liftO savedArr[i]?) fun c =>
    M.bind getBuf fun m =>
    M.bind (liftO (strlenAt m p)) fun n =>
    M.bind (liftO (memmove m (p + 1) p (n + 1))) fun m1 =>
    M.bind (liftO (wr m1 p c)) fun m2 =>
    M.bind (setBuf m2) fun _ =>
    delsRestore delsArr savedArr k (i + 1)

/-- Line 296: `while (--movePos >= 0 && ++delsArr[movePos] + 1 >=
delsArr[movePos + 1]);` entered with `movePos = mp`; the result is the
array and the final `movePos` (`none` for -1). -/
def delsCarry : Nat → List Nat → Option (List Nat × Option Nat)
  | 0, delsArr => some (delsArr, none)
  | mp + 1, delsArr =>
    match delsArr[mp]?, delsArr[mp + 1]? with
    | some a, some b =>
      let arr1 := delsArr.set mp (a + 1)
      if a + 1 + 1 ≥ b then delsCarry mp arr1 else some (arr1, some mp)
    | _, _ => none

/-- Lines 297-298: `for (fixPos = i; fixPos < i + k; fixPos++)
delsArr[fixPos] = fixPos ? delsArr[fixPos - 1] + 1 : pwdMutated;`. -/
def delsFix : Nat → Nat → List Nat → Option (List Nat)
  | 0, _, delsArr => some delsArr
  | k + 1, i, delsArr =>
    if i = 0 then delsFix k 1 (delsArr.set 0 0)
    else
      match delsArr[i - 1]? with
      | some a => delsFix k (i + 1) (delsArr.set i (a + 1))
      | none => none

/-- Lines 294-299: move the last pointer one to the right and carry over;
the result is the array and the new `movePos` (`none` for -1). -/
def delsAdvance (dels : Nat) (delsArr : List Nat) : M (List Nat × Option Nat) :=
  M.bind (liftO delsArr[dels - 1]?) fun p =>
  let arr1 := delsArr.set (dels - 1) (p + 1)
  M.bind getBuf fun m =>
  M.bind (liftO (rd m (p + 1))) fun c =>
  if c = 0 then
    M.bind (liftO (delsCarry (dels - 1) arr1)) fun r =>
    let start := match r.2 with
      | none => 0
      | some mp => mp + 1
    M.bind (liftO (delsFix (dels - start) start r.1)) fun arr2 =>
    M.pure (arr2, r.2)
  else M.pure (arr1, some (dels - 1))

/-- Lines 277-300: the loop `for (movePos = dels - 1; movePos >= 0; )`,
one iteration per unit of fuel. -/
def delsLoop (o : Oracle) (dels : Nat) : Nat → List Nat → List Nat → M Unit
  | 0, _, _ => halt Stop.fuel
  | fuel + 1, delsArr, savedArr =>
    M.bind (delsDelete delsArr dels savedArr) fun saved1 =>
    M.bind (testAndThrow o) fun _ =>
    M.bind (delsRestore delsArr saved1 dels 0) fun _ =>
    M.bind (delsAdvance dels delsArr) fun r =>
    match r.2 with
    | none => M.pure ()
    | some _ => delsLoop o dels fuel r.1 saved1

/-- `searchIterateDels(pwdMutated, dels)`.  The arrays `delsArr` and
`savedArr` are lists with one entry for each of the `dels` pointers. -/
def searchIterateDels (o : Oracle) (fuel : Nat) (dels : Nat) : M Unit :=
  if dels = 0 then testAndThrow o
  else delsLoop o dels fuel (List.range dels) (List.replicate dels 0)

/-! ## searchIterateAdds -/

/-- A pointer `pwdMutated + z` as an index; `none` when it lies before the
array. -/
def ptr (z : Int) : Option Nat := if 0 ≤ z then some z.toNat else none

/-- `MUTATED_POS(arr, pos)`: `arr[pos] + pos` as an index. -/
def mutatedPos (arr : List Int) (pos : Nat) : Option Nat :=
  match arr[pos]? with
  | some z => ptr (z + pos)
  | none => none

/-- `*p += CHAR_STEPS` on a `char`, read back as `unsigned char`. -/
def bump (m : Mem) (p : Nat) : Option (Mem × Nat) :=
  match rd m p with
  | some c =>
    match wr m p ((c + 1) % 256) with
    | some m1 => some (m1, (c + 1) % 256)
    | none => none
  | none => none

/-- Line 325: `while (--iterPos >= 0 && 126 < (*MUTATED_POS(insertionPoints,
iterPos) += CHAR_STEPS));` entered with `iterPos = ip`; the result is the
final `iterPos` (`none` for -1). -/
def insCarry (pts : List Int) : Nat → M (Option Nat)
  | 0 => M.pure none
  | ip + 1 =>
    M.bind (liftO (mutatedPos pts ip)) fun p =>
    M.bind getBuf fun m =>
    M.bind (liftO (bump m p)) fun r =>
    M.bind (setBuf r.1) fun _ =>
    if 126 < r.2 then insCarry pts ip else M.pure (some ip)

/-- Lines 326-327: `for (resetPos = i; resetPos < i + k; resetPos++)
*MUTATED_POS(insertionPoints, resetPos) = 32;`. -/
def insReset (pts : List Int) : Nat → Nat → M Unit
  | 0, _ => M.pure ()
  | k + 1, i =>
    M.bind (liftO (mutatedPos pts i)) fun p =>
    M.bind getBuf fun m =>
    M.bind (liftO (wr m p 32)) fun m1 =>
    M.bind (setBuf m1) fun _ =>
    insReset pts k (i + 1)

/-- `searchIterateAtInsertions(adds, dels, pwdMutated, insertionPoints)`:
the `while (true)` loop, one iteration per unit of fuel. -/
def searchIterateAtInsertions (o : Oracle) (fuelD : Nat) (adds dels : Nat)
    (pts : List Int) : Nat → M Unit
  | 0 => halt Stop.fuel
  | fuel + 1 =>
    M.bind (searchIterateDels o fuelD dels) fun _ =>
    M.bind (liftO (mutatedPos pts (adds - 1))) fun p =>
    M.bind getBuf fun m =>
    M.bind (liftO (bump m p)) fun r =>
    M.bind (setBuf r.1) fun _ =>
    if 126 < r.2 then
      M.bind (insCarry pts (adds - 1)) fun ip =>
      let start := match ip with
        | none => 0
        | some i => i + 1
      M.bind (insReset pts (adds - start) start) fun _ =>
      match ip with
      | none => M.pure ()
      | some _ => searchIterateAtInsertions o fuelD adds dels pts fuel
    else searchIterateAtInsertions o fuelD adds dels pts fuel

/-- Lines 353-354: `for (addPos = k - 1; addPos >= 0; addPos--)
memmove(addsArr[addPos] + 1, addsArr[addPos], strlen(addsArr[addPos]) + 1);`. -/
def addsOpen (addsArr : List Int) : Nat → M Unit
  | 0 => M.pure ()
  | k + 1 =>
    M.bind (liftO (addsArr[k]?.bind ptr)) fun p =>
    M.bind getBuf fun m =>
    M.bind (liftO (strlenAt m p)) fun n =>
    M.bind (liftO (memmove m (p + 1) p (n + 1))) fun m1 =>
    M.bind (setBuf m1) fun _ =>
    addsOpen addsArr k

/-- Lines 355-356: `for (addPos = k - 1; addPos >= 0; addPos--)
*MUTATED_POS(addsArr, addPos) = 32;`. -/
def addsInit (addsArr : List Int) : Nat → M Unit
  | 0 => M.pure ()
  | k + 1 =>
    M.bind (liftO (mutatedPos addsArr k)) fun p =>
    M.bind getBuf fun m =>
    M.bind (liftO (wr m p 32)) fun m1 =>
    M.bind (setBuf m1) fun _ =>
    addsInit addsArr k

/-- Lines 363-364: `for (addPos = k - 1; addPos >= 0; addPos--)
memmove(MUTATED_POS(addsArr, addPos), MUTATED_POS(addsArr, addPos) + 1,
strlen(MUTATED_POS(addsArr, addPos) + 1) + 1);`. -/
def addsClose (addsArr : List Int) : Nat → M Unit
  | 0 => M.pure ()
  | k + 1 =>
    M.bind (liftO (mutatedPos addsArr k)) fun p =>
    M.bind getBuf fun m =>
    M.bind (liftO (strlenAt m (p + 1))) fun n =>
    M.bind (liftO (memmove m p (p + 1) (n + 1))) fun m1 =>
    M.bind (setBuf m1) fun _ =>
    addsClose addsArr k

/-- Lines 368-373: `while (true) { --addsArr[movePos]; if (movePos == 0)
break; if (addsArr[movePos] < addsArr[movePos - 1]) --movePos; else break; }`
entered with `movePos = mp`; the result is the array and the final
`movePos`. -/
def addsMove : Nat → List Int → Option (List Int × Nat)
  | 0, addsArr =>
    match addsArr[0]? with
    | some a => some (addsArr.set 0 (a - 1), 0)
    | none => none
  | mp + 1, addsArr =>
    match addsArr[mp + 1]?, addsArr[mp]? with
    | some a, some b =>
      let arr1 := addsArr.set (mp + 1) (a - 1)
      if a - 1 < b then addsMove mp arr1 else some (arr1, mp + 1)
    | _, _ => none

/-- Lines 376-377: `for (resetPos = i; resetPos < i + k; resetPos++)
addsArr[resetPos] = pwdMutated + pwdMutatedLen;`. -/
def addsResetPts (len : Nat) : Nat → Nat → List Int → List Int
  | 0, _, addsArr => addsArr
  | k + 1, i, addsArr => addsResetPts len k (i + 1) (addsArr.set i (len : Int))

/-- Lines 351-378: the loop `for ( ; addsArr[0] >= pwdMutated; )`, one
iteration per unit of fuel. -/
def addsLoop (o : Oracle) (fuelD fuelI : Nat) (adds dels len : Nat) :
    Nat → List Int → M Unit
  | 0, _ => halt Stop.fuel
  | fuel + 1, addsArr =>
    M.bind (liftO addsArr[0]?) fun a0 =>
    if a0 < 0 then M.pure ()
    else
      M.bind (addsOpen addsArr adds) fun _ =>
      M.bind (addsInit addsArr adds) fun _ =>
      M.bind (searchIterateAtInsertions o fuelD adds dels addsArr fuelI) fun _ =>
      M.bind (addsClose addsArr adds) fun _ =>
      M.bind (liftO (addsMove (adds - 1) addsArr)) fun r =>
      let arr2 := if r.2 < adds - 1
        then addsResetPts len (adds - (r.2 + 1)) (r.2 + 1) r.1 else r.1
      addsLoop o fuelD fuelI adds dels len fuel arr2

/-- `searchIterateAdds(pwdMutated, adds, dels)`. -/
def searchIterateAdds (o : Oracle) (fuel : Nat) (adds dels : Nat) : M Unit :=
  M.bind getBuf fun m =>
  M.bind (liftO (strlenAt m 0)) fun len =>
  if adds = 0 then searchIterateDels o fuel dels
  else if adds + len ≥ MAX_PWD_LEN then M.pure ()
  else addsLoop o fuel fuel adds dels len fuel (List.replicate adds (len : Int))

/-! ## searchIterateTrans -/

/-- Lines 390-399: the inner loop over `transPos`, one iteration per unit
of fuel; it returns `transArr`. -/
def transInner (o : Oracle) (fuelA : Nat) (adds dels transNum : Nat) :
    Nat → Nat → List (Option Nat) → M (List (Option Nat))
  | 0, _, _ => halt Stop.fuel
  | fuel + 1, transPos, transArr =>
    M.bind getBuf fun m =>
    M.bind (liftO (rd m transPos)) fun c0 =>
    if c0 = 0 then M.pure transArr
    else
      M.bind (liftO (rd m (transPos + 1))) fun c1 =>
      if c1 = 0 then M.pure transArr
      else
        let arr1 := transArr.set transNum (some transPos)
        M.bind (liftO (wr m transPos c1)) fun m1 =>
        M.bind (liftO (wr m1 (transPos + 1) c0)) fun m2 =>
        M.bind (setBuf m2) fun _ =>
        M.bind (searchIterateAdds o fuelA adds dels) fun _ =>
        M.bind getBuf fun m3 =>
        M.bind (liftO (rd m3 transPos)) fun b =>
        M.bind (liftO (wr m3 (transPos + 1) b)) fun m4 =>
        M.bind (liftO (wr m4 transPos c0)) fun m5 =>
        M.bind (setBuf m5) fun _ =>
        transInner o fuelA adds dels transNum fuel (transPos + 1) arr1

/-- Lines 389-400: `for (transNum = i; transNum < i + k; transNum++)`; the
start of each scan is `transArr[transNum - 1] + 1`, an indeterminate pointer
when that entry was never assigned. -/
def transOuter (o : Oracle) (fuel : Nat) (adds dels : Nat) :
    Nat → Nat → List (Option Nat) → M Unit
  | 0, _, _ => M.pure ()
  | k + 1, transNum, transArr =>
    M.bind (if transNum = 0 then M.pure 0
      else M.bind (liftO (transArr[transNum - 1]?).join) fun q => M.pure (q + 1)) fun start =>
    M.bind (transInner o fuel adds dels transNum fuel start transArr) fun arr1 =>
    transOuter o fuel adds dels k (transNum + 1) arr1

/-- `searchIterateTrans(pwdMutated, trans, adds, dels)`; `transArr` has
`MAX_PWD_LEN` entries, none of them assigned on entry. -/
def searchIterateTrans (o : Oracle) (fuel : Nat) (trans adds dels : Nat) : M Unit :=
  if trans = 0 then searchIterateAdds o fuel adds dels
  else transOuter o fuel adds dels trans 0 (List.replicate MAX_PWD_LEN none)

/-! ## search -/

/-- `++(*p) > 126` on a plain `char`, which is signed: the incremented
byte, and whether it compares above 126. -/
def bumpChar (m : Mem) (p : Nat) : Option (Mem × Bool) :=
  match rd m p with
  | some c =>
    match wr m p ((c + 1) % 256) with
    | some m1 => some (m1, decide ((c + 1) % 256 = 127))
    | none => none
  | none => none

/-- Lines 435-439: `for (editNum = i; editNum < i + k; editNum++)` places
the edit pointers on consecutive cells, saves the character under each and
overwrites it with a space. -/
def subInit : Nat → Nat → List Nat → List Nat → M (List Nat × List Nat)
  | 0, _, editsArr, savedArr => M.pure (editsArr, savedArr)
  | k + 1, i, editsArr, savedArr =>
    M.bind (if i = 0 then M.pure 0
      else M.bind (liftO editsArr[i - 1]?) fun q => M.pure (q + 1)) fun p =>
    M.bind getBuf fun m =>
    M.bind (liftO (rd m p)) fun c =>
    M.bind (liftO (wr m p 32)) fun m1 =>
    M.bind (setBuf m1) fun _ =>
    subInit k (i + 1) (editsArr.set i p) (savedArr.set i c)

/-- Lines 448-457: `for (int pos = i; bumpNext; )` with `k = edits - i`
positions left; the result is `notAtEnd`. -/
def subClock (editsArr : List Nat) : Nat → Nat → M Bool
  | 0, _ => M.pure false
  | k + 1, pos =>
    M.bind (liftO editsArr[pos]?) fun p =>
    M.bind getBuf fun m =>
    M.bind (liftO (bumpChar m p)) fun r =>
    if r.2 then
      M.bind (liftO (wr r.1 p 32)) fun m1 =>
      M.bind (setBuf m1) fun _ =>
      subClock editsArr k (pos + 1)
    else
      M.bind (setBuf r.1) fun _ => M.pure true

/-- Lines 444-458: `for (bool notAtEnd = true; notAtEnd; )`, one iteration
per unit of fuel. -/
def subOdometer (o : Oracle) (fuelT : Nat) (edits trans adds dels : Nat)
    (editsArr : List Nat) : Nat → M Unit
  | 0 => halt Stop.fuel
  | fuel + 1 =>
    M.bind (searchIterateTrans o fuelT trans adds dels) fun _ =>
    M.bind (subClock editsArr edits 0) fun notAtEnd =>
    if notAtEnd then subOdometer o fuelT edits trans adds dels editsArr fuel
    else M.pure ()

/-- Lines 459-461: `for (editNum = i; editNum < i + k; editNum++)
*editsArr[editNum] = savedArr[editNum];`. -/
def subRestore (editsArr savedArr : List Nat) : Nat → Nat → M Unit
  | 0, _ => M.pure ()
  | k + 1, i =>
    M.bind (liftO editsArr[i]?) fun p =>
    M.bind (liftO savedArr[i]?) fun c =>
    M.bind getBuf fun m =>
    M.bind (liftO (wr m p c)) fun m1 =>
    M.bind (setBuf m1) fun _ =>
    subRestore editsArr savedArr k (i + 1)

/-- Lines 462-472: `for (; bumpNext; )` entered with the given `pos`; the
result is the array and the final `pos` (`none` for -1, where `allTried`
is set). -/
def subCarry : Nat → List Nat → M (List Nat × Option Nat)
  | 0, editsArr =>
    M.bind (liftO editsArr[0]?) fun p =>
    M.bind getBuf fun m =>
    M.bind (liftO (rd m (p + 1))) fun c =>
    if c = 0 then M.pure (editsArr.set 0 (p + 1), none)
    else M.pure (editsArr.set 0 (p + 1), some 0)
  | pos + 1, editsArr =>
    M.bind (liftO editsArr[pos + 1]?) fun p =>
    M.bind getBuf fun m =>
    M.bind (liftO (rd m (p + 1))) fun c =>
    if c = 0 then subCarry pos (editsArr.set (pos + 1) (p + 1))
    else M.pure (editsArr.set (pos + 1) (p + 1), some (pos + 1))

/-- Lines 475-481: the pointer that moved saves and blanks its new cell,
and the pointers after it are placed on the cells that follow. -/
def subReinit (edits pos : Nat) (editsArr savedArr : List Nat) :
    M (List Nat × List Nat) :=
  M.bind (liftO editsArr[pos]?) fun p =>
  M.bind getBuf fun m =>
  M.bind (liftO (rd m p)) fun c =>
  M.bind (liftO (wr m p 32)) fun m1 =>
  M.bind (setBuf m1) fun _ =>
  subInit (edits - (pos + 1)) (pos + 1) editsArr (savedArr.set pos c)

/-- Lines 442-483: `for (bool allTried = false; !allTried; )`, one
iteration per unit of fuel. -/
def subLoop (o : Oracle) (fuelT : Nat) (edits trans adds dels : Nat) :
    Nat → List Nat → List Nat → M Unit
  | 0, _, _ => halt Stop.fuel
  | fuel + 1, editsArr, savedArr =>
    M.bind (subOdometer o fuelT edits trans adds dels editsArr fuelT) fun _ =>
    M.bind (subRestore editsArr savedArr edits 0) fun _ =>
    M.bind (subCarry (edits - 1) editsArr) fun r =>
    match r.2 with
    | none => M.pure ()
    | some pos =>
      M.bind (subReinit edits pos r.1 savedArr) fun r2 =>
      subLoop o fuelT edits trans adds dels fuel r2.1 r2.2

/-- The statement `memcpy(pwdMutated, seedPwd, seedPwdLen + 1);`. -/
def copySeed (seed : Str) : M Unit := fun s =>
  (Except.ok (), { s with buf := memcpySeed s.buf seed })

/-- Lines 431-484: one composition.  The seed is copied over the start of
the buffer and the four stages run. -/
def generate (o : Oracle) (fuel : Nat) (seed : Str) (edits trans adds dels : Nat) :
    M Unit :=
  M.bind (copySeed seed) fun _ =>
  if edits = 0 then searchIterateTrans o fuel trans adds dels
  else if edits > MAX_PWD_LEN then halt Stop.fault
  else
    M.bind (subInit edits 0 (List.replicate edits 0) (List.replicate edits 0)) fun r =>
    subLoop o fuel edits trans adds dels fuel r.1 r.2

/-- The generator as the controller sees it: what is run for one
composition `(edits, trans, adds, dels)`. -/
abbrev Gen := Nat → Nat → Nat → Nat → M Unit

/-- Line 430: `DBG1("(edits, trans, adds, dels): ...")`. -/
def announce (edits trans adds dels : Nat) : M Unit := fun s =>
  (Except.ok (), { s with log := Ev.comp edits trans adds dels :: s.log })

/-- Lines 428-485: `for (int adds = a; adds + trans + edits <= editDistance;
adds++)`, one iteration per unit of fuel. -/
def loopAdds (gen : Gen) (editDistance edits trans : Nat) : Nat → Nat → M Unit
  | 0, _ => halt Stop.fuel
  | fuel + 1, adds =>
    if adds + trans + edits ≤ editDistance then
      M.bind (announce edits trans adds (editDistance - adds - trans - edits)) fun _ =>
      M.bind (gen edits trans adds (editDistance - adds - trans - edits)) fun _ =>
      loopAdds gen editDistance edits trans fuel (adds + 1)
    else M.pure ()

/-- Lines 427-486: `for (int trans = t; trans + edits <= editDistance;
trans++)`; `transN` is the loop variable `trans`. -/
def loopTrans (gen : Gen) (editDistance edits : Nat) : Nat → Nat → M Unit
  | 0, _ => halt Stop.fuel
  | fuel + 1, transN =>
    if transN + edits ≤ editDistance then
      M.bind (loopAdds gen editDistance edits transN (editDistance + 2) 0) fun _ =>
      loopTrans gen editDistance edits fuel (transN + 1)
    else M.pure ()

/-- Lines 426-487: `for (int edits = e; edits <= editDistance; edits++)`. -/
def loopEdits (gen : Gen) (editDistance : Nat) : Nat → Nat → M Unit
  | 0, _ => halt Stop.fuel
  | fuel + 1, edits =>
    if edits ≤ editDistance then
      M.bind (loopTrans gen editDistance edits (editDistance + 2) 0) fun _ =>
      loopEdits gen editDistance fuel (edits + 1)
    else M.pure ()

/-- How a call of `search` ends. -/
inductive Outcome where
  | found (pwd : Str)
  | notFound
  | fault
  | fuel
  | abort
  deriving DecidableEq, Repr

/-- The outcome of a run that stopped early. -/
def Outcome.ofStop : Stop → Outcome
  | Stop.found pwd => Outcome.found pwd
  | Stop.fault => Outcome.fault
  | Stop.fuel => Outcome.fuel
  | Stop.abort => Outcome.abort

/-- Lines 420-423: at distance 0 without a positive fixed distance the
seed is copied into the buffer and tested directly. -/
def testSeed (o : Oracle) (seed : Str) (distance : Int) (editDistance : Nat) : M Unit :=
  if editDistance = 0 ∧ distance ≤ 0 then
    M.bind (copySeed seed) fun _ => testAndThrow o
  else M.pure ()

/-- `search(editDistance)` with the globals `seedPwd` and `distance`; every
call declares its own `pwdMutated`.  The first argument bounds the depth of
the self-call at line 493.  The result is the outcome and the log. -/
def search (o : Oracle) (gen : Gen) (seed : Str) (distance : Int) :
    Nat → Nat → List Ev → Outcome × List Ev
  | 0, _, log => (Outcome.fuel, log)
  | depth + 1, editDistance, log =>
    if seed.length > MAX_PWD_LEN / 2 then (Outcome.abort, log)
    else
      match M.bind (testSeed o seed distance editDistance)
          (fun _ => loopEdits gen editDistance (editDistance + 2) 0)
          { buf := freshBuf, log := log } with
      | (Except.error e, s1) => (Outcome.ofStop e, s1.log)
      | (Except.ok _, s1) =>
        if editDistance < seed.length ∧ distance < 0 then
          search o gen seed distance depth (editDistance + 1) s1.log
        else (Outcome.notFound, s1.log)

/-- Line 566 of `main`: `search(distance < 0 ? 0 : distance)` with the
generator of this file, enough depth for the self-calls, and the events in
the order they happen. -/
def runSearch (o : Oracle) (fuel : Nat) (seed : Str) (distance : Int) :
    Outcome × List Ev :=
  let r := search o (generate o fuel seed) seed distance (seed.length + 2)
    (if distance < 0 then 0 else distance.toNat) []
  (r.1, r.2.reverse)

/-- The candidates handed to `testMatch`, in order. -/
def testedOf : List Ev → List Str
  | [] => []
  | Ev.test c :: r => c :: testedOf r
  | Ev.comp _ _ _ _ :: r => testedOf r

/-- The compositions announced, in order. -/
def compsOf : List Ev → List (Nat × Nat × Nat × Nat)
  | [] => []
  | Ev.test _ :: r => compsOf r
  | Ev.comp e t a d :: r => (e, t, a, d) :: compsOf r

/-- The oracle that rejects every candidate. -/
def rejectAll : Oracle := fun _ => false

/-- The oracle `exact-match(x)`. -/
def exactMatch (x : Str) : Oracle := fun c => decide (c = x)

/-! ## testMatch and execAndCapture -/

/-- What one `read` from the child's output returns. -/
inductive ReadResult where
  | data (chunk : Str)
  | eintr
  | error
  | eof
  deriving DecidableEq, Repr

/-- The globals the oracle depends on. -/
structure Config where
  /-- `checkCmd` is non-null: the checker is a command. -/
  checkCmd : Bool
  /-- The flag set by `--dryrun`. -/
  dryrun : Bool
  /-- The string given with `--match`. -/
  matchStr : Str
  /-- The results of the successive reads from the child run on a
  candidate. -/
  reads : Str → List ReadResult
  /-- The routine `crackerPluginDecrypt` applied to a candidate. -/
  decrypt : Str → Bool

/-- What one call of `testMatch` does to the outside world. -/
inductive Effect where
  | info (pwd : Str)
  | spawn (pwd : Str)
  | decrypt (pwd : Str)
  deriving DecidableEq, Repr

/-- `hay.find(needle)` of `std::string` from position `i` on: the first
position at which `needle` occurs, `none` for `npos`. -/
def strFind : Str → Str → Nat → Option Nat
  | [], needle, i => if needle = [] then some i else none
  | c :: hay, needle, i =>
    if needle.isPrefixOf (c :: hay) then some i else strFind hay needle (i + 1)

/-- Lines 225-236: the read loop with the data so far and
`numInterrupts`; it returns the captured data. -/
def readLoop : List ReadResult → Str → Nat → Str
  | [], data, _ => data
  | ReadResult.eof :: _, data, _ => data
  | ReadResult.data chunk :: r, data, n => readLoop r (data ++ chunk) n
  | ReadResult.eintr :: r, data, n => if n < 50 then readLoop r data (n + 1) else data
  | ReadResult.error :: _, data, _ => data

/-- `execAndCapture()`: the captured output and the effects. -/
def execAndCapture (cfg : Config) (pwd : Str) : Str × List Effect :=
  if cfg.dryrun then ([], [Effect.info pwd])
  else (readLoop (cfg.reads pwd) [] 0, [Effect.spawn pwd])

/-- `testMatch()` on the candidate in `*pwdField`: the result and the
effects. -/
def testMatch (cfg : Config) (pwd : Str) : Bool × List Effect :=
  if cfg.checkCmd then
    ((strFind (execAndCapture cfg pwd).1 cfg.matchStr 0).isSome, (execAndCapture cfg pwd).2)
  else (cfg.decrypt pwd, [Effect.decrypt pwd])

/-- The oracle the search sees under a configuration. -/
def oracleOf (cfg : Config) : Oracle := fun pwd => (testMatch cfg pwd).1

/-- The effects of a run: those of each call of `testMatch`, in order. -/
def effectsOf (cfg : Config) (evs : List Ev) : List Effect :=
  (testedOf evs).flatMap fun pwd => (testMatch cfg pwd).2

/-- The candidates reported by `INFO(*pwdField)` during a run. -/
def reportedOf (cfg : Config) (evs : List Ev) : List Str :=
  (effectsOf cfg evs).filterMap fun e =>
    match e with
    | Effect.info pwd => some pwd
    | _ => none

/-! ## Specification-side definitions and proof predicates -/

/-- A computation is silent when it adds no event and never throws
`FoundPwd`. -/
def Silent {α : Type} (x : M α) : Prop :=
  ∀ s, (x s).2.log = s.log ∧ ∀ c, (x s).1 ≠ Except.error (Stop.found c)

/-- No candidate among the events is accepted by the oracle. -/
def Quiet (o : Oracle) (evs : List Ev) : Prop := ∀ c, Ev.test c ∈ evs → o c = false

/-- `x` is the computation under the oracle `o`, `y` the same computation
under the rejecting oracle.  From every state, `y` only adds events and never
throws; and either `o` accepts none of the candidates `y` tests and `x`
behaves exactly like `y`, or `x` throws at the first candidate `o` accepts,
having logged what `y` logged up to that candidate. -/
def Sim (o : Oracle) {α : Type} (x y : M α) : Prop :=
  ∀ s, ∃ evs, (y s).2.log = evs ++ s.log ∧
    (∀ c, (y s).1 ≠ Except.error (Stop.found c)) ∧
    ((Quiet o evs ∧ x s = y s) ∨
     (∃ c post pre, evs = post ++ Ev.test c :: pre ∧ Quiet o pre ∧ o c = true ∧
        (x s).1 = Except.error (Stop.found c) ∧ (x s).2.log = Ev.test c :: pre ++ s.log))

/-- A composition `(edits, trans, adds, dels)`. -/
abbrev Comp := Nat × Nat × Nat × Nat

/-- From every state, the compositions `x` announces are a leading part of
`L`, and all of `L` when `x` returns normally. -/
def Emits {α : Type} (x : M α) (L : List Comp) : Prop :=
  ∀ s, ∃ done, compsOf (x s).2.log = done.reverse ++ compsOf s.log ∧ done <+: L ∧
    (∀ a, (x s).1 = Except.ok a → done = L)

/-- The compositions with the given `edits` and `trans` and `adds` from `a0`
up, in increasing order of `adds`. -/
def rowA (D e t a0 : Nat) : List Comp :=
  (List.range' a0 (D + 1 - e - t - a0)).map fun a => (e, t, a, D - a - t - e)

/-- The compositions with the given `edits` and `trans` from `t0` up. -/
def rowT (D e t0 : Nat) : List Comp :=
  (List.range' t0 (D + 1 - e - t0)).flatMap fun t => rowA D e t 0

/-- The compositions with `edits` from `e0` up. -/
def rowE (D e0 : Nat) : List Comp :=
  (List.range' e0 (D + 1 - e0)).flatMap fun e => rowT D e 0

/-- The 4-tuples `(substitutions, transpositions, insertions, deletions)` of
sum `D`, in lexicographic increasing order of the first three components,
as the specification lists them. -/
def compositions (D : Nat) : List Comp :=
  (List.range (D + 1)).flatMap fun e =>
    (List.range (D + 1 - e)).flatMap fun t =>
      (List.range (D + 1 - e - t)).map fun a => (e, t, a, D - e - t - a)

/-- All characters of a string are non-NUL. -/
def NoNul (w : Str) : Prop := ∀ c ∈ w, c ≠ 0

/-- The buffer cells holding the string `u ++ v` with its terminator, then
`R`; written with the split at `u.length` in view. -/
def cells (u v : Str) (R : Mem) : Mem := u.map some ++ (v.map some ++ some 0 :: R)

/-- The strings obtained from `u ++ v` by deleting one character of `v`,
leftmost first. -/
def delCands : Str → Str → List Str
  | _, [] => []
  | u, x :: v => (u ++ v) :: delCands (u ++ [x]) v

/-- The strings obtained from `u ++ v` by swapping one pair of adjacent
characters of `v`, leftmost pair first. -/
def swapCands : Str → Str → List Str
  | u, x :: y :: v => (u ++ y :: x :: v) :: swapCands (u ++ [x]) (y :: v)
  | _, _ => []

/-- The strings `u ++ c :: v` for the `k` characters `c` from `ch` up. -/
def charCands (u v : Str) (ch k : Nat) : List Str :=
  (List.range' ch k).map fun c => u ++ c :: v

/-- The strings obtained from `u ++ v` by replacing one character of `v` by
each character of [0x20, 0x7E] in turn, leftmost character first. -/
def subCands : Str → Str → List Str
  | _, [] => []
  | u, x :: v => charCands u v 32 95 ++ subCands (u ++ [x]) v

/-- The strings obtained from `ur.reverse ++ v` by inserting one character
of [0x20, 0x7E] at a point of `ur.reverse`, from its right end down to its
left end (`ur` is the part before the insertion point, reversed). -/
def insCands : Str → Str → List Str
  | [], v => charCands [] v 32 95
  | x :: ur, v => charCands (x :: ur).reverse v 32 95 ++ insCands ur (x :: v)

/-- The events of distance 1, most recent first, after the log `log`. -/
def logOne (seed : Str) (log : List Ev) : List Ev :=
  ((subCands [] seed).map Ev.test).reverse ++ Ev.comp 1 0 0 0 ::
  (((swapCands [] seed).map Ev.test).reverse ++ Ev.comp 0 1 0 0 ::
  (((insCands seed.reverse []).map Ev.test).reverse ++ Ev.comp 0 0 1 0 ::
  (((delCands [] seed).map Ev.test).reverse ++ Ev.comp 0 0 0 1 :: log)))

/-- The string `x` is obtained from `s` by one edit: one character deleted,
one character of [0x20, 0x7E] inserted at any point, one pair of adjacent
characters swapped, or one character replaced by a character of
[0x20, 0x7E]. -/
inductive OneEdit (s : Str) : Str → Prop where
  | del (u : Str) (x : Nat) (v : Str) (h : s = u ++ x :: v) : OneEdit s (u ++ v)
  | ins (u v : Str) (c : Nat) (h : s = u ++ v) (hc : 32 ≤ c ∧ c ≤ 126) :
      OneEdit s (u ++ c :: v)
  | swap (u : Str) (x y : Nat) (v : Str) (h : s = u ++ x :: y :: v) :
      OneEdit s (u ++ y :: x :: v)
  | sub (u : Str) (x : Nat) (v : Str) (c : Nat) (h : s = u ++ x :: v)
      (hc : 32 ≤ c ∧ c ≤ 126) : OneEdit s (u ++ c :: v)

/-- The events of distance 0 with no fixed distance, most recent first. -/
def logZero (seed : Str) : List Ev :=
  [Ev.test seed, Ev.comp 0 0 0 0, Ev.test seed]

/-- The string `s` without the character at index `i`. -/
def delAt (s : Str) (i : Nat) : Str := s.eraseIdx i

/-- The string `s` with the character `c` inserted at point `p`. -/
def insAt (s : Str) (p c : Nat) : Str := s.take p ++ c :: s.drop p

/-- The string `s` with the characters at indices `i` and `i + 1` swapped. -/
def swapAt (s : Str) (i : Nat) : Str :=
  s.take i ++ ((s.drop (i + 1)).take 1 ++ ((s.drop i).take 1 ++ s.drop (i + 2)))

/-- The string `s` with the character at index `i` replaced by `c`. -/
def subAt (s : Str) (i c : Nat) : Str := s.set i c

/-- The characters 0x20 up to 0x7E. -/
def printable : List Nat := (List.range 95).map fun j => 32 + j

/-- The candidates reported at the fixed distance 1, in the order the
claim gives: single deletions by index, single insertions by point from the
end down and by character, adjacent swaps by index, single substitutions by
index and by character. -/
def distanceOneCandidates (s : Str) : List Str :=
  (List.range s.length).map (delAt s) ++
  (((List.range (s.length + 1)).reverse.flatMap fun p => printable.map (insAt s p)) ++
  ((List.range (s.length - 1)).map (swapAt s) ++
  ((List.range s.length).flatMap fun i => printable.map (subAt s i))))

/-- The body of one call of `search` up to the end of the loop nest:
the direct test of the seed and the compositions of `editDistance`, from the
fresh buffer. -/
def searchBody (o : Oracle) (gen : Gen) (seed : Str) (distance : Int) (editDistance : Nat)
    (log : List Ev) : Except Stop Unit × St :=
  M.bind (testSeed o seed distance editDistance)
    (fun _ => loopEdits gen editDistance (editDistance + 2) 0) { buf := freshBuf, log := log }

/-! ## main -/

/-- The string "NOT_FOUND" of lines 122, 495 and 571. -/
def NOT_FOUND : Str := [78, 79, 84, 95, 70, 79, 85, 78, 68]

/-- `#define RETURN_CODE_PLUGIN_INIT 4`. -/
def RETURN_CODE_PLUGIN_INIT : Nat := 4

/-- How the process ends. -/
inductive Exit where
  /-- `exit(status)` was called. -/
  | exited (status : Nat)
  /-- `main` returned `status`. -/
  | returned (status : Nat)
  /-- The search left defined behaviour, or the model ran out of fuel. -/
  | undefined
  deriving DecidableEq, Repr

/-- The exit status of the process, when it has one. -/
def Exit.status : Exit → Option Nat
  | Exit.exited n => some n
  | Exit.returned n => some n
  | Exit.undefined => none

/-- `ABORT(stuff); rest`: the macro writes the message and calls `exit(2)`,
so the statements `rest` after it are never run. -/
def ABORT (rest : Exit) : Exit := Exit.exited 2

/-- `USAGE(msg); rest` with a message: `exit(msg ? 3 : 0)`. -/
def USAGE (rest : Exit) : Exit := Exit.exited 3

/-- The `std::string` a call of `search` hands back: the password thrown
with `FoundPwd` (line 489) or accepted at line 422, or "NOT_FOUND" (line
495); nothing when the call does not return. -/
def Outcome.returnValue : Outcome → Option Str
  | Outcome.found pwd => some pwd
  | Outcome.notFound => some NOT_FOUND
  | Outcome.fault => none
  | Outcome.fuel => none
  | Outcome.abort => none

/-- The command line and the environment as `main` finds them, and the
behaviour of what `main` loads or spawns. -/
structure Args where
  /-- The string given with `--match`, empty when absent. -/
  matchStr : Str
  /-- The path given with `--plugin`, empty when absent. -/
  plugin : Str
  /-- The flag `--dryrun`. -/
  dryrun : Bool
  /-- The number given with `--distance`, -1 when absent. -/
  distance : Int
  /-- The value of `getenv("SEED_PWD")`. -/
  seedPwd : Option Str
  /-- The results of the successive reads from the checker command run on a
  candidate. -/
  reads : Str → List ReadResult
  /-- `dlopen` and the three `dlsym` calls succeed. -/
  pluginLoads : Bool
  /-- `crackerPluginInit` returns a non-null state. -/
  pluginInit : Bool
  /-- The routine `crackerPluginDecrypt` applied to a candidate. -/
  decrypt : Str → Bool

/-- What `main` does that can be observed from outside. -/
inductive Act where
  /-- The call of `crackerPluginInit`. -/
  | init
  /-- An effect of one call of `testMatch`. -/
  | oracle (e : Effect)
  /-- Line 567: the password written to standard output. -/
  | print (pwd : Str)
  /-- The call of `crackerPluginFinalize`. -/
  | finalize
  deriving DecidableEq, Repr

/-- The globals `testMatch` reads, as `main` has set them. -/
def Args.config (a : Args) : Config :=
  { checkCmd := decide (a.matchStr ≠ []), dryrun := a.dryrun, matchStr := a.matchStr,
    reads := a.reads, decrypt := a.decrypt }

/-- Lines 561-571 of `main`: the seed is fetched, the search runs, the
result is printed, the plugin is finalized when there is a plugin state, and
the status is 1 when the string printed is "NOT_FOUND", else 0. -/
def mainSearch (a : Args) (fuel : Nat) (pluginState : Bool) (acts : List Act) :
    Exit × List Act :=
  match a.seedPwd with
  | none => (ABORT Exit.undefined, acts)
  | some seed =>
    let r := runSearch (oracleOf a.config) fuel seed a.distance
    let acts1 := acts ++ (effectsOf a.config r.2).map Act.oracle
    match r.1 with
    | Outcome.abort => (ABORT Exit.undefined, acts1)
    | Outcome.fault => (Exit.undefined, acts1)
    | Outcome.fuel => (Exit.undefined, acts1)
    | out =>
      match out.returnValue with
      | none => (Exit.undefined, acts1)
      | some pwd =>
        (Exit.returned (if pwd = NOT_FOUND then 1 else 0),
          acts1 ++ Act.print pwd :: (if pluginState then [Act.finalize] else []))

/-- Lines 521-571 of `main`, after the arguments are parsed. -/
def main (a : Args) (fuel : Nat) : Exit × List Act :=
  if a.matchStr = [] ∧ a.plugin = [] then (USAGE Exit.undefined, [])
  else if a.matchStr ≠ [] then mainSearch a fuel false []
  else if a.pluginLoads = false then (ABORT Exit.undefined, [])
  else if a.pluginInit = false then
    (ABORT (Exit.returned RETURN_CODE_PLUGIN_INIT), [Act.init])
  else mainSearch a fuel true [Act.init]

/-- The data chunks among read results, concatenated in order. -/
def chunksOf : List ReadResult → Str
  | [] => []
  | ReadResult.data chunk :: r => chunk ++ chunksOf r
  | _ :: r => chunksOf r

/-- The number of interrupted reads among read results. -/
def interruptsOf : List ReadResult → Nat
  | [] => 0
  | ReadResult.eintr :: r => interruptsOf r + 1
  | _ :: r => interruptsOf r

/-- Every read either delivers data or is interrupted. -/
def DataOrEintr (rs : List ReadResult) : Prop :=
  ∀ r ∈ rs, r ≠ ReadResult.eof ∧ r ≠ ReadResult.error

/-- A computation never stops with the fatal abort of `ABORT`. -/
def NoAbort {α : Type} (x : M α) : Prop := ∀ s, (x s).1 ≠ Except.error Stop.abort

/-- One step of an odometer over the characters 0x20..0x7E whose FIRST digit
is the fastest: the first digit advances by one; a digit that passes 0x7E
returns to 0x20 and the digit after it advances in turn.  The flag is false
when the last digit passed 0x7E, every digit then being back at 0x20. -/
def tick : List Nat → List Nat × Bool
  | [] => ([], false)
  | c :: r => if c < 126 then ((c + 1) :: r, true) else (32 :: (tick r).1, (tick r).2)

/-- The assignments such an odometer shows from the assignment `ds` on, in
order: the first digit runs up to 0x7E, and for each later assignment of the
other digits it runs from 0x20 to 0x7E. -/
def odoFrom : List Nat → List (List Nat)
  | [] => [[]]
  | c :: r =>
    (List.range' c (127 - c)).map (fun x => x :: r)
      ++ (odoFrom r).tail.flatMap fun r1 => printable.map fun x => x :: r1

/-- All assignments of characters of [0x20, 0x7E] to `k` positions, in the
order of an odometer whose first position is the fastest. -/
def odometer : Nat → List (List Nat)
  | 0 => [[]]
  | k + 1 => (odometer k).flatMap fun r => printable.map fun x => x :: r

/-- The string in which each segment of `sgs` is followed by the character
of `ds` that goes with it: the characters `ds` at their positions among the
untouched parts of a string. -/
def weave : List Str → List Nat → Str
  | sg :: sgs, d :: ds => sg ++ d :: weave sgs ds
  | _, _ => []

/-- The indices at which `weave sgs ds` holds the characters `ds`, when the
string starts at index `off`. -/
def weavePos (off : Nat) : List Str → List Nat
  | [] => []
  | sg :: sgs => (off + sg.length) :: weavePos (off + sg.length + 1) sgs

/-- Every character lies in [0x20, 0x7E]. -/
def Printable (ds : List Nat) : Prop := ∀ c ∈ ds, 32 ≤ c ∧ c ≤ 126

/-! ## The tuples of deletion pointers -/

/-- The strictly increasing `d`-tuples of indices in `lo .. L-1`, in
lexicographic increasing order. -/
def combosFrom (L : Nat) : Nat → Nat → List (List Nat)
  | 0, _ => [[]]
  | d + 1, lo =>
    (List.range' lo (L - lo)).flatMap fun i => (combosFrom L d (i + 1)).map fun t => i :: t

/-- The string `w` read from index `k` on, without the characters whose
index is in `T`. -/
def dropIdxs : Str → Nat → List Nat → Str
  | [], _, _ => []
  | x :: w, k, T => if k ∈ T then dropIdxs w (k + 1) T else x :: dropIdxs w (k + 1) T

/-- The string `w` with exactly the characters at the indices `T` removed. -/
def removeIdxs (w : Str) (T : List Nat) : Str := dropIdxs w 0 T

/-- The string `w` after the deletions of lines 279-282 at the pointers
`T`, the highest pointer first. -/
def eraseAll (w : Str) (T : List Nat) : Str := T.foldr (fun i s => s.eraseIdx i) w

/-- The pointers `T` are strictly increasing and point at characters of a
string of length `L`. -/
def ValidTuple (L : Nat) (T : List Nat) : Prop :=
  T.Pairwise (fun a b => a < b) ∧ ∀ i ∈ T, i < L

/-- The part of one pass of the loop of lines 277-300 that follows the
restoration: the advance of lines 294-299, and the passes after it. -/
def delsRest (o : Oracle) (dels fuel : Nat) (delsArr savedArr : List Nat) : M Unit :=
  M.bind (delsAdvance dels delsArr) fun r =>
    match r.2 with
    | none => M.pure ()
    | some _ => delsLoop o dels fuel r.1 savedArr

/-- From every state, the computation only adds events to the log. -/
def Grows {α : Type} (x : M α) : Prop := ∀ s, ∃ evs, (x s).2.log = evs ++ s.log

/-- From every state, the computation returns normally only after a call
of `testMatch`. -/
def Probes {α : Type} (x : M α) : Prop :=
  ∀ s a, (x s).1 = Except.ok a →
    ∃ post c pre, (x s).2.log = post ++ Ev.test c :: (pre ++ s.log)

theorem silent_pure {α : Type} (a : α) : Silent (M.pure a) := by
  intro s; simp [M.pure]

theorem silent_halt_fault {α : Type} : Silent (halt Stop.fault : M α) := by
  intro s; simp [halt]

theorem silent_halt_fuel {α : Type} : Silent (halt Stop.fuel : M α) := by
  intro s; simp [halt]

theorem silent_liftO {α : Type} (x : Option α) : Silent (liftO x) := by
  cases x
  · exact silent_halt_fault
  · exact silent_pure _

theorem silent_getBuf : Silent getBuf := by
  intro s; simp [Cracker.getBuf]

theorem silent_setBuf (m : Mem) : Silent (setBuf m) := by
  intro s; simp [Cracker.setBuf]

theorem silent_bind {α β : Type} {x : M α} {f : α → M β}
    (hx : Silent x) (hf : ∀ a, Silent (f a)) : Silent (M.bind x f) := by
  intro s
  have h1 := hx s
  rcases hxs : x s with ⟨r, s1⟩
  rw [hxs] at h1
  cases r with
  | error e =>
    simp only [M.bind, hxs]
    refine ⟨h1.1, fun c h => h1.2 c ?_⟩
    injection h with h
    rw [h]
  | ok a =>
    have h2 := hf a s1
    simp only [M.bind, hxs]
    exact ⟨by rw [h2.1]; exact h1.1, h2.2⟩

theorem silent_delsDelete (delsArr : List Nat) (k : Nat) (savedArr : List Nat) :
    Silent (delsDelete delsArr k savedArr) := by
  induction k generalizing savedArr with
  | zero => exact silent_pure _
  | succ k ih =>
    unfold delsDelete
    repeat' first
      | exact silent_liftO _ | exact silent_getBuf | exact silent_setBuf _
      | exact ih _ | apply silent_bind | intro _

theorem silent_delsRestore (delsArr savedArr : List Nat) (k i : Nat) :
    Silent (delsRestore delsArr savedArr k i) := by
  induction k generalizing i with
  | zero => exact silent_pure _
  | succ k ih =>
    unfold delsRestore
    repeat' first
      | exact silent_liftO _ | exact silent_getBuf | exact silent_setBuf _
      | exact ih _ | apply silent_bind | intro _

theorem silent_delsAdvance (dels : Nat) (delsArr : List Nat) :
    Silent (delsAdvance dels delsArr) := by
  unfold delsAdvance
  repeat' first
    | exact silent_liftO _ | exact silent_getBuf | exact silent_setBuf _
    | exact silent_pure _ | apply silent_bind | split | intro _

theorem silent_insCarry (pts : List Int) (k : Nat) :
    Silent (insCarry pts k) := by
  induction k with
  | zero =>
    unfold insCarry
    repeat' first
      | exact silent_liftO _ | exact silent_getBuf | exact silent_setBuf _
      | exact silent_pure _ 
      | apply silent_bind | split | intro _
  | succ k ih =>
    unfold insCarry
    repeat' first
      | exact silent_liftO _ | exact silent_getBuf | exact silent_setBuf _
      | exact silent_pure _ | exact ih _ | exact ih _ _ | exact ih _ _ _
      | apply silent_bind | split | intro _

theorem silent_insReset (pts : List Int) (k i : Nat) :
    Silent (insReset pts k i) := by
  induction k generalizing i with
  | zero =>
    unfold insReset
    repeat' first
      | exact silent_liftO _ | exact silent_getBuf | exact silent_setBuf _
      | exact silent_pure _ 
      | apply silent_bind | split | intro _
  | succ k ih =>
    unfold insReset
    repeat' first
      | exact silent_liftO _ | exact silent_getBuf | exact silent_setBuf _
      | exact silent_pure _ | exact ih _ | exact ih _ _ | exact ih _ _ _
      | apply silent_bind | split | intro _

theorem silent_addsOpen (addsArr : List Int) (k : Nat) :
    Silent (addsOpen addsArr k) := by
  induction k with
  | zero =>
    unfold addsOpen
    repeat' first
      | exact silent_liftO _ | exact silent_getBuf | exact silent_setBuf _
      | exact silent_pure _ 
      | apply silent_bind | split | intro _
  | succ k ih =>
    unfold addsOpen
    repeat' first
      | exact silent_liftO _ | exact silent_getBuf | exact silent_setBuf _
      | exact silent_pure _ | exact ih _ | exact ih _ _ | exact ih _ _ _
      | apply silent_bind | split | intro _

theorem silent_addsInit (addsArr : List Int) (k : Nat) :
    Silent (addsInit addsArr k) := by
  induction k with
  | zero =>
    unfold addsInit
    repeat' first
      | exact silent_liftO _ | exact silent_getBuf | exact silent_setBuf _
      | exact silent_pure _ 
      | apply silent_bind | split | intro _
  | succ k ih =>
    unfold addsInit
    repeat' first
      | exact silent_liftO _ | exact silent_getBuf | exact silent_setBuf _
      | exact silent_pure _ | exact ih _ | exact ih _ _ | exact ih _ _ _
      | apply silent_bind | split | intro _

theorem silent_addsClose (addsArr : List Int) (k : Nat) :
    Silent (addsClose addsArr k) := by
  induction k with
  | zero =>
    unfold addsClose
    repeat' first
      | exact silent_liftO _ | exact silent_getBuf | exact silent_setBuf _
      | exact silent_pure _ 
      | apply silent_bind | split | intro _
  | succ k ih =>
    unfold addsClose
    repeat' first
      | exact silent_liftO _ | exact silent_getBuf | exact silent_setBuf _
      | exact silent_pure _ | exact ih _ | exact ih _ _ | exact ih _ _ _
      | apply silent_bind | split | intro _

theorem silent_subInit (k i : Nat) (editsArr savedArr : List Nat) :
    Silent (subInit k i editsArr savedArr) := by
  induction k generalizing i editsArr savedArr with
  | zero =>
    unfold subInit
    repeat' first
      | exact silent_liftO _ | exact silent_getBuf | exact silent_setBuf _
      | exact silent_pure _ 
      | apply silent_bind | split | intro _
  | succ k ih =>
    unfold subInit
    repeat' first
      | exact silent_liftO _ | exact silent_getBuf | exact silent_setBuf _
      | exact silent_pure _ | exact ih _ | exact ih _ _ | exact ih _ _ _
      | apply silent_bind | split | intro _

theorem silent_subClock (editsArr : List Nat) (k pos : Nat) :
    Silent (subClock editsArr k pos) := by
  induction k generalizing pos with
  | zero =>
    unfold subClock
    repeat' first
      | exact silent_liftO _ | exact silent_getBuf | exact silent_setBuf _
      | exact silent_pure _ 
      | apply silent_bind | split | intro _
  | succ k ih =>
    unfold subClock
    repeat' first
      | exact silent_liftO _ | exact silent_getBuf | exact silent_setBuf _
      | exact silent_pure _ | exact ih _ | exact ih _ _ | exact ih _ _ _
      | apply silent_bind | split | intro _

theorem silent_subRestore (editsArr savedArr : List Nat) (k i : Nat) :
    Silent (subRestore editsArr savedArr k i) := by
  induction k generalizing i with
  | zero =>
    unfold subRestore
    repeat' first
      | exact silent_liftO _ | exact silent_getBuf | exact silent_setBuf _
      | exact silent_pure _ 
      | apply silent_bind | split | intro _
  | succ k ih =>
    unfold subRestore
    repeat' first
      | exact silent_liftO _ | exact silent_getBuf | exact silent_setBuf _
      | exact silent_pure _ | exact ih _ | exact ih _ _ | exact ih _ _ _
      | apply silent_bind | split | intro _

theorem silent_subCarry (k : Nat) (editsArr : List Nat) :
    Silent (subCarry k editsArr) := by
  induction k generalizing editsArr with
  | zero =>
    unfold subCarry
    repeat' first
      | exact silent_liftO _ | exact silent_getBuf | exact silent_setBuf _
      | exact silent_pure _ 
      | apply silent_bind | split | intro _
  | succ k ih =>
    unfold subCarry
    repeat' first
      | exact silent_liftO _ | exact silent_getBuf | exact silent_setBuf _
      | exact silent_pure _ | exact ih _ | exact ih _ _ | exact ih _ _ _
      | apply silent_bind | split | intro _

theorem silent_subReinit (edits pos : Nat) (editsArr savedArr : List Nat) :
    Silent (subReinit edits pos editsArr savedArr) := by
  unfold subReinit
  repeat' first
    | exact silent_liftO _ | exact silent_getBuf | exact silent_setBuf _
    | exact silent_subInit _ _ _ _ | apply silent_bind | intro _

/-! ## The run under an oracle against the run that rejects everything -/

theorem quiet_nil (o : Oracle) : Quiet o [] := by
  intro c h; cases h

theorem quiet_append {o : Oracle} {a b : List Ev} (ha : Quiet o a) (hb : Quiet o b) :
    Quiet o (a ++ b) := by
  intro c h
  rcases List.mem_append.1 h with h | h
  · exact ha c h
  · exact hb c h

theorem sim_of_silent (o : Oracle) {α : Type} {x : M α} (hx : Silent x) : Sim o x x := by
  intro s
  exact ⟨[], by simpa using (hx s).1, (hx s).2, Or.inl ⟨quiet_nil o, rfl⟩⟩

theorem sim_announce (o : Oracle) (e t a d : Nat) :
    Sim o (announce e t a d) (announce e t a d) := by
  intro s
  refine ⟨[Ev.comp e t a d], by simp [Cracker.announce], by simp [Cracker.announce], Or.inl ⟨?_, rfl⟩⟩
  intro c h
  simp at h

theorem sim_testAndThrow (o : Oracle) : Sim o (testAndThrow o) (testAndThrow rejectAll) := by
  intro s
  unfold Cracker.testAndThrow
  cases hc : cstrAt s.buf 0 with
  | none =>
    exact ⟨[], by simp, by simp, Or.inl ⟨quiet_nil o, rfl⟩⟩
  | some c =>
    refine ⟨[Ev.test c], by simp [rejectAll], by simp [rejectAll], ?_⟩
    cases ho : o c with
    | false =>
      refine Or.inl ⟨?_, by simp [rejectAll, ho]⟩
      intro c1 h
      simp at h
      rw [h]; exact ho
    | true =>
      exact Or.inr ⟨c, [], [], by simp, quiet_nil o, ho, by simp [ho], by simp [ho]⟩

theorem sim_bind (o : Oracle) {α β : Type} {x y : M α} {f g : α → M β}
    (hx : Sim o x y) (hf : ∀ a, Sim o (f a) (g a)) : Sim o (M.bind x f) (M.bind y g) := by
  intro s
  obtain ⟨e1, hlog1, hnf1, h1⟩ := hx s
  rcases hys : y s with ⟨ry, sy⟩
  rw [hys] at hlog1 hnf1
  cases ry with
  | error e =>
    have hyb : M.bind y g s = (Except.error e, sy) := by simp only [M.bind, hys]
    rw [hyb]
    refine ⟨e1, hlog1, ?_, ?_⟩
    · intro c h
      injection h with h
      exact hnf1 c (by rw [h])
    · rcases h1 with ⟨hq, hxy⟩ | ⟨c, post, pre, he, hq, hoc, hxr, hxl⟩
      · left
        refine ⟨hq, ?_⟩
        simp only [M.bind, hxy, hys]
      · right
        refine ⟨c, post, pre, he, hq, hoc, ?_, ?_⟩
        · rcases hxs : x s with ⟨rx, sx⟩
          rw [hxs] at hxr
          simp only at hxr
          simp only [M.bind, hxs, hxr]
        · rcases hxs : x s with ⟨rx, sx⟩
          rw [hxs] at hxr hxl
          simp only at hxr hxl
          simp only [M.bind, hxs, hxr]
          exact hxl
  | ok a =>
    have hyb : M.bind y g s = g a sy := by simp only [M.bind, hys]
    rw [hyb]
    obtain ⟨e2, hlog2, hnf2, h2⟩ := hf a sy
    refine ⟨e2 ++ e1, ?_, hnf2, ?_⟩
    · rw [hlog2, hlog1, List.append_assoc]
    · rcases h1 with ⟨hq, hxy⟩ | ⟨c, post, pre, he, hq, hoc, hxr, hxl⟩
      · have hxb : M.bind x f s = f a sy := by simp only [M.bind, hxy, hys]
        rw [hxb]
        rcases h2 with ⟨hq2, hfg⟩ | ⟨c, post, pre, he, hq2, hoc, hxr, hxl⟩
        · exact Or.inl ⟨quiet_append hq2 hq, hfg⟩
        · right
          refine ⟨c, post, pre ++ e1, ?_, quiet_append hq2 hq, hoc, hxr, ?_⟩
          · rw [he]; simp
          · rw [hxl, hlog1]; simp
      · right
        rcases hxs : x s with ⟨rx, sx⟩
        rw [hxs] at hxr hxl
        simp only at hxr hxl
        refine ⟨c, e2 ++ post, pre, ?_, hq, hoc, ?_, ?_⟩
        · rw [he]; simp
        · simp only [M.bind, hxs, hxr]
        · simp only [M.bind, hxs, hxr]
          exact hxl

/-- The unfolding equations of the stage functions, stated before the
functions are sealed for the unifier. -/
theorem stage_equations : True := by
  have := @M.bind.eq_1
  have := @M.pure.eq_1
  have := @Sim.eq_1
  have := @Silent.eq_1
  have := @Quiet.eq_1
  have := @announce.eq_1
  have := @delsLoop.eq_1
  have := @delsLoop.eq_def
  have := @searchIterateDels.eq_1
  have := @searchIterateDels.eq_def
  have := @searchIterateAtInsertions.eq_1
  have := @searchIterateAtInsertions.eq_def
  have := @addsLoop.eq_1
  have := @addsLoop.eq_def
  have := @searchIterateAdds.eq_1
  have := @searchIterateAdds.eq_def
  have := @transInner.eq_1
  have := @transInner.eq_def
  have := @transOuter.eq_1
  have := @transOuter.eq_def
  have := @searchIterateTrans.eq_1
  have := @searchIterateTrans.eq_def
  have := @subOdometer.eq_1
  have := @subOdometer.eq_def
  have := @subLoop.eq_1
  have := @subLoop.eq_def
  have := @generate.eq_1
  have := @generate.eq_def
  have := @copySeed.eq_1
  have := @copySeed.eq_def
  have := @testAndThrow.eq_1
  have := @testAndThrow.eq_def
  have := @liftO.eq_1
  have := @liftO.eq_def
  have := @getBuf.eq_1
  have := @getBuf.eq_def
  have := @setBuf.eq_1
  have := @setBuf.eq_def
  have := @halt.eq_1
  have := @halt.eq_def
  have := @rejectAll.eq_1
  have := @rejectAll.eq_def
  have := @subReinit.eq_1
  have := @subReinit.eq_def
  have := @delsAdvance.eq_1
  have := @delsAdvance.eq_def
  trivial

attribute [irreducible] delsDelete delsRestore delsAdvance delsLoop searchIterateDels
  insCarry insReset searchIterateAtInsertions addsOpen addsInit addsClose addsLoop
  searchIterateAdds transInner transOuter searchIterateTrans subInit subClock subOdometer
  subRestore subCarry subReinit subLoop generate copySeed testAndThrow liftO getBuf setBuf
  halt rejectAll M.bind M.pure Sim Silent Quiet announce

theorem silent_copySeed (seed : Str) : Silent (copySeed seed) := by
  unfold Silent copySeed; intro s; simp

theorem sim_delsLoop (o : Oracle) (dels k : Nat) (delsArr savedArr : List Nat) :
    Sim o (delsLoop o dels k delsArr savedArr) (delsLoop rejectAll dels k delsArr savedArr) := by
  induction k generalizing delsArr savedArr with
  | zero =>
    unfold delsLoop
    repeat' first
      | apply sim_bind | split
      | exact sim_testAndThrow o
      | exact sim_of_silent o (silent_liftO _) | exact sim_of_silent o silent_getBuf
      | exact sim_of_silent o (silent_setBuf _) | exact sim_of_silent o (silent_pure _)
      | exact sim_of_silent o silent_halt_fuel | exact sim_of_silent o silent_halt_fault
      | exact sim_of_silent o (silent_delsDelete _ _ _)
      | exact sim_of_silent o (silent_delsRestore _ _ _ _)
      | exact sim_of_silent o (silent_delsAdvance _ _)
      | exact sim_of_silent o (silent_insCarry _ _)
      | exact sim_of_silent o (silent_insReset _ _ _)
      | exact sim_of_silent o (silent_addsOpen _ _)
      | exact sim_of_silent o (silent_addsInit _ _)
      | exact sim_of_silent o (silent_addsClose _ _)
      | exact sim_of_silent o (silent_subInit _ _ _ _)
      | exact sim_of_silent o (silent_subClock _ _ _)
      | exact sim_of_silent o (silent_subRestore _ _ _ _)
      | exact sim_of_silent o (silent_subCarry _ _)
      | exact sim_of_silent o (silent_subReinit _ _ _ _)
      | exact sim_of_silent o (silent_copySeed _)
      | assumption
      | intro _
  | succ k ih =>
    unfold delsLoop
    repeat' first
      | apply sim_bind | split
      | exact sim_testAndThrow o
      | exact sim_of_silent o (silent_liftO _) | exact sim_of_silent o silent_getBuf
      | exact sim_of_silent o (silent_setBuf _) | exact sim_of_silent o (silent_pure _)
      | exact sim_of_silent o silent_halt_fuel | exact sim_of_silent o silent_halt_fault
      | exact sim_of_silent o (silent_delsDelete _ _ _)
      | exact sim_of_silent o (silent_delsRestore _ _ _ _)
      | exact sim_of_silent o (silent_delsAdvance _ _)
      | exact sim_of_silent o (silent_insCarry _ _)
      | exact sim_of_silent o (silent_insReset _ _ _)
      | exact sim_of_silent o (silent_addsOpen _ _)
      | exact sim_of_silent o (silent_addsInit _ _)
      | exact sim_of_silent o (silent_addsClose _ _)
      | exact sim_of_silent o (silent_subInit _ _ _ _)
      | exact sim_of_silent o (silent_subClock _ _ _)
      | exact sim_of_silent o (silent_subRestore _ _ _ _)
      | exact sim_of_silent o (silent_subCarry _ _)
      | exact sim_of_silent o (silent_subReinit _ _ _ _)
      | exact sim_of_silent o (silent_copySeed _)
      | assumption | exact ih _ | exact ih _ _ | exact ih _ _ _
      | intro _

theorem sim_searchIterateDels (o : Oracle) (fuel dels : Nat) :
    Sim o (searchIterateDels o fuel dels) (searchIterateDels rejectAll fuel dels) := by
  unfold searchIterateDels
  repeat' first
    | apply sim_bind | split
    | exact sim_testAndThrow o
    | exact sim_of_silent o (silent_liftO _) | exact sim_of_silent o silent_getBuf
    | exact sim_of_silent o (silent_setBuf _) | exact sim_of_silent o (silent_pure _)
    | exact sim_of_silent o silent_halt_fuel | exact sim_of_silent o silent_halt_fault
    | exact sim_of_silent o (silent_delsDelete _ _ _)
    | exact sim_of_silent o (silent_delsRestore _ _ _ _)
    | exact sim_of_silent o (silent_delsAdvance _ _)
    | exact sim_of_silent o (silent_insCarry _ _)
    | exact sim_of_silent o (silent_insReset _ _ _)
    | exact sim_of_silent o (silent_addsOpen _ _)
    | exact sim_of_silent o (silent_addsInit _ _)
    | exact sim_of_silent o (silent_addsClose _ _)
    | exact sim_of_silent o (silent_subInit _ _ _ _)
    | exact sim_of_silent o (silent_subClock _ _ _)
    | exact sim_of_silent o (silent_subRestore _ _ _ _)
    | exact sim_of_silent o (silent_subCarry _ _)
    | exact sim_of_silent o (silent_subReinit _ _ _ _)
    | exact sim_of_silent o (silent_copySeed _)
    | assumption
    | exact sim_delsLoop o _ _ _ _
    | intro _

theorem sim_searchIterateAtInsertions (o : Oracle) (fuelD adds dels : Nat) (pts : List Int) (k : Nat) :
    Sim o (searchIterateAtInsertions o fuelD adds dels pts k) (searchIterateAtInsertions rejectAll fuelD adds dels pts k) := by
  induction k with
  | zero =>
    unfold searchIterateAtInsertions
    repeat' first
      | apply sim_bind | split
      | exact sim_testAndThrow o
      | exact sim_of_silent o (silent_liftO _) | exact sim_of_silent o silent_getBuf
      | exact sim_of_silent o (silent_setBuf _) | exact sim_of_silent o (silent_pure _)
      | exact sim_of_silent o silent_halt_fuel | exact sim_of_silent o silent_halt_fault
      | exact sim_of_silent o (silent_delsDelete _ _ _)
      | exact sim_of_silent o (silent_delsRestore _ _ _ _)
      | exact sim_of_silent o (silent_delsAdvance _ _)
      | exact sim_of_silent o (silent_insCarry _ _)
      | exact sim_of_silent o (silent_insReset _ _ _)
      | exact sim_of_silent o (silent_addsOpen _ _)
      | exact sim_of_silent o (silent_addsInit _ _)
      | exact sim_of_silent o (silent_addsClose _ _)
      | exact sim_of_silent o (silent_subInit _ _ _ _)
      | exact sim_of_silent o (silent_subClock _ _ _)
      | exact sim_of_silent o (silent_subRestore _ _ _ _)
      | exact sim_of_silent o (silent_subCarry _ _)
      | exact sim_of_silent o (silent_subReinit _ _ _ _)
      | exact sim_of_silent o (silent_copySeed _)
      | assumption
      | exact sim_searchIterateDels o _ _
      | intro _
  | succ k ih =>
    unfold searchIterateAtInsertions
    repeat' first
      | apply sim_bind | split
      | exact sim_testAndThrow o
      | exact sim_of_silent o (silent_liftO _) | exact sim_of_silent o silent_getBuf
      | exact sim_of_silent o (silent_setBuf _) | exact sim_of_silent o (silent_pure _)
      | exact sim_of_silent o silent_halt_fuel | exact sim_of_silent o silent_halt_fault
      | exact sim_of_silent o (silent_delsDelete _ _ _)
      | exact sim_of_silent o (silent_delsRestore _ _ _ _)
      | exact sim_of_silent o (silent_delsAdvance _ _)
      | exact sim_of_silent o (silent_insCarry _ _)
      | exact sim_of_silent o (silent_insReset _ _ _)
      | exact sim_of_silent o (silent_addsOpen _ _)
      | exact sim_of_silent o (silent_addsInit _ _)
      | exact sim_of_silent o (silent_addsClose _ _)
      | exact sim_of_silent o (silent_subInit _ _ _ _)
      | exact sim_of_silent o (silent_subClock _ _ _)
      | exact sim_of_silent o (silent_subRestore _ _ _ _)
      | exact sim_of_silent o (silent_subCarry _ _)
      | exact sim_of_silent o (silent_subReinit _ _ _ _)
      | exact sim_of_silent o (silent_copySeed _)
      | assumption | exact ih _ | exact ih _ _ | exact ih _ _ _
      | exact sim_searchIterateDels o _ _
      | intro _

theorem sim_addsLoop (o : Oracle) (fuelD fuelI adds dels len k : Nat) (addsArr : List Int) :
    Sim o (addsLoop o fuelD fuelI adds dels len k addsArr) (addsLoop rejectAll fuelD fuelI adds dels len k addsArr) := by
  induction k generalizing addsArr with
  | zero =>
    unfold addsLoop
    repeat' first
      | apply sim_bind | split
      | exact sim_testAndThrow o
      | exact sim_of_silent o (silent_liftO _) | exact sim_of_silent o silent_getBuf
      | exact sim_of_silent o (silent_setBuf _) | exact sim_of_silent o (silent_pure _)
      | exact sim_of_silent o silent_halt_fuel | exact sim_of_silent o silent_halt_fault
      | exact sim_of_silent o (silent_delsDelete _ _ _)
      | exact sim_of_silent o (silent_delsRestore _ _ _ _)
      | exact sim_of_silent o (silent_delsAdvance _ _)
      | exact sim_of_silent o (silent_insCarry _ _)
      | exact sim_of_silent o (silent_insReset _ _ _)
      | exact sim_of_silent o (silent_addsOpen _ _)
      | exact sim_of_silent o (silent_addsInit _ _)
      | exact sim_of_silent o (silent_addsClose _ _)
      | exact sim_of_silent o (silent_subInit _ _ _ _)
      | exact sim_of_silent o (silent_subClock _ _ _)
      | exact sim_of_silent o (silent_subRestore _ _ _ _)
      | exact sim_of_silent o (silent_subCarry _ _)
      | exact sim_of_silent o (silent_subReinit _ _ _ _)
      | exact sim_of_silent o (silent_copySeed _)
      | assumption
      | exact sim_searchIterateAtInsertions o _ _ _ _ _
      | intro _
  | succ k ih =>
    unfold addsLoop
    repeat' first
      | apply sim_bind | split
      | exact sim_testAndThrow o
      | exact sim_of_silent o (silent_liftO _) | exact sim_of_silent o silent_getBuf
      | exact sim_of_silent o (silent_setBuf _) | exact sim_of_silent o (silent_pure _)
      | exact sim_of_silent o silent_halt_fuel | exact sim_of_silent o silent_halt_fault
      | exact sim_of_silent o (silent_delsDelete _ _ _)
      | exact sim_of_silent o (silent_delsRestore _ _ _ _)
      | exact sim_of_silent o (silent_delsAdvance _ _)
      | exact sim_of_silent o (silent_insCarry _ _)
      | exact sim_of_silent o (silent_insReset _ _ _)
      | exact sim_of_silent o (silent_addsOpen _ _)
      | exact sim_of_silent o (silent_addsInit _ _)
      | exact sim_of_silent o (silent_addsClose _ _)
      | exact sim_of_silent o (silent_subInit _ _ _ _)
      | exact sim_of_silent o (silent_subClock _ _ _)
      | exact sim_of_silent o (silent_subRestore _ _ _ _)
      | exact sim_of_silent o (silent_subCarry _ _)
      | exact sim_of_silent o (silent_subReinit _ _ _ _)
      | exact sim_of_silent o (silent_copySeed _)
      | assumption | exact ih _ | exact ih _ _ | exact ih _ _ _
      | exact sim_searchIterateAtInsertions o _ _ _ _ _
      | intro _

theorem sim_searchIterateAdds (o : Oracle) (fuel adds dels : Nat) :
    Sim o (searchIterateAdds o fuel adds dels) (searchIterateAdds rejectAll fuel adds dels) := by
  unfold searchIterateAdds
  repeat' first
    | apply sim_bind | split
    | exact sim_testAndThrow o
    | exact sim_of_silent o (silent_liftO _) | exact sim_of_silent o silent_getBuf
    | exact sim_of_silent o (silent_setBuf _) | exact sim_of_silent o (silent_pure _)
    | exact sim_of_silent o silent_halt_fuel | exact sim_of_silent o silent_halt_fault
    | exact sim_of_silent o (silent_delsDelete _ _ _)
    | exact sim_of_silent o (silent_delsRestore _ _ _ _)
    | exact sim_of_silent o (silent_delsAdvance _ _)
    | exact sim_of_silent o (silent_insCarry _ _)
    | exact sim_of_silent o (silent_insReset _ _ _)
    | exact sim_of_silent o (silent_addsOpen _ _)
    | exact sim_of_silent o (silent_addsInit _ _)
    | exact sim_of_silent o (silent_addsClose _ _)
    | exact sim_of_silent o (silent_subInit _ _ _ _)
    | exact sim_of_silent o (silent_subClock _ _ _)
    | exact sim_of_silent o (silent_subRestore _ _ _ _)
    | exact sim_of_silent o (silent_subCarry _ _)
    | exact sim_of_silent o (silent_subReinit _ _ _ _)
    | exact sim_of_silent o (silent_copySeed _)
    | assumption
    | exact sim_searchIterateDels o _ _
    | exact sim_addsLoop o _ _ _ _ _ _ _
    | intro _

theorem sim_transInner (o : Oracle) (fuelA adds dels transNum k transPos : Nat) (transArr : List (Option Nat)) :
    Sim o (transInner o fuelA adds dels transNum k transPos transArr) (transInner rejectAll fuelA adds dels transNum k transPos transArr) := by
  induction k generalizing transPos transArr with
  | zero =>
    unfold transInner
    repeat' first
      | apply sim_bind | split
      | exact sim_testAndThrow o
      | exact sim_of_silent o (silent_liftO _) | exact sim_of_silent o silent_getBuf
      | exact sim_of_silent o (silent_setBuf _) | exact sim_of_silent o (silent_pure _)
      | exact sim_of_silent o silent_halt_fuel | exact sim_of_silent o silent_halt_fault
      | exact sim_of_silent o (silent_delsDelete _ _ _)
      | exact sim_of_silent o (silent_delsRestore _ _ _ _)
      | exact sim_of_silent o (silent_delsAdvance _ _)
      | exact sim_of_silent o (silent_insCarry _ _)
      | exact sim_of_silent o (silent_insReset _ _ _)
      | exact sim_of_silent o (silent_addsOpen _ _)
      | exact sim_of_silent o (silent_addsInit _ _)
      | exact sim_of_silent o (silent_addsClose _ _)
      | exact sim_of_silent o (silent_subInit _ _ _ _)
      | exact sim_of_silent o (silent_subClock _ _ _)
      | exact sim_of_silent o (silent_subRestore _ _ _ _)
      | exact sim_of_silent o (silent_subCarry _ _)
      | exact sim_of_silent o (silent_subReinit _ _ _ _)
      | exact sim_of_silent o (silent_copySeed _)
      | assumption
      | exact sim_searchIterateAdds o _ _ _
      | intro _
  | succ k ih =>
    unfold transInner
    repeat' first
      | apply sim_bind | split
      | exact sim_testAndThrow o
      | exact sim_of_silent o (silent_liftO _) | exact sim_of_silent o silent_getBuf
      | exact sim_of_silent o (silent_setBuf _) | exact sim_of_silent o (silent_pure _)
      | exact sim_of_silent o silent_halt_fuel | exact sim_of_silent o silent_halt_fault
      | exact sim_of_silent o (silent_delsDelete _ _ _)
      | exact sim_of_silent o (silent_delsRestore _ _ _ _)
      | exact sim_of_silent o (silent_delsAdvance _ _)
      | exact sim_of_silent o (silent_insCarry _ _)
      | exact sim_of_silent o (silent_insReset _ _ _)
      | exact sim_of_silent o (silent_addsOpen _ _)
      | exact sim_of_silent o (silent_addsInit _ _)
      | exact sim_of_silent o (silent_addsClose _ _)
      | exact sim_of_silent o (silent_subInit _ _ _ _)
      | exact sim_of_silent o (silent_subClock _ _ _)
      | exact sim_of_silent o (silent_subRestore _ _ _ _)
      | exact sim_of_silent o (silent_subCarry _ _)
      | exact sim_of_silent o (silent_subReinit _ _ _ _)
      | exact sim_of_silent o (silent_copySeed _)
      | assumption | exact ih _ | exact ih _ _ | exact ih _ _ _
      | exact sim_searchIterateAdds o _ _ _
      | intro _

theorem sim_transOuter (o : Oracle) (fuel adds dels k transNum : Nat) (transArr : List (Option Nat)) :
    Sim o (transOuter o fuel adds dels k transNum transArr) (transOuter rejectAll fuel adds dels k transNum transArr) := by
  induction k generalizing transNum transArr with
  | zero =>
    unfold transOuter
    repeat' first
      | apply sim_bind | split
      | exact sim_testAndThrow o
      | exact sim_of_silent o (silent_liftO _) | exact sim_of_silent o silent_getBuf
      | exact sim_of_silent o (silent_setBuf _) | exact sim_of_silent o (silent_pure _)
      | exact sim_of_silent o silent_halt_fuel | exact sim_of_silent o silent_halt_fault
      | exact sim_of_silent o (silent_delsDelete _ _ _)
      | exact sim_of_silent o (silent_delsRestore _ _ _ _)
      | exact sim_of_silent o (silent_delsAdvance _ _)
      | exact sim_of_silent o (silent_insCarry _ _)
      | exact sim_of_silent o (silent_insReset _ _ _)
      | exact sim_of_silent o (silent_addsOpen _ _)
      | exact sim_of_silent o (silent_addsInit _ _)
      | exact sim_of_silent o (silent_addsClose _ _)
      | exact sim_of_silent o (silent_subInit _ _ _ _)
      | exact sim_of_silent o (silent_subClock _ _ _)
      | exact sim_of_silent o (silent_subRestore _ _ _ _)
      | exact sim_of_silent o (silent_subCarry _ _)
      | exact sim_of_silent o (silent_subReinit _ _ _ _)
      | exact sim_of_silent o (silent_copySeed _)
      | assumption
      | exact sim_transInner o _ _ _ _ _ _ _
      | intro _
  | succ k ih =>
    unfold transOuter
    repeat' first
      | apply sim_bind | split
      | exact sim_testAndThrow o
      | exact sim_of_silent o (silent_liftO _) | exact sim_of_silent o silent_getBuf
      | exact sim_of_silent o (silent_setBuf _) | exact sim_of_silent o (silent_pure _)
      | exact sim_of_silent o silent_halt_fuel | exact sim_of_silent o silent_halt_fault
      | exact sim_of_silent o (silent_delsDelete _ _ _)
      | exact sim_of_silent o (silent_delsRestore _ _ _ _)
      | exact sim_of_silent o (silent_delsAdvance _ _)
      | exact sim_of_silent o (silent_insCarry _ _)
      | exact sim_of_silent o (silent_insReset _ _ _)
      | exact sim_of_silent o (silent_addsOpen _ _)
      | exact sim_of_silent o (silent_addsInit _ _)
      | exact sim_of_silent o (silent_addsClose _ _)
      | exact sim_of_silent o (silent_subInit _ _ _ _)
      | exact sim_of_silent o (silent_subClock _ _ _)
      | exact sim_of_silent o (silent_subRestore _ _ _ _)
      | exact sim_of_silent o (silent_subCarry _ _)
      | exact sim_of_silent o (silent_subReinit _ _ _ _)
      | exact sim_of_silent o (silent_copySeed _)
      | assumption | exact ih _ | exact ih _ _ | exact ih _ _ _
      | exact sim_transInner o _ _ _ _ _ _ _
      | intro _

theorem sim_searchIterateTrans (o : Oracle) (fuel tr adds dels : Nat) :
    Sim o (searchIterateTrans o fuel tr adds dels) (searchIterateTrans rejectAll fuel tr adds dels) := by
  unfold searchIterateTrans
  repeat' first
    | apply sim_bind | split
    | exact sim_testAndThrow o
    | exact sim_of_silent o (silent_liftO _) | exact sim_of_silent o silent_getBuf
    | exact sim_of_silent o (silent_setBuf _) | exact sim_of_silent o (silent_pure _)
    | exact sim_of_silent o silent_halt_fuel | exact sim_of_silent o silent_halt_fault
    | exact sim_of_silent o (silent_delsDelete _ _ _)
    | exact sim_of_silent o (silent_delsRestore _ _ _ _)
    | exact sim_of_silent o (silent_delsAdvance _ _)
    | exact sim_of_silent o (silent_insCarry _ _)
    | exact sim_of_silent o (silent_insReset _ _ _)
    | exact sim_of_silent o (silent_addsOpen _ _)
    | exact sim_of_silent o (silent_addsInit _ _)
    | exact sim_of_silent o (silent_addsClose _ _)
    | exact sim_of_silent o (silent_subInit _ _ _ _)
    | exact sim_of_silent o (silent_subClock _ _ _)
    | exact sim_of_silent o (silent_subRestore _ _ _ _)
    | exact sim_of_silent o (silent_subCarry _ _)
    | exact sim_of_silent o (silent_subReinit _ _ _ _)
    | exact sim_of_silent o (silent_copySeed _)
    | assumption
    | exact sim_searchIterateAdds o _ _ _
    | exact sim_transOuter o _ _ _ _ _ _
    | intro _

theorem sim_subOdometer (o : Oracle) (fuelT edits tr adds dels : Nat) (editsArr : List Nat) (k : Nat) :
    Sim o (subOdometer o fuelT edits tr adds dels editsArr k) (subOdometer rejectAll fuelT edits tr adds dels editsArr k) := by
  induction k with
  | zero =>
    unfold subOdometer
    repeat' first
      | apply sim_bind | split
      | exact sim_testAndThrow o
      | exact sim_of_silent o (silent_liftO _) | exact sim_of_silent o silent_getBuf
      | exact sim_of_silent o (silent_setBuf _) | exact sim_of_silent o (silent_pure _)
      | exact sim_of_silent o silent_halt_fuel | exact sim_of_silent o silent_halt_fault
      | exact sim_of_silent o (silent_delsDelete _ _ _)
      | exact sim_of_silent o (silent_delsRestore _ _ _ _)
      | exact sim_of_silent o (silent_delsAdvance _ _)
      | exact sim_of_silent o (silent_insCarry _ _)
      | exact sim_of_silent o (silent_insReset _ _ _)
      | exact sim_of_silent o (silent_addsOpen _ _)
      | exact sim_of_silent o (silent_addsInit _ _)
      | exact sim_of_silent o (silent_addsClose _ _)
      | exact sim_of_silent o (silent_subInit _ _ _ _)
      | exact sim_of_silent o (silent_subClock _ _ _)
      | exact sim_of_silent o (silent_subRestore _ _ _ _)
      | exact sim_of_silent o (silent_subCarry _ _)
      | exact sim_of_silent o (silent_subReinit _ _ _ _)
      | exact sim_of_silent o (silent_copySeed _)
      | assumption
      | exact sim_searchIterateTrans o _ _ _ _
      | intro _
  | succ k ih =>
    unfold subOdometer
    repeat' first
      | apply sim_bind | split
      | exact sim_testAndThrow o
      | exact sim_of_silent o (silent_liftO _) | exact sim_of_silent o silent_getBuf
      | exact sim_of_silent o (silent_setBuf _) | exact sim_of_silent o (silent_pure _)
      | exact sim_of_silent o silent_halt_fuel | exact sim_of_silent o silent_halt_fault
      | exact sim_of_silent o (silent_delsDelete _ _ _)
      | exact sim_of_silent o (silent_delsRestore _ _ _ _)
      | exact sim_of_silent o (silent_delsAdvance _ _)
      | exact sim_of_silent o (silent_insCarry _ _)
      | exact sim_of_silent o (silent_insReset _ _ _)
      | exact sim_of_silent o (silent_addsOpen _ _)
      | exact sim_of_silent o (silent_addsInit _ _)
      | exact sim_of_silent o (silent_addsClose _ _)
      | exact sim_of_silent o (silent_subInit _ _ _ _)
      | exact sim_of_silent o (silent_subClock _ _ _)
      | exact sim_of_silent o (silent_subRestore _ _ _ _)
      | exact sim_of_silent o (silent_subCarry _ _)
      | exact sim_of_silent o (silent_subReinit _ _ _ _)
      | exact sim_of_silent o (silent_copySeed _)
      | assumption | exact ih _ | exact ih _ _ | exact ih _ _ _
      | exact sim_searchIterateTrans o _ _ _ _
      | intro _

theorem sim_subLoop (o : Oracle) (fuelT edits tr adds dels k : Nat) (editsArr savedArr : List Nat) :
    Sim o (subLoop o fuelT edits tr adds dels k editsArr savedArr) (subLoop rejectAll fuelT edits tr adds dels k editsArr savedArr) := by
  induction k generalizing editsArr savedArr with
  | zero =>
    unfold subLoop
    repeat' first
      | apply sim_bind | split
      | exact sim_testAndThrow o
      | exact sim_of_silent o (silent_liftO _) | exact sim_of_silent o silent_getBuf
      | exact sim_of_silent o (silent_setBuf _) | exact sim_of_silent o (silent_pure _)
      | exact sim_of_silent o silent_halt_fuel | exact sim_of_silent o silent_halt_fault
      | exact sim_of_silent o (silent_delsDelete _ _ _)
      | exact sim_of_silent o (silent_delsRestore _ _ _ _)
      | exact sim_of_silent o (silent_delsAdvance _ _)
      | exact sim_of_silent o (silent_insCarry _ _)
      | exact sim_of_silent o (silent_insReset _ _ _)
      | exact sim_of_silent o (silent_addsOpen _ _)
      | exact sim_of_silent o (silent_addsInit _ _)
      | exact sim_of_silent o (silent_addsClose _ _)
      | exact sim_of_silent o (silent_subInit _ _ _ _)
      | exact sim_of_silent o (silent_subClock _ _ _)
      | exact sim_of_silent o (silent_subRestore _ _ _ _)
      | exact sim_of_silent o (silent_subCarry _ _)
      | exact sim_of_silent o (silent_subReinit _ _ _ _)
      | exact sim_of_silent o (silent_copySeed _)
      | assumption
      | exact sim_subOdometer o _ _ _ _ _ _ _
      | intro _
  | succ k ih =>
    unfold subLoop
    repeat' first
      | apply sim_bind | split
      | exact sim_testAndThrow o
      | exact sim_of_silent o (silent_liftO _) | exact sim_of_silent o silent_getBuf
      | exact sim_of_silent o (silent_setBuf _) | exact sim_of_silent o (silent_pure _)
      | exact sim_of_silent o silent_halt_fuel | exact sim_of_silent o silent_halt_fault
      | exact sim_of_silent o (silent_delsDelete _ _ _)
      | exact sim_of_silent o (silent_delsRestore _ _ _ _)
      | exact sim_of_silent o (silent_delsAdvance _ _)
      | exact sim_of_silent o (silent_insCarry _ _)
      | exact sim_of_silent o (silent_insReset _ _ _)
      | exact sim_of_silent o (silent_addsOpen _ _)
      | exact sim_of_silent o (silent_addsInit _ _)
      | exact sim_of_silent o (silent_addsClose _ _)
      | exact sim_of_silent o (silent_subInit _ _ _ _)
      | exact sim_of_silent o (silent_subClock _ _ _)
      | exact sim_of_silent o (silent_subRestore _ _ _ _)
      | exact sim_of_silent o (silent_subCarry _ _)
      | exact sim_of_silent o (silent_subReinit _ _ _ _)
      | exact sim_of_silent o (silent_copySeed _)
      | assumption | exact ih _ | exact ih _ _ | exact ih _ _ _
      | exact sim_subOdometer o _ _ _ _ _ _ _
      | intro _

theorem sim_generate (o : Oracle) (fuel : Nat) (seed : Str) (edits tr adds dels : Nat) :
    Sim o (generate o fuel seed edits tr adds dels) (generate rejectAll fuel seed edits tr adds dels) := by
  unfold generate
  repeat' first
    | apply sim_bind | split
    | exact sim_testAndThrow o
    | exact sim_of_silent o (silent_liftO _) | exact sim_of_silent o silent_getBuf
    | exact sim_of_silent o (silent_setBuf _) | exact sim_of_silent o (silent_pure _)
    | exact sim_of_silent o silent_halt_fuel | exact sim_of_silent o silent_halt_fault
    | exact sim_of_silent o (silent_delsDelete _ _ _)
    | exact sim_of_silent o (silent_delsRestore _ _ _ _)
    | exact sim_of_silent o (silent_delsAdvance _ _)
    | exact sim_of_silent o (silent_insCarry _ _)
    | exact sim_of_silent o (silent_insReset _ _ _)
    | exact sim_of_silent o (silent_addsOpen _ _)
    | exact sim_of_silent o (silent_addsInit _ _)
    | exact sim_of_silent o (silent_addsClose _ _)
    | exact sim_of_silent o (silent_subInit _ _ _ _)
    | exact sim_of_silent o (silent_subClock _ _ _)
    | exact sim_of_silent o (silent_subRestore _ _ _ _)
    | exact sim_of_silent o (silent_subCarry _ _)
    | exact sim_of_silent o (silent_subReinit _ _ _ _)
    | exact sim_of_silent o (silent_copySeed _)
    | assumption
    | exact sim_searchIterateTrans o _ _ _ _
    | exact sim_subLoop o _ _ _ _ _ _ _ _
    | intro _

theorem sim_loopAdds (o : Oracle) (gen gen0 : Gen)
    (hg : ∀ e t a d, Sim o (gen e t a d) (gen0 e t a d))
    (editDistance edits tr k adds : Nat) :
    Sim o (loopAdds gen editDistance edits tr k adds)
      (loopAdds gen0 editDistance edits tr k adds) := by
  induction k generalizing adds with
  | zero =>
    unfold loopAdds
    exact sim_of_silent o silent_halt_fuel
  | succ k ih =>
    unfold loopAdds
    repeat' first
      | apply sim_bind | split
      | exact sim_announce o _ _ _ _ | exact hg _ _ _ _ | exact ih _
      | exact sim_of_silent o (silent_pure _) | intro _

theorem sim_loopTrans (o : Oracle) (gen gen0 : Gen)
    (hg : ∀ e t a d, Sim o (gen e t a d) (gen0 e t a d))
    (editDistance edits k tr : Nat) :
    Sim o (loopTrans gen editDistance edits k tr)
      (loopTrans gen0 editDistance edits k tr) := by
  induction k generalizing tr with
  | zero =>
    unfold loopTrans
    exact sim_of_silent o silent_halt_fuel
  | succ k ih =>
    unfold loopTrans
    repeat' first
      | apply sim_bind | split
      | exact sim_loopAdds o gen gen0 hg _ _ _ _ _ | exact ih _
      | exact sim_of_silent o (silent_pure _) | intro _

theorem sim_loopEdits (o : Oracle) (gen gen0 : Gen)
    (hg : ∀ e t a d, Sim o (gen e t a d) (gen0 e t a d))
    (editDistance k edits : Nat) :
    Sim o (loopEdits gen editDistance k edits) (loopEdits gen0 editDistance k edits) := by
  induction k generalizing edits with
  | zero =>
    unfold loopEdits
    exact sim_of_silent o silent_halt_fuel
  | succ k ih =>
    unfold loopEdits
    repeat' first
      | apply sim_bind | split
      | exact sim_loopTrans o gen gen0 hg _ _ _ _ | exact ih _
      | exact sim_of_silent o (silent_pure _) | intro _

theorem sim_testSeed (o : Oracle) (seed : Str) (distance : Int) (editDistance : Nat) :
    Sim o (testSeed o seed distance editDistance)
      (testSeed rejectAll seed distance editDistance) := by
  unfold testSeed
  repeat' first
    | apply sim_bind | split
    | exact sim_testAndThrow o | exact sim_of_silent o (silent_copySeed _)
    | exact sim_of_silent o (silent_pure _) | intro _

/-- One call of `search` under `o` against the same call under the rejecting
oracle: the log of the rejecting call only grows and the call never returns
a password; the call under `o` either behaves identically or returns the
first accepted candidate with the log cut there. -/
theorem sim_search (o : Oracle) (gen gen0 : Gen)
    (hg : ∀ e t a d, Sim o (gen e t a d) (gen0 e t a d))
    (seed : Str) (distance : Int) (depth editDistance : Nat) (log : List Ev) :
    ∃ evs, (search rejectAll gen0 seed distance depth editDistance log).2 = evs ++ log ∧
      (∀ c, (search rejectAll gen0 seed distance depth editDistance log).1 ≠ Outcome.found c) ∧
      ((Quiet o evs ∧ search o gen seed distance depth editDistance log
          = search rejectAll gen0 seed distance depth editDistance log) ∨
       (∃ c post pre, evs = post ++ Ev.test c :: pre ∧ Quiet o pre ∧ o c = true ∧
          (search o gen seed distance depth editDistance log).1 = Outcome.found c ∧
          (search o gen seed distance depth editDistance log).2 = Ev.test c :: pre ++ log)) := by
  induction depth generalizing editDistance log with
  | zero =>
    refine ⟨[], by simp [search], by simp [search], Or.inl ⟨?_, by simp [search]⟩⟩
    unfold Quiet; intro c h; cases h
  | succ depth ih =>
    by_cases hlen : seed.length > MAX_PWD_LEN / 2
    · refine ⟨[], by simp [search, hlen], by simp [search, hlen], Or.inl ⟨?_, by simp [search, hlen]⟩⟩
      unfold Quiet; intro c h; cases h
    · have hs := sim_bind o (sim_testSeed o seed distance editDistance)
        (fun _ => sim_loopEdits o gen gen0 hg editDistance (editDistance + 2) 0)
      unfold Sim at hs
      obtain ⟨e1, hlog1, hnf1, h1⟩ := hs { buf := freshBuf, log := log }
      simp only at hlog1
      rcases hy : ((testSeed rejectAll seed distance editDistance).bind fun _ =>
          loopEdits gen0 editDistance (editDistance + 2) 0) { buf := freshBuf, log := log }
        with ⟨ry, sy⟩
      rw [hy] at hlog1 hnf1 h1
      simp only at hlog1 hnf1
      cases ry with
      | error e =>
        have hR : search rejectAll gen0 seed distance (depth + 1) editDistance log
            = (Outcome.ofStop e, sy.log) := by
          simp only [search, hlen, if_false, hy]
        rw [hR]
        refine ⟨e1, hlog1, ?_, ?_⟩
        · intro c h
          cases e with
          | found pwd => exact hnf1 pwd rfl
          | fault => simp [Outcome.ofStop] at h
          | fuel => simp [Outcome.ofStop] at h
          | abort => simp [Outcome.ofStop] at h
        · rcases h1 with ⟨hq, hxy⟩ | ⟨c, post, pre, he, hq, hoc, hxr, hxl⟩
          · left
            refine ⟨hq, ?_⟩
            simp only [search, hlen, if_false, hxy]
          · right
            refine ⟨c, post, pre, he, hq, hoc, ?_, ?_⟩
            · rcases hx : ((testSeed o seed distance editDistance).bind fun _ =>
                  loopEdits gen editDistance (editDistance + 2) 0) { buf := freshBuf, log := log }
                with ⟨rx, sx⟩
              rw [hx] at hxr
              simp only at hxr
              simp only [search, hlen, if_false, hx, hxr, Outcome.ofStop]
            · rcases hx : ((testSeed o seed distance editDistance).bind fun _ =>
                  loopEdits gen editDistance (editDistance + 2) 0) { buf := freshBuf, log := log }
                with ⟨rx, sx⟩
              rw [hx] at hxr hxl
              simp only at hxr hxl
              simp only [search, hlen, if_false, hx, hxr, Outcome.ofStop]
              exact hxl
      | ok a =>
        rcases h1 with ⟨hq, hxy⟩ | ⟨c, post, pre, he, hq, hoc, hxr, hxl⟩
        · by_cases hcont : editDistance < seed.length ∧ distance < 0
          · have hR : search rejectAll gen0 seed distance (depth + 1) editDistance log
                = search rejectAll gen0 seed distance depth (editDistance + 1) sy.log := by
              simp only [search, hlen, if_false, hy, hcont, and_self, if_true]
            have hO : search o gen seed distance (depth + 1) editDistance log
                = search o gen seed distance depth (editDistance + 1) sy.log := by
              simp only [search, hlen, if_false, hxy, hcont, and_self, if_true]
            rw [hR, hO]
            obtain ⟨e2, hlog2, hnf2, h2⟩ := ih (editDistance + 1) sy.log
            refine ⟨e2 ++ e1, by rw [hlog2, hlog1, List.append_assoc], hnf2, ?_⟩
            rcases h2 with ⟨hq2, hfg⟩ | ⟨c, post, pre, he, hq2, hoc, hxr, hxl⟩
            · exact Or.inl ⟨quiet_append hq2 hq, hfg⟩
            · right
              refine ⟨c, post, pre ++ e1, ?_, quiet_append hq2 hq, hoc, hxr, ?_⟩
              · rw [he]; simp
              · rw [hxl, hlog1]; simp
          · have hR : search rejectAll gen0 seed distance (depth + 1) editDistance log
                = (Outcome.notFound, sy.log) := by
              simp only [search, hlen, if_false, hy, hcont]
            have hO : search o gen seed distance (depth + 1) editDistance log
                = (Outcome.notFound, sy.log) := by
              simp only [search, hlen, if_false, hxy, hcont]
            rw [hR, hO]
            exact ⟨e1, hlog1, by simp, Or.inl ⟨hq, rfl⟩⟩
        · rcases hx : ((testSeed o seed distance editDistance).bind fun _ =>
              loopEdits gen editDistance (editDistance + 2) 0) { buf := freshBuf, log := log }
            with ⟨rx, sx⟩
          rw [hx] at hxr hxl
          simp only at hxr hxl
          have hO : search o gen seed distance (depth + 1) editDistance log
              = (Outcome.found c, sx.log) := by
            simp only [search, hlen, if_false, hx, hxr, Outcome.ofStop]
          rw [hO]
          by_cases hcont : editDistance < seed.length ∧ distance < 0
          · have hR : search rejectAll gen0 seed distance (depth + 1) editDistance log
                = search rejectAll gen0 seed distance depth (editDistance + 1) sy.log := by
              simp only [search, hlen, if_false, hy, hcont, and_self, if_true]
            rw [hR]
            obtain ⟨e2, hlog2, hnf2, _⟩ := ih (editDistance + 1) sy.log
            refine ⟨e2 ++ e1, by rw [hlog2, hlog1, List.append_assoc], hnf2, Or.inr ?_⟩
            exact ⟨c, e2 ++ post, pre, by rw [he]; simp, hq, hoc, rfl, hxl⟩
          · have hR : search rejectAll gen0 seed distance (depth + 1) editDistance log
                = (Outcome.notFound, sy.log) := by
              simp only [search, hlen, if_false, hy, hcont]
            rw [hR]
            exact ⟨e1, hlog1, by simp, Or.inr ⟨c, post, pre, he, hq, hoc, rfl, hxl⟩⟩

/-! ## Reading the log -/

theorem testedOf_append (a b : List Ev) : testedOf (a ++ b) = testedOf a ++ testedOf b := by
  induction a with
  | nil => rfl
  | cons e r ih => cases e <;> simp [testedOf, ih]

theorem compsOf_append (a b : List Ev) : compsOf (a ++ b) = compsOf a ++ compsOf b := by
  induction a with
  | nil => rfl
  | cons e r ih => cases e <;> simp [compsOf, ih]

theorem mem_testedOf (c : Str) (l : List Ev) : c ∈ testedOf l ↔ Ev.test c ∈ l := by
  induction l with
  | nil => simp [testedOf]
  | cons e r ih => cases e <;> simp [testedOf, ih]

theorem testedOf_reverse (l : List Ev) : testedOf l.reverse = (testedOf l).reverse := by
  induction l with
  | nil => rfl
  | cons e r ih => cases e <;> simp [testedOf, testedOf_append, ih]

theorem compsOf_reverse (l : List Ev) : compsOf l.reverse = (compsOf l).reverse := by
  induction l with
  | nil => rfl
  | cons e r ih => cases e <;> simp [compsOf, compsOf_append, ih]

theorem find_none_of_quiet (o : Oracle) (evs : List Ev) (hq : ∀ c, Ev.test c ∈ evs → o c = false) :
    (testedOf evs).find? o = none := by
  rw [List.find?_eq_none]
  intro c hc
  have := hq c ((mem_testedOf c evs).1 hc)
  simp [this]

/-- The run under `o` against the run under the rejecting oracle, with the
events in the order they happen. -/
theorem runSearch_cut (o : Oracle) (fuel : Nat) (seed : Str) (distance : Int) :
    (∀ c, (runSearch rejectAll fuel seed distance).1 ≠ Outcome.found c) ∧
    (((testedOf (runSearch rejectAll fuel seed distance).2).find? o = none ∧
        runSearch o fuel seed distance = runSearch rejectAll fuel seed distance) ∨
     (∃ c A B, o c = true ∧ (∀ a ∈ A, o a = false) ∧
        testedOf (runSearch rejectAll fuel seed distance).2 = A ++ c :: B ∧
        (runSearch o fuel seed distance).1 = Outcome.found c ∧
        testedOf (runSearch o fuel seed distance).2 = A ++ [c])) := by
  obtain ⟨evs, hlog, hnf, h⟩ := sim_search o (generate o fuel seed) (generate rejectAll fuel seed)
    (fun e t a d => sim_generate o fuel seed e t a d) seed distance (seed.length + 2)
    (if distance < 0 then 0 else distance.toNat) []
  simp only [List.append_nil] at hlog
  refine ⟨hnf, ?_⟩
  rcases h with ⟨hq, heq⟩ | ⟨c, post, pre, he, hq, hoc, hr, hl⟩
  · left
    unfold Quiet at hq
    refine ⟨?_, ?_⟩
    · simp only [runSearch, hlog]
      apply find_none_of_quiet
      intro c hc
      exact hq c (List.mem_reverse.1 hc)
    · simp only [runSearch, heq]
  · right
    unfold Quiet at hq
    refine ⟨c, testedOf pre.reverse, testedOf post.reverse, hoc, ?_, ?_, ?_, ?_⟩
    · intro a ha
      exact hq a (List.mem_reverse.1 ((mem_testedOf a _).1 ha))
    · simp only [runSearch, hlog, he, List.reverse_append, List.reverse_cons,
        testedOf_append, testedOf, List.append_assoc, List.singleton_append,
        List.append_nil]
    · simp only [runSearch, hr]
    · simp only [runSearch, hl, List.append_nil, List.reverse_cons, testedOf_append,
        testedOf]

/-! ## The compositions a computation announces -/

theorem emits_of_silent {α : Type} {x : M α} (hx : Silent x) : Emits x [] := by
  unfold Silent at hx
  intro s
  exact ⟨[], by simp [(hx s).1], List.prefix_refl _, fun _ _ => rfl⟩

theorem emits_testAndThrow (o : Oracle) : Emits (testAndThrow o) [] := by
  intro s
  refine ⟨[], ?_, List.prefix_refl _, fun _ _ => rfl⟩
  unfold Cracker.testAndThrow
  cases hc : cstrAt s.buf 0 with
  | none => simp
  | some c =>
    by_cases ho : o c = true <;> simp [ho, compsOf]

theorem emits_announce (e t a d : Nat) : Emits (announce e t a d) [(e, t, a, d)] := by
  intro s
  refine ⟨[(e, t, a, d)], ?_, List.prefix_refl _, fun _ _ => rfl⟩
  unfold Cracker.announce
  simp [compsOf]

theorem emits_halt {α : Type} (e : Stop) (L : List Comp) : Emits (halt e : M α) L := by
  intro s
  refine ⟨[], ?_, List.nil_prefix, ?_⟩
  · unfold Cracker.halt; simp
  · intro a h
    unfold Cracker.halt at h
    simp at h

theorem emits_bind {α β : Type} {x : M α} {f : α → M β} {L1 L2 : List Comp}
    (hx : Emits x L1) (hf : ∀ a, Emits (f a) L2) : Emits (M.bind x f) (L1 ++ L2) := by
  intro s
  obtain ⟨d1, hlog1, hp1, hok1⟩ := hx s
  rcases hxs : x s with ⟨r, s1⟩
  rw [hxs] at hlog1 hok1
  simp only at hlog1 hok1
  cases r with
  | error e =>
    have hb : M.bind x f s = (Except.error e, s1) := by simp only [M.bind, hxs]
    rw [hb]
    refine ⟨d1, hlog1, ?_, ?_⟩
    · obtain ⟨t, ht⟩ := hp1
      exact ⟨t ++ L2, by rw [← ht]; simp⟩
    · intro a h
      simp at h
  | ok a =>
    have hb : M.bind x f s = f a s1 := by simp only [M.bind, hxs]
    rw [hb]
    obtain ⟨d2, hlog2, hp2, hok2⟩ := hf a s1
    have hd1 : d1 = L1 := hok1 a rfl
    refine ⟨d1 ++ d2, ?_, ?_, ?_⟩
    · rw [hlog2, hlog1]; simp
    · rw [hd1]
      obtain ⟨t, ht⟩ := hp2
      exact ⟨t, by rw [← ht]; simp⟩
    · intro b h
      rw [hd1, hok2 b h]

theorem emits_bind_nil {α β : Type} {x : M α} {f : α → M β}
    (hx : Emits x []) (hf : ∀ a, Emits (f a) []) : Emits (M.bind x f) [] := by
  have := emits_bind hx hf
  simpa using this

theorem emits_run {α : Type} {x : M α} {L : List Comp} (h : Emits x L) (s : St) :
    ∃ done, compsOf (x s).2.log = done.reverse ++ compsOf s.log ∧ done <+: L ∧
      (∀ a, (x s).1 = Except.ok a → done = L) := h s

attribute [irreducible] Emits

theorem emits_delsLoop (o : Oracle) (dels k : Nat) (delsArr savedArr : List Nat) :
    Emits (delsLoop o dels k delsArr savedArr) [] := by
  induction k generalizing delsArr savedArr with
  | zero =>
    unfold delsLoop
    repeat' first
      | apply emits_bind_nil | split
      | exact emits_testAndThrow o
      | exact emits_of_silent (silent_liftO _) | exact emits_of_silent silent_getBuf
      | exact emits_of_silent (silent_setBuf _) | exact emits_of_silent (silent_pure _)
      | exact emits_of_silent silent_halt_fuel | exact emits_of_silent silent_halt_fault
      | exact emits_of_silent (silent_delsDelete _ _ _)
      | exact emits_of_silent (silent_delsRestore _ _ _ _)
      | exact emits_of_silent (silent_delsAdvance _ _)
      | exact emits_of_silent (silent_insCarry _ _)
      | exact emits_of_silent (silent_insReset _ _ _)
      | exact emits_of_silent (silent_addsOpen _ _)
      | exact emits_of_silent (silent_addsInit _ _)
      | exact emits_of_silent (silent_addsClose _ _)
      | exact emits_of_silent (silent_subInit _ _ _ _)
      | exact emits_of_silent (silent_subClock _ _ _)
      | exact emits_of_silent (silent_subRestore _ _ _ _)
      | exact emits_of_silent (silent_subCarry _ _)
      | exact emits_of_silent (silent_subReinit _ _ _ _)
      | exact emits_of_silent (silent_copySeed _)
      | assumption
      | intro _
  | succ k ih =>
    unfold delsLoop
    repeat' first
      | apply emits_bind_nil | split
      | exact emits_testAndThrow o
      | exact emits_of_silent (silent_liftO _) | exact emits_of_silent silent_getBuf
      | exact emits_of_silent (silent_setBuf _) | exact emits_of_silent (silent_pure _)
      | exact emits_of_silent silent_halt_fuel | exact emits_of_silent silent_halt_fault
      | exact emits_of_silent (silent_delsDelete _ _ _)
      | exact emits_of_silent (silent_delsRestore _ _ _ _)
      | exact emits_of_silent (silent_delsAdvance _ _)
      | exact emits_of_silent (silent_insCarry _ _)
      | exact emits_of_silent (silent_insReset _ _ _)
      | exact emits_of_silent (silent_addsOpen _ _)
      | exact emits_of_silent (silent_addsInit _ _)
      | exact emits_of_silent (silent_addsClose _ _)
      | exact emits_of_silent (silent_subInit _ _ _ _)
      | exact emits_of_silent (silent_subClock _ _ _)
      | exact emits_of_silent (silent_subRestore _ _ _ _)
      | exact emits_of_silent (silent_subCarry _ _)
      | exact emits_of_silent (silent_subReinit _ _ _ _)
      | exact emits_of_silent (silent_copySeed _)
      | assumption | exact ih _ | exact ih _ _ | exact ih _ _ _
      | intro _

theorem emits_searchIterateDels (o : Oracle) (fuel dels : Nat) :
    Emits (searchIterateDels o fuel dels) [] := by
  unfold searchIterateDels
  repeat' first
    | apply emits_bind_nil | split
    | exact emits_testAndThrow o
    | exact emits_of_silent (silent_liftO _) | exact emits_of_silent silent_getBuf
    | exact emits_of_silent (silent_setBuf _) | exact emits_of_silent (silent_pure _)
    | exact emits_of_silent silent_halt_fuel | exact emits_of_silent silent_halt_fault
    | exact emits_of_silent (silent_delsDelete _ _ _)
    | exact emits_of_silent (silent_delsRestore _ _ _ _)
    | exact emits_of_silent (silent_delsAdvance _ _)
    | exact emits_of_silent (silent_insCarry _ _)
    | exact emits_of_silent (silent_insReset _ _ _)
    | exact emits_of_silent (silent_addsOpen _ _)
    | exact emits_of_silent (silent_addsInit _ _)
    | exact emits_of_silent (silent_addsClose _ _)
    | exact emits_of_silent (silent_subInit _ _ _ _)
    | exact emits_of_silent (silent_subClock _ _ _)
    | exact emits_of_silent (silent_subRestore _ _ _ _)
    | exact emits_of_silent (silent_subCarry _ _)
    | exact emits_of_silent (silent_subReinit _ _ _ _)
    | exact emits_of_silent (silent_copySeed _)
    | assumption
    | exact emits_delsLoop o _ _ _ _
    | intro _

theorem emits_searchIterateAtInsertions (o : Oracle) (fuelD adds dels : Nat) (pts : List Int) (k : Nat) :
    Emits (searchIterateAtInsertions o fuelD adds dels pts k) [] := by
  induction k with
  | zero =>
    unfold searchIterateAtInsertions
    repeat' first
      | apply emits_bind_nil | split
      | exact emits_testAndThrow o
      | exact emits_of_silent (silent_liftO _) | exact emits_of_silent silent_getBuf
      | exact emits_of_silent (silent_setBuf _) | exact emits_of_silent (silent_pure _)
      | exact emits_of_silent silent_halt_fuel | exact emits_of_silent silent_halt_fault
      | exact emits_of_silent (silent_delsDelete _ _ _)
      | exact emits_of_silent (silent_delsRestore _ _ _ _)
      | exact emits_of_silent (silent_delsAdvance _ _)
      | exact emits_of_silent (silent_insCarry _ _)
      | exact emits_of_silent (silent_insReset _ _ _)
      | exact emits_of_silent (silent_addsOpen _ _)
      | exact emits_of_silent (silent_addsInit _ _)
      | exact emits_of_silent (silent_addsClose _ _)
      | exact emits_of_silent (silent_subInit _ _ _ _)
      | exact emits_of_silent (silent_subClock _ _ _)
      | exact emits_of_silent (silent_subRestore _ _ _ _)
      | exact emits_of_silent (silent_subCarry _ _)
      | exact emits_of_silent (silent_subReinit _ _ _ _)
      | exact emits_of_silent (silent_copySeed _)
      | assumption
      | exact emits_searchIterateDels o _ _
      | intro _
  | succ k ih =>
    unfold searchIterateAtInsertions
    repeat' first
      | apply emits_bind_nil | split
      | exact emits_testAndThrow o
      | exact emits_of_silent (silent_liftO _) | exact emits_of_silent silent_getBuf
      | exact emits_of_silent (silent_setBuf _) | exact emits_of_silent (silent_pure _)
      | exact emits_of_silent silent_halt_fuel | exact emits_of_silent silent_halt_fault
      | exact emits_of_silent (silent_delsDelete _ _ _)
      | exact emits_of_silent (silent_delsRestore _ _ _ _)
      | exact emits_of_silent (silent_delsAdvance _ _)
      | exact emits_of_silent (silent_insCarry _ _)
      | exact emits_of_silent (silent_insReset _ _ _)
      | exact emits_of_silent (silent_addsOpen _ _)
      | exact emits_of_silent (silent_addsInit _ _)
      | exact emits_of_silent (silent_addsClose _ _)
      | exact emits_of_silent (silent_subInit _ _ _ _)
      | exact emits_of_silent (silent_subClock _ _ _)
      | exact emits_of_silent (silent_subRestore _ _ _ _)
      | exact emits_of_silent (silent_subCarry _ _)
      | exact emits_of_silent (silent_subReinit _ _ _ _)
      | exact emits_of_silent (silent_copySeed _)
      | assumption | exact ih _ | exact ih _ _ | exact ih _ _ _
      | exact emits_searchIterateDels o _ _
      | intro _

theorem emits_addsLoop (o : Oracle) (fuelD fuelI adds dels len k : Nat) (addsArr : List Int) :
    Emits (addsLoop o fuelD fuelI adds dels len k addsArr) [] := by
  induction k generalizing addsArr with
  | zero =>
    unfold addsLoop
    repeat' first
      | apply emits_bind_nil | split
      | exact emits_testAndThrow o
      | exact emits_of_silent (silent_liftO _) | exact emits_of_silent silent_getBuf
      | exact emits_of_silent (silent_setBuf _) | exact emits_of_silent (silent_pure _)
      | exact emits_of_silent silent_halt_fuel | exact emits_of_silent silent_halt_fault
      | exact emits_of_silent (silent_delsDelete _ _ _)
      | exact emits_of_silent (silent_delsRestore _ _ _ _)
      | exact emits_of_silent (silent_delsAdvance _ _)
      | exact emits_of_silent (silent_insCarry _ _)
      | exact emits_of_silent (silent_insReset _ _ _)
      | exact emits_of_silent (silent_addsOpen _ _)
      | exact emits_of_silent (silent_addsInit _ _)
      | exact emits_of_silent (silent_addsClose _ _)
      | exact emits_of_silent (silent_subInit _ _ _ _)
      | exact emits_of_silent (silent_subClock _ _ _)
      | exact emits_of_silent (silent_subRestore _ _ _ _)
      | exact emits_of_silent (silent_subCarry _ _)
      | exact emits_of_silent (silent_subReinit _ _ _ _)
      | exact emits_of_silent (silent_copySeed _)
      | assumption
      | exact emits_searchIterateAtInsertions o _ _ _ _ _
      | intro _
  | succ k ih =>
    unfold addsLoop
    repeat' first
      | apply emits_bind_nil | split
      | exact emits_testAndThrow o
      | exact emits_of_silent (silent_liftO _) | exact emits_of_silent silent_getBuf
      | exact emits_of_silent (silent_setBuf _) | exact emits_of_silent (silent_pure _)
      | exact emits_of_silent silent_halt_fuel | exact emits_of_silent silent_halt_fault
      | exact emits_of_silent (silent_delsDelete _ _ _)
      | exact emits_of_silent (silent_delsRestore _ _ _ _)
      | exact emits_of_silent (silent_delsAdvance _ _)
      | exact emits_of_silent (silent_insCarry _ _)
      | exact emits_of_silent (silent_insReset _ _ _)
      | exact emits_of_silent (silent_addsOpen _ _)
      | exact emits_of_silent (silent_addsInit _ _)
      | exact emits_of_silent (silent_addsClose _ _)
      | exact emits_of_silent (silent_subInit _ _ _ _)
      | exact emits_of_silent (silent_subClock _ _ _)
      | exact emits_of_silent (silent_subRestore _ _ _ _)
      | exact emits_of_silent (silent_subCarry _ _)
      | exact emits_of_silent (silent_subReinit _ _ _ _)
      | exact emits_of_silent (silent_copySeed _)
      | assumption | exact ih _ | exact ih _ _ | exact ih _ _ _
      | exact emits_searchIterateAtInsertions o _ _ _ _ _
      | intro _

theorem emits_searchIterateAdds (o : Oracle) (fuel adds dels : Nat) :
    Emits (searchIterateAdds o fuel adds dels) [] := by
  unfold searchIterateAdds
  repeat' first
    | apply emits_bind_nil | split
    | exact emits_testAndThrow o
    | exact emits_of_silent (silent_liftO _) | exact emits_of_silent silent_getBuf
    | exact emits_of_silent (silent_setBuf _) | exact emits_of_silent (silent_pure _)
    | exact emits_of_silent silent_halt_fuel | exact emits_of_silent silent_halt_fault
    | exact emits_of_silent (silent_delsDelete _ _ _)
    | exact emits_of_silent (silent_delsRestore _ _ _ _)
    | exact emits_of_silent (silent_delsAdvance _ _)
    | exact emits_of_silent (silent_insCarry _ _)
    | exact emits_of_silent (silent_insReset _ _ _)
    | exact emits_of_silent (silent_addsOpen _ _)
    | exact emits_of_silent (silent_addsInit _ _)
    | exact emits_of_silent (silent_addsClose _ _)
    | exact emits_of_silent (silent_subInit _ _ _ _)
    | exact emits_of_silent (silent_subClock _ _ _)
    | exact emits_of_silent (silent_subRestore _ _ _ _)
    | exact emits_of_silent (silent_subCarry _ _)
    | exact emits_of_silent (silent_subReinit _ _ _ _)
    | exact emits_of_silent (silent_copySeed _)
    | assumption
    | exact emits_searchIterateDels o _ _
    | exact emits_addsLoop o _ _ _ _ _ _ _
    | intro _

theorem emits_transInner (o : Oracle) (fuelA adds dels transNum k transPos : Nat) (transArr : List (Option Nat)) :
    Emits (transInner o fuelA adds dels transNum k transPos transArr) [] := by
  induction k generalizing transPos transArr with
  | zero =>
    unfold transInner
    repeat' first
      | apply emits_bind_nil | split
      | exact emits_testAndThrow o
      | exact emits_of_silent (silent_liftO _) | exact emits_of_silent silent_getBuf
      | exact emits_of_silent (silent_setBuf _) | exact emits_of_silent (silent_pure _)
      | exact emits_of_silent silent_halt_fuel | exact emits_of_silent silent_halt_fault
      | exact emits_of_silent (silent_delsDelete _ _ _)
      | exact emits_of_silent (silent_delsRestore _ _ _ _)
      | exact emits_of_silent (silent_delsAdvance _ _)
      | exact emits_of_silent (silent_insCarry _ _)
      | exact emits_of_silent (silent_insReset _ _ _)
      | exact emits_of_silent (silent_addsOpen _ _)
      | exact emits_of_silent (silent_addsInit _ _)
      | exact emits_of_silent (silent_addsClose _ _)
      | exact emits_of_silent (silent_subInit _ _ _ _)
      | exact emits_of_silent (silent_subClock _ _ _)
      | exact emits_of_silent (silent_subRestore _ _ _ _)
      | exact emits_of_silent (silent_subCarry _ _)
      | exact emits_of_silent (silent_subReinit _ _ _ _)
      | exact emits_of_silent (silent_copySeed _)
      | assumption
      | exact emits_searchIterateAdds o _ _ _
      | intro _
  | succ k ih =>
    unfold transInner
    repeat' first
      | apply emits_bind_nil | split
      | exact emits_testAndThrow o
      | exact emits_of_silent (silent_liftO _) | exact emits_of_silent silent_getBuf
      | exact emits_of_silent (silent_setBuf _) | exact emits_of_silent (silent_pure _)
      | exact emits_of_silent silent_halt_fuel | exact emits_of_silent silent_halt_fault
      | exact emits_of_silent (silent_delsDelete _ _ _)
      | exact emits_of_silent (silent_delsRestore _ _ _ _)
      | exact emits_of_silent (silent_delsAdvance _ _)
      | exact emits_of_silent (silent_insCarry _ _)
      | exact emits_of_silent (silent_insReset _ _ _)
      | exact emits_of_silent (silent_addsOpen _ _)
      | exact emits_of_silent (silent_addsInit _ _)
      | exact emits_of_silent (silent_addsClose _ _)
      | exact emits_of_silent (silent_subInit _ _ _ _)
      | exact emits_of_silent (silent_subClock _ _ _)
      | exact emits_of_silent (silent_subRestore _ _ _ _)
      | exact emits_of_silent (silent_subCarry _ _)
      | exact emits_of_silent (silent_subReinit _ _ _ _)
      | exact emits_of_silent (silent_copySeed _)
      | assumption | exact ih _ | exact ih _ _ | exact ih _ _ _
      | exact emits_searchIterateAdds o _ _ _
      | intro _

theorem emits_transOuter (o : Oracle) (fuel adds dels k transNum : Nat) (transArr : List (Option Nat)) :
    Emits (transOuter o fuel adds dels k transNum transArr) [] := by
  induction k generalizing transNum transArr with
  | zero =>
    unfold transOuter
    repeat' first
      | apply emits_bind_nil | split
      | exact emits_testAndThrow o
      | exact emits_of_silent (silent_liftO _) | exact emits_of_silent silent_getBuf
      | exact emits_of_silent (silent_setBuf _) | exact emits_of_silent (silent_pure _)
      | exact emits_of_silent silent_halt_fuel | exact emits_of_silent silent_halt_fault
      | exact emits_of_silent (silent_delsDelete _ _ _)
      | exact emits_of_silent (silent_delsRestore _ _ _ _)
      | exact emits_of_silent (silent_delsAdvance _ _)
      | exact emits_of_silent (silent_insCarry _ _)
      | exact emits_of_silent (silent_insReset _ _ _)
      | exact emits_of_silent (silent_addsOpen _ _)
      | exact emits_of_silent (silent_addsInit _ _)
      | exact emits_of_silent (silent_addsClose _ _)
      | exact emits_of_silent (silent_subInit _ _ _ _)
      | exact emits_of_silent (silent_subClock _ _ _)
      | exact emits_of_silent (silent_subRestore _ _ _ _)
      | exact emits_of_silent (silent_subCarry _ _)
      | exact emits_of_silent (silent_subReinit _ _ _ _)
      | exact emits_of_silent (silent_copySeed _)
      | assumption
      | exact emits_transInner o _ _ _ _ _ _ _
      | intro _
  | succ k ih =>
    unfold transOuter
    repeat' first
      | apply emits_bind_nil | split
      | exact emits_testAndThrow o
      | exact emits_of_silent (silent_liftO _) | exact emits_of_silent silent_getBuf
      | exact emits_of_silent (silent_setBuf _) | exact emits_of_silent (silent_pure _)
      | exact emits_of_silent silent_halt_fuel | exact emits_of_silent silent_halt_fault
      | exact emits_of_silent (silent_delsDelete _ _ _)
      | exact emits_of_silent (silent_delsRestore _ _ _ _)
      | exact emits_of_silent (silent_delsAdvance _ _)
      | exact emits_of_silent (silent_insCarry _ _)
      | exact emits_of_silent (silent_insReset _ _ _)
      | exact emits_of_silent (silent_addsOpen _ _)
      | exact emits_of_silent (silent_addsInit _ _)
      | exact emits_of_silent (silent_addsClose _ _)
      | exact emits_of_silent (silent_subInit _ _ _ _)
      | exact emits_of_silent (silent_subClock _ _ _)
      | exact emits_of_silent (silent_subRestore _ _ _ _)
      | exact emits_of_silent (silent_subCarry _ _)
      | exact emits_of_silent (silent_subReinit _ _ _ _)
      | exact emits_of_silent (silent_copySeed _)
      | assumption | exact ih _ | exact ih _ _ | exact ih _ _ _
      | exact emits_transInner o _ _ _ _ _ _ _
      | intro _

theorem emits_searchIterateTrans (o : Oracle) (fuel tr adds dels : Nat) :
    Emits (searchIterateTrans o fuel tr adds dels) [] := by
  unfold searchIterateTrans
  repeat' first
    | apply emits_bind_nil | split
    | exact emits_testAndThrow o
    | exact emits_of_silent (silent_liftO _) | exact emits_of_silent silent_getBuf
    | exact emits_of_silent (silent_setBuf _) | exact emits_of_silent (silent_pure _)
    | exact emits_of_silent silent_halt_fuel | exact emits_of_silent silent_halt_fault
    | exact emits_of_silent (silent_delsDelete _ _ _)
    | exact emits_of_silent (silent_delsRestore _ _ _ _)
    | exact emits_of_silent (silent_delsAdvance _ _)
    | exact emits_of_silent (silent_insCarry _ _)
    | exact emits_of_silent (silent_insReset _ _ _)
    | exact emits_of_silent (silent_addsOpen _ _)
    | exact emits_of_silent (silent_addsInit _ _)
    | exact emits_of_silent (silent_addsClose _ _)
    | exact emits_of_silent (silent_subInit _ _ _ _)
    | exact emits_of_silent (silent_subClock _ _ _)
    | exact emits_of_silent (silent_subRestore _ _ _ _)
    | exact emits_of_silent (silent_subCarry _ _)
    | exact emits_of_silent (silent_subReinit _ _ _ _)
    | exact emits_of_silent (silent_copySeed _)
    | assumption
    | exact emits_searchIterateAdds o _ _ _
    | exact emits_transOuter o _ _ _ _ _ _
    | intro _

theorem emits_subOdometer (o : Oracle) (fuelT edits tr adds dels : Nat) (editsArr : List Nat) (k : Nat) :
    Emits (subOdometer o fuelT edits tr adds dels editsArr k) [] := by
  induction k with
  | zero =>
    unfold subOdometer
    repeat' first
      | apply emits_bind_nil | split
      | exact emits_testAndThrow o
      | exact emits_of_silent (silent_liftO _) | exact emits_of_silent silent_getBuf
      | exact emits_of_silent (silent_setBuf _) | exact emits_of_silent (silent_pure _)
      | exact emits_of_silent silent_halt_fuel | exact emits_of_silent silent_halt_fault
      | exact emits_of_silent (silent_delsDelete _ _ _)
      | exact emits_of_silent (silent_delsRestore _ _ _ _)
      | exact emits_of_silent (silent_delsAdvance _ _)
      | exact emits_of_silent (silent_insCarry _ _)
      | exact emits_of_silent (silent_insReset _ _ _)
      | exact emits_of_silent (silent_addsOpen _ _)
      | exact emits_of_silent (silent_addsInit _ _)
      | exact emits_of_silent (silent_addsClose _ _)
      | exact emits_of_silent (silent_subInit _ _ _ _)
      | exact emits_of_silent (silent_subClock _ _ _)
      | exact emits_of_silent (silent_subRestore _ _ _ _)
      | exact emits_of_silent (silent_subCarry _ _)
      | exact emits_of_silent (silent_subReinit _ _ _ _)
      | exact emits_of_silent (silent_copySeed _)
      | assumption
      | exact emits_searchIterateTrans o _ _ _ _
      | intro _
  | succ k ih =>
    unfold subOdometer
    repeat' first
      | apply emits_bind_nil | split
      | exact emits_testAndThrow o
      | exact emits_of_silent (silent_liftO _) | exact emits_of_silent silent_getBuf
      | exact emits_of_silent (silent_setBuf _) | exact emits_of_silent (silent_pure _)
      | exact emits_of_silent silent_halt_fuel | exact emits_of_silent silent_halt_fault
      | exact emits_of_silent (silent_delsDelete _ _ _)
      | exact emits_of_silent (silent_delsRestore _ _ _ _)
      | exact emits_of_silent (silent_delsAdvance _ _)
      | exact emits_of_silent (silent_insCarry _ _)
      | exact emits_of_silent (silent_insReset _ _ _)
      | exact emits_of_silent (silent_addsOpen _ _)
      | exact emits_of_silent (silent_addsInit _ _)
      | exact emits_of_silent (silent_addsClose _ _)
      | exact emits_of_silent (silent_subInit _ _ _ _)
      | exact emits_of_silent (silent_subClock _ _ _)
      | exact emits_of_silent (silent_subRestore _ _ _ _)
      | exact emits_of_silent (silent_subCarry _ _)
      | exact emits_of_silent (silent_subReinit _ _ _ _)
      | exact emits_of_silent (silent_copySeed _)
      | assumption | exact ih _ | exact ih _ _ | exact ih _ _ _
      | exact emits_searchIterateTrans o _ _ _ _
      | intro _

theorem emits_subLoop (o : Oracle) (fuelT edits tr adds dels k : Nat) (editsArr savedArr : List Nat) :
    Emits (subLoop o fuelT edits tr adds dels k editsArr savedArr) [] := by
  induction k generalizing editsArr savedArr with
  | zero =>
    unfold subLoop
    repeat' first
      | apply emits_bind_nil | split
      | exact emits_testAndThrow o
      | exact emits_of_silent (silent_liftO _) | exact emits_of_silent silent_getBuf
      | exact emits_of_silent (silent_setBuf _) | exact emits_of_silent (silent_pure _)
      | exact emits_of_silent silent_halt_fuel | exact emits_of_silent silent_halt_fault
      | exact emits_of_silent (silent_delsDelete _ _ _)
      | exact emits_of_silent (silent_delsRestore _ _ _ _)
      | exact emits_of_silent (silent_delsAdvance _ _)
      | exact emits_of_silent (silent_insCarry _ _)
      | exact emits_of_silent (silent_insReset _ _ _)
      | exact emits_of_silent (silent_addsOpen _ _)
      | exact emits_of_silent (silent_addsInit _ _)
      | exact emits_of_silent (silent_addsClose _ _)
      | exact emits_of_silent (silent_subInit _ _ _ _)
      | exact emits_of_silent (silent_subClock _ _ _)
      | exact emits_of_silent (silent_subRestore _ _ _ _)
      | exact emits_of_silent (silent_subCarry _ _)
      | exact emits_of_silent (silent_subReinit _ _ _ _)
      | exact emits_of_silent (silent_copySeed _)
      | assumption
      | exact emits_subOdometer o _ _ _ _ _ _ _
      | intro _
  | succ k ih =>
    unfold subLoop
    repeat' first
      | apply emits_bind_nil | split
      | exact emits_testAndThrow o
      | exact emits_of_silent (silent_liftO _) | exact emits_of_silent silent_getBuf
      | exact emits_of_silent (silent_setBuf _) | exact emits_of_silent (silent_pure _)
      | exact emits_of_silent silent_halt_fuel | exact emits_of_silent silent_halt_fault
      | exact emits_of_silent (silent_delsDelete _ _ _)
      | exact emits_of_silent (silent_delsRestore _ _ _ _)
      | exact emits_of_silent (silent_delsAdvance _ _)
      | exact emits_of_silent (silent_insCarry _ _)
      | exact emits_of_silent (silent_insReset _ _ _)
      | exact emits_of_silent (silent_addsOpen _ _)
      | exact emits_of_silent (silent_addsInit _ _)
      | exact emits_of_silent (silent_addsClose _ _)
      | exact emits_of_silent (silent_subInit _ _ _ _)
      | exact emits_of_silent (silent_subClock _ _ _)
      | exact emits_of_silent (silent_subRestore _ _ _ _)
      | exact emits_of_silent (silent_subCarry _ _)
      | exact emits_of_silent (silent_subReinit _ _ _ _)
      | exact emits_of_silent (silent_copySeed _)
      | assumption | exact ih _ | exact ih _ _ | exact ih _ _ _
      | exact emits_subOdometer o _ _ _ _ _ _ _
      | intro _

theorem emits_generate (o : Oracle) (fuel : Nat) (seed : Str) (edits tr adds dels : Nat) :
    Emits (generate o fuel seed edits tr adds dels) [] := by
  unfold generate
  repeat' first
    | apply emits_bind_nil | split
    | exact emits_testAndThrow o
    | exact emits_of_silent (silent_liftO _) | exact emits_of_silent silent_getBuf
    | exact emits_of_silent (silent_setBuf _) | exact emits_of_silent (silent_pure _)
    | exact emits_of_silent silent_halt_fuel | exact emits_of_silent silent_halt_fault
    | exact emits_of_silent (silent_delsDelete _ _ _)
    | exact emits_of_silent (silent_delsRestore _ _ _ _)
    | exact emits_of_silent (silent_delsAdvance _ _)
    | exact emits_of_silent (silent_insCarry _ _)
    | exact emits_of_silent (silent_insReset _ _ _)
    | exact emits_of_silent (silent_addsOpen _ _)
    | exact emits_of_silent (silent_addsInit _ _)
    | exact emits_of_silent (silent_addsClose _ _)
    | exact emits_of_silent (silent_subInit _ _ _ _)
    | exact emits_of_silent (silent_subClock _ _ _)
    | exact emits_of_silent (silent_subRestore _ _ _ _)
    | exact emits_of_silent (silent_subCarry _ _)
    | exact emits_of_silent (silent_subReinit _ _ _ _)
    | exact emits_of_silent (silent_copySeed _)
    | assumption
    | exact emits_searchIterateTrans o _ _ _ _
    | exact emits_subLoop o _ _ _ _ _ _ _ _
    | intro _

/-! ## The compositions of a distance -/

theorem rowA_step (D e t a0 : Nat) (h : a0 + t + e ≤ D) :
    rowA D e t a0 = (e, t, a0, D - a0 - t - e) :: rowA D e t (a0 + 1) := by
  unfold rowA
  have : D + 1 - e - t - a0 = (D + 1 - e - t - (a0 + 1)) + 1 := by omega
  rw [this, List.range'_succ]
  simp

theorem rowA_stop (D e t a0 : Nat) (h : ¬ a0 + t + e ≤ D) : rowA D e t a0 = [] := by
  unfold rowA
  have : D + 1 - e - t - a0 = 0 := by omega
  rw [this]
  simp

theorem rowT_step (D e t0 : Nat) (h : t0 + e ≤ D) :
    rowT D e t0 = rowA D e t0 0 ++ rowT D e (t0 + 1) := by
  unfold rowT
  have : D + 1 - e - t0 = (D + 1 - e - (t0 + 1)) + 1 := by omega
  rw [this, List.range'_succ]
  simp

theorem rowT_stop (D e t0 : Nat) (h : ¬ t0 + e ≤ D) : rowT D e t0 = [] := by
  unfold rowT
  have : D + 1 - e - t0 = 0 := by omega
  rw [this]
  simp

theorem rowE_step (D e0 : Nat) (h : e0 ≤ D) :
    rowE D e0 = rowT D e0 0 ++ rowE D (e0 + 1) := by
  unfold rowE
  have : D + 1 - e0 = (D + 1 - (e0 + 1)) + 1 := by omega
  rw [this, List.range'_succ]
  simp

theorem rowE_stop (D e0 : Nat) (h : ¬ e0 ≤ D) : rowE D e0 = [] := by
  unfold rowE
  have : D + 1 - e0 = 0 := by omega
  rw [this]
  simp

theorem rowE_zero (D : Nat) : rowE D 0 = compositions D := by
  unfold rowE rowT rowA compositions
  simp only [List.range_eq_range', Nat.sub_zero]
  congr 1
  funext e
  congr 1
  funext t
  congr 1
  funext a
  have : D - a - t - e = D - e - t - a := by omega
  rw [this]

theorem emits_loopAdds (gen : Gen) (hg : ∀ e t a d, Emits (gen e t a d) [])
    (D e t k a0 : Nat) : Emits (loopAdds gen D e t k a0) (rowA D e t a0) := by
  induction k generalizing a0 with
  | zero =>
    unfold loopAdds
    exact emits_halt _ _
  | succ k ih =>
    unfold loopAdds
    split
    · rename_i h
      rw [rowA_step D e t a0 h]
      exact @emits_bind _ _ _ _ [(e, t, a0, D - a0 - t - e)] _ (emits_announce _ _ _ _)
        (fun _ => by simpa using emits_bind (hg _ _ _ _) (fun _ => ih (a0 + 1)))
    · rename_i h
      rw [rowA_stop D e t a0 h]
      exact emits_of_silent (silent_pure _)

theorem emits_loopTrans (gen : Gen) (hg : ∀ e t a d, Emits (gen e t a d) [])
    (D e k t0 : Nat) : Emits (loopTrans gen D e k t0) (rowT D e t0) := by
  induction k generalizing t0 with
  | zero =>
    unfold loopTrans
    exact emits_halt _ _
  | succ k ih =>
    unfold loopTrans
    split
    · rename_i h
      rw [rowT_step D e t0 h]
      exact emits_bind (emits_loopAdds gen hg _ _ _ _ _) (fun _ => ih (t0 + 1))
    · rename_i h
      rw [rowT_stop D e t0 h]
      exact emits_of_silent (silent_pure _)

theorem emits_loopEdits (gen : Gen) (hg : ∀ e t a d, Emits (gen e t a d) [])
    (D k e0 : Nat) : Emits (loopEdits gen D k e0) (rowE D e0) := by
  induction k generalizing e0 with
  | zero =>
    unfold loopEdits
    exact emits_halt _ _
  | succ k ih =>
    unfold loopEdits
    split
    · rename_i h
      rw [rowE_step D e0 h]
      exact emits_bind (emits_loopTrans gen hg _ _ _ _) (fun _ => ih (e0 + 1))
    · rename_i h
      rw [rowE_stop D e0 h]
      exact emits_of_silent (silent_pure _)

theorem mem_compositions (D : Nat) (q : Comp) :
    q ∈ compositions D ↔ q.1 + q.2.1 + q.2.2.1 + q.2.2.2 = D := by
  obtain ⟨e, t, a, d⟩ := q
  simp only [compositions, List.mem_flatMap, List.mem_map, List.mem_range, Prod.mk.injEq]
  constructor
  · rintro ⟨e1, he1, t1, ht1, a1, ha1, rfl, rfl, rfl, rfl⟩
    omega
  · intro h
    exact ⟨e, by omega, t, by omega, a, by omega, rfl, rfl, rfl, by omega⟩

theorem bind_ok {α β : Type} {x : M α} {f : α → M β} {s s1 : St} {a : α}
    (h : x s = (Except.ok a, s1)) : M.bind x f s = f a s1 := by
  simp only [M.bind, h]

theorem bind_pure {α β : Type} (a : α) (f : α → M β) (s : St) :
    M.bind (M.pure a) f s = f a s := by
  simp only [M.bind, M.pure]

theorem bind_liftO_some {α β : Type} (a : α) (f : α → M β) (s : St) :
    M.bind (liftO (some a)) f s = f a s := by
  simp only [M.bind, liftO, M.pure]

theorem bind_getBuf {β : Type} (f : Mem → M β) (s : St) :
    M.bind getBuf f s = f s.buf s := by
  simp only [M.bind, getBuf]

theorem bind_setBuf {β : Type} (m : Mem) (f : Unit → M β) (s : St) :
    M.bind (setBuf m) f s = f () { s with buf := m } := by
  simp only [M.bind, setBuf]

theorem pure_run {α : Type} (a : α) (s : St) : M.pure a s = (Except.ok a, s) := by
  simp only [M.pure]

theorem testAndThrow_reject (s : St) (c : Str) (h : cstrAt s.buf 0 = some c) :
    testAndThrow rejectAll s = (Except.ok (), { s with log := Ev.test c :: s.log }) := by
  simp [testAndThrow, h, rejectAll]

/-! ## Memory cells and strings -/

theorem cstrL_str (v : Str) (hv : ∀ c ∈ v, c ≠ 0) (R : Mem) :
    cstrL (v.map some ++ some 0 :: R) = some v := by
  induction v with
  | nil => simp [cstrL]
  | cons c r ih =>
    have hc : c ≠ 0 := hv c (List.mem_cons_self _ _)
    obtain ⟨k, rfl⟩ : ∃ k, c = k + 1 := ⟨c - 1, by omega⟩
    simp [cstrL, ih (fun x hx => hv x (List.mem_cons_of_mem _ hx))]

theorem cstrAt_append (U X : Mem) : cstrAt (U ++ X) U.length = cstrL X := by
  simp [cstrAt]

theorem cstrAt_zero (m : Mem) : cstrAt m 0 = cstrL m := by
  simp [cstrAt]

theorem rd_append (U : Mem) (x : Nat) (R : Mem) : rd (U ++ some x :: R) U.length = some x := by
  unfold rd
  rw [List.get?_eq_getElem?, List.getElem?_append_right (le_refl _)]
  simp

theorem wr_append (U : Mem) (x : Option Nat) (R : Mem) (v : Nat) :
    wr (U ++ x :: R) U.length v = some (U ++ some v :: R) := by
  simp [wr]

theorem memmove_left (U V R : Mem) (x z : Option Nat) :
    memmove (U ++ x :: (V ++ z :: R)) U.length (U.length + 1) (V.length + 1)
      = some (U ++ (V ++ z :: z :: R)) := by
  unfold memmove
  have h1 : U.length + 1 + (V.length + 1) ≤ (U ++ x :: (V ++ z :: R)).length := by
    simp <;> omega
  have h2 : U.length + (V.length + 1) ≤ (U ++ x :: (V ++ z :: R)).length := by
    simp <;> omega
  rw [if_pos ⟨h1, h2⟩]
  congr 1
  have e1 : List.take U.length (U ++ x :: (V ++ z :: R)) = U := by simp
  have e2 : List.drop (U.length + 1) (U ++ x :: (V ++ z :: R)) = V ++ z :: R := by
    rw [show U ++ x :: (V ++ z :: R) = (U ++ [x]) ++ (V ++ z :: R) by simp]
    rw [List.drop_left' (by simp)]
  have e3 : List.take (V.length + 1) (V ++ z :: R) = V ++ [z] := by
    rw [show V ++ z :: R = (V ++ [z]) ++ R by simp]
    rw [List.take_left' (by simp)]
  have e4 : List.drop (U.length + (V.length + 1)) (U ++ x :: (V ++ z :: R)) = z :: R := by
    rw [show U ++ x :: (V ++ z :: R) = (U ++ x :: V) ++ (z :: R) by simp]
    rw [List.drop_left' (by simp <;> omega)]
  rw [e1, e2, e3, e4]
  simp

theorem memmove_right (U V R : Mem) (z y : Option Nat) :
    memmove (U ++ (V ++ z :: y :: R)) (U.length + 1) U.length (V.length + 1)
      = some (U ++ (V ++ [z]).headD z :: (V ++ z :: R)) := by
  unfold memmove
  have h1 : U.length + (V.length + 1) ≤ (U ++ (V ++ z :: y :: R)).length := by
    simp <;> omega
  have h2 : U.length + 1 + (V.length + 1) ≤ (U ++ (V ++ z :: y :: R)).length := by
    simp <;> omega
  rw [if_pos ⟨h1, h2⟩]
  congr 1
  have e1 : List.take (U.length + 1) (U ++ (V ++ z :: y :: R)) = U ++ [(V ++ [z]).headD z] := by
    cases V with
    | nil =>
      rw [show U ++ ([] ++ z :: y :: R) = (U ++ [z]) ++ (y :: R) by simp]
      rw [List.take_left' (by simp)]
      simp
    | cons v V1 =>
      rw [show U ++ (v :: V1 ++ z :: y :: R) = (U ++ [v]) ++ (V1 ++ z :: y :: R) by simp]
      rw [List.take_left' (by simp)]
      simp
  have e2 : List.drop U.length (U ++ (V ++ z :: y :: R)) = V ++ z :: y :: R := by simp
  have e3 : List.take (V.length + 1) (V ++ z :: y :: R) = V ++ [z] := by
    rw [show V ++ z :: y :: R = (V ++ [z]) ++ (y :: R) by simp]
    rw [List.take_left' (by simp)]
  have e4 : List.drop (U.length + 1 + (V.length + 1)) (U ++ (V ++ z :: y :: R)) = R := by
    rw [show U ++ (V ++ z :: y :: R) = (U ++ (V ++ [z, y])) ++ R by simp]
    rw [List.drop_left' (by simp <;> omega)]
  rw [e1, e2, e3, e4]
  simp

theorem NoNul.append {u v : Str} (hu : NoNul u) (hv : NoNul v) : NoNul (u ++ v) := by
  intro c hc
  rcases List.mem_append.1 hc with h | h
  · exact hu c h
  · exact hv c h

theorem NoNul.cons {x : Nat} {v : Str} (hx : x ≠ 0) (hv : NoNul v) : NoNul (x :: v) := by
  intro c hc
  rcases List.mem_cons.1 hc with h | h
  · rw [h]; exact hx
  · exact hv c h

theorem NoNul.tail {x : Nat} {v : Str} (h : NoNul (x :: v)) : NoNul v :=
  fun c hc => h c (List.mem_cons_of_mem _ hc)

theorem NoNul.head {x : Nat} {v : Str} (h : NoNul (x :: v)) : x ≠ 0 :=
  h x (List.mem_cons_self _ _)

theorem NoNul.left {u v : Str} (h : NoNul (u ++ v)) : NoNul u :=
  fun c hc => h c (List.mem_append_left _ hc)

theorem NoNul.right {u v : Str} (h : NoNul (u ++ v)) : NoNul v :=
  fun c hc => h c (List.mem_append_right _ hc)

theorem cells_nil_left (v : Str) (R : Mem) : cells [] v R = v.map some ++ some 0 :: R := by
  simp [cells]

theorem cells_snoc (u : Str) (x : Nat) (v : Str) (R : Mem) :
    cells (u ++ [x]) v R = cells u (x :: v) R := by
  simp [cells]

theorem cstr_cells (u v : Str) (R : Mem) (hu : NoNul u) (hv : NoNul v) :
    cstrAt (cells u v R) 0 = some (u ++ v) := by
  rw [cstrAt_zero]
  have : cells u v R = (u ++ v).map some ++ some 0 :: R := by simp [cells]
  rw [this]
  exact cstrL_str _ (hu.append hv) R

theorem cstrAt_cells (u v : Str) (R : Mem) (hv : NoNul v) :
    cstrAt (cells u v R) u.length = some v := by
  have := cstrAt_append (u.map some) (v.map some ++ some 0 :: R)
  rw [List.length_map] at this
  unfold cells
  rw [this]
  exact cstrL_str v hv R

theorem strlenAt_cells (u v : Str) (R : Mem) (hv : NoNul v) :
    strlenAt (cells u v R) u.length = some v.length := by
  simp [strlenAt, cstrAt_cells u v R hv]

theorem strlenAt_cells_succ (u : Str) (x : Nat) (v : Str) (R : Mem) (hv : NoNul v) :
    strlenAt (cells u (x :: v) R) (u.length + 1) = some v.length := by
  have := strlenAt_cells (u ++ [x]) v R hv
  rw [cells_snoc] at this
  simpa using this

theorem strlenAt_cells_zero (u v : Str) (R : Mem) (hu : NoNul u) (hv : NoNul v) :
    strlenAt (cells u v R) 0 = some (u.length + v.length) := by
  simp [strlenAt, cstr_cells u v R hu hv]

theorem rd_cells (u : Str) (x : Nat) (v : Str) (R : Mem) :
    rd (cells u (x :: v) R) u.length = some x := by
  have := rd_append (u.map some) x (v.map some ++ some 0 :: R)
  rw [List.length_map] at this
  simpa [cells] using this

theorem rd_cells_end (u : Str) (R : Mem) : rd (cells u [] R) u.length = some 0 := by
  have := rd_append (u.map some) 0 R
  rw [List.length_map] at this
  simpa [cells] using this

theorem rd_cells_succ (u : Str) (x : Nat) (v : Str) (R : Mem) :
    rd (cells u (x :: v) R) (u.length + 1) = some (v.headD 0) := by
  rw [← cells_snoc]
  cases v with
  | nil => simpa using rd_cells_end (u ++ [x]) R
  | cons y v1 => simpa using rd_cells (u ++ [x]) y v1 R

theorem wr_cells (u : Str) (x : Nat) (v : Str) (R : Mem) (c : Nat) :
    wr (cells u (x :: v) R) u.length c = some (cells u (c :: v) R) := by
  have := wr_append (u.map some) (some x) (v.map some ++ some 0 :: R) c
  rw [List.length_map] at this
  simpa [cells] using this

theorem memmove_left_cells (u : Str) (x : Nat) (v : Str) (R : Mem) :
    memmove (cells u (x :: v) R) u.length (u.length + 1) (v.length + 1)
      = some (cells u v (some 0 :: R)) := by
  have := memmove_left (u.map some) (v.map some) R (some x) (some 0)
  simp only [List.length_map] at this
  simpa [cells] using this

theorem memmove_right_cells (u v : Str) (R : Mem) (y : Option Nat) :
    memmove (cells u v (y :: R)) (u.length + 1) u.length (v.length + 1)
      = some (cells u ((v ++ [0]).headD 0 :: v) R) := by
  have := memmove_right (u.map some) (v.map some) R (some 0) y
  simp only [List.length_map] at this
  unfold cells
  rw [this]
  cases v <;> simp

/-! ## One deletion -/

theorem searchIterateDels_zero_run (s : St) (c : Str) (fuel : Nat)
    (h : cstrAt s.buf 0 = some c) :
    searchIterateDels rejectAll fuel 0 s
      = (Except.ok (), { s with log := Ev.test c :: s.log }) := by
  unfold searchIterateDels
  simp only [if_true]
  exact testAndThrow_reject s c h

theorem searchIterateAdds_zero_run (s : St) (c : Str) (fuel : Nat)
    (h : cstrAt s.buf 0 = some c) :
    searchIterateAdds rejectAll fuel 0 0 s
      = (Except.ok (), { s with log := Ev.test c :: s.log }) := by
  unfold searchIterateAdds
  have hl : strlenAt s.buf 0 = some c.length := by simp [strlenAt, h]
  simp only [bind_getBuf, hl, bind_liftO_some, if_true]
  exact searchIterateDels_zero_run s c fuel h

theorem leaf_run (s : St) (c : Str) (fuel : Nat) (h : cstrAt s.buf 0 = some c) :
    searchIterateTrans rejectAll fuel 0 0 0 s
      = (Except.ok (), { s with log := Ev.test c :: s.log }) := by
  unfold searchIterateTrans
  simp only [if_true]
  exact searchIterateAdds_zero_run s c fuel h

theorem delsDelete_one (u : Str) (x : Nat) (v : Str) (R : Mem) (log : List Ev) (sv : Nat)
    (hv : NoNul v) :
    delsDelete [u.length] 1 [sv] { buf := cells u (x :: v) R, log := log }
      = (Except.ok [x], { buf := cells u v (some 0 :: R), log := log }) := by
  unfold delsDelete
  simp only [List.getElem?_cons_zero, bind_liftO_some, bind_getBuf, rd_cells,
    strlenAt_cells_succ u x v R hv, memmove_left_cells, bind_setBuf, List.set_cons_zero]
  unfold delsDelete
  rw [pure_run]

theorem delsRestore_one (u : Str) (x : Nat) (v : Str) (R : Mem) (log : List Ev)
    (hv : NoNul v) :
    delsRestore [u.length] [x] 1 0 { buf := cells u v (some 0 :: R), log := log }
      = (Except.ok (), { buf := cells u (x :: v) R, log := log }) := by
  unfold delsRestore
  simp only [List.getElem?_cons_zero, bind_liftO_some, bind_getBuf,
    strlenAt_cells u v _ hv, memmove_right_cells, wr_cells, bind_setBuf]
  unfold delsRestore
  rw [pure_run]

theorem delsAdvance_more (u : Str) (x y : Nat) (v : Str) (R : Mem) (log : List Ev)
    (hy : y ≠ 0) :
    delsAdvance 1 [u.length] { buf := cells u (x :: y :: v) R, log := log }
      = (Except.ok ([u.length + 1], some 0),
          { buf := cells u (x :: y :: v) R, log := log }) := by
  unfold delsAdvance
  simp only [Nat.sub_self, List.getElem?_cons_zero, bind_liftO_some, bind_getBuf,
    rd_cells_succ, List.headD_cons, hy, if_false, List.set_cons_zero, pure_run]

theorem delsAdvance_last (u : Str) (x : Nat) (R : Mem) (log : List Ev) :
    delsAdvance 1 [u.length] { buf := cells u [x] R, log := log }
      = (Except.ok ([0], none), { buf := cells u [x] R, log := log }) := by
  unfold delsAdvance
  simp only [Nat.sub_self, List.getElem?_cons_zero, bind_liftO_some, bind_getBuf,
    rd_cells_succ, List.headD_nil, if_true, List.set_cons_zero, delsCarry, delsFix,
    Nat.sub_zero, bind_pure, pure_run]

theorem delsLoop_one (v : Str) (u : Str) (x : Nat) (R : Mem) (log : List Ev) (sv fuel : Nat)
    (hu : NoNul u) (hv : NoNul (x :: v)) (hf : v.length + 1 ≤ fuel) :
    delsLoop rejectAll 1 fuel [u.length] [sv] { buf := cells u (x :: v) R, log := log }
      = (Except.ok (),
          { buf := cells u (x :: v) R,
            log := ((delCands u (x :: v)).map Ev.test).reverse ++ log }) := by
  induction v generalizing u x sv fuel log with
  | nil =>
    obtain ⟨f, rfl⟩ : ∃ f, fuel = f + 1 := ⟨fuel - 1, by simp at hf; omega⟩
    unfold delsLoop
    rw [bind_ok (delsDelete_one u x [] R log sv hv.tail)]
    rw [bind_ok (testAndThrow_reject _ (u ++ []) (cstr_cells u [] _ hu hv.tail))]
    rw [bind_ok (delsRestore_one u x [] R _ hv.tail)]
    rw [bind_ok (delsAdvance_last u x R _)]
    simp [pure_run, delCands]
  | cons y v ih =>
    obtain ⟨f, rfl⟩ : ∃ f, fuel = f + 1 := ⟨fuel - 1, by simp at hf; omega⟩
    unfold delsLoop
    rw [bind_ok (delsDelete_one u x (y :: v) R log sv hv.tail)]
    rw [bind_ok (testAndThrow_reject _ (u ++ y :: v) (cstr_cells u (y :: v) _ hu hv.tail))]
    rw [bind_ok (delsRestore_one u x (y :: v) R _ hv.tail)]
    rw [bind_ok (delsAdvance_more u x y v R _ hv.tail.head)]
    simp only
    have h := ih (u ++ [x]) y (Ev.test (u ++ y :: v) :: log) x f
      (hu.append (NoNul.cons hv.head (fun _ h => by cases h))) hv.tail
      (by simp at hf; omega)
    rw [cells_snoc] at h
    simp only [List.length_append, List.length_singleton] at h
    rw [h]
    simp [delCands]

/-! ## One transposition -/

theorem wr_cells_succ (u : Str) (x y : Nat) (v : Str) (R : Mem) (c : Nat) :
    wr (cells u (x :: y :: v) R) (u.length + 1) c = some (cells u (x :: c :: v) R) := by
  have := wr_cells (u ++ [x]) y v R c
  rw [cells_snoc, cells_snoc] at this
  simpa using this

theorem transInner_one (v : Str) (u : Str) (R : Mem) (log : List Ev)
    (fuelA fuel : Nat) (transArr : List (Option Nat))
    (hu : NoNul u) (hv : NoNul v) (hf : v.length + 1 ≤ fuel) :
    ∃ arr, transInner rejectAll fuelA 0 0 0 fuel u.length transArr
        { buf := cells u v R, log := log }
      = (Except.ok arr,
          { buf := cells u v R, log := ((swapCands u v).map Ev.test).reverse ++ log }) := by
  induction v generalizing u fuel log transArr with
  | nil =>
    obtain ⟨f, rfl⟩ : ∃ f, fuel = f + 1 := ⟨fuel - 1, by omega⟩
    refine ⟨transArr, ?_⟩
    unfold transInner
    simp only [bind_getBuf, rd_cells_end, bind_liftO_some, if_true, pure_run, swapCands]
    simp
  | cons x v ih =>
    obtain ⟨f, rfl⟩ : ∃ f, fuel = f + 1 := ⟨fuel - 1, by omega⟩
    have hx : x ≠ 0 := hv.head
    cases v with
    | nil =>
      refine ⟨transArr, ?_⟩
      unfold transInner
      simp only [bind_getBuf, rd_cells, rd_cells_succ, bind_liftO_some, hx, if_false,
        List.headD_nil, if_true, pure_run, swapCands]
      simp
    | cons y v =>
      have hy : y ≠ 0 := hv.tail.head
      have hyv : NoNul (y :: v) := hv.tail
      have hc : NoNul (y :: x :: v) := NoNul.cons hy (NoNul.cons hx hyv.tail)
      obtain ⟨arr, h⟩ := ih (u ++ [x]) (Ev.test (u ++ y :: x :: v) :: log) f
        (transArr.set 0 (some u.length))
        (hu.append (NoNul.cons hx (fun _ h => by cases h))) hyv
        (by simp at hf ⊢; omega)
      rw [cells_snoc] at h
      simp only [List.length_append, List.length_singleton] at h
      refine ⟨arr, ?_⟩
      unfold transInner
      simp only [bind_getBuf, rd_cells, rd_cells_succ, bind_liftO_some, hx, hy, if_false,
        List.headD_cons, wr_cells, wr_cells_succ, bind_setBuf]
      rw [bind_ok (searchIterateAdds_zero_run _ (u ++ y :: x :: v) fuelA
        (cstr_cells u (y :: x :: v) R hu hc))]
      simp only [bind_getBuf, rd_cells, bind_liftO_some, wr_cells, wr_cells_succ, bind_setBuf]
      rw [h]
      simp [swapCands]

/-! ## One substitution -/

theorem charCands_succ (u v : Str) (ch k : Nat) :
    charCands u v ch (k + 1) = (u ++ ch :: v) :: charCands u v (ch + 1) k := by
  simp [charCands, List.range'_succ]

theorem bumpChar_cells (u : Str) (ch : Nat) (v : Str) (R : Mem) :
    bumpChar (cells u (ch :: v) R) u.length
      = some (cells u ((ch + 1) % 256 :: v) R, decide ((ch + 1) % 256 = 127)) := by
  unfold bumpChar
  simp only [rd_cells, wr_cells]

theorem subClock_more (u : Str) (ch : Nat) (v : Str) (R : Mem) (log : List Ev)
    (h : ch + 1 ≤ 126) :
    subClock [u.length] 1 0 { buf := cells u (ch :: v) R, log := log }
      = (Except.ok true, { buf := cells u ((ch + 1) :: v) R, log := log }) := by
  unfold subClock
  have e1 : (ch + 1) % 256 = ch + 1 := by omega
  have e2 : ¬ (ch + 1 = 127) := by omega
  simp only [List.getElem?_cons_zero, bind_liftO_some, bind_getBuf, bumpChar_cells, e1, e2,
    decide_False, Bool.false_eq_true, if_false, bind_setBuf, pure_run]

theorem subClock_last (u : Str) (v : Str) (R : Mem) (log : List Ev) :
    subClock [u.length] 1 0 { buf := cells u (126 :: v) R, log := log }
      = (Except.ok false, { buf := cells u (32 :: v) R, log := log }) := by
  unfold subClock
  simp only [List.getElem?_cons_zero, bind_liftO_some, bind_getBuf, bumpChar_cells,
    Nat.reduceAdd, Nat.reduceMod, decide_True, if_true, wr_cells, bind_setBuf]
  unfold subClock
  rw [pure_run]

theorem subOdometer_one (j : Nat) (u : Str) (ch : Nat) (v : Str) (R : Mem) (log : List Ev)
    (fuelT fuel : Nat) (hu : NoNul u) (hv : NoNul v) (h1 : 1 ≤ ch) (hj : ch + j = 126)
    (hf : j + 1 ≤ fuel) :
    subOdometer rejectAll fuelT 1 0 0 0 [u.length] fuel
        { buf := cells u (ch :: v) R, log := log }
      = (Except.ok (),
          { buf := cells u (32 :: v) R,
            log := ((charCands u v ch (j + 1)).map Ev.test).reverse ++ log }) := by
  induction j generalizing ch log fuel with
  | zero =>
    obtain ⟨f, rfl⟩ : ∃ f, fuel = f + 1 := ⟨fuel - 1, by omega⟩
    have hch : ch = 126 := by omega
    subst hch
    unfold subOdometer
    rw [bind_ok (leaf_run _ (u ++ 126 :: v) fuelT
      (cstr_cells u (126 :: v) R hu (NoNul.cons (by omega) hv)))]
    rw [bind_ok (subClock_last u v R _)]
    simp [pure_run, charCands]
  | succ j ih =>
    obtain ⟨f, rfl⟩ : ∃ f, fuel = f + 1 := ⟨fuel - 1, by omega⟩
    unfold subOdometer
    rw [bind_ok (leaf_run _ (u ++ ch :: v) fuelT
      (cstr_cells u (ch :: v) R hu (NoNul.cons (by omega) hv)))]
    rw [bind_ok (subClock_more u ch v R _ (by omega))]
    simp only [if_true]
    rw [ih (ch + 1) _ f (by omega) (by omega) (by omega)]
    rw [charCands_succ u v ch (j + 1)]
    simp

theorem subRestore_one (u : Str) (c x : Nat) (v : Str) (R : Mem) (log : List Ev) :
    subRestore [u.length] [x] 1 0 { buf := cells u (c :: v) R, log := log }
      = (Except.ok (), { buf := cells u (x :: v) R, log := log }) := by
  unfold subRestore
  simp only [List.getElem?_cons_zero, bind_liftO_some, bind_getBuf, wr_cells, bind_setBuf]
  unfold subRestore
  rw [pure_run]

theorem subCarry_last (u : Str) (x : Nat) (R : Mem) (log : List Ev) :
    subCarry 0 [u.length] { buf := cells u [x] R, log := log }
      = (Except.ok ([u.length + 1], none), { buf := cells u [x] R, log := log }) := by
  unfold subCarry
  simp only [List.getElem?_cons_zero, bind_liftO_some, bind_getBuf, rd_cells_succ,
    List.headD_nil, if_true, List.set_cons_zero, pure_run]

theorem subCarry_more (u : Str) (x y : Nat) (v : Str) (R : Mem) (log : List Ev)
    (hy : y ≠ 0) :
    subCarry 0 [u.length] { buf := cells u (x :: y :: v) R, log := log }
      = (Except.ok ([u.length + 1], some 0),
          { buf := cells u (x :: y :: v) R, log := log }) := by
  unfold subCarry
  simp only [List.getElem?_cons_zero, bind_liftO_some, bind_getBuf, rd_cells_succ,
    List.headD_cons, hy, if_false, List.set_cons_zero, pure_run]

theorem subReinit_one (u : Str) (x y : Nat) (v : Str) (R : Mem) (log : List Ev) (sv : Nat) :
    subReinit 1 0 [u.length + 1] [sv] { buf := cells u (x :: y :: v) R, log := log }
      = (Except.ok ([u.length + 1], [y]),
          { buf := cells u (x :: 32 :: v) R, log := log }) := by
  unfold subReinit
  simp only [List.getElem?_cons_zero, bind_liftO_some, bind_getBuf, rd_cells_succ,
    List.headD_cons, wr_cells_succ, bind_setBuf, List.set_cons_zero, Nat.sub_self]
  unfold subInit
  rw [pure_run]

theorem subLoop_one (v : Str) (u : Str) (x : Nat) (R : Mem) (log : List Ev)
    (fuelT fuel : Nat) (hu : NoNul u) (hv : NoNul (x :: v)) (hT : 95 ≤ fuelT)
    (hf : v.length + 1 ≤ fuel) :
    subLoop rejectAll fuelT 1 0 0 0 fuel [u.length] [x]
        { buf := cells u (32 :: v) R, log := log }
      = (Except.ok (),
          { buf := cells u (x :: v) R,
            log := ((subCands u (x :: v)).map Ev.test).reverse ++ log }) := by
  induction v generalizing u x fuel log with
  | nil =>
    obtain ⟨f, rfl⟩ : ∃ f, fuel = f + 1 := ⟨fuel - 1, by simp at hf; omega⟩
    unfold subLoop
    rw [bind_ok (subOdometer_one 94 u 32 [] R log fuelT fuelT hu hv.tail (by omega) rfl hT)]
    rw [bind_ok (subRestore_one u 32 x [] R _)]
    rw [bind_ok (subCarry_last u x R _)]
    simp [pure_run, subCands]
  | cons y v ih =>
    obtain ⟨f, rfl⟩ : ∃ f, fuel = f + 1 := ⟨fuel - 1, by simp at hf; omega⟩
    unfold subLoop
    rw [bind_ok (subOdometer_one 94 u 32 (y :: v) R log fuelT fuelT hu hv.tail (by omega)
      rfl hT)]
    rw [bind_ok (subRestore_one u 32 x (y :: v) R _)]
    rw [bind_ok (subCarry_more u x y v R _ hv.tail.head)]
    simp only
    rw [bind_ok (subReinit_one u x y v R _ x)]
    simp only
    have h := ih (u ++ [x]) y (((charCands u (y :: v) 32 (94 + 1)).map Ev.test).reverse ++ log)
      f (hu.append (NoNul.cons hv.head (fun _ h => by cases h))) hv.tail
      (by simp at hf; omega)
    rw [cells_snoc, cells_snoc] at h
    simp only [List.length_append, List.length_singleton] at h
    rw [h]
    simp [subCands]

/-! ## One insertion -/

theorem bind_assoc {α β γ : Type} (x : M α) (f : α → M β) (g : β → M γ) (s : St) :
    M.bind (M.bind x f) g s = M.bind x (fun a => M.bind (f a) g) s := by
  simp only [M.bind]
  rcases x s with ⟨r, s1⟩
  cases r <;> rfl

theorem ptr_nat (p : Nat) : ptr (p : Int) = some p := by
  simp [ptr]

theorem mutatedPos_one (p : Nat) : mutatedPos [(p : Int)] 0 = some p := by
  simp [mutatedPos, ptr]

theorem cells_flat (u v : Str) (R : Mem) : cells u v R = cells [] (u ++ v) R := by
  simp [cells]

theorem bump_cells (u : Str) (ch : Nat) (v : Str) (R : Mem) :
    bump (cells u (ch :: v) R) u.length
      = some (cells u ((ch + 1) % 256 :: v) R, (ch + 1) % 256) := by
  unfold bump
  simp only [rd_cells, wr_cells]

theorem addsOpen_one (u v : Str) (R : Mem) (y : Option Nat) (log : List Ev) (hv : NoNul v) :
    addsOpen [(u.length : Int)] 1 { buf := cells u v (y :: R), log := log }
      = (Except.ok (), { buf := cells u ((v ++ [0]).headD 0 :: v) R, log := log }) := by
  unfold addsOpen
  simp only [List.getElem?_cons_zero, Option.some_bind, ptr_nat, bind_liftO_some, bind_getBuf,
    strlenAt_cells u v _ hv, memmove_right_cells, bind_setBuf]
  unfold addsOpen
  rw [pure_run]

theorem addsInit_one (u : Str) (c : Nat) (v : Str) (R : Mem) (log : List Ev) :
    addsInit [(u.length : Int)] 1 { buf := cells u (c :: v) R, log := log }
      = (Except.ok (), { buf := cells u (32 :: v) R, log := log }) := by
  unfold addsInit
  simp only [mutatedPos_one, bind_liftO_some, bind_getBuf, wr_cells, bind_setBuf]
  unfold addsInit
  rw [pure_run]

theorem addsClose_one (u : Str) (c : Nat) (v : Str) (R : Mem) (log : List Ev) (hv : NoNul v) :
    addsClose [(u.length : Int)] 1 { buf := cells u (c :: v) R, log := log }
      = (Except.ok (), { buf := cells u v (some 0 :: R), log := log }) := by
  unfold addsClose
  simp only [mutatedPos_one, bind_liftO_some, bind_getBuf, strlenAt_cells_succ u c v R hv,
    memmove_left_cells, bind_setBuf]
  unfold addsClose
  rw [pure_run]

theorem insChars_one (j : Nat) (u : Str) (ch : Nat) (v : Str) (R : Mem) (log : List Ev)
    (fuelD fuel : Nat) (hu : NoNul u) (hv : NoNul v) (h1 : 1 ≤ ch) (hj : ch + j = 126)
    (hf : j + 1 ≤ fuel) :
    searchIterateAtInsertions rejectAll fuelD 1 0 [(u.length : Int)] fuel
        { buf := cells u (ch :: v) R, log := log }
      = (Except.ok (),
          { buf := cells u (32 :: v) R,
            log := ((charCands u v ch (j + 1)).map Ev.test).reverse ++ log }) := by
  induction j generalizing ch log fuel with
  | zero =>
    obtain ⟨f, rfl⟩ : ∃ f, fuel = f + 1 := ⟨fuel - 1, by omega⟩
    have hch : ch = 126 := by omega
    subst hch
    unfold searchIterateAtInsertions
    rw [bind_ok (searchIterateDels_zero_run _ (u ++ 126 :: v) fuelD
      (cstr_cells u (126 :: v) R hu (NoNul.cons (by omega) hv)))]
    simp only [Nat.sub_self, mutatedPos_one, bind_liftO_some, bind_getBuf, bump_cells,
      Nat.reduceAdd, Nat.reduceMod, bind_setBuf, Nat.reduceLT, if_true]
    unfold insCarry
    simp only [bind_pure, Nat.sub_zero]
    unfold insReset
    simp only [bind_assoc, mutatedPos_one, bind_liftO_some, bind_getBuf, wr_cells, bind_setBuf]
    unfold insReset
    simp [bind_pure, pure_run, charCands]
  | succ j ih =>
    obtain ⟨f, rfl⟩ : ∃ f, fuel = f + 1 := ⟨fuel - 1, by omega⟩
    unfold searchIterateAtInsertions
    rw [bind_ok (searchIterateDels_zero_run _ (u ++ ch :: v) fuelD
      (cstr_cells u (ch :: v) R hu (NoNul.cons (by omega) hv)))]
    have e1 : (ch + 1) % 256 = ch + 1 := by omega
    have e2 : ¬ (126 < ch + 1) := by omega
    simp only [Nat.sub_self, mutatedPos_one, bind_liftO_some, bind_getBuf, bump_cells, e1,
      bind_setBuf, e2, if_false]
    rw [ih (ch + 1) _ f (by omega) (by omega) (by omega)]
    rw [charCands_succ u v ch (j + 1)]
    simp

theorem addsLoop_iter (u v : Str) (R : Mem) (y : Option Nat) (log : List Ev)
    (fuelD fuelI fuel len : Nat) (hu : NoNul u) (hv : NoNul v) (hI : 95 ≤ fuelI) :
    addsLoop rejectAll fuelD fuelI 1 0 len (fuel + 1) [(u.length : Int)]
        { buf := cells u v (y :: R), log := log }
      = addsLoop rejectAll fuelD fuelI 1 0 len fuel [(u.length : Int) - 1]
        { buf := cells u v (some 0 :: R),
          log := ((charCands u v 32 95).map Ev.test).reverse ++ log } := by
  rw [addsLoop]
  have hpos : ¬ ((u.length : Int) < 0) := by simp
  simp only [List.getElem?_cons_zero, bind_liftO_some, hpos, if_false]
  rw [bind_ok (addsOpen_one u v R y log hv)]
  rw [bind_ok (addsInit_one u _ v R log)]
  rw [bind_ok (insChars_one 94 u 32 v R log fuelD fuelI hu hv (by omega) rfl hI)]
  rw [bind_ok (addsClose_one u 32 v R _ hv)]
  simp only [Nat.sub_self, addsMove, List.getElem?_cons_zero, bind_liftO_some,
    List.set_cons_zero, lt_self_iff_false, if_false]

theorem addsLoop_exit (s : St) (fuelD fuelI fuel len : Nat) :
    addsLoop rejectAll fuelD fuelI 1 0 len (fuel + 1) [((0 : Nat) : Int) - 1] s
      = (Except.ok (), s) := by
  rw [addsLoop]
  have hneg : (((0 : Nat) : Int) - 1 < 0) := by simp
  simp only [List.getElem?_cons_zero, bind_liftO_some, hneg, if_true, pure_run]

theorem addsLoop_one (ur : Str) (v : Str) (R : Mem) (y : Option Nat) (log : List Ev)
    (fuelD fuelI fuel len : Nat) (hu : NoNul ur) (hv : NoNul v) (hI : 95 ≤ fuelI)
    (hf : ur.length + 2 ≤ fuel) :
    addsLoop rejectAll fuelD fuelI 1 0 len fuel [(ur.reverse.length : Int)]
        { buf := cells ur.reverse v (y :: R), log := log }
      = (Except.ok (),
          { buf := cells [] (ur.reverse ++ v) (some 0 :: R),
            log := ((insCands ur v).map Ev.test).reverse ++ log }) := by
  induction ur generalizing v R y log fuel with
  | nil =>
    obtain ⟨f, rfl⟩ : ∃ f, fuel = f + 2 := ⟨fuel - 2, by simp at hf; omega⟩
    rw [addsLoop_iter _ v R y log fuelD fuelI (f + 1) len (fun _ h => by cases h) hv hI]
    simp only [List.reverse_nil, List.length_nil]
    rw [addsLoop_exit]
    simp [insCands]
  | cons x ur ih =>
    obtain ⟨f, rfl⟩ : ∃ f, fuel = f + 1 := ⟨fuel - 1, by simp at hf; omega⟩
    have hur : NoNul (x :: ur).reverse := by
      intro c hc
      exact hu c (List.mem_reverse.1 hc)
    rw [addsLoop_iter _ v R y log fuelD fuelI f len hur hv hI]
    have hp : (((x :: ur).reverse).length : Int) - 1 = (ur.reverse.length : Int) := by
      simp
    rw [hp]
    have hb : cells (x :: ur).reverse v (some 0 :: R)
        = cells ur.reverse (x :: v) (some 0 :: R) := by
      rw [List.reverse_cons, cells_snoc]
    rw [hb]
    rw [ih (x :: v) R (some 0) _ f hu.tail (NoNul.cons hu.head hv) (by simp at hf; omega)]
    simp [insCands]

/-! ## The compositions of distance 0 and 1 -/

theorem memcpySeed_cells (seed : Str) (R : Mem) :
    memcpySeed (cells [] seed R) seed = cells [] seed R := by
  have h : List.drop (seed.length + 1) (List.map some seed ++ some 0 :: R) = R := by
    rw [show List.map some seed ++ some 0 :: R = (List.map some seed ++ [some 0]) ++ R by simp]
    rw [List.drop_left' (by simp)]
  simp [memcpySeed, cells, h]

theorem memcpySeed_fresh (seed : Str) :
    memcpySeed freshBuf seed
      = cells [] seed (List.replicate (BUF_LEN - (seed.length + 1)) none) := by
  simp [memcpySeed, cells, freshBuf]

theorem copySeed_run (seed : Str) (s : St) :
    copySeed seed s = (Except.ok (), { s with buf := memcpySeed s.buf seed }) := by
  simp only [copySeed]

theorem announce_run (e t a d : Nat) (s : St) :
    announce e t a d s = (Except.ok (), { s with log := Ev.comp e t a d :: s.log }) := by
  simp only [announce]

theorem generate_zero (seed : Str) (fuel : Nat) (B R : Mem) (log : List Ev)
    (hs : NoNul seed) (hB : memcpySeed B seed = cells [] seed R) :
    generate rejectAll fuel seed 0 0 0 0 { buf := B, log := log }
      = (Except.ok (), { buf := cells [] seed R, log := Ev.test seed :: log }) := by
  unfold generate
  rw [bind_ok (copySeed_run seed _)]
  simp only [if_true, hB]
  have := leaf_run { buf := cells [] seed R, log := log } seed fuel
    (by simpa using cstr_cells [] seed R (fun _ h => by cases h) hs)
  rw [this]

theorem generate_del (x : Nat) (v : Str) (fuel : Nat) (B R : Mem) (log : List Ev)
    (hs : NoNul (x :: v)) (hf : v.length + 1 ≤ fuel)
    (hB : memcpySeed B (x :: v) = cells [] (x :: v) R) :
    generate rejectAll fuel (x :: v) 0 0 0 1 { buf := B, log := log }
      = (Except.ok (),
          { buf := cells [] (x :: v) R,
            log := ((delCands [] (x :: v)).map Ev.test).reverse ++ log }) := by
  unfold generate
  rw [bind_ok (copySeed_run _ _)]
  simp only [if_true, hB]
  unfold searchIterateTrans
  simp only [if_true]
  unfold searchIterateAdds
  have hl := strlenAt_cells_zero [] (x :: v) R (fun _ h => by cases h) hs
  simp only [bind_getBuf, hl, bind_liftO_some, if_true]
  unfold searchIterateDels
  have h1 : ¬ (1 > MAX_PWD_LEN) := by decide
  simp only [one_ne_zero, if_false, h1]
  have := delsLoop_one v [] x R log 0 fuel (fun _ h => by cases h) hs hf
  simpa using this

theorem generate_swap (seed : Str) (fuel : Nat) (B R : Mem) (log : List Ev)
    (hs : NoNul seed) (hf : seed.length + 1 ≤ fuel)
    (hB : memcpySeed B seed = cells [] seed R) :
    generate rejectAll fuel seed 0 1 0 0 { buf := B, log := log }
      = (Except.ok (),
          { buf := cells [] seed R,
            log := ((swapCands [] seed).map Ev.test).reverse ++ log }) := by
  unfold generate
  rw [bind_ok (copySeed_run _ _)]
  simp only [if_true, hB]
  unfold searchIterateTrans
  simp only [one_ne_zero, if_false]
  unfold transOuter
  simp only [if_true, bind_pure]
  obtain ⟨arr, h⟩ := transInner_one seed [] R log fuel fuel (List.replicate MAX_PWD_LEN none)
    (fun _ h => by cases h) hs hf
  simp only [List.length_nil] at h
  rw [bind_ok h]
  unfold transOuter
  rw [pure_run]

theorem generate_sub (x : Nat) (v : Str) (fuel : Nat) (B R : Mem) (log : List Ev)
    (hs : NoNul (x :: v)) (hf : v.length + 1 ≤ fuel) (hT : 95 ≤ fuel)
    (hB : memcpySeed B (x :: v) = cells [] (x :: v) R) :
    generate rejectAll fuel (x :: v) 1 0 0 0 { buf := B, log := log }
      = (Except.ok (),
          { buf := cells [] (x :: v) R,
            log := ((subCands [] (x :: v)).map Ev.test).reverse ++ log }) := by
  unfold generate
  rw [bind_ok (copySeed_run _ _)]
  have h1 : ¬ (1 > MAX_PWD_LEN) := by decide
  simp only [one_ne_zero, if_false, h1, hB]
  unfold subInit
  have hr := rd_cells [] x v R
  have hw := wr_cells [] x v R 32
  simp only [List.length_nil] at hr hw
  simp only [bind_assoc, if_true, bind_pure, bind_getBuf, hr, hw, bind_liftO_some, bind_setBuf]
  unfold subInit
  simp only [bind_pure]
  have := subLoop_one v [] x R log fuel fuel (fun _ h => by cases h) hs hT hf
  simpa using this

theorem generate_ins (seed : Str) (fuel : Nat) (B R : Mem) (y : Option Nat) (log : List Ev)
    (hs : NoNul seed) (hf : seed.length + 2 ≤ fuel) (hT : 95 ≤ fuel)
    (hn : seed.length + 1 < MAX_PWD_LEN)
    (hB : memcpySeed B seed = cells [] seed (y :: R)) :
    generate rejectAll fuel seed 0 0 1 0 { buf := B, log := log }
      = (Except.ok (),
          { buf := cells [] seed (some 0 :: R),
            log := ((insCands seed.reverse []).map Ev.test).reverse ++ log }) := by
  unfold generate
  rw [bind_ok (copySeed_run _ _)]
  simp only [if_true, hB]
  unfold searchIterateTrans
  simp only [if_true]
  unfold searchIterateAdds
  have hl := strlenAt_cells_zero [] seed (y :: R) (fun _ h => by cases h) hs
  have h1 : ¬ (1 + seed.length ≥ MAX_PWD_LEN) := by omega
  simp only [List.length_nil, Nat.zero_add] at hl
  simp only [bind_getBuf, hl, bind_liftO_some, one_ne_zero, if_false, h1,
    List.replicate_one]
  have h := addsLoop_one seed.reverse [] R y log fuel fuel fuel seed.length
    (fun c hc => hs c (List.mem_reverse.1 hc)) (fun _ h => by cases h) hT
    (by simpa using hf)
  simp only [List.reverse_reverse, List.append_nil] at h
  rw [cells_flat seed [] (y :: R)] at h
  simp only [List.append_nil] at h
  exact h

theorem bind_announce {β : Type} (e t a d : Nat) (f : Unit → M β) (s : St) :
    M.bind (announce e t a d) f s = f () { s with log := Ev.comp e t a d :: s.log } := by
  rw [bind_ok (announce_run e t a d s)]

theorem loopAdds_succ (gen : Gen) (D e t k a : Nat) :
    loopAdds gen D e t (k + 1) a =
      if a + t + e ≤ D then
        M.bind (announce e t a (D - a - t - e)) fun _ =>
        M.bind (gen e t a (D - a - t - e)) fun _ => loopAdds gen D e t k (a + 1)
      else M.pure () := by
  rw [loopAdds]

theorem loopTrans_succ (gen : Gen) (D e k t : Nat) :
    loopTrans gen D e (k + 1) t =
      if t + e ≤ D then
        M.bind (loopAdds gen D e t (D + 2) 0) fun _ => loopTrans gen D e k (t + 1)
      else M.pure () := by
  rw [loopTrans]

theorem loopEdits_succ (gen : Gen) (D k e : Nat) :
    loopEdits gen D (k + 1) e =
      if e ≤ D then
        M.bind (loopTrans gen D e (D + 2) 0) fun _ => loopEdits gen D k (e + 1)
      else M.pure () := by
  rw [loopEdits]

theorem loopAdds_go (gen : Gen) (D e t k a : Nat) (h : a + t + e ≤ D) :
    loopAdds gen D e t (k + 1) a =
      M.bind (announce e t a (D - a - t - e)) fun _ =>
      M.bind (gen e t a (D - a - t - e)) fun _ => loopAdds gen D e t k (a + 1) := by
  rw [loopAdds_succ, if_pos h]

theorem loopAdds_stop (gen : Gen) (D e t k a : Nat) (h : ¬ a + t + e ≤ D) :
    loopAdds gen D e t (k + 1) a = M.pure () := by
  rw [loopAdds_succ, if_neg h]

theorem loopTrans_go (gen : Gen) (D e k t : Nat) (h : t + e ≤ D) :
    loopTrans gen D e (k + 1) t =
      M.bind (loopAdds gen D e t (D + 2) 0) fun _ => loopTrans gen D e k (t + 1) := by
  rw [loopTrans_succ, if_pos h]

theorem loopTrans_stop (gen : Gen) (D e k t : Nat) (h : ¬ t + e ≤ D) :
    loopTrans gen D e (k + 1) t = M.pure () := by
  rw [loopTrans_succ, if_neg h]

theorem loopEdits_go (gen : Gen) (D k e : Nat) (h : e ≤ D) :
    loopEdits gen D (k + 1) e =
      M.bind (loopTrans gen D e (D + 2) 0) fun _ => loopEdits gen D k (e + 1) := by
  rw [loopEdits_succ, if_pos h]

theorem loopEdits_stop (gen : Gen) (D k e : Nat) (h : ¬ e ≤ D) :
    loopEdits gen D (k + 1) e = M.pure () := by
  rw [loopEdits_succ, if_neg h]

theorem loopEdits_zero_run (gen : Gen) (s0 s1 : St)
    (h1 : gen 0 0 0 0 { s0 with log := Ev.comp 0 0 0 0 :: s0.log } = (Except.ok (), s1)) :
    loopEdits gen 0 2 0 s0 = (Except.ok (), s1) := by
  have e1 : loopEdits gen 0 2 0 = _ := loopEdits_go gen 0 1 0 (by decide)
  have e2 : loopEdits gen 0 1 1 = _ := loopEdits_stop gen 0 0 1 (by decide)
  have t1 : loopTrans gen 0 0 2 0 = _ := loopTrans_go gen 0 0 1 0 (by decide)
  have t2 : loopTrans gen 0 0 1 1 = _ := loopTrans_stop gen 0 0 0 1 (by decide)
  have a1 : loopAdds gen 0 0 0 2 0 = _ := loopAdds_go gen 0 0 0 1 0 (by decide)
  have a2 : loopAdds gen 0 0 0 1 1 = _ := loopAdds_stop gen 0 0 0 0 1 (by decide)
  simp only [e1, e2, t1, t2, a1, a2, Nat.reduceAdd, Nat.reduceSub, bind_assoc,
    bind_announce, bind_pure]
  rw [bind_ok h1]
  simp only [bind_pure, pure_run]

theorem loopEdits_one_run (gen : Gen) (s0 s1 s2 s3 s4 : St)
    (h1 : gen 0 0 0 1 { s0 with log := Ev.comp 0 0 0 1 :: s0.log } = (Except.ok (), s1))
    (h2 : gen 0 0 1 0 { s1 with log := Ev.comp 0 0 1 0 :: s1.log } = (Except.ok (), s2))
    (h3 : gen 0 1 0 0 { s2 with log := Ev.comp 0 1 0 0 :: s2.log } = (Except.ok (), s3))
    (h4 : gen 1 0 0 0 { s3 with log := Ev.comp 1 0 0 0 :: s3.log } = (Except.ok (), s4)) :
    loopEdits gen 1 3 0 s0 = (Except.ok (), s4) := by
  have e1 : loopEdits gen 1 3 0 = _ := loopEdits_go gen 1 2 0 (by decide)
  have e2 : loopEdits gen 1 2 1 = _ := loopEdits_go gen 1 1 1 (by decide)
  have e3 : loopEdits gen 1 1 2 = _ := loopEdits_stop gen 1 0 2 (by decide)
  have t1 : loopTrans gen 1 0 3 0 = _ := loopTrans_go gen 1 0 2 0 (by decide)
  have t2 : loopTrans gen 1 0 2 1 = _ := loopTrans_go gen 1 0 1 1 (by decide)
  have t3 : loopTrans gen 1 0 1 2 = _ := loopTrans_stop gen 1 0 0 2 (by decide)
  have t4 : loopTrans gen 1 1 3 0 = _ := loopTrans_go gen 1 1 2 0 (by decide)
  have t5 : loopTrans gen 1 1 2 1 = _ := loopTrans_stop gen 1 1 1 1 (by decide)
  have a1 : loopAdds gen 1 0 0 3 0 = _ := loopAdds_go gen 1 0 0 2 0 (by decide)
  have a2 : loopAdds gen 1 0 0 2 1 = _ := loopAdds_go gen 1 0 0 1 1 (by decide)
  have a3 : loopAdds gen 1 0 0 1 2 = _ := loopAdds_stop gen 1 0 0 0 2 (by decide)
  have a4 : loopAdds gen 1 0 1 3 0 = _ := loopAdds_go gen 1 0 1 2 0 (by decide)
  have a5 : loopAdds gen 1 0 1 2 1 = _ := loopAdds_stop gen 1 0 1 1 1 (by decide)
  have a6 : loopAdds gen 1 1 0 3 0 = _ := loopAdds_go gen 1 1 0 2 0 (by decide)
  have a7 : loopAdds gen 1 1 0 2 1 = _ := loopAdds_stop gen 1 1 0 1 1 (by decide)
  simp only [e1, e2, e3, t1, t2, t3, t4, t5, a1, a2, a3, a4, a5, a6, a7, Nat.reduceAdd,
    Nat.reduceSub, bind_assoc, bind_announce, bind_pure]
  rw [bind_ok h1]
  try simp only [bind_assoc, bind_pure, bind_announce]
  rw [bind_ok h2]
  try simp only [bind_assoc, bind_pure, bind_announce]
  rw [bind_ok h3]
  try simp only [bind_assoc, bind_pure, bind_announce]
  rw [bind_ok h4]
  try simp only [bind_assoc, bind_pure, pure_run]

theorem loopEdits_one_real (x : Nat) (v : Str) (fuel : Nat) (B R : Mem) (y : Option Nat)
    (log : List Ev) (hs : NoNul (x :: v)) (hf : v.length + 3 ≤ fuel) (hT : 95 ≤ fuel)
    (hn : v.length + 2 < MAX_PWD_LEN)
    (hB : memcpySeed B (x :: v) = cells [] (x :: v) (y :: R)) :
    loopEdits (generate rejectAll fuel (x :: v)) 1 3 0 { buf := B, log := log }
      = (Except.ok (),
          { buf := cells [] (x :: v) (some 0 :: R), log := logOne (x :: v) log }) := by
  apply loopEdits_one_run
  · exact generate_del x v fuel B (y :: R) _ hs (by omega) hB
  · exact generate_ins (x :: v) fuel _ R y _ hs (by simpa using hf) hT
      (by simpa using hn) (memcpySeed_cells _ _)
  · exact generate_swap (x :: v) fuel _ (some 0 :: R) _ hs (by simp; omega)
      (memcpySeed_cells _ _)
  · exact generate_sub x v fuel _ (some 0 :: R) _ hs (by omega) hT (memcpySeed_cells _ _)

theorem freshBuf_split (seed : Str) (h : seed.length + 2 ≤ BUF_LEN) :
    ∃ R, memcpySeed freshBuf seed = cells [] seed (none :: R) := by
  rw [memcpySeed_fresh]
  obtain ⟨k, hk⟩ : ∃ k, BUF_LEN - (seed.length + 1) = k + 1 :=
    ⟨BUF_LEN - (seed.length + 1) - 1, by omega⟩
  rw [hk, List.replicate_succ]
  exact ⟨_, rfl⟩

/-- The run with the fixed distance 1 and the rejecting oracle. -/
theorem runSearch_one (x : Nat) (v : Str) (fuel : Nat) (hs : NoNul (x :: v))
    (hn : v.length + 1 ≤ 50) (hf : v.length + 3 ≤ fuel) (hT : 95 ≤ fuel) :
    runSearch rejectAll fuel (x :: v) 1 = (Outcome.notFound, (logOne (x :: v) []).reverse) := by
  obtain ⟨R, hR⟩ := freshBuf_split (x :: v) (by simp [BUF_LEN, MAX_PWD_LEN]; omega)
  have hl := loopEdits_one_real x v fuel freshBuf R none [] hs hf hT
    (by simp [MAX_PWD_LEN]; omega) hR
  have hlen : ¬ ((x :: v).length > MAX_PWD_LEN / 2) := by
    simp [MAX_PWD_LEN]; omega
  have hd : ¬ ((1 : Int) < 0) := by decide
  have hd2 : (if (1 : Int) < 0 then 0 else (1 : Int).toNat) = 1 := by decide
  unfold runSearch
  rw [hd2]
  have hdepth : (x :: v).length + 2 = (v.length + 2) + 1 := by simp
  rw [hdepth]
  unfold search
  simp only [hlen, if_false, testSeed, one_ne_zero, false_and, bind_pure, hl, hd, and_false]

theorem mem_delCands (u : Str) (x : Nat) (v p : Str) :
    p ++ u ++ v ∈ delCands p (u ++ x :: v) := by
  induction u generalizing p with
  | nil => simp [delCands]
  | cons a u ih =>
    have := ih (p ++ [a])
    simp only [List.cons_append, delCands, List.mem_cons]
    right
    simpa using this

theorem swapCands_cons (p : Str) (a b : Nat) (r : Str) :
    swapCands p (a :: b :: r) = (p ++ b :: a :: r) :: swapCands (p ++ [a]) (b :: r) := by
  simp [swapCands]

theorem mem_swapCands (u : Str) (x y : Nat) (v p : Str) :
    p ++ u ++ y :: x :: v ∈ swapCands p (u ++ x :: y :: v) := by
  induction u generalizing p with
  | nil => simp [swapCands]
  | cons a u ih =>
    have := ih (p ++ [a])
    obtain ⟨b, r, hbr⟩ : ∃ b r, u ++ x :: y :: v = b :: r := by
      cases u with
      | nil => exact ⟨x, y :: v, rfl⟩
      | cons b u1 => exact ⟨b, u1 ++ x :: y :: v, rfl⟩
    rw [List.cons_append, hbr, swapCands_cons]
    rw [hbr] at this
    right
    simpa using this

theorem mem_charCands (u v : Str) (c : Nat) (hc : 32 ≤ c ∧ c ≤ 126) :
    u ++ c :: v ∈ charCands u v 32 95 := by
  unfold charCands
  rw [List.mem_map]
  exact ⟨c, by rw [List.mem_range']; exact ⟨c - 32, by omega, by omega⟩, rfl⟩

theorem mem_subCands (u : Str) (x : Nat) (v p : Str) (c : Nat) (hc : 32 ≤ c ∧ c ≤ 126) :
    p ++ u ++ c :: v ∈ subCands p (u ++ x :: v) := by
  induction u generalizing p with
  | nil =>
    simp only [List.append_nil, List.nil_append, subCands, List.mem_append]
    left
    exact mem_charCands p v c hc
  | cons a u ih =>
    have := ih (p ++ [a])
    simp only [List.cons_append, subCands, List.mem_append]
    right
    simpa using this

theorem insCands_head (ur w : Str) :
    ∀ z, z ∈ charCands ur.reverse w 32 95 → z ∈ insCands ur w := by
  intro z hz
  cases ur with
  | nil => simpa [insCands] using hz
  | cons a ur =>
    simp only [insCands, List.mem_append]
    left
    exact hz

theorem mem_insCands (vr ur w : Str) (c : Nat) (hc : 32 ≤ c ∧ c ≤ 126) :
    ur.reverse ++ c :: (vr.reverse ++ w) ∈ insCands (vr ++ ur) w := by
  induction vr generalizing w with
  | nil =>
    apply insCands_head
    simpa using mem_charCands ur.reverse w c hc
  | cons a vr ih =>
    have := ih (a :: w)
    simp only [List.cons_append, insCands, List.mem_append]
    right
    simpa using this

theorem oneEdit_tested (s x : Str) (h : OneEdit s x) :
    x ∈ testedOf (logOne s (logZero s)).reverse := by
  rw [mem_testedOf, List.mem_reverse]
  unfold logOne
  cases h with
  | del u a v hs =>
    subst hs
    have := mem_delCands u a v []
    simp only [List.mem_append, List.mem_cons, List.mem_reverse, List.mem_map]
    right; right; right; right; right; right; left
    exact ⟨u ++ v, by simpa using this, rfl⟩
  | ins u v c hs hc =>
    subst hs
    have := mem_insCands v.reverse u.reverse [] c hc
    simp only [List.mem_append, List.mem_cons, List.mem_reverse, List.mem_map]
    right; right; right; right; left
    exact ⟨u ++ c :: v, by simpa using this, rfl⟩
  | swap u a b v hs =>
    subst hs
    have := mem_swapCands u a b v []
    simp only [List.mem_append, List.mem_cons, List.mem_reverse, List.mem_map]
    right; right; left
    exact ⟨u ++ b :: a :: v, by simpa using this, rfl⟩
  | sub u a v c hs hc =>
    subst hs
    have := mem_subCands u a v [] c hc
    simp only [List.mem_append, List.mem_cons, List.mem_reverse, List.mem_map]
    left
    exact ⟨u ++ c :: v, by simpa using this, rfl⟩

/-- With no fixed distance and the rejecting oracle, the log of the run
from a non-empty seed of at most 50 characters goes through the events of
distance 0 and distance 1. -/
theorem search_upto_one (x : Nat) (v : Str) (fuel : Nat) (hs : NoNul (x :: v))
    (hn : v.length + 1 ≤ 50) (hf : v.length + 3 ≤ fuel) (hT : 95 ≤ fuel) :
    ∃ evs, (search rejectAll (generate rejectAll fuel (x :: v)) (x :: v) (-1)
        ((x :: v).length + 2) 0 []).2 = evs ++ logOne (x :: v) (logZero (x :: v)) := by
  obtain ⟨R, hR⟩ := freshBuf_split (x :: v) (by simp [BUF_LEN, MAX_PWD_LEN]; omega)
  have hlen : ¬ ((x :: v).length > MAX_PWD_LEN / 2) := by
    simp [MAX_PWD_LEN]; omega
  have hd : ((-1 : Int) ≤ 0) := by decide
  have hd2 : ((-1 : Int) < 0) := by decide
  have hpos : 0 < (x :: v).length := by simp
  -- distance 0
  have h0 : M.bind (testSeed rejectAll (x :: v) (-1) 0)
      (fun _ => loopEdits (generate rejectAll fuel (x :: v)) 0 (0 + 2) 0)
      { buf := freshBuf, log := [] }
      = (Except.ok (), { buf := cells [] (x :: v) (none :: R), log := logZero (x :: v) }) := by
    unfold testSeed
    simp only [hd, and_self, if_true, bind_assoc]
    rw [bind_ok (copySeed_run _ _)]
    simp only [hR]
    rw [bind_ok (testAndThrow_reject _ (x :: v)
      (by simpa using cstr_cells [] (x :: v) _ (fun _ h => by cases h) hs))]
    exact loopEdits_zero_run _ _ _
      (generate_zero (x :: v) fuel _ (none :: R) _ hs (memcpySeed_cells _ _))
  -- distance 1
  have h1 : M.bind (testSeed rejectAll (x :: v) (-1) (0 + 1))
      (fun _ => loopEdits (generate rejectAll fuel (x :: v)) (0 + 1) (0 + 1 + 2) 0)
      { buf := freshBuf, log := logZero (x :: v) }
      = (Except.ok (),
          { buf := cells [] (x :: v) (some 0 :: R),
            log := logOne (x :: v) (logZero (x :: v)) }) := by
    unfold testSeed
    simp only [Nat.zero_add, one_ne_zero, false_and, if_false, bind_pure]
    exact loopEdits_one_real x v fuel freshBuf R none _ hs hf hT
      (by simp [MAX_PWD_LEN]; omega) hR
  have hdepth : (x :: v).length + 2 = (v.length + 1 + 1) + 1 := by simp
  rw [hdepth]
  rw [search]
  simp only [hlen, if_false, h0, hpos, hd2, and_self, if_true]
  rw [search]
  simp only [hlen, if_false, h1]
  by_cases hc : 0 + 1 < (x :: v).length ∧ (-1 : Int) < 0
  · rw [if_pos hc]
    obtain ⟨evs, he, _⟩ := sim_search rejectAll (generate rejectAll fuel (x :: v))
      (generate rejectAll fuel (x :: v)) (fun e t a d => sim_generate rejectAll fuel _ e t a d)
      (x :: v) (-1) (v.length + 1) (0 + 1 + 1) (logOne (x :: v) (logZero (x :: v)))
    exact ⟨evs, he⟩
  · rw [if_neg hc]
    exact ⟨[], rfl⟩

/-! ## The oracle under dry-run -/

theorem oracleOf_dryrun (cfg : Config) (hc : cfg.checkCmd = true) (hd : cfg.dryrun = true)
    (hm : cfg.matchStr ≠ []) : oracleOf cfg = rejectAll := by
  funext pwd
  simp [oracleOf, testMatch, execAndCapture, hc, hd, strFind, hm, rejectAll]

theorem reportedOf_dryrun (cfg : Config) (hc : cfg.checkCmd = true) (hd : cfg.dryrun = true)
    (evs : List Ev) : reportedOf cfg evs = testedOf evs := by
  unfold reportedOf effectsOf
  induction testedOf evs with
  | nil => rfl
  | cons c r ih =>
    simp only [List.flatMap_cons, List.filterMap_append, ih]
    simp [testMatch, execAndCapture, hc, hd]

/-! ## The candidates of distance 1, by index -/

theorem charCands_printable (u v : Str) :
    charCands u v 32 95 = printable.map fun c => u ++ c :: v := by
  unfold charCands printable
  rw [List.range'_eq_map_range]

theorem delAt_split (u : Str) (x : Nat) (v : Str) : delAt (u ++ x :: v) u.length = u ++ v := by
  unfold delAt
  rw [List.eraseIdx_append_of_length_le (le_refl _)]
  simp

theorem subAt_split (u : Str) (x : Nat) (v : Str) (c : Nat) :
    subAt (u ++ x :: v) u.length c = u ++ c :: v := by
  unfold subAt
  simp

theorem swapAt_split (u : Str) (x y : Nat) (v : Str) :
    swapAt (u ++ x :: y :: v) u.length = u ++ y :: x :: v := by
  unfold swapAt
  have e1 : List.drop (u.length + 1) (u ++ x :: y :: v) = y :: v := by
    rw [show u ++ x :: y :: v = (u ++ [x]) ++ (y :: v) by simp]
    rw [List.drop_left' (by simp)]
  have e2 : List.drop (u.length + 2) (u ++ x :: y :: v) = v := by
    rw [show u ++ x :: y :: v = (u ++ [x, y]) ++ v by simp]
    rw [List.drop_left' (by simp)]
  rw [e1, e2]
  simp

theorem insAt_split (u v : Str) (c : Nat) : insAt (u ++ v) u.length c = u ++ c :: v := by
  unfold insAt
  simp

theorem delCands_eq (v u : Str) :
    delCands u v = (List.range v.length).map fun i => delAt (u ++ v) (u.length + i) := by
  induction v generalizing u with
  | nil => simp [delCands]
  | cons x v ih =>
    rw [delCands, ih (u ++ [x]), List.length_cons, List.range_succ_eq_map, List.map_cons,
      List.map_map]
    congr 1
    · exact (delAt_split u x v).symm
    · apply List.map_congr_left
      intro i _
      simp only [Function.comp, List.length_append, List.length_singleton, List.append_assoc,
        List.singleton_append]
      congr 1
      omega

theorem subCands_eq (v u : Str) :
    subCands u v = (List.range v.length).flatMap fun i =>
      printable.map (subAt (u ++ v) (u.length + i)) := by
  induction v generalizing u with
  | nil => simp [subCands]
  | cons x v ih =>
    rw [subCands, ih (u ++ [x]), List.length_cons, List.range_succ_eq_map, List.flatMap_cons,
      List.flatMap_map, charCands_printable]
    congr 1
    · apply List.map_congr_left
      intro c _
      exact (subAt_split u x v c).symm
    · congr 1
      funext i
      simp only [List.length_append, List.length_singleton, List.append_assoc,
        List.singleton_append]
      have : u.length + 1 + i = u.length + (i + 1) := by omega
      rw [this]

theorem swapCands_eq (v u : Str) :
    swapCands u v = (List.range (v.length - 1)).map fun i => swapAt (u ++ v) (u.length + i) := by
  induction v generalizing u with
  | nil => simp [swapCands]
  | cons x v ih =>
    cases v with
    | nil => simp [swapCands]
    | cons y v =>
      rw [swapCands_cons, ih (u ++ [x])]
      simp only [List.length_cons, Nat.add_sub_cancel]
      rw [List.range_succ_eq_map, List.map_cons, List.map_map]
      congr 1
      · exact (swapAt_split u x y v).symm
      · apply List.map_congr_left
        intro i _
        simp only [Function.comp, List.length_append, List.length_singleton,
          List.append_assoc, List.singleton_append]
        congr 1
        omega

theorem insCands_eq (ur w : Str) :
    insCands ur w = (List.range (ur.length + 1)).reverse.flatMap fun p =>
      printable.map (insAt (ur.reverse ++ w) p) := by
  induction ur generalizing w with
  | nil =>
    simp only [insCands, charCands_printable, List.length_nil, Nat.zero_add, show List.range 1 = [0] from rfl,
      List.reverse_singleton, List.flatMap_cons, List.flatMap_nil, List.append_nil,
      List.reverse_nil, List.nil_append]
    apply List.map_congr_left
    intro c _
    simp [insAt]
  | cons a ur ih =>
    rw [insCands, ih (a :: w), charCands_printable]
    rw [List.range_succ (n := (a :: ur).length), List.reverse_append, List.reverse_singleton,
      List.singleton_append, List.flatMap_cons]
    congr 1
    · apply List.map_congr_left
      intro c _
      have := insAt_split (a :: ur).reverse w c
      rw [List.length_reverse] at this
      exact this.symm
    · simp only [List.length_cons, List.reverse_cons, List.append_assoc, List.singleton_append]

theorem length_printable : printable.length = 95 := by
  simp [printable]

theorem sum_length_const (l : List Nat) (g : Nat → List Str) (k : Nat)
    (h : ∀ p, (g p).length = k) : (l.map (List.length ∘ g)).sum = k * l.length := by
  induction l with
  | nil => simp
  | cons a r ih =>
    simp only [List.map_cons, List.sum_cons, Function.comp, h, List.length_cons]
    simp only [Function.comp] at ih
    rw [ih]
    ring

theorem length_distanceOneCandidates (s : Str) (h : 1 ≤ s.length) :
    (distanceOneCandidates s).length = 192 * s.length + 94 := by
  unfold distanceOneCandidates
  simp only [List.length_append, List.length_map, List.length_range, List.length_flatMap]
  rw [sum_length_const _ (fun p => List.map (insAt s p) printable) 95
      (fun p => by simp [length_printable]),
    sum_length_const _ (fun i => List.map (subAt s i) printable) 95
      (fun p => by simp [length_printable])]
  simp only [List.length_reverse, List.length_range]
  omega

theorem testedOf_map_test (l : List Str) : testedOf (l.map Ev.test) = l := by
  induction l with
  | nil => rfl
  | cons c r ih => simp [testedOf, ih]

theorem testedOf_logOne (s : Str) :
    testedOf (logOne s []).reverse
      = delCands [] s ++ (insCands s.reverse [] ++ (swapCands [] s ++ subCands [] s)) := by
  unfold logOne
  simp [testedOf_append, testedOf, testedOf_map_test]

theorem cands_distanceOne (s : Str) :
    delCands [] s ++ (insCands s.reverse [] ++ (swapCands [] s ++ subCands [] s))
      = distanceOneCandidates s := by
  unfold distanceOneCandidates
  rw [delCands_eq, insCands_eq, swapCands_eq, subCands_eq]
  simp only [List.length_nil, Nat.zero_add, List.nil_append, List.length_reverse,
    List.reverse_reverse, List.append_nil]

/-! ## Repeated candidates -/

theorem delCands_shape (v p z : Str) (h : z ∈ delCands p v) : ∃ t, z = p ++ t := by
  induction v generalizing p with
  | nil => simp [delCands] at h
  | cons x v ih =>
    simp only [delCands, List.mem_cons] at h
    rcases h with h | h
    · exact ⟨v, h⟩
    · obtain ⟨t, ht⟩ := ih (p ++ [x]) h
      exact ⟨x :: t, by rw [ht]; simp⟩

theorem swapCands_shape (v p z : Str) (h : z ∈ swapCands p v) : ∃ t, z = p ++ t := by
  induction v generalizing p with
  | nil => simp [swapCands] at h
  | cons x v ih =>
    cases v with
    | nil => simp [swapCands] at h
    | cons y v =>
      rw [swapCands_cons] at h
      simp only [List.mem_cons] at h
      rcases h with h | h
      · exact ⟨y :: x :: v, h⟩
      · obtain ⟨t, ht⟩ := ih (p ++ [x]) h
        exact ⟨x :: t, by rw [ht]; simp⟩

theorem nodup_delCands (v u : Str) (h : List.Chain' (fun a b => a ≠ b) v) :
    (delCands u v).Nodup := by
  induction v generalizing u with
  | nil => simp [delCands]
  | cons x v ih =>
    rw [delCands, List.nodup_cons]
    refine ⟨?_, ih (u ++ [x]) (List.Chain'.tail h)⟩
    intro hm
    obtain ⟨t, ht⟩ := delCands_shape v (u ++ [x]) _ hm
    have hv : v = x :: t := by
      have : u ++ v = u ++ (x :: t) := by rw [ht]; simp
      exact List.append_cancel_left this
    rw [hv] at h
    exact (List.chain'_cons.1 h).1 rfl

theorem nodup_swapCands (v u : Str) (h : List.Chain' (fun a b => a ≠ b) v) :
    (swapCands u v).Nodup := by
  induction v generalizing u with
  | nil => simp [swapCands]
  | cons x v ih =>
    cases v with
    | nil => simp [swapCands]
    | cons y v =>
      rw [swapCands_cons, List.nodup_cons]
      refine ⟨?_, ih (u ++ [x]) (List.Chain'.tail h)⟩
      intro hm
      obtain ⟨t, ht⟩ := swapCands_shape (y :: v) (u ++ [x]) _ hm
      have hv : y :: x :: v = x :: t := by
        have : u ++ (y :: x :: v) = u ++ (x :: t) := by rw [ht]; simp
        exact List.append_cancel_left this
      injection hv with hyx _
      exact (List.chain'_cons.1 h).1 hyx.symm

theorem memcpySeed_any (B : Mem) (seed : Str) :
    memcpySeed B seed = cells [] seed (B.drop (seed.length + 1)) := by
  simp [memcpySeed, cells]

/-! ## A fixed distance -/

theorem sim_grows {o : Oracle} {α : Type} {x y : M α} (h : Sim o x y) (s : St) :
    ∃ evs, (x s).2.log = evs ++ s.log := by
  unfold Sim at h
  obtain ⟨evs, hlog, _, h1⟩ := h s
  rcases h1 with ⟨_, hxy⟩ | ⟨c, post, pre, _, _, _, _, hxl⟩
  · exact ⟨evs, hxy ▸ hlog⟩
  · exact ⟨Ev.test c :: pre, by rw [hxl]⟩

theorem emits_testSeed (o : Oracle) (seed : Str) (distance : Int) (editDistance : Nat) :
    Emits (testSeed o seed distance editDistance) [] := by
  unfold testSeed
  split
  · exact emits_bind_nil (emits_of_silent (silent_copySeed _)) (fun _ => emits_testAndThrow o)
  · exact emits_of_silent (silent_pure _)

theorem search_fixed (o : Oracle) (gen : Gen) (seed : Str) (D depth : Nat) (log : List Ev)
    (hlen : seed.length ≤ 50) :
    search o gen seed (D : Int) (depth + 1) D log =
      match searchBody o gen seed (D : Int) D log with
      | (Except.error e, s1) => (Outcome.ofStop e, s1.log)
      | (Except.ok _, s1) => (Outcome.notFound, s1.log) := by
  have h1 : ¬ (seed.length > MAX_PWD_LEN / 2) := by
    simp [MAX_PWD_LEN]; omega
  have h2 : ¬ ((D : Int) < 0) := by omega
  rw [search]
  simp only [h1, if_false, searchBody, h2, and_false]

theorem searchBody_first (o : Oracle) (fuel : Nat) (seed : Str) (D : Nat) (hD : 1 ≤ D) :
    ∃ evs, (searchBody o (generate o fuel seed) seed (D : Int) D []).2.log
      = evs ++ [Ev.comp 0 0 0 D] := by
  unfold searchBody testSeed
  have h0 : ¬ (D = 0 ∧ (D : Int) ≤ 0) := by omega
  simp only [h0, if_false, bind_pure]
  rw [loopEdits_go _ D (D + 1) 0 (by omega)]
  rw [loopTrans_go _ D 0 (D + 1) 0 (by omega)]
  rw [loopAdds_go _ D 0 0 (D + 1) 0 (by omega)]
  simp only [bind_assoc]
  rw [bind_announce]
  have hs : Sim o
      (M.bind (M.bind (generate o fuel seed 0 0 0 (D - 0 - 0 - 0)) fun _ =>
          loopAdds (generate o fuel seed) D 0 0 (D + 1) (0 + 1)) fun _ =>
        M.bind (loopTrans (generate o fuel seed) D 0 (D + 1) (0 + 1)) fun _ =>
          loopEdits (generate o fuel seed) D (D + 1) (0 + 1))
      (M.bind (M.bind (generate rejectAll fuel seed 0 0 0 (D - 0 - 0 - 0)) fun _ =>
          loopAdds (generate rejectAll fuel seed) D 0 0 (D + 1) (0 + 1)) fun _ =>
        M.bind (loopTrans (generate rejectAll fuel seed) D 0 (D + 1) (0 + 1)) fun _ =>
          loopEdits (generate rejectAll fuel seed) D (D + 1) (0 + 1)) := by
    have hg : ∀ e t a d, Sim o (generate o fuel seed e t a d)
        (generate rejectAll fuel seed e t a d) := fun e t a d => sim_generate o fuel seed e t a d
    exact sim_bind o (sim_bind o (hg _ _ _ _) (fun _ => sim_loopAdds o _ _ hg _ _ _ _ _))
      (fun _ => sim_bind o (sim_loopTrans o _ _ hg _ _ _ _)
        (fun _ => sim_loopEdits o _ _ hg _ _ _))
  obtain ⟨evs, he⟩ := sim_grows hs
    { buf := freshBuf, log := [Ev.comp 0 0 0 (D - 0 - 0 - 0)] }
  refine ⟨evs, ?_⟩
  simp only [Nat.sub_zero] at he ⊢
  rw [← he]

/-! ## One insertion followed by one deletion -/

theorem searchIterateDels_one_run (x : Nat) (v u : Str) (R : Mem) (log : List Ev) (fuel : Nat)
    (hu : NoNul u) (hv : NoNul (x :: v)) (hf : u.length + v.length + 1 ≤ fuel) :
    ∃ log1, searchIterateDels rejectAll fuel 1 { buf := cells u (x :: v) R, log := log }
      = (Except.ok (), { buf := cells u (x :: v) R, log := log1 }) := by
  have hw : NoNul (u ++ x :: v) := hu.append hv
  obtain ⟨y, w, hyw⟩ : ∃ y w, u ++ x :: v = y :: w := by
    cases u with
    | nil => exact ⟨x, v, rfl⟩
    | cons y u1 => exact ⟨y, u1 ++ x :: v, rfl⟩
  have hlen : w.length + 1 ≤ fuel := by
    have := congrArg List.length hyw
    simp at this
    omega
  rw [cells_flat, hyw]
  rw [hyw] at hw
  unfold searchIterateDels
  have h1 : ¬ (1 > MAX_PWD_LEN) := by decide
  simp only [one_ne_zero, if_false, h1]
  have := delsLoop_one w [] y R log 0 fuel (fun _ h => by cases h) hw hlen
  exact ⟨_, by simpa using this⟩

theorem insChars_del (j : Nat) (u : Str) (ch : Nat) (v : Str) (R : Mem) (log : List Ev)
    (fuelD fuel : Nat) (hu : NoNul u) (hv : NoNul v) (h1 : 1 ≤ ch) (hj : ch + j = 126)
    (hD : u.length + v.length + 1 ≤ fuelD) (hf : j + 1 ≤ fuel) :
    ∃ log1, searchIterateAtInsertions rejectAll fuelD 1 1 [(u.length : Int)] fuel
        { buf := cells u (ch :: v) R, log := log }
      = (Except.ok (), { buf := cells u (32 :: v) R, log := log1 }) := by
  induction j generalizing ch log fuel with
  | zero =>
    obtain ⟨f, rfl⟩ : ∃ f, fuel = f + 1 := ⟨fuel - 1, by omega⟩
    have hch : ch = 126 := by omega
    subst hch
    obtain ⟨l1, hd⟩ := searchIterateDels_one_run 126 v u R log fuelD hu
      (NoNul.cons (by omega) hv) hD
    unfold searchIterateAtInsertions
    rw [bind_ok hd]
    simp only [Nat.sub_self, mutatedPos_one, bind_liftO_some, bind_getBuf, bump_cells,
      Nat.reduceAdd, Nat.reduceMod, bind_setBuf, Nat.reduceLT, if_true]
    unfold insCarry
    simp only [bind_pure, Nat.sub_zero]
    unfold insReset
    simp only [bind_assoc, mutatedPos_one, bind_liftO_some, bind_getBuf, wr_cells, bind_setBuf]
    unfold insReset
    exact ⟨l1, by simp [bind_pure, pure_run]⟩
  | succ j ih =>
    obtain ⟨f, rfl⟩ : ∃ f, fuel = f + 1 := ⟨fuel - 1, by omega⟩
    obtain ⟨l1, hd⟩ := searchIterateDels_one_run ch v u R log fuelD hu
      (NoNul.cons (by omega) hv) hD
    unfold searchIterateAtInsertions
    rw [bind_ok hd]
    have e1 : (ch + 1) % 256 = ch + 1 := by omega
    have e2 : ¬ (126 < ch + 1) := by omega
    simp only [Nat.sub_self, mutatedPos_one, bind_liftO_some, bind_getBuf, bump_cells, e1,
      bind_setBuf, e2, if_false]
    exact ih (ch + 1) l1 f (by omega) (by omega) (by omega)

theorem addsLoop_iter_del (u v : Str) (R : Mem) (y : Option Nat) (log : List Ev)
    (fuelD fuelI fuel len : Nat) (hu : NoNul u) (hv : NoNul v) (hI : 95 ≤ fuelI)
    (hD : u.length + v.length + 1 ≤ fuelD) :
    ∃ log1, addsLoop rejectAll fuelD fuelI 1 1 len (fuel + 1) [(u.length : Int)]
        { buf := cells u v (y :: R), log := log }
      = addsLoop rejectAll fuelD fuelI 1 1 len fuel [(u.length : Int) - 1]
        { buf := cells u v (some 0 :: R), log := log1 } := by
  obtain ⟨l1, hc⟩ := insChars_del 94 u 32 v R log fuelD fuelI hu hv (by omega) rfl hD hI
  refine ⟨l1, ?_⟩
  rw [addsLoop]
  have hpos : ¬ ((u.length : Int) < 0) := by simp
  simp only [List.getElem?_cons_zero, bind_liftO_some, hpos, if_false]
  rw [bind_ok (addsOpen_one u v R y log hv)]
  rw [bind_ok (addsInit_one u _ v R log)]
  rw [bind_ok hc]
  rw [bind_ok (addsClose_one u 32 v R _ hv)]
  simp only [Nat.sub_self, addsMove, List.getElem?_cons_zero, bind_liftO_some,
    List.set_cons_zero, lt_self_iff_false, if_false]

theorem addsLoop_exit_del (s : St) (fuelD fuelI fuel len : Nat) :
    addsLoop rejectAll fuelD fuelI 1 1 len (fuel + 1) [((0 : Nat) : Int) - 1] s
      = (Except.ok (), s) := by
  rw [addsLoop]
  have hneg : (((0 : Nat) : Int) - 1 < 0) := by simp
  simp only [List.getElem?_cons_zero, bind_liftO_some, hneg, if_true, pure_run]

theorem addsLoop_del (ur : Str) (v : Str) (R : Mem) (y : Option Nat) (log : List Ev)
    (fuelD fuelI fuel len : Nat) (hu : NoNul ur) (hv : NoNul v) (hI : 95 ≤ fuelI)
    (hD : ur.length + v.length + 1 ≤ fuelD) (hf : ur.length + 2 ≤ fuel) :
    ∃ log1, addsLoop rejectAll fuelD fuelI 1 1 len fuel [(ur.reverse.length : Int)]
        { buf := cells ur.reverse v (y :: R), log := log }
      = (Except.ok (), { buf := cells [] (ur.reverse ++ v) (some 0 :: R), log := log1 }) := by
  induction ur generalizing v R y log fuel with
  | nil =>
    obtain ⟨f, rfl⟩ : ∃ f, fuel = f + 2 := ⟨fuel - 2, by simp at hf; omega⟩
    obtain ⟨l1, h⟩ := addsLoop_iter_del [] v R y log fuelD fuelI (f + 1) len
      (fun _ h => by cases h) hv hI (by simpa using hD)
    refine ⟨l1, ?_⟩
    simp only [List.reverse_nil]
    rw [h]
    simp only [List.length_nil]
    rw [addsLoop_exit_del]
    simp
  | cons x ur ih =>
    obtain ⟨f, rfl⟩ : ∃ f, fuel = f + 1 := ⟨fuel - 1, by simp at hf; omega⟩
    have hur : NoNul (x :: ur).reverse := by
      intro c hc
      exact hu c (List.mem_reverse.1 hc)
    obtain ⟨l1, h⟩ := addsLoop_iter_del (x :: ur).reverse v R y log fuelD fuelI f len hur hv hI
      (by simpa using hD)
    rw [h]
    have hp : (((x :: ur).reverse).length : Int) - 1 = (ur.reverse.length : Int) := by
      simp
    rw [hp]
    have hb : cells (x :: ur).reverse v (some 0 :: R)
        = cells ur.reverse (x :: v) (some 0 :: R) := by
      rw [List.reverse_cons, cells_snoc]
    rw [hb]
    obtain ⟨l2, h2⟩ := ih (x :: v) R (some 0) l1 f hu.tail (NoNul.cons hu.head hv)
      (by simp at hD ⊢; omega) (by simp at hf; omega)
    refine ⟨l2, ?_⟩
    rw [h2]
    simp

theorem generate_ins_del (seed : Str) (fuel : Nat) (B R : Mem) (y : Option Nat)
    (log : List Ev) (hs : NoNul seed) (hf : seed.length + 2 ≤ fuel) (hT : 95 ≤ fuel)
    (hn : seed.length + 1 < MAX_PWD_LEN)
    (hB : memcpySeed B seed = cells [] seed (y :: R)) :
    ∃ log1, generate rejectAll fuel seed 0 0 1 1 { buf := B, log := log }
      = (Except.ok (), { buf := cells [] seed (some 0 :: R), log := log1 }) := by
  unfold generate
  rw [bind_ok (copySeed_run _ _)]
  simp only [if_true, hB]
  unfold searchIterateTrans
  simp only [if_true]
  unfold searchIterateAdds
  have hl := strlenAt_cells_zero [] seed (y :: R) (fun _ h => by cases h) hs
  have h1 : ¬ (1 + seed.length ≥ MAX_PWD_LEN) := by omega
  simp only [List.length_nil, Nat.zero_add] at hl
  simp only [bind_getBuf, hl, bind_liftO_some, one_ne_zero, if_false, h1,
    List.replicate_one]
  obtain ⟨l1, h⟩ := addsLoop_del seed.reverse [] R y log fuel fuel fuel seed.length
    (fun c hc => hs c (List.mem_reverse.1 hc)) (fun _ h => by cases h) hT
    (by simp; omega) (by simpa using hf)
  simp only [List.reverse_reverse, List.append_nil] at h
  rw [cells_flat seed [] (y :: R)] at h
  simp only [List.append_nil] at h
  exact ⟨l1, h⟩

/-! ## Two insertions at the end of the string -/

theorem bind_err {α β : Type} {x : M α} {f : α → M β} {s s1 : St} {e : Stop}
    (h : x s = (Except.error e, s1)) : M.bind x f s = (Except.error e, s1) := by
  simp only [M.bind, h]

theorem cstrL_unterminated (w : Str) (hw : NoNul w) (R : Mem) :
    cstrL (w.map some ++ none :: R) = none := by
  induction w with
  | nil => simp [cstrL]
  | cons c r ih =>
    have hc : c ≠ 0 := hw.head
    obtain ⟨k, rfl⟩ : ∃ k, c = k + 1 := ⟨c - 1, by omega⟩
    simp [cstrL, ih hw.tail]

theorem testAndThrow_fault (o : Oracle) (s : St) (h : cstrAt s.buf 0 = none) :
    testAndThrow o s = (Except.error Stop.fault, s) := by
  simp [testAndThrow, h]

theorem addsOpen_end (u : Str) (R : Mem) (y : Option Nat) (log : List Ev) :
    addsOpen [(u.length : Int), (u.length : Int)] 2 { buf := cells u [] (y :: R), log := log }
      = (Except.ok (), { buf := cells u [] (some 0 :: R), log := log }) := by
  have hn : NoNul ([] : Str) := fun _ h => by cases h
  have e0 : cells u [0] R = cells u [] (some 0 :: R) := by simp [cells]
  unfold addsOpen
  simp only [List.getElem?_cons_succ, List.getElem?_cons_zero, Option.some_bind, ptr_nat,
    bind_liftO_some, bind_getBuf, strlenAt_cells u [] _ hn, List.length_nil, Nat.zero_add,
    bind_setBuf]
  have h1 := memmove_right_cells u [] R y
  simp only [List.length_nil, Nat.zero_add, List.nil_append, List.headD_cons] at h1
  rw [h1, bind_liftO_some, bind_setBuf, e0]
  unfold addsOpen
  simp only [List.getElem?_cons_zero, Option.some_bind, ptr_nat,
    bind_liftO_some, bind_getBuf, strlenAt_cells u [] _ hn, List.length_nil, Nat.zero_add,
    bind_setBuf]
  have h2 := memmove_right_cells u [] R (some 0)
  simp only [List.length_nil, Nat.zero_add, List.nil_append, List.headD_cons] at h2
  rw [h2, bind_liftO_some, bind_setBuf, e0]
  unfold addsOpen
  rw [pure_run]

theorem addsInit_end (u : Str) (R : Mem) (log : List Ev) :
    addsInit [(u.length : Int), (u.length : Int)] 2
        { buf := cells u [] (some 0 :: none :: R), log := log }
      = (Except.ok (), { buf := (u ++ [32, 32]).map some ++ none :: R, log := log }) := by
  have e1 : mutatedPos [(u.length : Int), (u.length : Int)] 1 = some (u.length + 1) := by
    simp [mutatedPos, ptr]
    omega
  have e2 : mutatedPos [(u.length : Int), (u.length : Int)] 0 = some u.length := by
    simp [mutatedPos, ptr]
  have w1 : wr (cells u [] (some 0 :: none :: R)) (u.length + 1) 32
      = some (u.map some ++ some 0 :: some 32 :: none :: R) := by
    have := wr_append (u.map some ++ [some 0]) (some 0) (none :: R) 32
    simpa [cells] using this
  have w2 : wr (u.map some ++ some 0 :: some 32 :: none :: R) u.length 32
      = some ((u ++ [32, 32]).map some ++ none :: R) := by
    have := wr_append (u.map some) (some 0) (some 32 :: none :: R) 32
    simpa using this
  unfold addsInit
  simp only [e1, bind_liftO_some, bind_getBuf, w1, bind_setBuf]
  unfold addsInit
  simp only [e2, bind_liftO_some, bind_getBuf, w2, bind_setBuf]
  unfold addsInit
  rw [pure_run]

theorem generate_two_insertions_fault (seed : Str) (fuel : Nat) (B R : Mem)
    (y : Option Nat) (log : List Ev) (hs : NoNul seed) (hf : 1 ≤ fuel)
    (hn : seed.length + 2 < MAX_PWD_LEN)
    (hB : memcpySeed B seed = cells [] seed (y :: none :: R)) :
    ∃ s1, generate rejectAll fuel seed 0 0 2 0 { buf := B, log := log }
      = (Except.error Stop.fault, s1) := by
  obtain ⟨f, rfl⟩ : ∃ f, fuel = f + 1 := ⟨fuel - 1, by omega⟩
  unfold generate
  rw [bind_ok (copySeed_run _ _)]
  simp only [if_true, hB]
  unfold searchIterateTrans
  simp only [if_true]
  unfold searchIterateAdds
  have hl := strlenAt_cells_zero [] seed (y :: none :: R) (fun _ h => by cases h) hs
  have h1 : ¬ (2 + seed.length ≥ MAX_PWD_LEN) := by omega
  have h2 : (2 : Nat) ≠ 0 := by decide
  simp only [List.length_nil, Nat.zero_add] at hl
  simp only [bind_getBuf, hl, bind_liftO_some, h2, if_false, h1]
  have hrep : List.replicate 2 (seed.length : Int) = [(seed.length : Int), (seed.length : Int)] :=
    rfl
  rw [hrep, addsLoop]
  have hpos : ¬ ((seed.length : Int) < 0) := by simp
  simp only [List.getElem?_cons_zero, bind_liftO_some, hpos, if_false]
  rw [cells_flat [] seed, List.nil_append, ← List.append_nil seed, ← cells_flat seed []]
  simp only [List.append_nil]
  rw [bind_ok (addsOpen_end seed (none :: R) y log)]
  rw [bind_ok (addsInit_end seed R log)]
  have hc : cstrAt ((seed ++ [32, 32]).map some ++ none :: R) 0 = none := by
    rw [cstrAt_zero]
    exact cstrL_unterminated _ (hs.append (by intro c hc; simp at hc; omega)) R
  refine ⟨{ buf := (seed ++ [32, 32]).map some ++ none :: R, log := log }, ?_⟩
  apply bind_err
  rw [searchIterateAtInsertions]
  apply bind_err
  unfold searchIterateDels
  simp only [if_true]
  exact testAndThrow_fault rejectAll _ hc

/-! ## Two deletions from a string of two characters -/

theorem generate_two_deletions (a b : Nat) (fuel : Nat) (B R : Mem) (log : List Ev)
    (ha : a ≠ 0) (hb : b ≠ 0) (hf : 1 ≤ fuel)
    (hB : memcpySeed B [a, b] = cells [] [a, b] R) :
    ∃ log1, generate rejectAll fuel [a, b] 0 0 0 2 { buf := B, log := log }
      = (Except.ok (), { buf := cells [] [a, b] R, log := log1 }) := by
  obtain ⟨f, rfl⟩ : ∃ f, fuel = f + 1 := ⟨fuel - 1, by omega⟩
  have hn : NoNul ([] : Str) := fun _ h => by cases h
  have hna : NoNul [a] := NoNul.cons ha hn
  have hnab : NoNul [a, b] := NoNul.cons ha (NoNul.cons hb hn)
  -- the views of the buffer
  have v0 : cells [] [a, b] R = cells [a] [b] R := by simp [cells]
  have v1 : cells [a] [] (some 0 :: R) = cells [] [a] (some 0 :: R) := by simp [cells]
  -- deleting
  have d1 := rd_cells [a] b [] R
  have d2 := strlenAt_cells_succ [a] b [] R hn
  have d3 := memmove_left_cells [a] b [] R
  have d4 := rd_cells [] a [] (some 0 :: R)
  have d5 := strlenAt_cells_succ [] a [] (some 0 :: R) hn
  have d6 := memmove_left_cells [] a [] (some 0 :: R)
  -- restoring
  have r1 := strlenAt_cells [] [] (some 0 :: some 0 :: R) hn
  have r2 := memmove_right_cells [] [] (some 0 :: R) (some 0)
  have r3 := wr_cells [] 0 [] (some 0 :: R) a
  have r4 := strlenAt_cells [a] [] (some 0 :: R) hn
  have r5 := memmove_right_cells [a] [] R (some 0)
  have r6 := wr_cells [a] 0 [] R b
  -- advancing
  have a1 := rd_cells_succ [a] b [] R
  simp only [List.length_nil, List.length_cons, Nat.zero_add, List.nil_append,
    List.headD_cons, List.headD_nil, Nat.reduceAdd] at d1 d2 d3 d4 d5 d6 r1 r2 r3 r4 r5 r6 a1
  have hstr : strlenAt (cells [a] [b] R) 0 = some 2 := by
    have := strlenAt_cells_zero [a] [b] R hna (NoNul.cons hb hn)
    simpa using this
  have hc : cstrAt (cells [] [] (some 0 :: some 0 :: R)) 0 = some [] := by
    simpa using cstr_cells [] [] (some 0 :: some 0 :: R) hn hn
  unfold generate
  rw [bind_ok (copySeed_run _ _)]
  simp only [if_true, hB]
  unfold searchIterateTrans
  simp only [if_true]
  unfold searchIterateAdds
  have h2 : (2 : Nat) ≠ 0 := by decide
  have h3 : ¬ (2 > MAX_PWD_LEN) := by decide
  have hr : List.range 2 = [0, 1] := rfl
  have hz : List.replicate 2 0 = [0, 0] := rfl
  simp only [bind_getBuf, v0, hstr, bind_liftO_some, if_true]
  unfold searchIterateDels
  simp only [h2, h3, if_false, hr, hz]
  rw [delsLoop]
  have e1 : delsDelete [0, 1] 2 [0, 0] { buf := cells [a] [b] R, log := log }
      = (Except.ok [a, b], { buf := cells [] [] (some 0 :: some 0 :: R), log := log }) := by
    rw [delsDelete]
    simp only [List.getElem?_cons_succ, List.getElem?_cons_zero, bind_liftO_some, bind_getBuf,
      d1, d2, d3, bind_setBuf, v1, Nat.zero_add]
    rw [delsDelete]
    simp only [List.getElem?_cons_zero, bind_liftO_some, bind_getBuf, d4, d5, d6, bind_setBuf,
      Nat.zero_add]
    rw [delsDelete, pure_run]
    rfl
  have e2 : delsRestore [0, 1] [a, b] 2 0
      { buf := cells [] [] (some 0 :: some 0 :: R), log := Ev.test [] :: log }
      = (Except.ok (), { buf := cells [a] [b] R, log := Ev.test [] :: log }) := by
    rw [delsRestore]
    simp only [List.getElem?_cons_zero, bind_liftO_some, bind_getBuf, r1, r2, r3, bind_setBuf,
      Nat.zero_add, ← v1]
    rw [delsRestore]
    simp only [List.getElem?_cons_succ, List.getElem?_cons_zero, bind_liftO_some, bind_getBuf,
      r4, r5, r6, bind_setBuf, Nat.zero_add]
    rw [delsRestore, pure_run]
  have e3 : delsAdvance 2 [0, 1] { buf := cells [a] [b] R, log := Ev.test [] :: log }
      = (Except.ok ([0, 1], none), { buf := cells [a] [b] R, log := Ev.test [] :: log }) := by
    unfold delsAdvance
    simp only [Nat.add_one_sub_one, Nat.reduceSub, List.getElem?_cons_succ,
      List.getElem?_cons_zero, bind_liftO_some, bind_getBuf, a1, if_true, List.set_cons_succ,
      List.set_cons_zero, delsCarry, Nat.reduceAdd, ge_iff_le, le_refl, Nat.sub_zero,
      delsFix, one_ne_zero, if_false, bind_pure, pure_run]
  rw [bind_ok e1, bind_ok (testAndThrow_reject _ [] hc), bind_ok e2, bind_ok e3]
  refine ⟨Ev.test [] :: log, ?_⟩
  simp only [pure_run]

/-! ## From distance 1 to distance 2 -/

theorem freshBuf_split_two (seed : Str) (h : seed.length + 3 ≤ BUF_LEN) :
    ∃ R, memcpySeed freshBuf seed = cells [] seed (none :: none :: R) := by
  rw [memcpySeed_fresh]
  obtain ⟨k, hk⟩ : ∃ k, BUF_LEN - (seed.length + 1) = k + 2 :=
    ⟨BUF_LEN - (seed.length + 1) - 2, by omega⟩
  rw [hk, List.replicate_succ, List.replicate_succ]
  exact ⟨_, rfl⟩

/-- With no fixed distance and the rejecting oracle, a seed of 2 to 50
characters takes the run through distances 0 and 1 into the call
`search(2)`. -/
theorem search_reaches_two (x : Nat) (v : Str) (fuel : Nat) (hs : NoNul (x :: v))
    (hn : v.length + 1 ≤ 50) (h2 : 1 ≤ v.length) (hf : v.length + 3 ≤ fuel) (hT : 95 ≤ fuel) :
    search rejectAll (generate rejectAll fuel (x :: v)) (x :: v) (-1)
        ((x :: v).length + 2) 0 []
      = search rejectAll (generate rejectAll fuel (x :: v)) (x :: v) (-1)
        (v.length + 1) 2 (logOne (x :: v) (logZero (x :: v))) := by
  obtain ⟨R, hR⟩ := freshBuf_split (x :: v) (by simp [BUF_LEN, MAX_PWD_LEN]; omega)
  have hlen : ¬ ((x :: v).length > MAX_PWD_LEN / 2) := by
    simp [MAX_PWD_LEN]; omega
  have hd : ((-1 : Int) ≤ 0) := by decide
  have hd2 : ((-1 : Int) < 0) := by decide
  have hpos : 0 < (x :: v).length := by simp
  have h0 : M.bind (testSeed rejectAll (x :: v) (-1) 0)
      (fun _ => loopEdits (generate rejectAll fuel (x :: v)) 0 (0 + 2) 0)
      { buf := freshBuf, log := [] }
      = (Except.ok (), { buf := cells [] (x :: v) (none :: R), log := logZero (x :: v) }) := by
    unfold testSeed
    simp only [hd, and_self, if_true, bind_assoc]
    rw [bind_ok (copySeed_run _ _)]
    simp only [hR]
    rw [bind_ok (testAndThrow_reject _ (x :: v)
      (by simpa using cstr_cells [] (x :: v) _ (fun _ h => by cases h) hs))]
    exact loopEdits_zero_run _ _ _
      (generate_zero (x :: v) fuel _ (none :: R) _ hs (memcpySeed_cells _ _))
  have h1 : M.bind (testSeed rejectAll (x :: v) (-1) (0 + 1))
      (fun _ => loopEdits (generate rejectAll fuel (x :: v)) (0 + 1) (0 + 1 + 2) 0)
      { buf := freshBuf, log := logZero (x :: v) }
      = (Except.ok (),
          { buf := cells [] (x :: v) (some 0 :: R),
            log := logOne (x :: v) (logZero (x :: v)) }) := by
    unfold testSeed
    simp only [Nat.zero_add, one_ne_zero, false_and, if_false, bind_pure]
    exact loopEdits_one_real x v fuel freshBuf R none _ hs hf hT
      (by simp [MAX_PWD_LEN]; omega) hR
  have hdepth : (x :: v).length + 2 = (v.length + 1 + 1) + 1 := by simp
  have hc : 0 + 1 < (x :: v).length ∧ (-1 : Int) < 0 := ⟨by simp; omega, hd2⟩
  rw [hdepth]
  rw [search]
  simp only [hlen, if_false, h0, hpos, hd2, and_self, if_true]
  rw [search]
  simp only [hlen, if_false, h1]
  rw [if_pos hc]

/-- The call `search(2)` on a seed of two characters with the rejecting
oracle: the compositions (0,0,0,2) and (0,0,1,1) return, and (0,0,2,0)
stops the run with a fault. -/
theorem search_two_chars_fault (a b : Nat) (fuel : Nat) (ha : a ≠ 0) (hb : b ≠ 0)
    (hT : 95 ≤ fuel) :
    (runSearch rejectAll fuel [a, b] (-1)).1 = Outcome.fault := by
  have hn : NoNul ([] : Str) := fun _ h => by cases h
  have hs : NoNul [a, b] := NoNul.cons ha (NoNul.cons hb hn)
  obtain ⟨R, hR⟩ := freshBuf_split_two [a, b] (by simp [BUF_LEN, MAX_PWD_LEN])
  have hd : (if (-1 : Int) < 0 then 0 else (-1 : Int).toNat) = 0 := by decide
  unfold runSearch
  rw [hd]
  have h12 := search_reaches_two a [b] fuel hs (by simp) (by simp) (by simp; omega) hT
  simp only [List.length_cons, List.length_nil, Nat.zero_add, Nat.reduceAdd] at h12 ⊢
  rw [h12]
  generalize logOne [a, b] (logZero [a, b]) = L
  have hlen : ¬ (([a, b] : Str).length > MAX_PWD_LEN / 2) := by
    simp [MAX_PWD_LEN]
  rw [show (2 : Nat) = 1 + 1 from rfl, search]
  have e1 : loopEdits (generate rejectAll fuel [a, b]) 2 4 0 = _ :=
    loopEdits_go _ 2 3 0 (by decide)
  have t1 : loopTrans (generate rejectAll fuel [a, b]) 2 0 4 0 = _ :=
    loopTrans_go _ 2 0 3 0 (by decide)
  have a1 : loopAdds (generate rejectAll fuel [a, b]) 2 0 0 4 0 = _ :=
    loopAdds_go _ 2 0 0 3 0 (by decide)
  have a2 : loopAdds (generate rejectAll fuel [a, b]) 2 0 0 3 1 = _ :=
    loopAdds_go _ 2 0 0 2 1 (by decide)
  have a3 : loopAdds (generate rejectAll fuel [a, b]) 2 0 0 2 2 = _ :=
    loopAdds_go _ 2 0 0 1 2 (by decide)
  obtain ⟨l1, g1⟩ := generate_two_deletions a b fuel freshBuf (none :: none :: R)
    (Ev.comp 0 0 0 2 :: L) ha hb (by omega) hR
  obtain ⟨l2, g2⟩ := generate_ins_del [a, b] fuel (cells [] [a, b] (none :: none :: R))
    (none :: R) none (Ev.comp 0 0 1 1 :: l1) hs (by simp; omega) hT
    (by simp [MAX_PWD_LEN]) (memcpySeed_cells _ _)
  obtain ⟨s3, g3⟩ := generate_two_insertions_fault [a, b] fuel
    (cells [] [a, b] (some 0 :: none :: R)) R (some 0) (Ev.comp 0 0 2 0 :: l2) hs (by omega)
    (by simp [MAX_PWD_LEN]) (memcpySeed_cells _ _)
  have hbody : M.bind (testSeed rejectAll [a, b] (-1) (1 + 1))
      (fun _ => loopEdits (generate rejectAll fuel [a, b]) (1 + 1) (1 + 1 + 2) 0)
      { buf := freshBuf, log := L } = (Except.error Stop.fault, s3) := by
    unfold testSeed
    have hne : ¬ (1 + 1 = 0 ∧ (-1 : Int) ≤ 0) := by decide
    simp only [hne, if_false, bind_pure, Nat.reduceAdd, e1, t1, a1, a2, a3, Nat.reduceSub,
      bind_assoc, bind_announce]
    rw [bind_ok g1]
    simp only [bind_assoc, bind_announce]
    rw [bind_ok g2]
    simp only [bind_assoc, bind_announce]
    exact bind_err g3
  simp only [hlen, if_false, hbody, Outcome.ofStop]

/-! ## The oracle of a command -/

theorem strFind_isSome (hay needle : Str) (i : Nat) :
    (strFind hay needle i).isSome = true ↔ needle <:+: hay := by
  induction hay generalizing i with
  | nil =>
    unfold strFind
    by_cases h : needle = []
    · simp [h]
    · simp [h]
  | cons c hay ih =>
    unfold strFind
    by_cases h : needle.isPrefixOf (c :: hay) = true
    · rw [if_pos h]
      simp only [Option.isSome_some, true_iff]
      exact (List.isPrefixOf_iff_prefix.1 h).isInfix
    · rw [if_neg h, ih (i + 1), List.infix_cons_iff]
      have h2 : ¬ needle <+: c :: hay := fun hp => h (List.isPrefixOf_iff_prefix.2 hp)
      simp [h2]

theorem readLoop_through (pre rest : List ReadResult) (data : Str) (n : Nat)
    (hp : DataOrEintr pre) (hn : n + interruptsOf pre ≤ 50) :
    readLoop (pre ++ rest) data n
      = readLoop rest (data ++ chunksOf pre) (n + interruptsOf pre) := by
  induction pre generalizing data n with
  | nil => simp [chunksOf, interruptsOf]
  | cons r pre ih =>
    have hp1 : DataOrEintr pre := fun x hx => hp x (List.mem_cons_of_mem _ hx)
    have hr := hp r (List.mem_cons_self _ _)
    cases r with
    | data chunk =>
      simp only [interruptsOf] at hn
      rw [List.cons_append, readLoop, ih (data ++ chunk) n hp1 hn]
      simp only [chunksOf, interruptsOf, List.append_assoc]
    | eintr =>
      simp only [interruptsOf] at hn
      rw [List.cons_append, readLoop, if_pos (by omega), ih data (n + 1) hp1 (by omega)]
      simp only [chunksOf, interruptsOf]
      congr 1
      omega
    | error => exact absurd rfl hr.2
    | eof => exact absurd rfl hr.1

theorem capture_of_reads (cfg : Config) (pwd : Str) (hd : cfg.dryrun = false) :
    (execAndCapture cfg pwd).1 = readLoop (cfg.reads pwd) [] 0 := by
  simp [execAndCapture, hd]

theorem testMatch_of_capture (cfg : Config) (pwd : Str) (hc : cfg.checkCmd = true) :
    (testMatch cfg pwd).1 = true ↔ cfg.matchStr <:+: (execAndCapture cfg pwd).1 := by
  simp only [testMatch, hc, if_true]
  exact strFind_isSome _ _ 0

/-! ## The exit status -/

theorem mainSearch_found (a : Args) (fuel : Nat) (ps : Bool) (acts : List Act) (seed c : Str)
    (hs : a.seedPwd = some seed)
    (hr : (runSearch (oracleOf a.config) fuel seed a.distance).1 = Outcome.found c) :
    (mainSearch a fuel ps acts).1 = Exit.returned (if c = NOT_FOUND then 1 else 0) := by
  simp only [mainSearch, hs, hr, Outcome.returnValue]

theorem mainSearch_notFound (a : Args) (fuel : Nat) (ps : Bool) (acts : List Act) (seed : Str)
    (hs : a.seedPwd = some seed)
    (hr : (runSearch (oracleOf a.config) fuel seed a.distance).1 = Outcome.notFound) :
    (mainSearch a fuel ps acts).1 = Exit.returned 1 := by
  simp only [mainSearch, hs, hr, Outcome.returnValue, if_true]

theorem mainSearch_abort (a : Args) (fuel : Nat) (ps : Bool) (acts : List Act) (seed : Str)
    (hs : a.seedPwd = some seed)
    (hr : (runSearch (oracleOf a.config) fuel seed a.distance).1 = Outcome.abort) :
    (mainSearch a fuel ps acts).1 = Exit.exited 2 := by
  simp only [mainSearch, hs, hr, ABORT]

theorem main_plugin_init_null (a : Args) (fuel : Nat) (hm : a.matchStr = [])
    (hp : a.plugin ≠ []) (hl : a.pluginLoads = true) (hi : a.pluginInit = false) :
    main a fuel = (Exit.exited 2, [Act.init]) := by
  simp [main, hm, hp, hl, hi, ABORT]

/-! ## Where the fatal abort can come from -/

theorem noAbort_pure {α : Type} (a : α) : NoAbort (M.pure a) := by
  intro s; unfold M.pure; simp

theorem noAbort_halt_fault {α : Type} : NoAbort (halt Stop.fault : M α) := by
  intro s; unfold halt; simp

theorem noAbort_halt_fuel {α : Type} : NoAbort (halt Stop.fuel : M α) := by
  intro s; unfold halt; simp

theorem noAbort_liftO {α : Type} (x : Option α) : NoAbort (liftO x) := by
  cases x
  · unfold liftO; exact noAbort_halt_fault
  · unfold liftO; exact noAbort_pure _

theorem noAbort_getBuf : NoAbort getBuf := by
  intro s; unfold getBuf; simp

theorem noAbort_setBuf (m : Mem) : NoAbort (setBuf m) := by
  intro s; unfold setBuf; simp

theorem noAbort_copySeed (seed : Str) : NoAbort (copySeed seed) := by
  intro s; unfold copySeed; simp

theorem noAbort_announce (e t a d : Nat) : NoAbort (announce e t a d) := by
  intro s; unfold announce; simp

theorem noAbort_testAndThrow (o : Oracle) : NoAbort (testAndThrow o) := by
  intro s
  unfold testAndThrow
  cases cstrAt s.buf 0 with
  | none => simp
  | some c =>
    simp only
    split <;> simp

theorem noAbort_bind {α β : Type} {x : M α} {f : α → M β}
    (hx : NoAbort x) (hf : ∀ a, NoAbort (f a)) : NoAbort (M.bind x f) := by
  intro s
  have h1 := hx s
  unfold M.bind
  rcases hxs : x s with ⟨r, s1⟩
  rw [hxs] at h1
  cases r with
  | error e =>
    simp only
    intro h
    apply h1
    injection h with h
    rw [h]
  | ok a => exact hf a s1

theorem noAbort_delsDelete (delsArr : List Nat) (k : Nat) (savedArr : List Nat) :
    NoAbort (delsDelete delsArr k savedArr) := by
  induction k generalizing savedArr with
  | zero =>
    unfold delsDelete
    repeat' first
      | apply noAbort_bind | split | exact noAbort_liftO _ | exact noAbort_getBuf
      | exact noAbort_setBuf _ | exact noAbort_pure _ | exact noAbort_halt_fuel
      | exact noAbort_halt_fault | exact noAbort_testAndThrow _ | exact noAbort_copySeed _
      | exact noAbort_announce _ _ _ _ | intro _
  | succ k ih =>
    unfold delsDelete
    repeat' first
      | apply noAbort_bind | split | exact noAbort_liftO _ | exact noAbort_getBuf
      | exact noAbort_setBuf _ | exact noAbort_pure _ | exact noAbort_halt_fuel
      | exact noAbort_halt_fault | exact noAbort_testAndThrow _ | exact noAbort_copySeed _
      | exact noAbort_announce _ _ _ _ | exact ih | exact ih _ | exact ih _ _ | exact ih _ _ _
      | intro _

theorem noAbort_delsRestore (delsArr savedArr : List Nat) (k i : Nat) :
    NoAbort (delsRestore delsArr savedArr k i) := by
  induction k generalizing i with
  | zero =>
    unfold delsRestore
    repeat' first
      | apply noAbort_bind | split | exact noAbort_liftO _ | exact noAbort_getBuf
      | exact noAbort_setBuf _ | exact noAbort_pure _ | exact noAbort_halt_fuel
      | exact noAbort_halt_fault | exact noAbort_testAndThrow _ | exact noAbort_copySeed _
      | exact noAbort_announce _ _ _ _ | exact noAbort_delsDelete _ _ _ | intro _
  | succ k ih =>
    unfold delsRestore
    repeat' first
      | apply noAbort_bind | split | exact noAbort_liftO _ | exact noAbort_getBuf
      | exact noAbort_setBuf _ | exact noAbort_pure _ | exact noAbort_halt_fuel
      | exact noAbort_halt_fault | exact noAbort_testAndThrow _ | exact noAbort_copySeed _
      | exact noAbort_announce _ _ _ _ | exact noAbort_delsDelete _ _ _ | exact ih | exact ih _
      | exact ih _ _ | exact ih _ _ _ | intro _

theorem noAbort_delsAdvance (dels : Nat) (delsArr : List Nat) :
    NoAbort (delsAdvance dels delsArr) := by
  unfold delsAdvance
  repeat' first
    | apply noAbort_bind | split | exact noAbort_liftO _ | exact noAbort_getBuf
    | exact noAbort_setBuf _ | exact noAbort_pure _ | exact noAbort_halt_fuel
    | exact noAbort_halt_fault | exact noAbort_testAndThrow _ | exact noAbort_copySeed _
    | exact noAbort_announce _ _ _ _ | exact noAbort_delsDelete _ _ _
    | exact noAbort_delsRestore _ _ _ _ | intro _

theorem noAbort_delsLoop (o : Oracle) (dels k : Nat) (delsArr savedArr : List Nat) :
    NoAbort (delsLoop o dels k delsArr savedArr) := by
  induction k generalizing delsArr savedArr with
  | zero =>
    unfold delsLoop
    repeat' first
      | apply noAbort_bind | split | exact noAbort_liftO _ | exact noAbort_getBuf
      | exact noAbort_setBuf _ | exact noAbort_pure _ | exact noAbort_halt_fuel
      | exact noAbort_halt_fault | exact noAbort_testAndThrow _ | exact noAbort_copySeed _
      | exact noAbort_announce _ _ _ _ | exact noAbort_delsDelete _ _ _
      | exact noAbort_delsRestore _ _ _ _ | exact noAbort_delsAdvance _ _ | intro _
  | succ k ih =>
    unfold delsLoop
    repeat' first
      | apply noAbort_bind | split | exact noAbort_liftO _ | exact noAbort_getBuf
      | exact noAbort_setBuf _ | exact noAbort_pure _ | exact noAbort_halt_fuel
      | exact noAbort_halt_fault | exact noAbort_testAndThrow _ | exact noAbort_copySeed _
      | exact noAbort_announce _ _ _ _ | exact noAbort_delsDelete _ _ _
      | exact noAbort_delsRestore _ _ _ _ | exact noAbort_delsAdvance _ _ | exact ih
      | exact ih _ | exact ih _ _ | exact ih _ _ _ | intro _

theorem noAbort_searchIterateDels (o : Oracle) (fuel dels : Nat) :
    NoAbort (searchIterateDels o fuel dels) := by
  unfold searchIterateDels
  repeat' first
    | apply noAbort_bind | split | exact noAbort_liftO _ | exact noAbort_getBuf
    | exact noAbort_setBuf _ | exact noAbort_pure _ | exact noAbort_halt_fuel
    | exact noAbort_halt_fault | exact noAbort_testAndThrow _ | exact noAbort_copySeed _
    | exact noAbort_announce _ _ _ _ | exact noAbort_delsDelete _ _ _
    | exact noAbort_delsRestore _ _ _ _ | exact noAbort_delsAdvance _ _
    | exact noAbort_delsLoop _ _ _ _ _ | intro _

theorem noAbort_insCarry (pts : List Int) (k : Nat) :
    NoAbort (insCarry pts k) := by
  induction k with
  | zero =>
    unfold insCarry
    repeat' first
      | apply noAbort_bind | split | exact noAbort_liftO _ | exact noAbort_getBuf
      | exact noAbort_setBuf _ | exact noAbort_pure _ | exact noAbort_halt_fuel
      | exact noAbort_halt_fault | exact noAbort_testAndThrow _ | exact noAbort_copySeed _
      | exact noAbort_announce _ _ _ _ | exact noAbort_delsDelete _ _ _
      | exact noAbort_delsRestore _ _ _ _ | exact noAbort_delsAdvance _ _
      | exact noAbort_delsLoop _ _ _ _ _ | exact noAbort_searchIterateDels _ _ _ | intro _
  | succ k ih =>
    unfold insCarry
    repeat' first
      | apply noAbort_bind | split | exact noAbort_liftO _ | exact noAbort_getBuf
      | exact noAbort_setBuf _ | exact noAbort_pure _ | exact noAbort_halt_fuel
      | exact noAbort_halt_fault | exact noAbort_testAndThrow _ | exact noAbort_copySeed _
      | exact noAbort_announce _ _ _ _ | exact noAbort_delsDelete _ _ _
      | exact noAbort_delsRestore _ _ _ _ | exact noAbort_delsAdvance _ _
      | exact noAbort_delsLoop _ _ _ _ _ | exact noAbort_searchIterateDels _ _ _ | exact ih
      | exact ih _ | exact ih _ _ | exact ih _ _ _ | intro _

theorem noAbort_insReset (pts : List Int) (k i : Nat) :
    NoAbort (insReset pts k i) := by
  induction k generalizing i with
  | zero =>
    unfold insReset
    repeat' first
      | apply noAbort_bind | split | exact noAbort_liftO _ | exact noAbort_getBuf
      | exact noAbort_setBuf _ | exact noAbort_pure _ | exact noAbort_halt_fuel
      | exact noAbort_halt_fault | exact noAbort_testAndThrow _ | exact noAbort_copySeed _
      | exact noAbort_announce _ _ _ _ | exact noAbort_delsDelete _ _ _
      | exact noAbort_delsRestore _ _ _ _ | exact noAbort_delsAdvance _ _
      | exact noAbort_delsLoop _ _ _ _ _ | exact noAbort_searchIterateDels _ _ _
      | exact noAbort_insCarry _ _ | intro _
  | succ k ih =>
    unfold insReset
    repeat' first
      | apply noAbort_bind | split | exact noAbort_liftO _ | exact noAbort_getBuf
      | exact noAbort_setBuf _ | exact noAbort_pure _ | exact noAbort_halt_fuel
      | exact noAbort_halt_fault | exact noAbort_testAndThrow _ | exact noAbort_copySeed _
      | exact noAbort_announce _ _ _ _ | exact noAbort_delsDelete _ _ _
      | exact noAbort_delsRestore _ _ _ _ | exact noAbort_delsAdvance _ _
      | exact noAbort_delsLoop _ _ _ _ _ | exact noAbort_searchIterateDels _ _ _
      | exact noAbort_insCarry _ _ | exact ih | exact ih _ | exact ih _ _ | exact ih _ _ _
      | intro _

theorem noAbort_searchIterateAtInsertions (o : Oracle) (fuelD adds dels : Nat) (pts : List Int) (k : Nat) :
    NoAbort (searchIterateAtInsertions o fuelD adds dels pts k) := by
  induction k with
  | zero =>
    unfold searchIterateAtInsertions
    repeat' first
      | apply noAbort_bind | split | exact noAbort_liftO _ | exact noAbort_getBuf
      | exact noAbort_setBuf _ | exact noAbort_pure _ | exact noAbort_halt_fuel
      | exact noAbort_halt_fault | exact noAbort_testAndThrow _ | exact noAbort_copySeed _
      | exact noAbort_announce _ _ _ _ | exact noAbort_delsDelete _ _ _
      | exact noAbort_delsRestore _ _ _ _ | exact noAbort_delsAdvance _ _
      | exact noAbort_delsLoop _ _ _ _ _ | exact noAbort_searchIterateDels _ _ _
      | exact noAbort_insCarry _ _ | exact noAbort_insReset _ _ _ | intro _
  | succ k ih =>
    unfold searchIterateAtInsertions
    repeat' first
      | apply noAbort_bind | split | exact noAbort_liftO _ | exact noAbort_getBuf
      | exact noAbort_setBuf _ | exact noAbort_pure _ | exact noAbort_halt_fuel
      | exact noAbort_halt_fault | exact noAbort_testAndThrow _ | exact noAbort_copySeed _
      | exact noAbort_announce _ _ _ _ | exact noAbort_delsDelete _ _ _
      | exact noAbort_delsRestore _ _ _ _ | exact noAbort_delsAdvance _ _
      | exact noAbort_delsLoop _ _ _ _ _ | exact noAbort_searchIterateDels _ _ _
      | exact noAbort_insCarry _ _ | exact noAbort_insReset _ _ _ | exact ih | exact ih _
      | exact ih _ _ | exact ih _ _ _ | intro _

theorem noAbort_addsOpen (addsArr : List Int) (k : Nat) :
    NoAbort (addsOpen addsArr k) := by
  induction k with
  | zero =>
    unfold addsOpen
    repeat' first
      | apply noAbort_bind | split | exact noAbort_liftO _ | exact noAbort_getBuf
      | exact noAbort_setBuf _ | exact noAbort_pure _ | exact noAbort_halt_fuel
      | exact noAbort_halt_fault | exact noAbort_testAndThrow _ | exact noAbort_copySeed _
      | exact noAbort_announce _ _ _ _ | exact noAbort_delsDelete _ _ _
      | exact noAbort_delsRestore _ _ _ _ | exact noAbort_delsAdvance _ _
      | exact noAbort_delsLoop _ _ _ _ _ | exact noAbort_searchIterateDels _ _ _
      | exact noAbort_insCarry _ _ | exact noAbort_insReset _ _ _
      | exact noAbort_searchIterateAtInsertions _ _ _ _ _ _ | intro _
  | succ k ih =>
    unfold addsOpen
    repeat' first
      | apply noAbort_bind | split | exact noAbort_liftO _ | exact noAbort_getBuf
      | exact noAbort_setBuf _ | exact noAbort_pure _ | exact noAbort_halt_fuel
      | exact noAbort_halt_fault | exact noAbort_testAndThrow _ | exact noAbort_copySeed _
      | exact noAbort_announce _ _ _ _ | exact noAbort_delsDelete _ _ _
      | exact noAbort_delsRestore _ _ _ _ | exact noAbort_delsAdvance _ _
      | exact noAbort_delsLoop _ _ _ _ _ | exact noAbort_searchIterateDels _ _ _
      | exact noAbort_insCarry _ _ | exact noAbort_insReset _ _ _
      | exact noAbort_searchIterateAtInsertions _ _ _ _ _ _ | exact ih | exact ih _
      | exact ih _ _ | exact ih _ _ _ | intro _

theorem noAbort_addsInit (addsArr : List Int) (k : Nat) :
    NoAbort (addsInit addsArr k) := by
  induction k with
  | zero =>
    unfold addsInit
    repeat' first
      | apply noAbort_bind | split | exact noAbort_liftO _ | exact noAbort_getBuf
      | exact noAbort_setBuf _ | exact noAbort_pure _ | exact noAbort_halt_fuel
      | exact noAbort_halt_fault | exact noAbort_testAndThrow _ | exact noAbort_copySeed _
      | exact noAbort_announce _ _ _ _ | exact noAbort_delsDelete _ _ _
      | exact noAbort_delsRestore _ _ _ _ | exact noAbort_delsAdvance _ _
      | exact noAbort_delsLoop _ _ _ _ _ | exact noAbort_searchIterateDels _ _ _
      | exact noAbort_insCarry _ _ | exact noAbort_insReset _ _ _
      | exact noAbort_searchIterateAtInsertions _ _ _ _ _ _ | exact noAbort_addsOpen _ _
      | intro _
  | succ k ih =>
    unfold addsInit
    repeat' first
      | apply noAbort_bind | split | exact noAbort_liftO _ | exact noAbort_getBuf
      | exact noAbort_setBuf _ | exact noAbort_pure _ | exact noAbort_halt_fuel
      | exact noAbort_halt_fault | exact noAbort_testAndThrow _ | exact noAbort_copySeed _
      | exact noAbort_announce _ _ _ _ | exact noAbort_delsDelete _ _ _
      | exact noAbort_delsRestore _ _ _ _ | exact noAbort_delsAdvance _ _
      | exact noAbort_delsLoop _ _ _ _ _ | exact noAbort_searchIterateDels _ _ _
      | exact noAbort_insCarry _ _ | exact noAbort_insReset _ _ _
      | exact noAbort_searchIterateAtInsertions _ _ _ _ _ _ | exact noAbort_addsOpen _ _
      | exact ih | exact ih _ | exact ih _ _ | exact ih _ _ _ | intro _

theorem noAbort_addsClose (addsArr : List Int) (k : Nat) :
    NoAbort (addsClose addsArr k) := by
  induction k with
  | zero =>
    unfold addsClose
    repeat' first
      | apply noAbort_bind | split | exact noAbort_liftO _ | exact noAbort_getBuf
      | exact noAbort_setBuf _ | exact noAbort_pure _ | exact noAbort_halt_fuel
      | exact noAbort_halt_fault | exact noAbort_testAndThrow _ | exact noAbort_copySeed _
      | exact noAbort_announce _ _ _ _ | exact noAbort_delsDelete _ _ _
      | exact noAbort_delsRestore _ _ _ _ | exact noAbort_delsAdvance _ _
      | exact noAbort_delsLoop _ _ _ _ _ | exact noAbort_searchIterateDels _ _ _
      | exact noAbort_insCarry _ _ | exact noAbort_insReset _ _ _
      | exact noAbort_searchIterateAtInsertions _ _ _ _ _ _ | exact noAbort_addsOpen _ _
      | exact noAbort_addsInit _ _ | intro _
  | succ k ih =>
    unfold addsClose
    repeat' first
      | apply noAbort_bind | split | exact noAbort_liftO _ | exact noAbort_getBuf
      | exact noAbort_setBuf _ | exact noAbort_pure _ | exact noAbort_halt_fuel
      | exact noAbort_halt_fault | exact noAbort_testAndThrow _ | exact noAbort_copySeed _
      | exact noAbort_announce _ _ _ _ | exact noAbort_delsDelete _ _ _
      | exact noAbort_delsRestore _ _ _ _ | exact noAbort_delsAdvance _ _
      | exact noAbort_delsLoop _ _ _ _ _ | exact noAbort_searchIterateDels _ _ _
      | exact noAbort_insCarry _ _ | exact noAbort_insReset _ _ _
      | exact noAbort_searchIterateAtInsertions _ _ _ _ _ _ | exact noAbort_addsOpen _ _
      | exact noAbort_addsInit _ _ | exact ih | exact ih _ | exact ih _ _ | exact ih _ _ _
      | intro _

theorem noAbort_addsLoop (o : Oracle) (fuelD fuelI adds dels len k : Nat) (addsArr : List Int) :
    NoAbort (addsLoop o fuelD fuelI adds dels len k addsArr) := by
  induction k generalizing addsArr with
  | zero =>
    unfold addsLoop
    repeat' first
      | apply noAbort_bind | split | exact noAbort_liftO _ | exact noAbort_getBuf
      | exact noAbort_setBuf _ | exact noAbort_pure _ | exact noAbort_halt_fuel
      | exact noAbort_halt_fault | exact noAbort_testAndThrow _ | exact noAbort_copySeed _
      | exact noAbort_announce _ _ _ _ | exact noAbort_delsDelete _ _ _
      | exact noAbort_delsRestore _ _ _ _ | exact noAbort_delsAdvance _ _
      | exact noAbort_delsLoop _ _ _ _ _ | exact noAbort_searchIterateDels _ _ _
      | exact noAbort_insCarry _ _ | exact noAbort_insReset _ _ _
      | exact noAbort_searchIterateAtInsertions _ _ _ _ _ _ | exact noAbort_addsOpen _ _
      | exact noAbort_addsInit _ _ | exact noAbort_addsClose _ _ | intro _
  | succ k ih =>
    unfold addsLoop
    repeat' first
      | apply noAbort_bind | split | exact noAbort_liftO _ | exact noAbort_getBuf
      | exact noAbort_setBuf _ | exact noAbort_pure _ | exact noAbort_halt_fuel
      | exact noAbort_halt_fault | exact noAbort_testAndThrow _ | exact noAbort_copySeed _
      | exact noAbort_announce _ _ _ _ | exact noAbort_delsDelete _ _ _
      | exact noAbort_delsRestore _ _ _ _ | exact noAbort_delsAdvance _ _
      | exact noAbort_delsLoop _ _ _ _ _ | exact noAbort_searchIterateDels _ _ _
      | exact noAbort_insCarry _ _ | exact noAbort_insReset _ _ _
      | exact noAbort_searchIterateAtInsertions _ _ _ _ _ _ | exact noAbort_addsOpen _ _
      | exact noAbort_addsInit _ _ | exact noAbort_addsClose _ _ | exact ih | exact ih _
      | exact ih _ _ | exact ih _ _ _ | intro _

theorem noAbort_searchIterateAdds (o : Oracle) (fuel adds dels : Nat) :
    NoAbort (searchIterateAdds o fuel adds dels) := by
  unfold searchIterateAdds
  repeat' first
    | apply noAbort_bind | split | exact noAbort_liftO _ | exact noAbort_getBuf
    | exact noAbort_setBuf _ | exact noAbort_pure _ | exact noAbort_halt_fuel
    | exact noAbort_halt_fault | exact noAbort_testAndThrow _ | exact noAbort_copySeed _
    | exact noAbort_announce _ _ _ _ | exact noAbort_delsDelete _ _ _
    | exact noAbort_delsRestore _ _ _ _ | exact noAbort_delsAdvance _ _
    | exact noAbort_delsLoop _ _ _ _ _ | exact noAbort_searchIterateDels _ _ _
    | exact noAbort_insCarry _ _ | exact noAbort_insReset _ _ _
    | exact noAbort_searchIterateAtInsertions _ _ _ _ _ _ | exact noAbort_addsOpen _ _
    | exact noAbort_addsInit _ _ | exact noAbort_addsClose _ _
    | exact noAbort_addsLoop _ _ _ _ _ _ _ _ | intro _

theorem noAbort_transInner (o : Oracle) (fuelA adds dels transNum k transPos : Nat) (transArr : List (Option Nat)) :
    NoAbort (transInner o fuelA adds dels transNum k transPos transArr) := by
  induction k generalizing transPos transArr with
  | zero =>
    unfold transInner
    repeat' first
      | apply noAbort_bind | split | exact noAbort_liftO _ | exact noAbort_getBuf
      | exact noAbort_setBuf _ | exact noAbort_pure _ | exact noAbort_halt_fuel
      | exact noAbort_halt_fault | exact noAbort_testAndThrow _ | exact noAbort_copySeed _
      | exact noAbort_announce _ _ _ _ | exact noAbort_delsDelete _ _ _
      | exact noAbort_delsRestore _ _ _ _ | exact noAbort_delsAdvance _ _
      | exact noAbort_delsLoop _ _ _ _ _ | exact noAbort_searchIterateDels _ _ _
      | exact noAbort_insCarry _ _ | exact noAbort_insReset _ _ _
      | exact noAbort_searchIterateAtInsertions _ _ _ _ _ _ | exact noAbort_addsOpen _ _
      | exact noAbort_addsInit _ _ | exact noAbort_addsClose _ _
      | exact noAbort_addsLoop _ _ _ _ _ _ _ _ | exact noAbort_searchIterateAdds _ _ _ _
      | intro _
  | succ k ih =>
    unfold transInner
    repeat' first
      | apply noAbort_bind | split | exact noAbort_liftO _ | exact noAbort_getBuf
      | exact noAbort_setBuf _ | exact noAbort_pure _ | exact noAbort_halt_fuel
      | exact noAbort_halt_fault | exact noAbort_testAndThrow _ | exact noAbort_copySeed _
      | exact noAbort_announce _ _ _ _ | exact noAbort_delsDelete _ _ _
      | exact noAbort_delsRestore _ _ _ _ | exact noAbort_delsAdvance _ _
      | exact noAbort_delsLoop _ _ _ _ _ | exact noAbort_searchIterateDels _ _ _
      | exact noAbort_insCarry _ _ | exact noAbort_insReset _ _ _
      | exact noAbort_searchIterateAtInsertions _ _ _ _ _ _ | exact noAbort_addsOpen _ _
      | exact noAbort_addsInit _ _ | exact noAbort_addsClose _ _
      | exact noAbort_addsLoop _ _ _ _ _ _ _ _ | exact noAbort_searchIterateAdds _ _ _ _
      | exact ih | exact ih _ | exact ih _ _ | exact ih _ _ _ | intro _

theorem noAbort_transOuter (o : Oracle) (fuel adds dels k transNum : Nat) (transArr : List (Option Nat)) :
    NoAbort (transOuter o fuel adds dels k transNum transArr) := by
  induction k generalizing transNum transArr with
  | zero =>
    unfold transOuter
    repeat' first
      | apply noAbort_bind | split | exact noAbort_liftO _ | exact noAbort_getBuf
      | exact noAbort_setBuf _ | exact noAbort_pure _ | exact noAbort_halt_fuel
      | exact noAbort_halt_fault | exact noAbort_testAndThrow _ | exact noAbort_copySeed _
      | exact noAbort_announce _ _ _ _ | exact noAbort_delsDelete _ _ _
      | exact noAbort_delsRestore _ _ _ _ | exact noAbort_delsAdvance _ _
      | exact noAbort_delsLoop _ _ _ _ _ | exact noAbort_searchIterateDels _ _ _
      | exact noAbort_insCarry _ _ | exact noAbort_insReset _ _ _
      | exact noAbort_searchIterateAtInsertions _ _ _ _ _ _ | exact noAbort_addsOpen _ _
      | exact noAbort_addsInit _ _ | exact noAbort_addsClose _ _
      | exact noAbort_addsLoop _ _ _ _ _ _ _ _ | exact noAbort_searchIterateAdds _ _ _ _
      | exact noAbort_transInner _ _ _ _ _ _ _ _ | intro _
  | succ k ih =>
    unfold transOuter
    repeat' first
      | apply noAbort_bind | split | exact noAbort_liftO _ | exact noAbort_getBuf
      | exact noAbort_setBuf _ | exact noAbort_pure _ | exact noAbort_halt_fuel
      | exact noAbort_halt_fault | exact noAbort_testAndThrow _ | exact noAbort_copySeed _
      | exact noAbort_announce _ _ _ _ | exact noAbort_delsDelete _ _ _
      | exact noAbort_delsRestore _ _ _ _ | exact noAbort_delsAdvance _ _
      | exact noAbort_delsLoop _ _ _ _ _ | exact noAbort_searchIterateDels _ _ _
      | exact noAbort_insCarry _ _ | exact noAbort_insReset _ _ _
      | exact noAbort_searchIterateAtInsertions _ _ _ _ _ _ | exact noAbort_addsOpen _ _
      | exact noAbort_addsInit _ _ | exact noAbort_addsClose _ _
      | exact noAbort_addsLoop _ _ _ _ _ _ _ _ | exact noAbort_searchIterateAdds _ _ _ _
      | exact noAbort_transInner _ _ _ _ _ _ _ _ | exact ih | exact ih _ | exact ih _ _
      | exact ih _ _ _ | intro _

theorem noAbort_searchIterateTrans (o : Oracle) (fuel tr adds dels : Nat) :
    NoAbort (searchIterateTrans o fuel tr adds dels) := by
  unfold searchIterateTrans
  repeat' first
    | apply noAbort_bind | split | exact noAbort_liftO _ | exact noAbort_getBuf
    | exact noAbort_setBuf _ | exact noAbort_pure _ | exact noAbort_halt_fuel
    | exact noAbort_halt_fault | exact noAbort_testAndThrow _ | exact noAbort_copySeed _
    | exact noAbort_announce _ _ _ _ | exact noAbort_delsDelete _ _ _
    | exact noAbort_delsRestore _ _ _ _ | exact noAbort_delsAdvance _ _
    | exact noAbort_delsLoop _ _ _ _ _ | exact noAbort_searchIterateDels _ _ _
    | exact noAbort_insCarry _ _ | exact noAbort_insReset _ _ _
    | exact noAbort_searchIterateAtInsertions _ _ _ _ _ _ | exact noAbort_addsOpen _ _
    | exact noAbort_addsInit _ _ | exact noAbort_addsClose _ _
    | exact noAbort_addsLoop _ _ _ _ _ _ _ _ | exact noAbort_searchIterateAdds _ _ _ _
    | exact noAbort_transInner _ _ _ _ _ _ _ _ | exact noAbort_transOuter _ _ _ _ _ _ _
    | intro _

theorem noAbort_subInit (k i : Nat) (editsArr savedArr : List Nat) :
    NoAbort (subInit k i editsArr savedArr) := by
  induction k generalizing i editsArr savedArr with
  | zero =>
    unfold subInit
    repeat' first
      | apply noAbort_bind | split | exact noAbort_liftO _ | exact noAbort_getBuf
      | exact noAbort_setBuf _ | exact noAbort_pure _ | exact noAbort_halt_fuel
      | exact noAbort_halt_fault | exact noAbort_testAndThrow _ | exact noAbort_copySeed _
      | exact noAbort_announce _ _ _ _ | exact noAbort_delsDelete _ _ _
      | exact noAbort_delsRestore _ _ _ _ | exact noAbort_delsAdvance _ _
      | exact noAbort_delsLoop _ _ _ _ _ | exact noAbort_searchIterateDels _ _ _
      | exact noAbort_insCarry _ _ | exact noAbort_insReset _ _ _
      | exact noAbort_searchIterateAtInsertions _ _ _ _ _ _ | exact noAbort_addsOpen _ _
      | exact noAbort_addsInit _ _ | exact noAbort_addsClose _ _
      | exact noAbort_addsLoop _ _ _ _ _ _ _ _ | exact noAbort_searchIterateAdds _ _ _ _
      | exact noAbort_transInner _ _ _ _ _ _ _ _ | exact noAbort_transOuter _ _ _ _ _ _ _
      | exact noAbort_searchIterateTrans _ _ _ _ _ | intro _
  | succ k ih =>
    unfold subInit
    repeat' first
      | apply noAbort_bind | split | exact noAbort_liftO _ | exact noAbort_getBuf
      | exact noAbort_setBuf _ | exact noAbort_pure _ | exact noAbort_halt_fuel
      | exact noAbort_halt_fault | exact noAbort_testAndThrow _ | exact noAbort_copySeed _
      | exact noAbort_announce _ _ _ _ | exact noAbort_delsDelete _ _ _
      | exact noAbort_delsRestore _ _ _ _ | exact noAbort_delsAdvance _ _
      | exact noAbort_delsLoop _ _ _ _ _ | exact noAbort_searchIterateDels _ _ _
      | exact noAbort_insCarry _ _ | exact noAbort_insReset _ _ _
      | exact noAbort_searchIterateAtInsertions _ _ _ _ _ _ | exact noAbort_addsOpen _ _
      | exact noAbort_addsInit _ _ | exact noAbort_addsClose _ _
      | exact noAbort_addsLoop _ _ _ _ _ _ _ _ | exact noAbort_searchIterateAdds _ _ _ _
      | exact noAbort_transInner _ _ _ _ _ _ _ _ | exact noAbort_transOuter _ _ _ _ _ _ _
      | exact noAbort_searchIterateTrans _ _ _ _ _ | exact ih | exact ih _ | exact ih _ _
      | exact ih _ _ _ | intro _

theorem noAbort_subClock (editsArr : List Nat) (k pos : Nat) :
    NoAbort (subClock editsArr k pos) := by
  induction k generalizing pos with
  | zero =>
    unfold subClock
    repeat' first
      | apply noAbort_bind | split | exact noAbort_liftO _ | exact noAbort_getBuf
      | exact noAbort_setBuf _ | exact noAbort_pure _ | exact noAbort_halt_fuel
      | exact noAbort_halt_fault | exact noAbort_testAndThrow _ | exact noAbort_copySeed _
      | exact noAbort_announce _ _ _ _ | exact noAbort_delsDelete _ _ _
      | exact noAbort_delsRestore _ _ _ _ | exact noAbort_delsAdvance _ _
      | exact noAbort_delsLoop _ _ _ _ _ | exact noAbort_searchIterateDels _ _ _
      | exact noAbort_insCarry _ _ | exact noAbort_insReset _ _ _
      | exact noAbort_searchIterateAtInsertions _ _ _ _ _ _ | exact noAbort_addsOpen _ _
      | exact noAbort_addsInit _ _ | exact noAbort_addsClose _ _
      | exact noAbort_addsLoop _ _ _ _ _ _ _ _ | exact noAbort_searchIterateAdds _ _ _ _
      | exact noAbort_transInner _ _ _ _ _ _ _ _ | exact noAbort_transOuter _ _ _ _ _ _ _
      | exact noAbort_searchIterateTrans _ _ _ _ _ | exact noAbort_subInit _ _ _ _ | intro _
  | succ k ih =>
    unfold subClock
    repeat' first
      | apply noAbort_bind | split | exact noAbort_liftO _ | exact noAbort_getBuf
      | exact noAbort_setBuf _ | exact noAbort_pure _ | exact noAbort_halt_fuel
      | exact noAbort_halt_fault | exact noAbort_testAndThrow _ | exact noAbort_copySeed _
      | exact noAbort_announce _ _ _ _ | exact noAbort_delsDelete _ _ _
      | exact noAbort_delsRestore _ _ _ _ | exact noAbort_delsAdvance _ _
      | exact noAbort_delsLoop _ _ _ _ _ | exact noAbort_searchIterateDels _ _ _
      | exact noAbort_insCarry _ _ | exact noAbort_insReset _ _ _
      | exact noAbort_searchIterateAtInsertions _ _ _ _ _ _ | exact noAbort_addsOpen _ _
      | exact noAbort_addsInit _ _ | exact noAbort_addsClose _ _
      | exact noAbort_addsLoop _ _ _ _ _ _ _ _ | exact noAbort_searchIterateAdds _ _ _ _
      | exact noAbort_transInner _ _ _ _ _ _ _ _ | exact noAbort_transOuter _ _ _ _ _ _ _
      | exact noAbort_searchIterateTrans _ _ _ _ _ | exact noAbort_subInit _ _ _ _ | exact ih
      | exact ih _ | exact ih _ _ | exact ih _ _ _ | intro _

theorem noAbort_subOdometer (o : Oracle) (fuelT edits tr adds dels : Nat) (editsArr : List Nat) (k : Nat) :
    NoAbort (subOdometer o fuelT edits tr adds dels editsArr k) := by
  induction k with
  | zero =>
    unfold subOdometer
    repeat' first
      | apply noAbort_bind | split | exact noAbort_liftO _ | exact noAbort_getBuf
      | exact noAbort_setBuf _ | exact noAbort_pure _ | exact noAbort_halt_fuel
      | exact noAbort_halt_fault | exact noAbort_testAndThrow _ | exact noAbort_copySeed _
      | exact noAbort_announce _ _ _ _ | exact noAbort_delsDelete _ _ _
      | exact noAbort_delsRestore _ _ _ _ | exact noAbort_delsAdvance _ _
      | exact noAbort_delsLoop _ _ _ _ _ | exact noAbort_searchIterateDels _ _ _
      | exact noAbort_insCarry _ _ | exact noAbort_insReset _ _ _
      | exact noAbort_searchIterateAtInsertions _ _ _ _ _ _ | exact noAbort_addsOpen _ _
      | exact noAbort_addsInit _ _ | exact noAbort_addsClose _ _
      | exact noAbort_addsLoop _ _ _ _ _ _ _ _ | exact noAbort_searchIterateAdds _ _ _ _
      | exact noAbort_transInner _ _ _ _ _ _ _ _ | exact noAbort_transOuter _ _ _ _ _ _ _
      | exact noAbort_searchIterateTrans _ _ _ _ _ | exact noAbort_subInit _ _ _ _
      | exact noAbort_subClock _ _ _ | intro _
  | succ k ih =>
    unfold subOdometer
    repeat' first
      | apply noAbort_bind | split | exact noAbort_liftO _ | exact noAbort_getBuf
      | exact noAbort_setBuf _ | exact noAbort_pure _ | exact noAbort_halt_fuel
      | exact noAbort_halt_fault | exact noAbort_testAndThrow _ | exact noAbort_copySeed _
      | exact noAbort_announce _ _ _ _ | exact noAbort_delsDelete _ _ _
      | exact noAbort_delsRestore _ _ _ _ | exact noAbort_delsAdvance _ _
      | exact noAbort_delsLoop _ _ _ _ _ | exact noAbort_searchIterateDels _ _ _
      | exact noAbort_insCarry _ _ | exact noAbort_insReset _ _ _
      | exact noAbort_searchIterateAtInsertions _ _ _ _ _ _ | exact noAbort_addsOpen _ _
      | exact noAbort_addsInit _ _ | exact noAbort_addsClose _ _
      | exact noAbort_addsLoop _ _ _ _ _ _ _ _ | exact noAbort_searchIterateAdds _ _ _ _
      | exact noAbort_transInner _ _ _ _ _ _ _ _ | exact noAbort_transOuter _ _ _ _ _ _ _
      | exact noAbort_searchIterateTrans _ _ _ _ _ | exact noAbort_subInit _ _ _ _
      | exact noAbort_subClock _ _ _ | exact ih | exact ih _ | exact ih _ _ | exact ih _ _ _
      | intro _

theorem noAbort_subRestore (editsArr savedArr : List Nat) (k i : Nat) :
    NoAbort (subRestore editsArr savedArr k i) := by
  induction k generalizing i with
  | zero =>
    unfold subRestore
    repeat' first
      | apply noAbort_bind | split | exact noAbort_liftO _ | exact noAbort_getBuf
      | exact noAbort_setBuf _ | exact noAbort_pure _ | exact noAbort_halt_fuel
      | exact noAbort_halt_fault | exact noAbort_testAndThrow _ | exact noAbort_copySeed _
      | exact noAbort_announce _ _ _ _ | exact noAbort_delsDelete _ _ _
      | exact noAbort_delsRestore _ _ _ _ | exact noAbort_delsAdvance _ _
      | exact noAbort_delsLoop _ _ _ _ _ | exact noAbort_searchIterateDels _ _ _
      | exact noAbort_insCarry _ _ | exact noAbort_insReset _ _ _
      | exact noAbort_searchIterateAtInsertions _ _ _ _ _ _ | exact noAbort_addsOpen _ _
      | exact noAbort_addsInit _ _ | exact noAbort_addsClose _ _
      | exact noAbort_addsLoop _ _ _ _ _ _ _ _ | exact noAbort_searchIterateAdds _ _ _ _
      | exact noAbort_transInner _ _ _ _ _ _ _ _ | exact noAbort_transOuter _ _ _ _ _ _ _
      | exact noAbort_searchIterateTrans _ _ _ _ _ | exact noAbort_subInit _ _ _ _
      | exact noAbort_subClock _ _ _ | exact noAbort_subOdometer _ _ _ _ _ _ _ _ | intro _
  | succ k ih =>
    unfold subRestore
    repeat' first
      | apply noAbort_bind | split | exact noAbort_liftO _ | exact noAbort_getBuf
      | exact noAbort_setBuf _ | exact noAbort_pure _ | exact noAbort_halt_fuel
      | exact noAbort_halt_fault | exact noAbort_testAndThrow _ | exact noAbort_copySeed _
      | exact noAbort_announce _ _ _ _ | exact noAbort_delsDelete _ _ _
      | exact noAbort_delsRestore _ _ _ _ | exact noAbort_delsAdvance _ _
      | exact noAbort_delsLoop _ _ _ _ _ | exact noAbort_searchIterateDels _ _ _
      | exact noAbort_insCarry _ _ | exact noAbort_insReset _ _ _
      | exact noAbort_searchIterateAtInsertions _ _ _ _ _ _ | exact noAbort_addsOpen _ _
      | exact noAbort_addsInit _ _ | exact noAbort_addsClose _ _
      | exact noAbort_addsLoop _ _ _ _ _ _ _ _ | exact noAbort_searchIterateAdds _ _ _ _
      | exact noAbort_transInner _ _ _ _ _ _ _ _ | exact noAbort_transOuter _ _ _ _ _ _ _
      | exact noAbort_searchIterateTrans _ _ _ _ _ | exact noAbort_subInit _ _ _ _
      | exact noAbort_subClock _ _ _ | exact noAbort_subOdometer _ _ _ _ _ _ _ _ | exact ih
      | exact ih _ | exact ih _ _ | exact ih _ _ _ | intro _

theorem noAbort_subCarry (k : Nat) (editsArr : List Nat) :
    NoAbort (subCarry k editsArr) := by
  induction k generalizing editsArr with
  | zero =>
    unfold subCarry
    repeat' first
      | apply noAbort_bind | split | exact noAbort_liftO _ | exact noAbort_getBuf
      | exact noAbort_setBuf _ | exact noAbort_pure _ | exact noAbort_halt_fuel
      | exact noAbort_halt_fault | exact noAbort_testAndThrow _ | exact noAbort_copySeed _
      | exact noAbort_announce _ _ _ _ | exact noAbort_delsDelete _ _ _
      | exact noAbort_delsRestore _ _ _ _ | exact noAbort_delsAdvance _ _
      | exact noAbort_delsLoop _ _ _ _ _ | exact noAbort_searchIterateDels _ _ _
      | exact noAbort_insCarry _ _ | exact noAbort_insReset _ _ _
      | exact noAbort_searchIterateAtInsertions _ _ _ _ _ _ | exact noAbort_addsOpen _ _
      | exact noAbort_addsInit _ _ | exact noAbort_addsClose _ _
      | exact noAbort_addsLoop _ _ _ _ _ _ _ _ | exact noAbort_searchIterateAdds _ _ _ _
      | exact noAbort_transInner _ _ _ _ _ _ _ _ | exact noAbort_transOuter _ _ _ _ _ _ _
      | exact noAbort_searchIterateTrans _ _ _ _ _ | exact noAbort_subInit _ _ _ _
      | exact noAbort_subClock _ _ _ | exact noAbort_subOdometer _ _ _ _ _ _ _ _
      | exact noAbort_subRestore _ _ _ _ | intro _
  | succ k ih =>
    unfold subCarry
    repeat' first
      | apply noAbort_bind | split | exact noAbort_liftO _ | exact noAbort_getBuf
      | exact noAbort_setBuf _ | exact noAbort_pure _ | exact noAbort_halt_fuel
      | exact noAbort_halt_fault | exact noAbort_testAndThrow _ | exact noAbort_copySeed _
      | exact noAbort_announce _ _ _ _ | exact noAbort_delsDelete _ _ _
      | exact noAbort_delsRestore _ _ _ _ | exact noAbort_delsAdvance _ _
      | exact noAbort_delsLoop _ _ _ _ _ | exact noAbort_searchIterateDels _ _ _
      | exact noAbort_insCarry _ _ | exact noAbort_insReset _ _ _
      | exact noAbort_searchIterateAtInsertions _ _ _ _ _ _ | exact noAbort_addsOpen _ _
      | exact noAbort_addsInit _ _ | exact noAbort_addsClose _ _
      | exact noAbort_addsLoop _ _ _ _ _ _ _ _ | exact noAbort_searchIterateAdds _ _ _ _
      | exact noAbort_transInner _ _ _ _ _ _ _ _ | exact noAbort_transOuter _ _ _ _ _ _ _
      | exact noAbort_searchIterateTrans _ _ _ _ _ | exact noAbort_subInit _ _ _ _
      | exact noAbort_subClock _ _ _ | exact noAbort_subOdometer _ _ _ _ _ _ _ _
      | exact noAbort_subRestore _ _ _ _ | exact ih | exact ih _ | exact ih _ _
      | exact ih _ _ _ | intro _

theorem noAbort_subReinit (edits pos : Nat) (editsArr savedArr : List Nat) :
    NoAbort (subReinit edits pos editsArr savedArr) := by
  unfold subReinit
  repeat' first
    | apply noAbort_bind | split | exact noAbort_liftO _ | exact noAbort_getBuf
    | exact noAbort_setBuf _ | exact noAbort_pure _ | exact noAbort_halt_fuel
    | exact noAbort_halt_fault | exact noAbort_testAndThrow _ | exact noAbort_copySeed _
    | exact noAbort_announce _ _ _ _ | exact noAbort_delsDelete _ _ _
    | exact noAbort_delsRestore _ _ _ _ | exact noAbort_delsAdvance _ _
    | exact noAbort_delsLoop _ _ _ _ _ | exact noAbort_searchIterateDels _ _ _
    | exact noAbort_insCarry _ _ | exact noAbort_insReset _ _ _
    | exact noAbort_searchIterateAtInsertions _ _ _ _ _ _ | exact noAbort_addsOpen _ _
    | exact noAbort_addsInit _ _ | exact noAbort_addsClose _ _
    | exact noAbort_addsLoop _ _ _ _ _ _ _ _ | exact noAbort_searchIterateAdds _ _ _ _
    | exact noAbort_transInner _ _ _ _ _ _ _ _ | exact noAbort_transOuter _ _ _ _ _ _ _
    | exact noAbort_searchIterateTrans _ _ _ _ _ | exact noAbort_subInit _ _ _ _
    | exact noAbort_subClock _ _ _ | exact noAbort_subOdometer _ _ _ _ _ _ _ _
    | exact noAbort_subRestore _ _ _ _ | exact noAbort_subCarry _ _ | intro _

theorem noAbort_subLoop (o : Oracle) (fuelT edits tr adds dels k : Nat) (editsArr savedArr : List Nat) :
    NoAbort (subLoop o fuelT edits tr adds dels k editsArr savedArr) := by
  induction k generalizing editsArr savedArr with
  | zero =>
    unfold subLoop
    repeat' first
      | apply noAbort_bind | split | exact noAbort_liftO _ | exact noAbort_getBuf
      | exact noAbort_setBuf _ | exact noAbort_pure _ | exact noAbort_halt_fuel
      | exact noAbort_halt_fault | exact noAbort_testAndThrow _ | exact noAbort_copySeed _
      | exact noAbort_announce _ _ _ _ | exact noAbort_delsDelete _ _ _
      | exact noAbort_delsRestore _ _ _ _ | exact noAbort_delsAdvance _ _
      | exact noAbort_delsLoop _ _ _ _ _ | exact noAbort_searchIterateDels _ _ _
      | exact noAbort_insCarry _ _ | exact noAbort_insReset _ _ _
      | exact noAbort_searchIterateAtInsertions _ _ _ _ _ _ | exact noAbort_addsOpen _ _
      | exact noAbort_addsInit _ _ | exact noAbort_addsClose _ _
      | exact noAbort_addsLoop _ _ _ _ _ _ _ _ | exact noAbort_searchIterateAdds _ _ _ _
      | exact noAbort_transInner _ _ _ _ _ _ _ _ | exact noAbort_transOuter _ _ _ _ _ _ _
      | exact noAbort_searchIterateTrans _ _ _ _ _ | exact noAbort_subInit _ _ _ _
      | exact noAbort_subClock _ _ _ | exact noAbort_subOdometer _ _ _ _ _ _ _ _
      | exact noAbort_subRestore _ _ _ _ | exact noAbort_subCarry _ _
      | exact noAbort_subReinit _ _ _ _ | intro _
  | succ k ih =>
    unfold subLoop
    repeat' first
      | apply noAbort_bind | split | exact noAbort_liftO _ | exact noAbort_getBuf
      | exact noAbort_setBuf _ | exact noAbort_pure _ | exact noAbort_halt_fuel
      | exact noAbort_halt_fault | exact noAbort_testAndThrow _ | exact noAbort_copySeed _
      | exact noAbort_announce _ _ _ _ | exact noAbort_delsDelete _ _ _
      | exact noAbort_delsRestore _ _ _ _ | exact noAbort_delsAdvance _ _
      | exact noAbort_delsLoop _ _ _ _ _ | exact noAbort_searchIterateDels _ _ _
      | exact noAbort_insCarry _ _ | exact noAbort_insReset _ _ _
      | exact noAbort_searchIterateAtInsertions _ _ _ _ _ _ | exact noAbort_addsOpen _ _
      | exact noAbort_addsInit _ _ | exact noAbort_addsClose _ _
      | exact noAbort_addsLoop _ _ _ _ _ _ _ _ | exact noAbort_searchIterateAdds _ _ _ _
      | exact noAbort_transInner _ _ _ _ _ _ _ _ | exact noAbort_transOuter _ _ _ _ _ _ _
      | exact noAbort_searchIterateTrans _ _ _ _ _ | exact noAbort_subInit _ _ _ _
      | exact noAbort_subClock _ _ _ | exact noAbort_subOdometer _ _ _ _ _ _ _ _
      | exact noAbort_subRestore _ _ _ _ | exact noAbort_subCarry _ _
      | exact noAbort_subReinit _ _ _ _ | exact ih | exact ih _ | exact ih _ _ | exact ih _ _ _
      | intro _

theorem noAbort_generate (o : Oracle) (fuel : Nat) (seed : Str) (edits tr adds dels : Nat) :
    NoAbort (generate o fuel seed edits tr adds dels) := by
  unfold generate
  repeat' first
    | apply noAbort_bind | split | exact noAbort_liftO _ | exact noAbort_getBuf
    | exact noAbort_setBuf _ | exact noAbort_pure _ | exact noAbort_halt_fuel
    | exact noAbort_halt_fault | exact noAbort_testAndThrow _ | exact noAbort_copySeed _
    | exact noAbort_announce _ _ _ _ | exact noAbort_delsDelete _ _ _
    | exact noAbort_delsRestore _ _ _ _ | exact noAbort_delsAdvance _ _
    | exact noAbort_delsLoop _ _ _ _ _ | exact noAbort_searchIterateDels _ _ _
    | exact noAbort_insCarry _ _ | exact noAbort_insReset _ _ _
    | exact noAbort_searchIterateAtInsertions _ _ _ _ _ _ | exact noAbort_addsOpen _ _
    | exact noAbort_addsInit _ _ | exact noAbort_addsClose _ _
    | exact noAbort_addsLoop _ _ _ _ _ _ _ _ | exact noAbort_searchIterateAdds _ _ _ _
    | exact noAbort_transInner _ _ _ _ _ _ _ _ | exact noAbort_transOuter _ _ _ _ _ _ _
    | exact noAbort_searchIterateTrans _ _ _ _ _ | exact noAbort_subInit _ _ _ _
    | exact noAbort_subClock _ _ _ | exact noAbort_subOdometer _ _ _ _ _ _ _ _
    | exact noAbort_subRestore _ _ _ _ | exact noAbort_subCarry _ _
    | exact noAbort_subReinit _ _ _ _ | exact noAbort_subLoop _ _ _ _ _ _ _ _ _ | intro _

theorem noAbort_testSeed (o : Oracle) (seed : Str) (distance : Int) (editDistance : Nat) :
    NoAbort (testSeed o seed distance editDistance) := by
  unfold testSeed
  repeat' first
    | apply noAbort_bind | split | exact noAbort_liftO _ | exact noAbort_getBuf
    | exact noAbort_setBuf _ | exact noAbort_pure _ | exact noAbort_halt_fuel
    | exact noAbort_halt_fault | exact noAbort_testAndThrow _ | exact noAbort_copySeed _
    | exact noAbort_announce _ _ _ _ | exact noAbort_delsDelete _ _ _
    | exact noAbort_delsRestore _ _ _ _ | exact noAbort_delsAdvance _ _
    | exact noAbort_delsLoop _ _ _ _ _ | exact noAbort_searchIterateDels _ _ _
    | exact noAbort_insCarry _ _ | exact noAbort_insReset _ _ _
    | exact noAbort_searchIterateAtInsertions _ _ _ _ _ _ | exact noAbort_addsOpen _ _
    | exact noAbort_addsInit _ _ | exact noAbort_addsClose _ _
    | exact noAbort_addsLoop _ _ _ _ _ _ _ _ | exact noAbort_searchIterateAdds _ _ _ _
    | exact noAbort_transInner _ _ _ _ _ _ _ _ | exact noAbort_transOuter _ _ _ _ _ _ _
    | exact noAbort_searchIterateTrans _ _ _ _ _ | exact noAbort_subInit _ _ _ _
    | exact noAbort_subClock _ _ _ | exact noAbort_subOdometer _ _ _ _ _ _ _ _
    | exact noAbort_subRestore _ _ _ _ | exact noAbort_subCarry _ _
    | exact noAbort_subReinit _ _ _ _ | exact noAbort_subLoop _ _ _ _ _ _ _ _ _
    | exact noAbort_generate _ _ _ _ _ _ _ | intro _

theorem noAbort_loopAdds (gen : Gen) (hg : ∀ e t a d, NoAbort (gen e t a d))
    (editDistance edits tr k adds : Nat) :
    NoAbort (loopAdds gen editDistance edits tr k adds) := by
  induction k generalizing adds with
  | zero =>
    unfold loopAdds
    exact noAbort_halt_fuel
  | succ k ih =>
    unfold loopAdds
    repeat' first
      | apply noAbort_bind | split
      | exact noAbort_announce _ _ _ _ | exact hg _ _ _ _ | exact ih _
      | exact noAbort_pure _ | intro _

theorem noAbort_loopTrans (gen : Gen) (hg : ∀ e t a d, NoAbort (gen e t a d))
    (editDistance edits k tr : Nat) :
    NoAbort (loopTrans gen editDistance edits k tr) := by
  induction k generalizing tr with
  | zero =>
    unfold loopTrans
    exact noAbort_halt_fuel
  | succ k ih =>
    unfold loopTrans
    repeat' first
      | apply noAbort_bind | split
      | exact noAbort_loopAdds gen hg _ _ _ _ _ | exact ih _
      | exact noAbort_pure _ | intro _

theorem noAbort_loopEdits (gen : Gen) (hg : ∀ e t a d, NoAbort (gen e t a d))
    (editDistance k edits : Nat) :
    NoAbort (loopEdits gen editDistance k edits) := by
  induction k generalizing edits with
  | zero =>
    unfold loopEdits
    exact noAbort_halt_fuel
  | succ k ih =>
    unfold loopEdits
    repeat' first
      | apply noAbort_bind | split
      | exact noAbort_loopTrans gen hg _ _ _ _ | exact ih _
      | exact noAbort_pure _ | intro _

/-- A call of `search` on a seed of at most `MAX_PWD_LEN / 2` characters
does not end with the fatal abort. -/
theorem search_no_abort (o : Oracle) (gen : Gen) (hg : ∀ e t a d, NoAbort (gen e t a d))
    (seed : Str) (distance : Int) (hlen : ¬ seed.length > MAX_PWD_LEN / 2)
    (depth editDistance : Nat) (log : List Ev) :
    (search o gen seed distance depth editDistance log).1 ≠ Outcome.abort := by
  induction depth generalizing editDistance log with
  | zero => simp [search]
  | succ depth ih =>
    have hb := noAbort_bind (noAbort_testSeed o seed distance editDistance)
      (fun _ => noAbort_loopEdits gen hg editDistance (editDistance + 2) 0)
      { buf := freshBuf, log := log }
    rcases hy : ((testSeed o seed distance editDistance).bind fun _ =>
        loopEdits gen editDistance (editDistance + 2) 0) { buf := freshBuf, log := log }
      with ⟨ry, sy⟩
    rw [hy] at hb
    cases ry with
    | error e =>
      simp only [search, hlen, if_false, hy]
      cases e with
      | found pwd => simp [Outcome.ofStop]
      | fault => simp [Outcome.ofStop]
      | fuel => simp [Outcome.ofStop]
      | abort => exact absurd rfl hb
    | ok a =>
      by_cases hcont : editDistance < seed.length ∧ distance < 0
      · simp only [search, hlen, if_false, hy, hcont, and_self, if_true]
        exact ih _ _
      · simp only [search, hlen, if_false, hy, hcont]
        simp

/-- A seed of more than `MAX_PWD_LEN / 2` characters: the call ends at line
414 with nothing tested. -/
theorem search_too_long (o : Oracle) (gen : Gen) (seed : Str) (distance : Int)
    (hlen : seed.length > MAX_PWD_LEN / 2) (depth editDistance : Nat) (log : List Ev) :
    search o gen seed distance (depth + 1) editDistance log = (Outcome.abort, log) := by
  simp only [search, hlen, if_true]

/-! ## The seed that is too long -/

theorem search_grows (o : Oracle) (fuel : Nat) (seed : Str) (distance : Int)
    (depth editDistance : Nat) (log : List Ev) :
    ∃ evs, (search o (generate o fuel seed) seed distance depth editDistance log).2
      = evs ++ log := by
  obtain ⟨evs, hlog, _, h⟩ := sim_search o (generate o fuel seed) (generate rejectAll fuel seed)
    (fun e t a d => sim_generate o fuel seed e t a d) seed distance depth editDistance log
  rcases h with ⟨_, heq⟩ | ⟨c, post, pre, _, _, _, _, hl⟩
  · exact ⟨evs, by rw [heq, hlog]⟩
  · exact ⟨Ev.test c :: pre, by rw [hl]⟩

theorem testAndThrow_logs (o : Oracle) (s : St) (c : Str) (h : cstrAt s.buf 0 = some c) :
    (testAndThrow o s).2 = { s with log := Ev.test c :: s.log } := by
  unfold testAndThrow
  simp only [h]
  split <;> rfl

/-- With no positive fixed distance the first thing a call `search(0)` does
to the outside is hand the seed itself to `testMatch`. -/
theorem search_tests_seed_first (o : Oracle) (fuel : Nat) (seed : Str) (distance : Int)
    (depth : Nat) (hlen : ¬ seed.length > MAX_PWD_LEN / 2) (hs : NoNul seed)
    (hd : distance ≤ 0) :
    ∃ evs, (search o (generate o fuel seed) seed distance (depth + 1) 0 []).2
      = evs ++ [Ev.test seed] := by
  have hc : cstrAt (memcpySeed freshBuf seed) 0 = some seed := by
    rw [memcpySeed_any]
    simpa using cstr_cells [] seed _ (fun _ h => by cases h) hs
  have hT : testSeed o seed distance 0 = M.bind (copySeed seed) fun _ => testAndThrow o := by
    unfold testSeed
    rw [if_pos ⟨rfl, hd⟩]
  have hlogT := testAndThrow_logs o { buf := memcpySeed freshBuf seed, log := [] } seed hc
  rcases hta : testAndThrow o { buf := memcpySeed freshBuf seed, log := [] } with ⟨r, s1⟩
  rw [hta] at hlogT
  simp only at hlogT
  have hts : testSeed o seed distance 0 { buf := freshBuf, log := [] } = (r, s1) := by
    rw [hT, bind_ok (copySeed_run seed _)]
    exact hta
  cases r with
  | error e =>
    refine ⟨[], ?_⟩
    simp only [search, hlen, if_false]
    rw [bind_err hts]
    simp only [hlogT, List.nil_append]
  | ok a =>
    have hg : ∀ e t a d, Sim o (generate o fuel seed e t a d)
        (generate rejectAll fuel seed e t a d) := fun e t a d => sim_generate o fuel seed e t a d
    subst hlogT
    obtain ⟨evs, he⟩ := sim_grows (sim_loopEdits o _ _ hg 0 (0 + 2) 0)
      { buf := memcpySeed freshBuf seed, log := [Ev.test seed] }
    simp only at he
    rcases hb : loopEdits (generate o fuel seed) 0 (0 + 2) 0
        { buf := memcpySeed freshBuf seed, log := [Ev.test seed] } with ⟨r2, s2⟩
    rw [hb] at he
    simp only at he
    have hbody : M.bind (testSeed o seed distance 0)
        (fun _ => loopEdits (generate o fuel seed) 0 (0 + 2) 0) { buf := freshBuf, log := [] }
        = (r2, s2) := by
      rw [bind_ok hts]
      exact hb
    cases r2 with
    | error e =>
      refine ⟨evs, ?_⟩
      simp only [search, hlen, if_false, hbody, he]
    | ok a2 =>
      by_cases hcont : 0 < seed.length ∧ distance < 0
      · obtain ⟨evs2, h2⟩ := search_grows o fuel seed distance depth (0 + 1) s2.log
        refine ⟨evs2 ++ evs, ?_⟩
        simp only [search, hlen, if_false, hbody, hcont, and_self, if_true]
        rw [h2, he, List.append_assoc]
      · refine ⟨evs, ?_⟩
        simp only [search, hlen, if_false, hbody, hcont, he]

theorem runSearch_too_long (o : Oracle) (fuel : Nat) (seed : Str) (distance : Int)
    (hlen : seed.length > MAX_PWD_LEN / 2) :
    runSearch o fuel seed distance = (Outcome.abort, []) := by
  unfold runSearch
  rw [search_too_long o _ seed distance hlen (seed.length + 1)]
  rfl

theorem main_seed_too_long (a : Args) (fuel : Nat) (seed : Str) (hm : a.matchStr ≠ [])
    (hs : a.seedPwd = some seed) (hlen : seed.length > MAX_PWD_LEN / 2) :
    main a fuel = (Exit.exited 2, []) := by
  have hr := runSearch_too_long (oracleOf a.config) fuel seed a.distance hlen
  simp [main, hm, mainSearch, hs, hr, ABORT, effectsOf, testedOf]

/-! ## Two transpositions -/

/-- The scan of lines 390-399 for the swap number `t`, from the position
`u.length` to the end of the string, with the array of swap positions it
leaves behind. -/
theorem transInner_run (t : Nat) (v : Str) (u : Str) (R : Mem) (log : List Ev)
    (fuelA fuel : Nat) (transArr : List (Option Nat))
    (hu : NoNul u) (hv : NoNul v) (hf : v.length + 1 ≤ fuel) :
    transInner rejectAll fuelA 0 0 t fuel u.length transArr
        { buf := cells u v R, log := log }
      = (Except.ok (if 2 ≤ v.length then transArr.set t (some (u.length + v.length - 2))
            else transArr),
          { buf := cells u v R, log := ((swapCands u v).map Ev.test).reverse ++ log }) := by
  induction v generalizing u fuel log transArr with
  | nil =>
    obtain ⟨f, rfl⟩ : ∃ f, fuel = f + 1 := ⟨fuel - 1, by omega⟩
    unfold transInner
    simp only [bind_getBuf, rd_cells_end, bind_liftO_some, if_true, pure_run, swapCands]
    simp
  | cons x v ih =>
    obtain ⟨f, rfl⟩ : ∃ f, fuel = f + 1 := ⟨fuel - 1, by omega⟩
    have hx : x ≠ 0 := hv.head
    cases v with
    | nil =>
      unfold transInner
      simp only [bind_getBuf, rd_cells, rd_cells_succ, bind_liftO_some, hx, if_false,
        List.headD_nil, if_true, pure_run, swapCands]
      simp
    | cons y v =>
      have hy : y ≠ 0 := hv.tail.head
      have hyv : NoNul (y :: v) := hv.tail
      have hc : NoNul (y :: x :: v) := NoNul.cons hy (NoNul.cons hx hyv.tail)
      have h := ih (u ++ [x]) (Ev.test (u ++ y :: x :: v) :: log) f
        (transArr.set t (some u.length))
        (hu.append (NoNul.cons hx (fun _ h => by cases h))) hyv
        (by simp at hf ⊢; omega)
      rw [cells_snoc] at h
      simp only [List.length_append, List.length_singleton] at h
      unfold transInner
      simp only [bind_getBuf, rd_cells, rd_cells_succ, bind_liftO_some, hx, hy, if_false,
        List.headD_cons, wr_cells, wr_cells_succ, bind_setBuf]
      rw [bind_ok (searchIterateAdds_zero_run _ (u ++ y :: x :: v) fuelA
        (cstr_cells u (y :: x :: v) R hu hc))]
      simp only [bind_getBuf, rd_cells, bind_liftO_some, wr_cells, wr_cells_succ, bind_setBuf]
      rw [h]
      have e2 : 2 ≤ (x :: y :: v).length := by simp
      rw [if_pos e2]
      congr 1
      · congr 1
        cases v with
        | nil => simp
        | cons z v =>
          have e3 : 2 ≤ (y :: z :: v).length := by simp
          rw [if_pos e3, List.set_set]
          congr 2
          simp only [List.length_cons]
          omega
      · simp [swapCands]

theorem liftO_none_run {α : Type} (s : St) :
    (liftO (none : Option α)) s = (Except.error Stop.fault, s) := by
  unfold liftO halt
  rfl

theorem transOuter_succ (o : Oracle) (fuel adds dels k transNum : Nat)
    (transArr : List (Option Nat)) :
    transOuter o fuel adds dels (k + 1) transNum transArr
      = M.bind (if transNum = 0 then M.pure 0
          else M.bind (liftO (transArr[transNum - 1]?).join) fun q => M.pure (q + 1)) fun start =>
        M.bind (transInner o fuel adds dels transNum fuel start transArr) fun arr1 =>
        transOuter o fuel adds dels k (transNum + 1) arr1 := by
  rw [transOuter]

theorem transOuter_zero (o : Oracle) (fuel adds dels transNum : Nat)
    (transArr : List (Option Nat)) :
    transOuter o fuel adds dels 0 transNum transArr = M.pure () := by
  rw [transOuter]

/-- The first two passes of the loop over `transNum` on a string of at
least two characters: the first pass tests the single swaps, the second
starts behind the last of them and finds nothing to swap. -/
theorem transOuter_two (k : Nat) (w : Str) (a : Nat) (R : Mem) (log : List Ev) (fuel : Nat)
    (hw : NoNul (w ++ [a])) (h1 : 1 ≤ w.length) (hf : w.length + 2 ≤ fuel) :
    transOuter rejectAll fuel 0 0 (k + 2) 0 (List.replicate MAX_PWD_LEN none)
        { buf := cells [] (w ++ [a]) R, log := log }
      = transOuter rejectAll fuel 0 0 k 2
          ((List.replicate MAX_PWD_LEN none).set 0 (some (w.length - 1)))
          { buf := cells [] (w ++ [a]) R,
            log := ((swapCands [] (w ++ [a])).map Ev.test).reverse ++ log } := by
  rw [transOuter_succ]
  simp only [if_true, bind_pure]
  have p1 := transInner_run 0 (w ++ [a]) [] R log fuel fuel (List.replicate MAX_PWD_LEN none)
    (fun _ h => by cases h) hw (by simp; omega)
  have e2 : 2 ≤ (w ++ [a]).length := by simp; omega
  rw [if_pos e2] at p1
  simp only [List.length_nil, List.length_append, List.length_singleton, Nat.zero_add] at p1
  have e3 : w.length + 1 - 2 = w.length - 1 := by omega
  rw [e3] at p1
  have e4 : (((List.replicate MAX_PWD_LEN (none : Option Nat)).set 0
      (some (w.length - 1)))[0 + 1 - 1]?).join = some (w.length - 1) := by
    simp [MAX_PWD_LEN]
  rw [bind_ok p1, transOuter_succ, e4]
  simp only [Nat.zero_add, Nat.one_ne_zero, if_false, bind_liftO_some, bind_pure,
    Nat.reduceAdd]
  rw [bind_assoc, bind_liftO_some, bind_pure]
  have e5 : w.length - 1 + 1 = w.length := by omega
  rw [e5]
  have p2 := transInner_run 1 [a] w R
    (((swapCands [] (w ++ [a])).map Ev.test).reverse ++ log) fuel fuel
    ((List.replicate MAX_PWD_LEN none).set 0 (some (w.length - 1))) hw.left hw.right
    (by simp; omega)
  have e6 : ¬ (2 ≤ [a].length) := by simp
  rw [if_neg e6, cells_flat w [a]] at p2
  rw [bind_ok p2]
  simp [swapCands]

/-- With two transpositions the candidates tested are those of one
transposition: each has a single swap applied. -/
theorem searchIterateTrans_two (w : Str) (a : Nat) (R : Mem) (log : List Ev) (fuel : Nat)
    (hw : NoNul (w ++ [a])) (h1 : 1 ≤ w.length) (hf : w.length + 2 ≤ fuel) :
    searchIterateTrans rejectAll fuel 2 0 0 { buf := cells [] (w ++ [a]) R, log := log }
      = (Except.ok (),
          { buf := cells [] (w ++ [a]) R,
            log := ((swapCands [] (w ++ [a])).map Ev.test).reverse ++ log }) := by
  unfold searchIterateTrans
  simp only [OfNat.ofNat_ne_zero, if_false]
  have h := transOuter_two 0 w a R log fuel hw h1 hf
  simp only [Nat.zero_add] at h
  rw [h, transOuter_zero, pure_run]

/-- With three transpositions the third pass starts from the swap position
of the second pass, which was never assigned. -/
theorem searchIterateTrans_three (w : Str) (a : Nat) (R : Mem) (log : List Ev) (fuel : Nat)
    (hw : NoNul (w ++ [a])) (h1 : 1 ≤ w.length) (hf : w.length + 2 ≤ fuel) :
    searchIterateTrans rejectAll fuel 3 0 0 { buf := cells [] (w ++ [a]) R, log := log }
      = (Except.error Stop.fault,
          { buf := cells [] (w ++ [a]) R,
            log := ((swapCands [] (w ++ [a])).map Ev.test).reverse ++ log }) := by
  unfold searchIterateTrans
  simp only [OfNat.ofNat_ne_zero, if_false]
  have h := transOuter_two 1 w a R log fuel hw h1 hf
  simp only [Nat.reduceAdd] at h
  have e4 : (((List.replicate MAX_PWD_LEN (none : Option Nat)).set 0
      (some (w.length - 1)))[2 - 1]?).join = none := by
    simp [MAX_PWD_LEN]
  rw [h, transOuter_succ, e4]
  simp only [OfNat.ofNat_ne_zero, if_false]
  exact bind_err (bind_err (liftO_none_run _))

/-! ## The odometer of the substitution stage -/

theorem printable_range : printable = List.range' 32 95 := by
  decide

theorem tick_length (ds : List Nat) : (tick ds).1.length = ds.length := by
  induction ds with
  | nil => rfl
  | cons c r ih =>
    unfold tick
    split <;> simp [ih]

theorem tick_printable (ds : List Nat) (h : Printable ds) : Printable (tick ds).1 := by
  induction ds with
  | nil => simpa [tick] using h
  | cons c r ih =>
    have hc := h c (List.mem_cons_self _ _)
    have hr : Printable r := fun x hx => h x (List.mem_cons_of_mem _ hx)
    unfold tick
    split
    · intro x hx
      rcases List.mem_cons.1 hx with rfl | hx
      · omega
      · exact hr x hx
    · intro x hx
      rcases List.mem_cons.1 hx with rfl | hx
      · omega
      · exact ih hr x hx

theorem tick_done (ds : List Nat) (h : (tick ds).2 = false) :
    (tick ds).1 = List.replicate ds.length 32 := by
  induction ds with
  | nil => rfl
  | cons c r ih =>
    unfold tick at h ⊢
    split
    · rename_i hc
      rw [if_pos hc] at h
      cases h
    · rename_i hc
      rw [if_neg hc] at h
      simp only [List.length_cons, List.replicate_succ]
      rw [ih h]

theorem odoFrom_head (ds : List Nat) (h : Printable ds) :
    odoFrom ds = ds :: (odoFrom ds).tail := by
  cases ds with
  | nil => rfl
  | cons c r =>
    have hc := h c (List.mem_cons_self _ _)
    obtain ⟨j, hj⟩ : ∃ j, 127 - c = j + 1 := ⟨126 - c, by omega⟩
    simp only [odoFrom, hj, List.range'_succ, List.map_cons, List.cons_append, List.tail_cons]

theorem odoFrom_step (ds : List Nat) (h : Printable ds) :
    odoFrom ds = ds :: (if (tick ds).2 then odoFrom (tick ds).1 else []) := by
  induction ds with
  | nil => rfl
  | cons c r ih =>
    have hc := h c (List.mem_cons_self _ _)
    have hr : Printable r := fun x hx => h x (List.mem_cons_of_mem _ hx)
    by_cases hlt : c < 126
    · obtain ⟨j, hj⟩ : ∃ j, 127 - c = j + 1 := ⟨126 - c, by omega⟩
      have hj1 : 127 - (c + 1) = j := by omega
      simp only [tick, hlt, if_true, odoFrom, hj, hj1, List.range'_succ, List.map_cons,
        List.cons_append]
    · have hc126 : c = 126 := by omega
      subst hc126
      have e1 : (tick (126 :: r)) = (32 :: (tick r).1, (tick r).2) := by
        simp [tick]
      rw [e1]
      simp only
      have ihr := ih hr
      have htail : (odoFrom r).tail = if (tick r).2 then odoFrom (tick r).1 else [] := by
        rw [ihr]
        simp
      cases hb : (tick r).2 with
      | false =>
        rw [hb] at htail
        simp [odoFrom, htail]
      | true =>
        rw [hb] at htail
        simp only [Bool.true_eq_false, if_false, if_true] at htail ⊢
        have hp := tick_printable r hr
        have hh := odoFrom_head (tick r).1 hp
        have e2 : odoFrom (32 :: (tick r).1)
            = (odoFrom (tick r).1).flatMap fun r1 => printable.map fun x => x :: r1 := by
          conv_rhs => rw [hh]
          simp only [odoFrom, List.flatMap_cons, printable_range]
        rw [e2]
        simp [odoFrom, htail]

theorem odoFrom_start (k : Nat) : odoFrom (List.replicate k 32) = odometer k := by
  induction k with
  | zero => rfl
  | succ k ih =>
    have hp : Printable (List.replicate k 32) := by
      intro c hc
      rw [(List.mem_replicate.1 hc).2]
      omega
    have hh := odoFrom_head (List.replicate k 32) hp
    rw [List.replicate_succ]
    simp only [odometer, ← ih]
    conv_rhs => rw [hh]
    simp only [odoFrom, List.flatMap_cons, printable_range]

theorem length_flatMap_const {α β : Type} (l : List α) (g : α → List β) (k : Nat)
    (h : ∀ a, (g a).length = k) : (l.flatMap g).length = k * l.length := by
  induction l with
  | nil => simp
  | cons a r ih =>
    simp only [List.flatMap_cons, List.length_append, h, ih, List.length_cons]
    ring

theorem length_odometer (k : Nat) : (odometer k).length = 95 ^ k := by
  induction k with
  | zero => rfl
  | succ k ih =>
    simp only [odometer]
    rw [length_flatMap_const _ _ 95 (fun _ => by simp [length_printable]), ih]
    ring

theorem printable_noNul {ds : List Nat} (h : Printable ds) : NoNul ds := by
  intro c hc
  have := h c hc
  omega

theorem subInit_run (rem : Str) (z : Str) (R : Mem) (log : List Ev)
    (A B S B1 : List Nat) (pre : Str)
    (hA : A.length = pre.length) (hS : S.length = pre.length)
    (hB : B.length = rem.length) (hB1 : B1.length = rem.length)
    (hlast : pre.length = 0 ∨ A[pre.length - 1]? = some (pre.length - 1)) :
    subInit rem.length pre.length (A ++ B) (S ++ B1)
        { buf := cells pre (rem ++ z) R, log := log }
      = (Except.ok (A ++ List.range' pre.length rem.length, S ++ rem),
          { buf := cells (pre ++ List.replicate rem.length 32) z R, log := log }) := by
  induction rem generalizing A B S B1 pre with
  | nil =>
    have hB0 : B = [] := List.length_eq_zero.1 hB
    have hB10 : B1 = [] := List.length_eq_zero.1 hB1
    subst hB0 hB10
    unfold subInit
    simp [pure_run]
  | cons c rem ih =>
    obtain ⟨b, B2, rfl⟩ : ∃ b B2, B = b :: B2 := by
      cases B with
      | nil => simp at hB
      | cons b B2 => exact ⟨b, B2, rfl⟩
    obtain ⟨b1, B3, rfl⟩ : ∃ b1 B3, B1 = b1 :: B3 := by
      cases B1 with
      | nil => simp at hB1
      | cons b1 B3 => exact ⟨b1, B3, rfl⟩
    simp only [List.length_cons, Nat.add_right_cancel_iff] at hB hB1
    have hstart : ∀ (β : Type) (f : Nat → M β) (s : St),
        M.bind (if pre.length = 0 then M.pure 0
          else M.bind (liftO (A ++ b :: B2)[pre.length - 1]?) fun q => M.pure (q + 1)) f s
        = f pre.length s := by
      intro β f s
      rcases hlast with h0 | h1
      · rw [if_pos h0, bind_pure, h0]
      · by_cases h0 : pre.length = 0
        · rw [if_pos h0, bind_pure, h0]
        · rw [if_neg h0]
          have hidx : (A ++ b :: B2)[pre.length - 1]? = some (pre.length - 1) := by
            rw [List.getElem?_append_left (by omega)]
            exact h1
          rw [hidx, bind_assoc, bind_liftO_some, bind_pure]
          have : pre.length - 1 + 1 = pre.length := by omega
          rw [this]
    have hsetA : (A ++ b :: B2).set pre.length pre.length = (A ++ [pre.length]) ++ B2 := by
      rw [← hA]
      simp
    have hsetS : (S ++ b1 :: B3).set pre.length c = (S ++ [c]) ++ B3 := by
      rw [← hS]
      simp
    simp only [List.length_cons, List.cons_append]
    unfold subInit
    rw [hstart]
    simp only [bind_getBuf, rd_cells, bind_liftO_some, wr_cells, bind_setBuf, hsetA, hsetS]
    have h := ih (A ++ [pre.length]) B2 (S ++ [c]) B3 (pre ++ [32])
      (by simp [hA]) (by simp [hS]) hB hB1
      (Or.inr (by simp [← hA]))
    rw [cells_snoc] at h
    simp only [List.length_append, List.length_singleton] at h
    rw [h]
    simp [List.range'_succ, List.replicate_succ]

theorem subClock_run (rem : List Nat) (z : Str) (R : Mem) (log : List Ev) (E : List Nat)
    (pre : Str) (hE : ∀ j, j < rem.length → E[pre.length + j]? = some (pre.length + j))
    (hp : Printable rem) :
    subClock E rem.length pre.length { buf := cells pre (rem ++ z) R, log := log }
      = (Except.ok (tick rem).2,
          { buf := cells pre ((tick rem).1 ++ z) R, log := log }) := by
  induction rem generalizing pre with
  | nil =>
    unfold subClock
    simp [pure_run, tick]
  | cons c rem ih =>
    have hc := hp c (List.mem_cons_self _ _)
    have hr : Printable rem := fun x hx => hp x (List.mem_cons_of_mem _ hx)
    have h0 := hE 0 (by simp)
    simp only [Nat.add_zero] at h0
    simp only [List.length_cons, List.cons_append]
    unfold subClock
    simp only [h0, bind_liftO_some, bind_getBuf, bumpChar_cells]
    by_cases hlt : c < 126
    · have e1 : (c + 1) % 256 = c + 1 := by omega
      have e2 : ¬ (c + 1 = 127) := by omega
      simp only [e1, e2, decide_False, Bool.false_eq_true, if_false, bind_setBuf, pure_run,
        tick, hlt, if_true, List.cons_append]
    · have hc126 : c = 126 := by omega
      subst hc126
      simp only [Nat.reduceAdd, Nat.reduceMod, decide_True, if_true, wr_cells, bind_liftO_some,
        bind_setBuf]
      have h := ih (pre ++ [32]) (by
        intro j hj
        have := hE (j + 1) (by simp; omega)
        simp only [List.length_append, List.length_singleton]
        rw [show pre.length + 1 + j = pre.length + (j + 1) by omega]
        exact this) hr
      rw [cells_snoc, cells_snoc] at h
      simp only [List.length_append, List.length_singleton] at h
      rw [h]
      simp [tick]

theorem subOdometer_run (fuel : Nat) (ds : List Nat) (z : Str) (R : Mem) (log : List Ev)
    (fuelT : Nat) (E : List Nat) (hE : ∀ j, j < ds.length → E[j]? = some j)
    (hp : Printable ds) (hz : NoNul z) (hf : (odoFrom ds).length ≤ fuel) :
    subOdometer rejectAll fuelT ds.length 0 0 0 E fuel
        { buf := cells [] (ds ++ z) R, log := log }
      = (Except.ok (),
          { buf := cells [] (List.replicate ds.length 32 ++ z) R,
            log := ((odoFrom ds).map fun d => Ev.test (d ++ z)).reverse ++ log }) := by
  induction fuel generalizing ds log with
  | zero =>
    rw [odoFrom_head ds hp] at hf
    simp at hf
  | succ f ih =>
    have hstep := odoFrom_step ds hp
    have hclock := subClock_run ds z R (Ev.test (ds ++ z) :: log) E []
      (by intro j hj; simpa using hE j hj) hp
    simp only [List.length_nil] at hclock
    unfold subOdometer
    rw [bind_ok (leaf_run _ (ds ++ z) fuelT
      (cstr_cells [] (ds ++ z) R (fun _ h => by cases h) ((printable_noNul hp).append hz)))]
    rw [bind_ok hclock]
    cases hb : (tick ds).2 with
    | false =>
      rw [hb] at hstep
      simp only [Bool.false_eq_true, if_false] at hstep ⊢
      rw [pure_run, tick_done ds hb, hstep]
      simp
    | true =>
      rw [hb] at hstep
      simp only [if_true] at hstep ⊢
      have hlen := tick_length ds
      have h := ih (tick ds).1 (Ev.test (ds ++ z) :: log)
        (by intro j hj; exact hE j (by rw [← hlen]; exact hj))
        (tick_printable ds hp)
        (by rw [hstep] at hf; simp at hf; omega)
      rw [hlen] at h
      rw [h, hstep]
      simp

theorem range'_getElem?_self (k j : Nat) (hj : j < k) : (List.range' 0 k)[j]? = some j := by
  rw [List.getElem?_range' 0 1 hj]
  simp

/-- The substitution stage up to the end of its first position set: the
seed is copied, the first `k` characters are blanked, and the odometer over
the positions 0..k-1 runs through all assignments. -/
theorem generate_sub_block (x z : Str) (f : Nat) (B : Mem) (log : List Ev)
    (hx : 1 ≤ x.length) (hk : x.length ≤ MAX_PWD_LEN) (hs : NoNul (x ++ z))
    (hf : 95 ^ x.length ≤ f + 1) :
    generate rejectAll (f + 1) (x ++ z) x.length 0 0 0 { buf := B, log := log }
      = (M.bind (subRestore (List.range' 0 x.length) x x.length 0) fun _ =>
          M.bind (subCarry (x.length - 1) (List.range' 0 x.length)) fun r =>
          match r.2 with
          | none => M.pure ()
          | some pos =>
            M.bind (subReinit x.length pos r.1 x) fun r2 =>
            subLoop rejectAll (f + 1) x.length 0 0 0 f r2.1 r2.2)
        { buf := cells [] (List.replicate x.length 32 ++ z) (B.drop ((x ++ z).length + 1)),
          log := ((odometer x.length).map fun d => Ev.test (d ++ z)).reverse ++ log } := by
  have hp : Printable (List.replicate x.length 32) := by
    intro c hc
    rw [(List.mem_replicate.1 hc).2]
    omega
  unfold generate
  rw [bind_ok (copySeed_run _ _)]
  have h0 : ¬ (x.length = 0) := by omega
  have h1 : ¬ (x.length > MAX_PWD_LEN) := by omega
  simp only [h0, h1, if_false, memcpySeed_any]
  have hinit := subInit_run x z (B.drop ((x ++ z).length + 1)) log []
    (List.replicate x.length 0) [] (List.replicate x.length 0) [] rfl rfl (by simp) (by simp)
    (Or.inl rfl)
  simp only [List.nil_append, List.length_nil] at hinit
  rw [bind_ok hinit]
  simp only
  rw [subLoop]
  have hodo := subOdometer_run (f + 1) (List.replicate x.length 32) z
    (B.drop ((x ++ z).length + 1)) log (f + 1) (List.range' 0 x.length)
    (by intro j hj; rw [List.length_replicate] at hj; exact range'_getElem?_self _ _ hj)
    hp hs.right
    (by rw [odoFrom_start, length_odometer]; exact hf)
  rw [List.length_replicate, odoFrom_start] at hodo
  rw [cells_flat (List.replicate x.length 32) z, bind_ok hodo]
  all_goals rfl

/-- The candidates of the first position set are the first candidates of
the composition. -/
theorem generate_sub_first (x z : Str) (fuel : Nat) (B : Mem) (log : List Ev)
    (hx : 1 ≤ x.length) (hk : x.length ≤ MAX_PWD_LEN) (hs : NoNul (x ++ z))
    (hf : 95 ^ x.length ≤ fuel) :
    ∃ later, (generate rejectAll fuel (x ++ z) x.length 0 0 0 { buf := B, log := log }).2.log
      = later ++ (((odometer x.length).map fun d => Ev.test (d ++ z)).reverse ++ log) := by
  obtain ⟨f, rfl⟩ : ∃ f, fuel = f + 1 := ⟨fuel - 1, by
    have : 0 < 95 ^ x.length := by positivity
    omega⟩
  rw [generate_sub_block x z f B log hx hk hs hf]
  have hsim : Sim rejectAll
      (M.bind (subRestore (List.range' 0 x.length) x x.length 0) fun _ =>
          M.bind (subCarry (x.length - 1) (List.range' 0 x.length)) fun r =>
          match r.2 with
          | none => M.pure ()
          | some pos =>
            M.bind (subReinit x.length pos r.1 x) fun r2 =>
            subLoop rejectAll (f + 1) x.length 0 0 0 f r2.1 r2.2)
      (M.bind (subRestore (List.range' 0 x.length) x x.length 0) fun _ =>
          M.bind (subCarry (x.length - 1) (List.range' 0 x.length)) fun r =>
          match r.2 with
          | none => M.pure ()
          | some pos =>
            M.bind (subReinit x.length pos r.1 x) fun r2 =>
            subLoop rejectAll (f + 1) x.length 0 0 0 f r2.1 r2.2) := by
    repeat' first
      | apply sim_bind | split
      | exact sim_of_silent _ (silent_subRestore _ _ _ _)
      | exact sim_of_silent _ (silent_subCarry _ _)
      | exact sim_of_silent _ (silent_subReinit _ _ _ _)
      | exact sim_of_silent _ (silent_pure _)
      | exact sim_subLoop rejectAll _ _ _ _ _ _ _ _
      | intro _
  exact sim_grows hsim _

theorem rd_at0 (x : Option Nat) (m : Mem) : rd (x :: m) 0 = x := by
  simp [rd]

theorem rd_at1 (x y : Option Nat) (m : Mem) : rd (x :: y :: m) 1 = y := by
  simp [rd]

theorem rd_at2 (x y z : Option Nat) (m : Mem) : rd (x :: y :: z :: m) 2 = z := by
  simp [rd]

theorem wr_at0 (x : Option Nat) (m : Mem) (v : Nat) : wr (x :: m) 0 v = some (some v :: m) := by
  simp [wr]

theorem wr_at1 (x y : Option Nat) (m : Mem) (v : Nat) :
    wr (x :: y :: m) 1 v = some (x :: some v :: m) := by
  simp [wr]

theorem wr_at2 (x y z : Option Nat) (m : Mem) (v : Nat) :
    wr (x :: y :: z :: m) 2 v = some (x :: y :: some v :: m) := by
  simp [wr]

/-- After the only position set {0,1} of a seed of two characters: the
characters are restored, the position pointers advance to 1 and 2, and the
re-initialisation of lines 475-481 blanks index 1 and index 2, the
terminator.  The next candidate is read past the written bytes. -/
theorem sub_two_advance (a b : Nat) (fuelT f : Nat) (R : Mem) (log : List Ev)
    (ha : a ≠ 0) (hb : b ≠ 0) (hT : 1 ≤ fuelT) (hf : 1 ≤ f) :
    (M.bind (subRestore [0, 1] [a, b] 2 0) fun _ =>
      M.bind (subCarry (2 - 1) [0, 1]) fun r =>
      match r.2 with
      | none => M.pure ()
      | some pos =>
        M.bind (subReinit 2 pos r.1 [a, b]) fun r2 =>
        subLoop rejectAll fuelT 2 0 0 0 f r2.1 r2.2)
      { buf := some 32 :: some 32 :: some 0 :: none :: R, log := log }
    = (Except.error Stop.fault,
        { buf := some a :: some 32 :: some 32 :: none :: R, log := log }) := by
  obtain ⟨g, rfl⟩ : ∃ g, f = g + 1 := ⟨f - 1, by omega⟩
  obtain ⟨gT, rfl⟩ : ∃ g, fuelT = g + 1 := ⟨fuelT - 1, by omega⟩
  have hrest : subRestore [0, 1] [a, b] 2 0
      { buf := some 32 :: some 32 :: some 0 :: none :: R, log := log }
      = (Except.ok (), { buf := some a :: some b :: some 0 :: none :: R, log := log }) := by
    unfold subRestore
    simp only [List.getElem?_cons_zero, bind_liftO_some, bind_getBuf, wr_at0, bind_setBuf]
    unfold subRestore
    simp only [List.getElem?_cons_succ, List.getElem?_cons_zero, bind_liftO_some, bind_getBuf,
      wr_at1, bind_setBuf, Nat.zero_add]
    unfold subRestore
    rw [pure_run]
  rw [bind_ok hrest]
  have hcarry : subCarry (2 - 1) [0, 1]
      { buf := some a :: some b :: some 0 :: none :: R, log := log }
      = (Except.ok ([1, 2], some 0),
          { buf := some a :: some b :: some 0 :: none :: R, log := log }) := by
    simp only [Nat.reduceSub]
    unfold subCarry
    simp only [List.getElem?_cons_succ, List.getElem?_cons_zero, bind_liftO_some, bind_getBuf,
      Nat.reduceAdd, rd_at2, if_true, List.set_cons_succ, List.set_cons_zero]
    unfold subCarry
    simp only [List.getElem?_cons_zero, bind_liftO_some, bind_getBuf, Nat.zero_add, rd_at1,
      hb, if_false, List.set_cons_zero, pure_run]
  rw [bind_ok hcarry]
  simp only
  have hreinit : subReinit 2 0 [1, 2] [a, b]
      { buf := some a :: some b :: some 0 :: none :: R, log := log }
      = (Except.ok ([1, 2], [b, 0]),
          { buf := some a :: some 32 :: some 32 :: none :: R, log := log }) := by
    unfold subReinit
    simp only [List.getElem?_cons_zero, bind_liftO_some, bind_getBuf, rd_at1, wr_at1,
      bind_setBuf, List.set_cons_zero, Nat.zero_add, Nat.reduceSub]
    unfold subInit
    simp only [Nat.one_ne_zero, if_false, Nat.sub_self, List.getElem?_cons_zero, bind_assoc,
      bind_liftO_some, bind_pure, Nat.reduceAdd, bind_getBuf, rd_at2, wr_at2, bind_setBuf,
      List.set_cons_succ, List.set_cons_zero]
    unfold subInit
    rw [pure_run]
  rw [bind_ok hreinit]
  simp only
  have hc : cstrAt (some a :: some 32 :: some 32 :: none :: R) 0 = none := by
    rw [cstrAt_zero]
    have := cstrL_unterminated [a, 32, 32]
      (by intro c hc; simp at hc; rcases hc with rfl | rfl | rfl <;> omega) R
    simpa using this
  rw [subLoop]
  apply bind_err
  rw [subOdometer]
  apply bind_err
  unfold searchIterateTrans
  simp only [if_true]
  unfold searchIterateAdds
  simp only [bind_getBuf, strlenAt, hc, Option.map_none']
  exact bind_err (liftO_none_run _)

theorem generate_two_substitutions (a b : Nat) (fuel : Nat) (B R : Mem) (log : List Ev)
    (ha : a ≠ 0) (hb : b ≠ 0) (hf : 95 ^ 2 ≤ fuel) (hB : B.drop 3 = none :: R) :
    generate rejectAll fuel [a, b] 2 0 0 0 { buf := B, log := log }
      = (Except.error Stop.fault,
          { buf := some a :: some 32 :: some 32 :: none :: R,
            log := ((odometer 2).map Ev.test).reverse ++ log }) := by
  obtain ⟨f, rfl⟩ : ∃ f, fuel = f + 1 := ⟨fuel - 1, by omega⟩
  have hs : NoNul ([a, b] ++ []) := by
    intro c hc
    simp at hc
    rcases hc with rfl | rfl <;> assumption
  have h := generate_sub_block [a, b] [] f B log (by simp) (by simp [MAX_PWD_LEN]) hs hf
  simp only [List.append_nil, List.length_cons, List.length_nil, Nat.zero_add, Nat.reduceAdd,
    hB] at h
  rw [h]
  have e1 : List.range' 0 2 = [0, 1] := rfl
  have e2 : cells [] (List.replicate 2 32) (none :: R)
      = some 32 :: some 32 :: some 0 :: none :: R := by
    simp [cells, List.replicate]
  rw [e1, e2]
  exact sub_two_advance a b (f + 1) f R _ ha hb (by omega) (by omega)

theorem cells_shift (pre sg v : Str) (R : Mem) :
    cells pre (sg ++ v) R = cells (pre ++ sg) v R := by
  simp [cells]

theorem subClock_weave (ds : List Nat) (sgs : List Str) (z : Str) (R : Mem) (log : List Ev)
    (E : List Nat) (i : Nat) (pre : Str) (hl : sgs.length = ds.length)
    (hE : E.drop i = weavePos pre.length sgs) (hp : Printable ds) :
    subClock E ds.length i { buf := cells pre (weave sgs ds ++ z) R, log := log }
      = (Except.ok (tick ds).2,
          { buf := cells pre (weave sgs (tick ds).1 ++ z) R, log := log }) := by
  induction ds generalizing sgs pre i with
  | nil =>
    unfold subClock
    cases sgs <;> simp [pure_run, tick, weave]
  | cons c ds ih =>
    obtain ⟨sg, sgs1, rfl⟩ : ∃ sg sgs1, sgs = sg :: sgs1 := by
      cases sgs with
      | nil => simp at hl
      | cons sg sgs1 => exact ⟨sg, sgs1, rfl⟩
    simp only [List.length_cons, Nat.add_right_cancel_iff] at hl
    have hc := hp c (List.mem_cons_self _ _)
    have hr : Printable ds := fun x hx => hp x (List.mem_cons_of_mem _ hx)
    simp only [weavePos] at hE
    have hi : E[i]? = some (pre.length + sg.length) := by
      have := congrArg (fun l => l[0]?) hE
      simpa using this
    have hE1 : E.drop (i + 1) = weavePos ((pre ++ sg).length + 1) sgs1 := by
      have := congrArg List.tail hE
      simpa [List.tail_drop] using this
    have hi1 : E[i]? = some (pre ++ sg).length := by
      rw [hi]; simp
    simp only [List.length_cons, weave, List.append_assoc, List.cons_append]
    rw [cells_shift pre sg]
    unfold subClock
    simp only [hi1, bind_liftO_some, bind_getBuf, bumpChar_cells]
    by_cases hlt : c < 126
    · have e1 : (c + 1) % 256 = c + 1 := by omega
      have e2 : ¬ (c + 1 = 127) := by omega
      simp only [e1, e2, decide_False, Bool.false_eq_true, if_false, bind_setBuf, pure_run]
      simp [tick, hlt, weave, cells]
    · have hc126 : c = 126 := by omega
      subst hc126
      simp only [Nat.reduceAdd, Nat.reduceMod, decide_True, if_true, wr_cells, bind_liftO_some,
        bind_setBuf]
      have h := ih sgs1 (i + 1) (pre ++ sg ++ [32]) hl (by simpa using hE1) hr
      rw [cells_snoc, cells_snoc] at h
      rw [h]
      simp [tick, weave, cells]

theorem weave_noNul (sgs : List Str) (ds : List Nat) (hsg : ∀ sg ∈ sgs, NoNul sg)
    (hp : Printable ds) : NoNul (weave sgs ds) := by
  induction sgs generalizing ds with
  | nil => intro c hc; simp [weave] at hc
  | cons sg sgs ih =>
    cases ds with
    | nil => intro c hc; simp [weave] at hc
    | cons d ds =>
      have hd := hp d (List.mem_cons_self _ _)
      simp only [weave]
      exact (hsg sg (List.mem_cons_self _ _)).append
        (NoNul.cons (by omega)
          (ih ds (fun x hx => hsg x (List.mem_cons_of_mem _ hx))
            (fun x hx => hp x (List.mem_cons_of_mem _ hx))))

/-- The odometer of lines 444-458 over any position set: the characters
`ds` sit at the positions `weavePos 0 sgs` among the untouched segments `sgs`
and the rest `z` of the string. -/
theorem subOdometer_weave (fuel : Nat) (ds : List Nat) (sgs : List Str) (z : Str) (R : Mem)
    (log : List Ev) (fuelT : Nat) (hl : sgs.length = ds.length) (hp : Printable ds)
    (hsg : ∀ sg ∈ sgs, NoNul sg) (hz : NoNul z) (hf : (odoFrom ds).length ≤ fuel) :
    subOdometer rejectAll fuelT ds.length 0 0 0 (weavePos 0 sgs) fuel
        { buf := cells [] (weave sgs ds ++ z) R, log := log }
      = (Except.ok (),
          { buf := cells [] (weave sgs (List.replicate ds.length 32) ++ z) R,
            log := ((odoFrom ds).map fun d => Ev.test (weave sgs d ++ z)).reverse ++ log }) := by
  induction fuel generalizing ds log with
  | zero =>
    rw [odoFrom_head ds hp] at hf
    simp at hf
  | succ f ih =>
    have hstep := odoFrom_step ds hp
    have hclock := subClock_weave ds sgs z R (Ev.test (weave sgs ds ++ z) :: log)
      (weavePos 0 sgs) 0 [] hl (by simp) hp
    unfold subOdometer
    rw [bind_ok (leaf_run _ (weave sgs ds ++ z) fuelT
      (cstr_cells [] (weave sgs ds ++ z) R (fun _ h => by cases h)
        ((weave_noNul sgs ds hsg hp).append hz)))]
    rw [bind_ok hclock]
    cases hb : (tick ds).2 with
    | false =>
      rw [hb] at hstep
      simp only [Bool.false_eq_true, if_false] at hstep ⊢
      rw [pure_run, tick_done ds hb, hstep]
      simp
    | true =>
      rw [hb] at hstep
      simp only [if_true] at hstep ⊢
      have hlen := tick_length ds
      have h := ih (tick ds).1 (Ev.test (weave sgs ds ++ z) :: log)
        (by rw [hlen]; exact hl)
        (tick_printable ds hp)
        (by rw [hstep] at hf; simp at hf; omega)
      rw [hlen] at h
      rw [h, hstep]
      simp

theorem rd_at3 (x y z u : Option Nat) (m : Mem) : rd (x :: y :: z :: u :: m) 3 = u := by
  simp [rd]

theorem wr_at3 (x y z u : Option Nat) (m : Mem) (v : Nat) :
    wr (x :: y :: z :: u :: m) 3 v = some (x :: y :: z :: some v :: m) := by
  simp [wr]

theorem length_odoFrom_le (ds : List Nat) (hp : Printable ds) :
    (odoFrom ds).length ≤ 95 ^ ds.length := by
  induction ds with
  | nil => simp [odoFrom]
  | cons c r ih =>
    have hc := hp c (List.mem_cons_self _ _)
    have hr : Printable r := fun x hx => hp x (List.mem_cons_of_mem _ hx)
    have h1 := ih hr
    have h2 : (odoFrom r).tail.length + 1 = (odoFrom r).length := by
      rw [odoFrom_head r hr]
      simp
    simp only [odoFrom, List.length_append, List.length_map, List.length_range',
      List.length_cons, pow_succ]
    rw [length_flatMap_const _ _ 95 (fun _ => by simp [length_printable])]
    have : 127 - c ≤ 95 := by omega
    nlinarith

/-- Seed of three characters, two substitutions, from the end of the
position set {0,1} to the start of the position set {0,2}: the characters
are restored, the second pointer moves to index 2, and only that index is
blanked; index 0 keeps the character of the seed. -/
theorem sub_three_advance_a (a b c : Nat) (fuelT f : Nat) (R : Mem) (log : List Ev)
    (hc : c ≠ 0) :
    (M.bind (subRestore [0, 1] [a, b] 2 0) fun _ =>
      M.bind (subCarry (2 - 1) [0, 1]) fun r =>
      match r.2 with
      | none => M.pure ()
      | some pos =>
        M.bind (subReinit 2 pos r.1 [a, b]) fun r2 =>
        subLoop rejectAll fuelT 2 0 0 0 f r2.1 r2.2)
      { buf := some 32 :: some 32 :: some c :: some 0 :: R, log := log }
    = subLoop rejectAll fuelT 2 0 0 0 f [0, 2] [a, c]
        { buf := some a :: some b :: some 32 :: some 0 :: R, log := log } := by
  have hrest : subRestore [0, 1] [a, b] 2 0
      { buf := some 32 :: some 32 :: some c :: some 0 :: R, log := log }
      = (Except.ok (), { buf := some a :: some b :: some c :: some 0 :: R, log := log }) := by
    unfold subRestore
    simp only [List.getElem?_cons_zero, bind_liftO_some, bind_getBuf, wr_at0, bind_setBuf]
    unfold subRestore
    simp only [List.getElem?_cons_succ, List.getElem?_cons_zero, bind_liftO_some, bind_getBuf,
      wr_at1, bind_setBuf, Nat.zero_add]
    unfold subRestore
    rw [pure_run]
  rw [bind_ok hrest]
  have hcarry : subCarry (2 - 1) [0, 1]
      { buf := some a :: some b :: some c :: some 0 :: R, log := log }
      = (Except.ok ([0, 2], some 1),
          { buf := some a :: some b :: some c :: some 0 :: R, log := log }) := by
    simp only [Nat.reduceSub]
    unfold subCarry
    simp only [List.getElem?_cons_succ, List.getElem?_cons_zero, bind_liftO_some, bind_getBuf,
      Nat.reduceAdd, rd_at2, hc, if_false, List.set_cons_succ, List.set_cons_zero, pure_run,
      Nat.zero_add]
  rw [bind_ok hcarry]
  simp only
  have hreinit : subReinit 2 1 [0, 2] [a, b]
      { buf := some a :: some b :: some c :: some 0 :: R, log := log }
      = (Except.ok ([0, 2], [a, c]),
          { buf := some a :: some b :: some 32 :: some 0 :: R, log := log }) := by
    unfold subReinit
    simp only [List.getElem?_cons_succ, List.getElem?_cons_zero, bind_liftO_some, bind_getBuf,
      rd_at2, wr_at2, bind_setBuf, List.set_cons_succ, List.set_cons_zero, Nat.reduceAdd,
      Nat.sub_self]
    unfold subInit
    rw [pure_run]
  rw [bind_ok hreinit]

/-- From the end of the position set {0,2} to the start of {1,2}. -/
theorem sub_three_advance_b (a b c : Nat) (fuelT f : Nat) (R : Mem) (log : List Ev)
    (hb : b ≠ 0) :
    (M.bind (subRestore [0, 2] [a, c] 2 0) fun _ =>
      M.bind (subCarry (2 - 1) [0, 2]) fun r =>
      match r.2 with
      | none => M.pure ()
      | some pos =>
        M.bind (subReinit 2 pos r.1 [a, c]) fun r2 =>
        subLoop rejectAll fuelT 2 0 0 0 f r2.1 r2.2)
      { buf := some 32 :: some b :: some 32 :: some 0 :: R, log := log }
    = subLoop rejectAll fuelT 2 0 0 0 f [1, 2] [b, c]
        { buf := some a :: some 32 :: some 32 :: some 0 :: R, log := log } := by
  have hrest : subRestore [0, 2] [a, c] 2 0
      { buf := some 32 :: some b :: some 32 :: some 0 :: R, log := log }
      = (Except.ok (), { buf := some a :: some b :: some c :: some 0 :: R, log := log }) := by
    unfold subRestore
    simp only [List.getElem?_cons_zero, bind_liftO_some, bind_getBuf, wr_at0, bind_setBuf]
    unfold subRestore
    simp only [List.getElem?_cons_succ, List.getElem?_cons_zero, bind_liftO_some, bind_getBuf,
      wr_at2, bind_setBuf, Nat.zero_add]
    unfold subRestore
    rw [pure_run]
  rw [bind_ok hrest]
  have hcarry : subCarry (2 - 1) [0, 2]
      { buf := some a :: some b :: some c :: some 0 :: R, log := log }
      = (Except.ok ([1, 3], some 0),
          { buf := some a :: some b :: some c :: some 0 :: R, log := log }) := by
    simp only [Nat.reduceSub]
    unfold subCarry
    simp only [List.getElem?_cons_succ, List.getElem?_cons_zero, bind_liftO_some, bind_getBuf,
      Nat.reduceAdd, rd_at3, if_true, List.set_cons_succ, List.set_cons_zero]
    unfold subCarry
    simp only [List.getElem?_cons_zero, bind_liftO_some, bind_getBuf, Nat.zero_add, rd_at1,
      hb, if_false, List.set_cons_zero, pure_run]
  rw [bind_ok hcarry]
  simp only
  have hreinit : subReinit 2 0 [1, 3] [a, c]
      { buf := some a :: some b :: some c :: some 0 :: R, log := log }
      = (Except.ok ([1, 2], [b, c]),
          { buf := some a :: some 32 :: some 32 :: some 0 :: R, log := log }) := by
    unfold subReinit
    simp only [List.getElem?_cons_zero, bind_liftO_some, bind_getBuf, rd_at1, wr_at1,
      bind_setBuf, List.set_cons_zero, Nat.zero_add, Nat.reduceSub]
    unfold subInit
    simp only [Nat.one_ne_zero, if_false, Nat.sub_self, List.getElem?_cons_zero, bind_assoc,
      bind_liftO_some, bind_pure, Nat.reduceAdd, bind_getBuf, rd_at2, wr_at2, bind_setBuf,
      List.set_cons_succ, List.set_cons_zero]
    unfold subInit
    rw [pure_run]
  rw [bind_ok hreinit]

/-- From the end of the position set {1,2} on: the pointers move to the
indices 2 and 3, and index 3, the terminator, is blanked. -/
theorem sub_three_advance_c (a b c : Nat) (fuelT f : Nat) (R : Mem) (log : List Ev)
    (ha : a ≠ 0) (hb : b ≠ 0) (hc : c ≠ 0) (hT : 1 ≤ fuelT) (hf : 1 ≤ f) :
    (M.bind (subRestore [1, 2] [b, c] 2 0) fun _ =>
      M.bind (subCarry (2 - 1) [1, 2]) fun r =>
      match r.2 with
      | none => M.pure ()
      | some pos =>
        M.bind (subReinit 2 pos r.1 [b, c]) fun r2 =>
        subLoop rejectAll fuelT 2 0 0 0 f r2.1 r2.2)
      { buf := some a :: some 32 :: some 32 :: some 0 :: none :: R, log := log }
    = (Except.error Stop.fault,
        { buf := some a :: some b :: some 32 :: some 32 :: none :: R, log := log }) := by
  obtain ⟨g, rfl⟩ : ∃ g, f = g + 1 := ⟨f - 1, by omega⟩
  obtain ⟨gT, rfl⟩ : ∃ g, fuelT = g + 1 := ⟨fuelT - 1, by omega⟩
  have hrest : subRestore [1, 2] [b, c] 2 0
      { buf := some a :: some 32 :: some 32 :: some 0 :: none :: R, log := log }
      = (Except.ok (),
          { buf := some a :: some b :: some c :: some 0 :: none :: R, log := log }) := by
    unfold subRestore
    simp only [List.getElem?_cons_zero, bind_liftO_some, bind_getBuf, wr_at1, bind_setBuf]
    unfold subRestore
    simp only [List.getElem?_cons_succ, List.getElem?_cons_zero, bind_liftO_some, bind_getBuf,
      wr_at2, bind_setBuf, Nat.zero_add]
    unfold subRestore
    rw [pure_run]
  rw [bind_ok hrest]
  have hcarry : subCarry (2 - 1) [1, 2]
      { buf := some a :: some b :: some c :: some 0 :: none :: R, log := log }
      = (Except.ok ([2, 3], some 0),
          { buf := some a :: some b :: some c :: some 0 :: none :: R, log := log }) := by
    simp only [Nat.reduceSub]
    unfold subCarry
    simp only [List.getElem?_cons_succ, List.getElem?_cons_zero, bind_liftO_some, bind_getBuf,
      Nat.reduceAdd, rd_at3, if_true, List.set_cons_succ, List.set_cons_zero]
    unfold subCarry
    simp only [List.getElem?_cons_zero, bind_liftO_some, bind_getBuf, Nat.reduceAdd, rd_at2,
      hc, if_false, List.set_cons_zero, pure_run]
  rw [bind_ok hcarry]
  simp only
  have hreinit : subReinit 2 0 [2, 3] [b, c]
      { buf := some a :: some b :: some c :: some 0 :: none :: R, log := log }
      = (Except.ok ([2, 3], [c, 0]),
          { buf := some a :: some b :: some 32 :: some 32 :: none :: R, log := log }) := by
    unfold subReinit
    simp only [List.getElem?_cons_zero, bind_liftO_some, bind_getBuf, rd_at2, wr_at2,
      bind_setBuf, List.set_cons_zero, Nat.zero_add, Nat.reduceSub]
    unfold subInit
    simp only [Nat.one_ne_zero, if_false, Nat.sub_self, List.getElem?_cons_zero, bind_assoc,
      bind_liftO_some, bind_pure, Nat.reduceAdd, bind_getBuf, rd_at3, wr_at3, bind_setBuf,
      List.set_cons_succ, List.set_cons_zero]
    unfold subInit
    rw [pure_run]
  rw [bind_ok hreinit]
  simp only
  have hcs : cstrAt (some a :: some b :: some 32 :: some 32 :: none :: R) 0 = none := by
    rw [cstrAt_zero]
    have := cstrL_unterminated [a, b, 32, 32]
      (by intro x hx; simp at hx; rcases hx with rfl | rfl | rfl | rfl <;> omega) R
    simpa using this
  rw [subLoop]
  apply bind_err
  rw [subOdometer]
  apply bind_err
  unfold searchIterateTrans
  simp only [if_true]
  unfold searchIterateAdds
  simp only [bind_getBuf, strlenAt, hcs, Option.map_none']
  exact bind_err (liftO_none_run _)

/-- Seed of three printable characters with two substitutions, from a buffer
whose index 4 was never written: the position sets {0,1}, {0,2} and {1,2} are
enumerated, the second one with index 0 starting from the seed's character,
and the run stops when the position set {2,3} has overwritten the
terminator. -/
theorem generate_two_of_three (a b c fuel : Nat) (B R : Mem) (log : List Ev)
    (hp : Printable [a, b, c]) (hf : 95 ^ 2 ≤ fuel) (hB : B.drop 4 = none :: R) :
    generate rejectAll fuel [a, b, c] 2 0 0 0 { buf := B, log := log }
      = (Except.error Stop.fault,
          { buf := some a :: some b :: some 32 :: some 32 :: none :: R,
            log := ((odometer 2).map fun d => Ev.test (weave [[a], []] d)).reverse ++
              (((odoFrom [a, 32]).map fun d => Ev.test (weave [[], [b]] d)).reverse ++
              (((odometer 2).map fun d => Ev.test (d ++ [c])).reverse ++ log)) }) := by
  obtain ⟨g, rfl⟩ : ∃ g, fuel = g + 4 := ⟨fuel - 4, by omega⟩
  have ha := hp a (by simp)
  have hb := hp b (by simp)
  have hc := hp c (by simp)
  have hs : NoNul ([a, b] ++ [c]) := printable_noNul hp
  have h := generate_sub_block [a, b] [c] (g + 3) B log (by simp) (by simp [MAX_PWD_LEN]) hs hf
  simp only [List.cons_append, List.nil_append, List.length_cons, List.length_nil, Nat.zero_add,
    Nat.reduceAdd, hB] at h
  rw [h]
  have e1 : List.range' 0 2 = [0, 1] := rfl
  have e2 : cells [] (32 :: 32 :: [c]) (none :: R)
      = some 32 :: some 32 :: some c :: some 0 :: none :: R := by
    simp [cells]
  simp only [List.replicate, e1, e2]
  refine (sub_three_advance_a a b c (g + 3 + 1) (g + 3) (none :: R) _ (by omega)).trans ?_
  -- the position set {0,2}
  rw [subLoop]
  have hodo := subOdometer_weave (g + 3 + 1) [a, 32] [[], [b]] [] (none :: R)
    (((odometer 2).map fun d => Ev.test (d ++ [c])).reverse ++ log) (g + 3 + 1) rfl
    (by intro x hx; simp at hx; rcases hx with rfl | rfl <;> omega)
    (by intro sg hsg; simp at hsg; rcases hsg with rfl | rfl
        · intro x hx; cases hx
        · intro x hx; simp at hx; omega)
    (fun _ h => by cases h)
    (by
      have := length_odoFrom_le [a, 32]
        (by intro x hx; simp at hx; rcases hx with rfl | rfl <;> omega)
      simp only [List.length_cons, List.length_nil] at this
      omega)
  have e3 : cells [] (weave [[], [b]] [a, 32] ++ []) (none :: R)
      = some a :: some b :: some 32 :: some 0 :: none :: R := by
    simp [cells, weave]
  have e4 : cells [] (weave [[], [b]] (List.replicate [a, 32].length 32) ++ []) (none :: R)
      = some 32 :: some b :: some 32 :: some 0 :: none :: R := by
    simp [cells, weave, List.replicate]
  have e5 : weavePos 0 [[], [b]] = [0, 2] := by
    simp [weavePos]
  have e6 : [a, 32].length = 2 := rfl
  rw [e3, e4, e5, e6] at hodo
  rw [bind_ok hodo]
  simp only [List.append_nil]
  refine (sub_three_advance_b a b c (g + 3 + 1) (g + 2) (none :: R) _ (by omega)).trans ?_
  -- the position set {1,2}
  rw [subLoop]
  have hodo2 := subOdometer_weave (g + 3 + 1) [32, 32] [[a], []] [] (none :: R)
    (((odoFrom [a, 32]).map fun d => Ev.test (weave [[], [b]] d)).reverse ++
      (((odometer 2).map fun d => Ev.test (d ++ [c])).reverse ++ log)) (g + 3 + 1) rfl
    (by intro x hx; simp at hx; omega)
    (by intro sg hsg; simp at hsg; rcases hsg with rfl | rfl
        · intro x hx; simp at hx; omega
        · intro x hx; cases hx)
    (fun _ h => by cases h)
    (by
      have := length_odoFrom_le [32, 32] (by intro x hx; simp at hx; omega)
      simp only [List.length_cons, List.length_nil] at this
      omega)
  have f3 : cells [] (weave [[a], []] [32, 32] ++ []) (none :: R)
      = some a :: some 32 :: some 32 :: some 0 :: none :: R := by
    simp [cells, weave]
  have f4 : cells [] (weave [[a], []] (List.replicate [32, 32].length 32) ++ []) (none :: R)
      = some a :: some 32 :: some 32 :: some 0 :: none :: R := by
    simp [cells, weave, List.replicate]
  have f5 : weavePos 0 [[a], []] = [1, 2] := by
    simp [weavePos]
  have f6 : [32, 32].length = 2 := rfl
  have f7 : odoFrom [32, 32] = odometer 2 := odoFrom_start 2
  rw [f3, f4, f5, f6, f7] at hodo2
  rw [bind_ok hodo2]
  simp only [List.append_nil]
  exact sub_three_advance_c a b c (g + 3 + 1) (g + 1) R _ (by omega) (by omega) (by omega)
    (by omega) (by omega)

theorem testedOf_map_comp {α : Type} (l : List α) (f : α → Str) :
    testedOf (l.map fun d => Ev.test (f d)) = l.map f := by
  induction l with
  | nil => rfl
  | cons c r ih => simp [testedOf, ih]

theorem length_odoFrom_cons (c : Nat) (r : List Nat) :
    (odoFrom (c :: r)).length = (127 - c) + 95 * (odoFrom r).tail.length := by
  simp only [odoFrom, List.length_append, List.length_map, List.length_range']
  rw [length_flatMap_const _ _ 95 (fun _ => by simp [length_printable])]

theorem mem_odoFrom_cons (c : Nat) (r d : List Nat) (h : d ∈ odoFrom (c :: r)) :
    ∃ x r1, d = x :: r1 ∧ ((r1 = r ∧ c ≤ x) ∨ r1 ∈ (odoFrom r).tail) := by
  simp only [odoFrom, List.mem_append, List.mem_map, List.mem_range'_1, List.mem_flatMap] at h
  rcases h with ⟨x, hx, rfl⟩ | ⟨r1, hr1, x, _, rfl⟩
  · exact ⟨x, r, rfl, Or.inl ⟨rfl, hx.1⟩⟩
  · exact ⟨x, r1, rfl, Or.inr hr1⟩

/-! ## Deletions at several pointers -/

theorem str_split (s : Str) (p : Nat) (h : p < s.length) :
    s = s.take p ++ s.getD p 0 :: s.drop (p + 1) := by
  rw [List.getD_eq_getElem _ _ h]
  simp

theorem cells_at (s : Str) (Z : Mem) (p : Nat) (h : p < s.length) :
    cells [] s Z = cells (s.take p) (s.getD p 0 :: s.drop (p + 1)) Z := by
  rw [cells_flat (s.take p), ← str_split s p h]

theorem cells_cut (s : Str) (Z : Mem) (p : Nat) :
    cells [] s Z = cells (s.take p) (s.drop p) Z := by
  rw [cells_flat (s.take p), List.take_append_drop]

theorem rd_str (s : Str) (Z : Mem) (p : Nat) (h : p < s.length) :
    rd (cells [] s Z) p = some (s.getD p 0) := by
  have hl : (s.take p).length = p := by simp; omega
  have := rd_cells (s.take p) (s.getD p 0) (s.drop (p + 1)) Z
  rw [hl] at this
  rw [cells_at s Z p h]
  exact this

theorem rd_str_end (s : Str) (Z : Mem) : rd (cells [] s Z) s.length = some 0 := by
  have := rd_cells_end s Z
  rw [cells_flat, List.append_nil] at this
  exact this

theorem strlen_str (s : Str) (Z : Mem) (p : Nat) (hp : p ≤ s.length) (hs : NoNul s) :
    strlenAt (cells [] s Z) p = some (s.length - p) := by
  have hl : (s.take p).length = p := by simp; omega
  have hd : NoNul (s.drop p) := fun c hc => hs c (List.mem_of_mem_drop hc)
  have := strlenAt_cells (s.take p) (s.drop p) Z hd
  rw [hl, List.length_drop] at this
  rw [cells_cut s Z p]
  exact this

theorem memmove_del (s : Str) (Z : Mem) (p : Nat) (h : p < s.length) :
    memmove (cells [] s Z) p (p + 1) (s.length - (p + 1) + 1)
      = some (cells [] (s.eraseIdx p) (some 0 :: Z)) := by
  have hl : (s.take p).length = p := by simp; omega
  have := memmove_left_cells (s.take p) (s.getD p 0) (s.drop (p + 1)) Z
  rw [hl, List.length_drop] at this
  rw [cells_at s Z p h, this, cells_flat (s.take p), List.eraseIdx_eq_take_drop_succ]

theorem memmove_ins (s : Str) (Z : Mem) (y : Option Nat) (p : Nat) (hp : p ≤ s.length) :
    memmove (cells [] s (y :: Z)) (p + 1) p (s.length - p + 1)
      = some (cells [] (s.take p ++ (s.drop p ++ [0]).headD 0 :: s.drop p) Z) := by
  have hl : (s.take p).length = p := by simp; omega
  have := memmove_right_cells (s.take p) (s.drop p) Z y
  rw [hl, List.length_drop] at this
  rw [cells_cut s (y :: Z) p, this, cells_flat (s.take p)]

theorem wr_str (s : Str) (Z : Mem) (p c : Nat) (h : p < s.length) :
    wr (cells [] s Z) p c = some (cells [] (s.set p c) Z) := by
  have hl : (s.take p).length = p := by simp; omega
  have := wr_cells (s.take p) (s.getD p 0) (s.drop (p + 1)) Z c
  rw [hl] at this
  rw [cells_at s Z p h, this, cells_flat (s.take p)]
  congr 2
  conv_rhs => rw [str_split s p h]
  rw [List.set_append_right _ _ (by omega)]
  simp [hl]

theorem eraseAll_cons (w : Str) (i : Nat) (U : List Nat) :
    eraseAll w (i :: U) = (eraseAll w U).eraseIdx i := rfl

theorem eraseAll_nil (w : Str) : eraseAll w [] = w := rfl

theorem validTuple_tail {L i : Nat} {U : List Nat} (h : ValidTuple L (i :: U)) :
    ValidTuple L U :=
  ⟨(List.pairwise_cons.1 h.1).2, fun x hx => h.2 x (List.mem_cons_of_mem _ hx)⟩

theorem validTuple_drop {L : Nat} {T : List Nat} (h : ValidTuple L T) (k : Nat) :
    ValidTuple L (T.drop k) :=
  ⟨h.1.sublist (List.drop_sublist k T), fun x hx => h.2 x (List.mem_of_mem_drop hx)⟩

theorem sorted_room (L : Nat) (U : List Nat) (u : Nat) (hu : u < L)
    (hU : U.Pairwise (fun a b => a < b)) (h : ∀ x ∈ U, u < x ∧ x < L) :
    u + U.length < L := by
  induction U generalizing u with
  | nil => simpa using hu
  | cons x U ih =>
    have hx := h x (List.mem_cons_self _ _)
    have hp := List.pairwise_cons.1 hU
    have := ih x hx.2 hp.2 (fun y hy => ⟨hp.1 y hy, (h y (List.mem_cons_of_mem _ hy)).2⟩)
    simp only [List.length_cons]
    omega

theorem validTuple_room {L i : Nat} {U : List Nat} (h : ValidTuple L (i :: U)) :
    i + U.length < L :=
  sorted_room L U i (h.2 i (List.mem_cons_self _ _)) (validTuple_tail h).1
    (fun x hx => ⟨(List.pairwise_cons.1 h.1).1 x hx, h.2 x (List.mem_cons_of_mem _ hx)⟩)

theorem length_eraseAll (w : Str) (T : List Nat) (h : ValidTuple w.length T) :
    (eraseAll w T).length + T.length = w.length := by
  induction T with
  | nil => simp [eraseAll]
  | cons i U ih =>
    have h1 := ih (validTuple_tail h)
    have h2 := (validTuple_room h)
    rw [eraseAll_cons, List.length_eraseIdx, if_pos (by omega)]
    simp only [List.length_cons]
    omega

theorem getD_eraseAll (w : Str) (U : List Nat) (p : Nat) (h : ∀ u ∈ U, p < u) :
    (eraseAll w U).getD p 0 = w.getD p 0 := by
  induction U with
  | nil => rfl
  | cons i U ih =>
    have hi := h i (List.mem_cons_self _ _)
    have := ih (fun u hu => h u (List.mem_cons_of_mem _ hu))
    rw [eraseAll_cons]
    simp only [List.getD_eq_getElem?_getD] at this ⊢
    rw [List.getElem?_eraseIdx_of_lt _ _ _ hi, this]

theorem noNul_eraseAll (w : Str) (U : List Nat) (h : NoNul w) : NoNul (eraseAll w U) := by
  induction U with
  | nil => exact h
  | cons i U ih =>
    rw [eraseAll_cons]
    intro c hc
    exact ih c (List.mem_of_mem_eraseIdx hc)

theorem insert_back (s : Str) (p : Nat) (h : p < s.length) :
    (s.eraseIdx p).take p ++ s.getD p 0 :: (s.eraseIdx p).drop p = s := by
  have h1 : (s.eraseIdx p).take p = s.take p := by
    rw [List.eraseIdx_eq_take_drop_succ, List.take_append_of_le_length (by simp; omega)]
    simp
  have h2 : (s.eraseIdx p).drop p = s.drop (p + 1) := by
    rw [List.eraseIdx_eq_take_drop_succ]
    rw [List.drop_append_of_le_length (by simp; omega)]
    have : List.drop p (List.take p s) = [] := by simp
    rw [this, List.nil_append]
  rw [h1, h2]
  exact (str_split s p h).symm

theorem wr_mid (u v : Str) (Z : Mem) (h c : Nat) :
    wr (cells [] (u ++ h :: v) Z) u.length c = some (cells [] (u ++ c :: v) Z) := by
  have := wr_cells u h v Z c
  rw [cells_flat u (h :: v), cells_flat u (c :: v)] at this
  exact this

theorem drop_at (T : List Nat) (k : Nat) (h : k < T.length) :
    T.drop k = T.getD k 0 :: T.drop (k + 1) := by
  rw [List.getD_eq_getElem _ _ h]
  exact List.drop_eq_getElem_cons h

theorem getElem?_getD (T : List Nat) (k : Nat) (h : k < T.length) :
    T[k]? = some (T.getD k 0) := by
  rw [List.getD_eq_getElem _ _ h]
  exact List.getElem?_eq_getElem h

/-- Lines 279-282 at the pointers `T`, from the pointer number `k - 1` down:
the characters at the pointers `T.drop k` are gone already. -/
theorem delsDelete_run (w : Str) (T : List Nat) (R : Mem) (log : List Ev)
    (hv : ValidTuple w.length T) (hw : NoNul w) (k : Nat) (saved : List Nat)
    (hk : k ≤ T.length) (hs : saved.length = T.length) :
    delsDelete T k saved
        { buf := cells [] (eraseAll w (T.drop k))
            (List.replicate (T.length - k) (some 0) ++ R), log := log }
      = (Except.ok ((T.take k).map (fun i => w.getD i 0) ++ saved.drop k),
          { buf := cells [] (eraseAll w T) (List.replicate T.length (some 0) ++ R),
            log := log }) := by
  induction k generalizing saved with
  | zero =>
    unfold delsDelete
    simp [pure_run]
  | succ k ih =>
    have hk1 : k < T.length := by omega
    have hd := drop_at T k hk1
    have hvd : ValidTuple w.length (T.getD k 0 :: T.drop (k + 1)) := by
      rw [← hd]; exact validTuple_drop hv k
    have hroom := validTuple_room hvd
    have hlen := length_eraseAll w (T.drop (k + 1)) (validTuple_drop hv (k + 1))
    have hp : T.getD k 0 < (eraseAll w (T.drop (k + 1))).length := by omega
    have hc : (eraseAll w (T.drop (k + 1))).getD (T.getD k 0) 0 = w.getD (T.getD k 0) 0 :=
      getD_eraseAll w _ _ (fun u hu => (List.pairwise_cons.1 hvd.1).1 u hu)
    have hn := noNul_eraseAll w (T.drop (k + 1)) hw
    unfold delsDelete
    simp only [getElem?_getD T k hk1, bind_liftO_some, bind_getBuf, rd_str _ _ _ hp,
      strlen_str _ _ _ (Nat.succ_le_of_lt hp) hn, memmove_del _ _ _ hp, bind_setBuf, hc]
    have e1 : some 0 :: (List.replicate (T.length - (k + 1)) (some 0) ++ R)
        = List.replicate (T.length - k) (some (0 : Nat)) ++ R := by
      have : T.length - k = (T.length - (k + 1)) + 1 := by omega
      rw [this, List.replicate_succ, List.cons_append]
    have e2 : (eraseAll w (T.drop (k + 1))).eraseIdx (T.getD k 0) = eraseAll w (T.drop k) := by
      rw [hd, eraseAll_cons]
    rw [e1, e2, ih (saved.set k (w.getD (T.getD k 0) 0)) (by omega) (by simp [hs])]
    congr 2
    have e3 : T.take (k + 1) = T.take k ++ [T.getD k 0] := by
      rw [List.take_succ, getElem?_getD T k hk1]
      rfl
    have e4 : (saved.set k (w.getD (T.getD k 0) 0)).drop k
        = w.getD (T.getD k 0) 0 :: saved.drop (k + 1) := by
      rw [List.drop_eq_getElem_cons (by rw [List.length_set, hs]; exact hk1),
        List.getElem_set_self, List.drop_set_of_lt _ _ (Nat.lt_succ_self k)]
    rw [e3, e4]
    simp

/-- Lines 287-290 at the pointers `T`, from the pointer number `i` up. -/
theorem delsRestore_run (w : Str) (T : List Nat) (R : Mem) (log : List Ev)
    (hv : ValidTuple w.length T) (hw : NoNul w) (k i : Nat) (hk : i + k = T.length) :
    delsRestore T (T.map fun j => w.getD j 0) k i
        { buf := cells [] (eraseAll w (T.drop i))
            (List.replicate (T.length - i) (some 0) ++ R), log := log }
      = (Except.ok (), { buf := cells [] w R, log := log }) := by
  induction k generalizing i with
  | zero =>
    have hi : i = T.length := by omega
    subst hi
    unfold delsRestore
    simp [pure_run, eraseAll]
  | succ k ih =>
    have hk1 : i < T.length := by omega
    have hd := drop_at T i hk1
    have hvd : ValidTuple w.length (T.getD i 0 :: T.drop (i + 1)) := by
      rw [← hd]; exact validTuple_drop hv i
    have hroom := validTuple_room hvd
    have hlen := length_eraseAll w (T.drop (i + 1)) (validTuple_drop hv (i + 1))
    have hp : T.getD i 0 < (eraseAll w (T.drop (i + 1))).length := by omega
    have hc : (eraseAll w (T.drop (i + 1))).getD (T.getD i 0) 0 = w.getD (T.getD i 0) 0 :=
      getD_eraseAll w _ _ (fun u hu => (List.pairwise_cons.1 hvd.1).1 u hu)
    have hn := noNul_eraseAll w (T.drop i) hw
    have e2 : eraseAll w (T.drop i) = (eraseAll w (T.drop (i + 1))).eraseIdx (T.getD i 0) := by
      rw [hd, eraseAll_cons]
    have hlen2 : (eraseAll w (T.drop i)).length + 1 = (eraseAll w (T.drop (i + 1))).length := by
      rw [e2, List.length_eraseIdx, if_pos hp]
      omega
    have hsv : (T.map fun j => w.getD j 0)[i]? = some (w.getD (T.getD i 0) 0) := by
      rw [List.getElem?_map, getElem?_getD T i hk1]
      rfl
    have e1 : List.replicate (T.length - i) (some (0 : Nat)) ++ R
        = some 0 :: (List.replicate (T.length - (i + 1)) (some 0) ++ R) := by
      have : T.length - i = (T.length - (i + 1)) + 1 := by omega
      rw [this, List.replicate_succ, List.cons_append]
    unfold delsRestore
    simp only [getElem?_getD T i hk1, hsv, bind_liftO_some, bind_getBuf,
      strlen_str _ _ _ (by omega : T.getD i 0 ≤ (eraseAll w (T.drop i)).length) hn]
    rw [e1, memmove_ins _ _ _ _ (by omega), bind_liftO_some]
    have hl : ((eraseAll w (T.drop i)).take (T.getD i 0)).length = T.getD i 0 := by
      rw [List.length_take]; omega
    have hwr := wr_mid ((eraseAll w (T.drop i)).take (T.getD i 0))
      ((eraseAll w (T.drop i)).drop (T.getD i 0))
      (List.replicate (T.length - (i + 1)) (some 0) ++ R)
      (((eraseAll w (T.drop i)).drop (T.getD i 0) ++ [0]).headD 0) (w.getD (T.getD i 0) 0)
    rw [hl] at hwr
    rw [hwr, bind_liftO_some, bind_setBuf]
    have e3 : (eraseAll w (T.drop i)).take (T.getD i 0) ++ w.getD (T.getD i 0) 0 ::
        (eraseAll w (T.drop i)).drop (T.getD i 0) = eraseAll w (T.drop (i + 1)) := by
      rw [e2, ← hc]
      exact insert_back _ _ hp
    rw [e3]
    exact ih (i + 1) (by omega)

/-- One pass of the loop of lines 277-300 at a valid tuple of pointers: the
string without the characters at the pointers is tested, the buffer is put
back as it was, and the advance follows. -/
theorem delsLoop_visit (w : Str) (T : List Nat) (R : Mem) (log : List Ev)
    (hv : ValidTuple w.length T) (hw : NoNul w) (fuel : Nat) (saved : List Nat)
    (hs : saved.length = T.length) :
    delsLoop rejectAll T.length (fuel + 1) T saved { buf := cells [] w R, log := log }
      = delsRest rejectAll T.length fuel T (T.map fun i => w.getD i 0)
          { buf := cells [] w R, log := Ev.test (eraseAll w T) :: log } := by
  have hD := delsDelete_run w T R log hv hw T.length saved (le_refl _) hs
  simp only [List.drop_length, eraseAll_nil, Nat.sub_self, List.replicate_zero, List.nil_append,
    List.take_length, hs ▸ List.drop_length saved, List.append_nil] at hD
  have hR := delsRestore_run w T R (Ev.test (eraseAll w T) :: log) hv hw T.length 0 (by simp)
  simp only [List.drop_zero, Nat.sub_zero] at hR
  have hc : cstrAt (cells [] (eraseAll w T) (List.replicate T.length (some 0) ++ R)) 0
      = some (eraseAll w T) := by
    have := cstr_cells [] (eraseAll w T) (List.replicate T.length (some 0) ++ R)
      (fun _ h => by cases h) (noNul_eraseAll w T hw)
    simpa using this
  rw [delsLoop, bind_ok hD]
  rw [bind_ok (testAndThrow_reject _ (eraseAll w T) hc)]
  simp only
  rw [bind_ok hR]
  unfold delsRest
  all_goals rfl

theorem delsCarry_step (X : List Nat) (a b : Nat) (Y : List Nat) :
    delsCarry (X.length + 1) (X ++ a :: b :: Y)
      = if a + 1 + 1 ≥ b then delsCarry X.length (X ++ (a + 1) :: b :: Y)
        else some (X ++ (a + 1) :: b :: Y, some X.length) := by
  have h1 : (X ++ a :: b :: Y)[X.length]? = some a := by
    rw [List.getElem?_append_right (le_refl _)]
    simp
  have h2 : (X ++ a :: b :: Y)[X.length + 1]? = some b := by
    rw [List.getElem?_append_right (by omega)]
    simp
  have h3 : (X ++ a :: b :: Y).set X.length (a + 1) = X ++ (a + 1) :: b :: Y := by
    rw [List.set_append_right _ _ (le_refl _)]
    simp
  simp only [delsCarry, h1, h2, h3]

theorem delsCarry_block (j : Nat) (X : List Nat) (i c : Nat) (Y : List Nat) :
    delsCarry (X.length + 1 + j) (X ++ i :: (List.range' c j ++ (c + j + 1) :: Y))
      = delsCarry (X.length + 1) (X ++ i :: (List.range' (c + 1) j ++ (c + j + 1) :: Y)) := by
  induction j generalizing Y with
  | zero => simp
  | succ j ih =>
    have e1 : X ++ i :: (List.range' c (j + 1) ++ (c + (j + 1) + 1) :: Y)
        = (X ++ i :: List.range' c j) ++ (c + j) :: (c + j + 2) :: Y := by
      rw [List.range'_concat]
      simp [Nat.add_assoc]
    have e2 : (X ++ i :: List.range' c j).length = X.length + 1 + j := by
      simp; omega
    have e3 : X.length + 1 + (j + 1) = (X ++ i :: List.range' c j).length + 1 := by
      rw [e2]; omega
    rw [e1, e3, delsCarry_step, if_pos (by omega), e2]
    have e4 : (X ++ i :: List.range' c j) ++ (c + j + 1) :: (c + j + 2) :: Y
        = X ++ i :: (List.range' c j ++ (c + j + 1) :: ((c + j + 2) :: Y)) := by
      simp
    rw [e4, ih]
    congr 1
    rw [List.range'_concat]
    simp [Nat.add_assoc, Nat.add_comm 1 j]

theorem delsFix_run (k : Nat) (A : List Nat) (a : Nat) (Bk : List Nat) (hB : Bk.length = k) :
    delsFix k (A.length + 1) (A ++ a :: Bk) = some (A ++ a :: List.range' (a + 1) k) := by
  induction k generalizing A a Bk with
  | zero =>
    have : Bk = [] := List.length_eq_zero.1 hB
    subst this
    simp [delsFix]
  | succ k ih =>
    obtain ⟨b, B1, rfl⟩ : ∃ b B1, Bk = b :: B1 := by
      cases Bk with
      | nil => simp at hB
      | cons b B1 => exact ⟨b, B1, rfl⟩
    simp only [List.length_cons, Nat.add_right_cancel_iff] at hB
    have h1 : (A ++ a :: b :: B1)[A.length + 1 - 1]? = some a := by
      rw [Nat.add_sub_cancel, List.getElem?_append_right (le_refl _)]
      simp
    have h2 : (A ++ a :: b :: B1).set (A.length + 1) (a + 1) = (A ++ [a]) ++ (a + 1) :: B1 := by
      rw [List.set_append_right _ _ (by omega)]
      simp
    have h3 := ih (A ++ [a]) (a + 1) B1 hB
    simp only [List.length_append, List.length_singleton] at h3
    simp only [delsFix, Nat.add_one_ne_zero, if_false, h1, h2, h3]
    simp [List.range'_succ]

theorem delsFix_zero (k : Nat) (b : Nat) (Bk : List Nat) (hB : Bk.length = k) :
    delsFix (k + 1) 0 (b :: Bk) = some (List.range' 0 (k + 1)) := by
  have h := delsFix_run k [] 0 Bk hB
  simp only [List.length_nil, Nat.zero_add, List.nil_append] at h
  simp only [delsFix, if_true, List.set_cons_zero, h]
  simp [List.range'_succ]

theorem getD_ne_zero (w : Str) (p : Nat) (h : p < w.length) (hw : NoNul w) :
    w.getD p 0 ≠ 0 := by
  rw [List.getD_eq_getElem _ _ h]
  exact hw _ (List.getElem_mem h)

theorem range'_snoc_eq (c j : Nat) :
    List.range' c j ++ [c + j] = c :: List.range' (c + 1) j := by
  rw [← List.range'_succ]
  exact (List.range'_1_concat c j).symm

/-- The advance of lines 294-299 from the last tuple that begins with
`pre ++ [i]`: the pointer at `i` moves on by one and the pointers after it
are placed right behind it. -/
theorem delsAdvance_next (w : Str) (R : Mem) (log : List Ev) (hw : NoNul w)
    (pre : List Nat) (i m : Nat) (h : i + m + 1 < w.length) :
    delsAdvance (pre.length + 1 + m) (pre ++ i :: List.range' (w.length - m) m)
        { buf := cells [] w R, log := log }
      = (Except.ok (pre ++ List.range' (i + 1) (m + 1), some pre.length),
          { buf := cells [] w R, log := log }) := by
  cases m with
  | zero =>
    have h1 : (pre ++ [i])[pre.length + 1 + 0 - 1]? = some i := by
      simp
    have h2 : (pre ++ [i]).set (pre.length + 1 + 0 - 1) (i + 1) = pre ++ [i + 1] := by
      simp
    have h3 := getD_ne_zero w (i + 1) (by omega) hw
    unfold delsAdvance
    simp only [List.range'_zero, h1, bind_liftO_some, h2, bind_getBuf,
      rd_str w R (i + 1) (by omega), h3, if_false, pure_run]
    simp [List.range'_succ]
  | succ m =>
    have hL : w.length - (m + 1) + m + 1 = w.length := by omega
    have e0 : List.range' (w.length - (m + 1)) (m + 1)
        = List.range' (w.length - (m + 1)) m ++ [w.length - 1] := by
      rw [List.range'_concat]
      simp only [Nat.one_mul]
      congr 2
      omega
    have e1 : pre ++ i :: List.range' (w.length - (m + 1)) (m + 1)
        = (pre ++ i :: List.range' (w.length - (m + 1)) m) ++ [w.length - 1] := by
      rw [e0]; simp
    have el : (pre ++ i :: List.range' (w.length - (m + 1)) m).length = pre.length + 1 + m := by
      simp; omega
    have h1 : (pre ++ i :: List.range' (w.length - (m + 1)) (m + 1))[pre.length + 1 + (m + 1) - 1]?
        = some (w.length - 1) := by
      rw [e1, show pre.length + 1 + (m + 1) - 1 = pre.length + 1 + m by omega, ← el,
        List.getElem?_append_right (le_refl _)]
      simp
    have h2 : (pre ++ i :: List.range' (w.length - (m + 1)) (m + 1)).set
        (pre.length + 1 + (m + 1) - 1) (w.length - 1 + 1)
        = pre ++ i :: (List.range' (w.length - (m + 1)) m
            ++ (w.length - (m + 1) + m + 1) :: []) := by
      rw [e1, show pre.length + 1 + (m + 1) - 1 = pre.length + 1 + m by omega, ← el,
        List.set_append_right _ _ (le_refl _)]
      simp
      omega
    have h3 : rd (cells [] w R) (w.length - 1 + 1) = some 0 := by
      rw [show w.length - 1 + 1 = w.length by omega]
      exact rd_str_end w R
    have h4 : List.range' (w.length - (m + 1) + 1) m ++ [w.length - (m + 1) + m + 1]
        = (w.length - m) :: List.range' (w.length - m + 1) m := by
      have := range'_snoc_eq (w.length - (m + 1) + 1) m
      rw [show w.length - (m + 1) + 1 + m = w.length - (m + 1) + m + 1 by omega,
        show w.length - (m + 1) + 1 = w.length - m by omega] at this
      rw [show w.length - (m + 1) + 1 = w.length - m by omega]
      exact this
    have hcarry : delsCarry (pre.length + 1 + (m + 1) - 1)
        (pre ++ i :: (List.range' (w.length - (m + 1)) m
            ++ (w.length - (m + 1) + m + 1) :: []))
        = some (pre ++ (i + 1) :: (w.length - m) :: List.range' (w.length - m + 1) m,
            some pre.length) := by
      rw [show pre.length + 1 + (m + 1) - 1 = pre.length + 1 + m by omega, delsCarry_block, h4,
        delsCarry_step, if_neg (by omega)]
    have hfix : delsFix (pre.length + 1 + (m + 1) - (pre.length + 1)) (pre.length + 1)
        (pre ++ (i + 1) :: (w.length - m) :: List.range' (w.length - m + 1) m)
        = some (pre ++ (i + 1) :: List.range' (i + 1 + 1) (m + 1)) := by
      rw [show pre.length + 1 + (m + 1) - (pre.length + 1) = m + 1 by omega]
      exact delsFix_run (m + 1) pre (i + 1) _ (by simp)
    unfold delsAdvance
    simp only [h1, bind_liftO_some, h2, bind_getBuf, h3, if_true, hcarry, hfix, pure_run]
    simp [List.range'_succ]

/-- The advance from the last tuple of all: every pointer carries over, the
pointers return to their first places and the loop ends. -/
theorem delsAdvance_last_tuple (w : Str) (R : Mem) (log : List Ev) (d : Nat)
    (hd : d + 1 ≤ w.length) :
    delsAdvance (d + 1) (List.range' (w.length - (d + 1)) (d + 1))
        { buf := cells [] w R, log := log }
      = (Except.ok (List.range' 0 (d + 1), none), { buf := cells [] w R, log := log }) := by
  have e0 : List.range' (w.length - (d + 1)) (d + 1)
      = List.range' (w.length - (d + 1)) d ++ [w.length - 1] := by
    rw [List.range'_concat]
    simp only [Nat.one_mul]
    congr 2
    omega
  have el : (List.range' (w.length - (d + 1)) d).length = d := by simp
  have h1 : (List.range' (w.length - (d + 1)) (d + 1))[d + 1 - 1]? = some (w.length - 1) := by
    rw [e0, Nat.add_sub_cancel]
    conv_lhs => rw [← el]
    rw [el, List.getElem?_append_right (by rw [el])]
    simp
  have h2 : (List.range' (w.length - (d + 1)) (d + 1)).set (d + 1 - 1) (w.length - 1 + 1)
      = List.range' (w.length - (d + 1)) d ++ [w.length] := by
    rw [e0, Nat.add_sub_cancel, List.set_append_right _ _ (by rw [el])]
    simp
    omega
  have h3 : rd (cells [] w R) (w.length - 1 + 1) = some 0 := by
    rw [show w.length - 1 + 1 = w.length by omega]
    exact rd_str_end w R
  have hcarry : ∃ b Bk, Bk.length = d ∧
      delsCarry (d + 1 - 1) (List.range' (w.length - (d + 1)) d ++ [w.length])
        = some (b :: Bk, none) := by
    cases d with
    | zero => exact ⟨w.length, [], rfl, by simp [delsCarry]⟩
    | succ j =>
      have e1 : List.range' (w.length - (j + 1 + 1)) (j + 1) ++ [w.length]
          = [] ++ (w.length - (j + 2)) :: (List.range' (w.length - (j + 2) + 1) j
              ++ (w.length - (j + 2) + 1 + j + 1) :: []) := by
        rw [List.range'_succ]
        simp
        omega
      have e2 : List.range' (w.length - (j + 2) + 1 + 1) j ++ [w.length - (j + 2) + 1 + j + 1]
          = (w.length - (j + 2) + 1 + 1) :: List.range' (w.length - (j + 2) + 1 + 1 + 1) j := by
        have := range'_snoc_eq (w.length - (j + 2) + 1 + 1) j
        rw [show w.length - (j + 2) + 1 + 1 + j = w.length - (j + 2) + 1 + j + 1 by omega] at this
        exact this
      refine ⟨w.length - (j + 2) + 1, (w.length - (j + 2) + 1 + 1) ::
        List.range' (w.length - (j + 2) + 1 + 1 + 1) j, by simp, ?_⟩
      rw [e1, show j + 1 + 1 - 1 = ([] : List Nat).length + 1 + j by simp; omega,
        delsCarry_block, e2,
        delsCarry_step, if_pos (by omega)]
      simp [delsCarry]
  obtain ⟨b, Bk, hBk, hc⟩ := hcarry
  unfold delsAdvance
  simp only [h1, bind_liftO_some, h2, bind_getBuf, h3, if_true, hc, Nat.sub_zero,
    delsFix_zero d b Bk hBk, pure_run]

theorem combos_split (L m i : Nat) (h : i < L) :
    combosFrom L (m + 1) i
      = (combosFrom L m (i + 1)).map (fun t => i :: t) ++ combosFrom L (m + 1) (i + 1) := by
  obtain ⟨n, hn⟩ : ∃ n, L - i = n + 1 := ⟨L - i - 1, by omega⟩
  have hn1 : L - (i + 1) = n := by omega
  simp only [combosFrom, hn, hn1, List.range'_succ, List.flatMap_cons]

theorem combos_empty (L m i : Nat) (h : L < i + (m + 1)) : combosFrom L (m + 1) i = [] := by
  induction m generalizing i with
  | zero =>
    have : L - i = 0 := by omega
    simp [combosFrom, this]
  | succ m ih =>
    rw [combosFrom]
    rw [List.flatMap_eq_nil_iff]
    intro j hj
    have hj1 := (List.mem_range'_1.1 hj).1
    rw [ih (j + 1) (by omega)]
    rfl

theorem validTuple_snoc {L : Nat} {pre : List Nat} {i : Nat} (hp : ValidTuple L pre)
    (hlt : ∀ x ∈ pre, x < i) (hi : i < L) : ValidTuple L (pre ++ [i]) := by
  constructor
  · rw [List.pairwise_append]
    refine ⟨hp.1, List.pairwise_singleton _ _, ?_⟩
    intro a ha b hb
    rw [List.mem_singleton.1 hb]
    exact hlt a ha
  · intro x hx
    rcases List.mem_append.1 hx with h | h
    · exact hp.2 x h
    · rw [List.mem_singleton.1 h]; exact hi

theorem delsLoop_visit_at (w : Str) (T : List Nat) (R : Mem) (log : List Ev) (d : Nat)
    (hd : d = T.length) (hv : ValidTuple w.length T) (hw : NoNul w) (fuel : Nat)
    (saved : List Nat) (hs : saved.length = d) :
    delsLoop rejectAll d (fuel + 1) T saved { buf := cells [] w R, log := log }
      = delsRest rejectAll d fuel T (T.map fun i => w.getD i 0)
          { buf := cells [] w R, log := Ev.test (eraseAll w T) :: log } := by
  subst hd
  exact delsLoop_visit w T R log hv hw fuel saved hs

theorem delsAdvance_next_at (w : Str) (R : Mem) (log : List Ev) (hw : NoNul w)
    (pre : List Nat) (i m d : Nat) (hd : d = pre.length + 1 + m) (h : i + m + 1 < w.length) :
    delsAdvance d (pre ++ i :: List.range' (w.length - m) m)
        { buf := cells [] w R, log := log }
      = (Except.ok (pre ++ List.range' (i + 1) (m + 1), some pre.length),
          { buf := cells [] w R, log := log }) := by
  subst hd
  exact delsAdvance_next w R log hw pre i m h

/-- The passes of the loop of lines 277-300 from the first tuple that
begins with `pre` and goes on from index `i`, up to the advance from the
last tuple that begins with `pre`. -/
theorem delsLoop_block (w : Str) (R : Mem) (hw : NoNul w) (m : Nat) :
    ∀ (d : Nat) (pre : List Nat) (i fuel : Nat) (saved : List Nat) (log : List Ev),
      d = pre.length + m → ValidTuple w.length pre → (∀ x ∈ pre, x < i) →
      i + m ≤ w.length → saved.length = d →
      delsLoop rejectAll d (fuel + (combosFrom w.length m i).length)
          (pre ++ List.range' i m) saved { buf := cells [] w R, log := log }
        = delsRest rejectAll d fuel (pre ++ List.range' (w.length - m) m)
            ((pre ++ List.range' (w.length - m) m).map fun j => w.getD j 0)
            { buf := cells [] w R,
              log := ((combosFrom w.length m i).map fun t =>
                Ev.test (eraseAll w (pre ++ t))).reverse ++ log } := by
  induction m with
  | zero =>
    intro d pre i fuel saved log hd hp hlt him hs
    simp only [List.range'_zero, List.append_nil, combosFrom, List.length_singleton,
      List.map_cons, List.map_nil, List.reverse_singleton, List.singleton_append]
    exact delsLoop_visit_at w pre R log d (by omega) hp hw fuel saved hs
  | succ m ihm =>
    intro d pre i fuel saved log hd hp hlt him hs
    -- inner induction on the room left for the pointer at `i`
    obtain ⟨g, hg⟩ : ∃ g, i + (m + 1) + g = w.length := ⟨w.length - (i + (m + 1)), by omega⟩
    induction g generalizing i fuel saved log with
    | zero =>
      have hiL : i < w.length := by omega
      have hpre1 := validTuple_snoc hp hlt hiL
      have hnone : combosFrom w.length (m + 1) (i + 1) = [] := combos_empty _ _ _ (by omega)
      have h1 := ihm d (pre ++ [i]) (i + 1) fuel saved log (by simp; omega) hpre1
        (by
          intro x hx
          rcases List.mem_append.1 hx with h | h
          · exact Nat.lt_succ_of_lt (hlt x h)
          · rw [List.mem_singleton.1 h]; exact Nat.lt_succ_self i)
        (by omega) hs
      have e1 : pre ++ List.range' i (m + 1) = (pre ++ [i]) ++ List.range' (i + 1) m := by
        simp [List.range'_succ]
      have e2 : pre ++ List.range' (w.length - (m + 1)) (m + 1)
          = (pre ++ [i]) ++ List.range' (w.length - m) m := by
        have : w.length - (m + 1) = i := by omega
        rw [this, List.range'_succ]
        have : i + 1 = w.length - m := by omega
        rw [this]
        simp
      rw [combos_split _ _ _ hiL, hnone, List.append_nil, List.length_map, e1, e2, h1]
      simp [List.map_map, Function.comp_def]
    | succ g ihg =>
      have hiL : i < w.length := by omega
      have hpre1 := validTuple_snoc hp hlt hiL
      have h1 := ihm d (pre ++ [i]) (i + 1)
        (fuel + (combosFrom w.length (m + 1) (i + 1)).length) saved log (by simp; omega) hpre1
        (by
          intro x hx
          rcases List.mem_append.1 hx with h | h
          · exact Nat.lt_succ_of_lt (hlt x h)
          · rw [List.mem_singleton.1 h]; exact Nat.lt_succ_self i)
        (by omega) hs
      have e1 : pre ++ List.range' i (m + 1) = (pre ++ [i]) ++ List.range' (i + 1) m := by
        simp [List.range'_succ]
      have e3 : fuel + (combosFrom w.length (m + 1) i).length
          = fuel + (combosFrom w.length (m + 1) (i + 1)).length
            + (combosFrom w.length m (i + 1)).length := by
        rw [combos_split _ _ _ hiL, List.length_append, List.length_map]
        omega
      rw [e1, e3, h1]
      unfold delsRest
      have e4 : (pre ++ [i]) ++ List.range' (w.length - m) m
          = pre ++ i :: List.range' (w.length - m) m := by simp
      rw [e4, bind_ok (delsAdvance_next_at w R _ hw pre i m d (by omega) (by omega))]
      simp only
      have h2 := ihg (i + 1) fuel
        ((pre ++ i :: List.range' (w.length - m) m).map fun j => w.getD j 0)
        (((combosFrom w.length m (i + 1)).map fun t =>
          Ev.test (eraseAll w ((pre ++ [i]) ++ t))).reverse ++ log)
        (fun x hx => Nat.lt_succ_of_lt (hlt x hx)) (by omega) (by simp; omega) (by omega)
      rw [h2]
      unfold delsRest
      rw [combos_split _ _ _ hiL]
      simp [List.map_map, Function.comp_def]

/-- The whole loop of `searchIterateDels` for `1 ≤ dels ≤ strlen`. -/
theorem searchIterateDels_run (w : Str) (R : Mem) (log : List Ev) (hw : NoNul w)
    (d fuel : Nat) (hd1 : 1 ≤ d) (hdL : d ≤ w.length)
    (hf : (combosFrom w.length d 0).length ≤ fuel) :
    searchIterateDels rejectAll fuel d { buf := cells [] w R, log := log }
      = (Except.ok (),
          { buf := cells [] w R,
            log := ((combosFrom w.length d 0).map fun t =>
              Ev.test (eraseAll w t)).reverse ++ log }) := by
  obtain ⟨f, rfl⟩ : ∃ f, fuel = f + (combosFrom w.length d 0).length :=
    ⟨fuel - (combosFrom w.length d 0).length, by omega⟩
  obtain ⟨e, rfl⟩ : ∃ e, d = e + 1 := ⟨d - 1, by omega⟩
  unfold searchIterateDels
  rw [if_neg (by omega), List.range_eq_range']
  have h := delsLoop_block w R hw (e + 1) (e + 1) [] 0 f (List.replicate (e + 1) 0) log
    (by simp) ⟨List.Pairwise.nil, by simp⟩ (by simp) (by omega) (by simp)
  simp only [List.nil_append] at h
  rw [h]
  unfold delsRest
  rw [bind_ok (delsAdvance_last_tuple w R _ e hdL)]
  simp only [pure_run]

/-! ## The tuples of indices -/

theorem mem_combosFrom (L : Nat) (d : Nat) :
    ∀ (lo : Nat) (T : List Nat), T ∈ combosFrom L d lo ↔
      T.length = d ∧ T.Pairwise (fun a b => a < b) ∧ ∀ i ∈ T, lo ≤ i ∧ i < L := by
  induction d with
  | zero =>
    intro lo T
    simp only [combosFrom, List.mem_singleton, List.length_eq_zero]
    constructor
    · rintro rfl
      exact ⟨rfl, List.Pairwise.nil, by simp⟩
    · exact fun h => h.1
  | succ d ih =>
    intro lo T
    simp only [combosFrom, List.mem_flatMap, List.mem_map, List.mem_range'_1]
    constructor
    · rintro ⟨i, hi, U, hU, rfl⟩
      obtain ⟨h1, h2, h3⟩ := (ih (i + 1) U).1 hU
      refine ⟨by simp [h1], List.pairwise_cons.2 ⟨fun x hx => (h3 x hx).1, h2⟩, ?_⟩
      intro x hx
      rcases List.mem_cons.1 hx with h | h
      · subst h; omega
      · have := h3 x h; omega
    · rintro ⟨h1, h2, h3⟩
      cases T with
      | nil => simp at h1
      | cons i U =>
        have hi := h3 i (List.mem_cons_self _ _)
        refine ⟨i, by omega, U, ?_, rfl⟩
        rw [ih (i + 1) U]
        obtain ⟨h4, h5⟩ := List.pairwise_cons.1 h2
        refine ⟨by simpa using h1, h5, fun x hx => ⟨h4 x hx, (h3 x (List.mem_cons_of_mem _ hx)).2⟩⟩

theorem combosFrom_lex (L : Nat) (d : Nat) :
    ∀ lo : Nat, (combosFrom L d lo).Pairwise (List.Lex fun a b => a < b) := by
  induction d with
  | zero => intro lo; simp [combosFrom]
  | succ d ih =>
    intro lo
    rw [combosFrom, List.pairwise_flatMap]
    constructor
    · intro i _
      rw [List.pairwise_map]
      refine List.Pairwise.imp ?_ (ih (i + 1))
      intro S T h
      exact List.Lex.cons h
    · refine (List.pairwise_lt_range' lo (L - lo)).imp ?_
      intro a b hab x hx y hy
      obtain ⟨S, _, rfl⟩ := List.mem_map.1 hx
      obtain ⟨T, _, rfl⟩ := List.mem_map.1 hy
      exact List.Lex.rel hab

theorem length_combosFrom_gap (L : Nat) (g : Nat) :
    ∀ d lo : Nat, L - lo = g → (combosFrom L d lo).length = g.choose d := by
  induction g with
  | zero =>
    intro d lo hg
    cases d with
    | zero => simp [combosFrom]
    | succ d => rw [combos_empty L d lo (by omega)]; simp
  | succ g ihg =>
    intro d lo hg
    cases d with
    | zero => simp [combosFrom]
    | succ d =>
      rw [combos_split L d lo (by omega), List.length_append, List.length_map,
        ihg d (lo + 1) (by omega), ihg (d + 1) (lo + 1) (by omega), Nat.choose_succ_succ]

theorem length_combosFrom (L d lo : Nat) :
    (combosFrom L d lo).length = (L - lo).choose d :=
  length_combosFrom_gap L (L - lo) d lo rfl

theorem head_combosFrom (L : Nat) (d : Nat) :
    ∀ lo : Nat, lo + d ≤ L → (combosFrom L d lo).head? = some (List.range' lo d) := by
  induction d with
  | zero => intro lo _; simp [combosFrom]
  | succ d ih =>
    intro lo h
    rw [combos_split L d lo (by omega), List.head?_append, List.head?_map, ih (lo + 1) (by omega)]
    simp [List.range'_succ]

/-! ## Removing the characters at a set of indices -/

theorem dropIdxs_nil (w : Str) : ∀ k : Nat, dropIdxs w k [] = w := by
  induction w with
  | nil => intro k; rfl
  | cons x w ih => intro k; simp [dropIdxs, ih]

theorem dropIdxs_below (w : Str) :
    ∀ (k j : Nat) (U : List Nat), j < k → dropIdxs w k (j :: U) = dropIdxs w k U := by
  induction w with
  | nil => intro k j U _; rfl
  | cons x w ih =>
    intro k j U h
    have hne : k ≠ j := by omega
    simp only [dropIdxs, List.mem_cons, hne, false_or, ih (k + 1) j U (by omega)]

theorem eraseIdx_dropIdxs (w : Str) :
    ∀ (k i : Nat) (U : List Nat), (∀ u ∈ U, k + i < u) →
      (dropIdxs w k U).eraseIdx i = dropIdxs w k ((k + i) :: U) := by
  induction w with
  | nil => intro k i U _; rfl
  | cons x w ih =>
    intro k i U h
    have hk : k ∉ U := fun hm => by have := h k hm; omega
    cases i with
    | zero =>
      simp only [dropIdxs, hk, if_false, Nat.add_zero, List.mem_cons, true_or, if_true,
        List.eraseIdx_cons_zero]
      rw [dropIdxs_below w (k + 1) k U (by omega)]
    | succ i =>
      have hne : k ≠ k + (i + 1) := by omega
      simp only [dropIdxs, hk, if_false, List.mem_cons, hne, false_or, List.eraseIdx_cons_succ]
      rw [ih (k + 1) i U (fun u hu => by have := h u hu; omega),
        show k + 1 + i = k + (i + 1) by omega]

/-- Erasing at the pointers from the last to the first, as the code does,
removes exactly the characters at those indices of the original content. -/
theorem eraseAll_eq_removeIdxs (w : Str) (T : List Nat)
    (h : T.Pairwise (fun a b => a < b)) : eraseAll w T = removeIdxs w T := by
  induction T with
  | nil => simp [eraseAll, removeIdxs, dropIdxs_nil]
  | cons i U ih =>
    obtain ⟨h1, h2⟩ := List.pairwise_cons.1 h
    rw [eraseAll_cons, ih h2]
    unfold removeIdxs
    have := eraseIdx_dropIdxs w 0 i U (by simpa using h1)
    simpa using this

/-! ## The seed at distance 0 -/

theorem testAndThrow_no (o : Oracle) (s : St) (c : Str) (h : cstrAt s.buf 0 = some c)
    (ho : o c = false) :
    testAndThrow o s = (Except.ok (), { s with log := Ev.test c :: s.log }) := by
  simp [testAndThrow, h, ho]

theorem cstr_memcpySeed (B : Mem) (seed : Str) (hs : NoNul seed) :
    cstrAt (memcpySeed B seed) 0 = some seed := by
  rw [memcpySeed_any]
  simpa using cstr_cells [] seed _ (fun _ h => by cases h) hs

theorem memcpySeed_twice (B : Mem) (seed : Str) :
    memcpySeed (memcpySeed B seed) seed = memcpySeed B seed := by
  rw [memcpySeed_any B seed, memcpySeed_cells]

/-- The composition (0,0,0,0) under any oracle that rejects the seed: the
seed is copied and handed to `testMatch`. -/
theorem generate_zero_any (o : Oracle) (seed : Str) (fuel : Nat) (B : Mem) (log : List Ev)
    (hs : NoNul seed) (ho : o seed = false) :
    generate o fuel seed 0 0 0 0 { buf := B, log := log }
      = (Except.ok (), { buf := memcpySeed B seed, log := Ev.test seed :: log }) := by
  have hc := cstr_memcpySeed B seed hs
  have hl : strlenAt (memcpySeed B seed) 0 = some seed.length := by simp [strlenAt, hc]
  unfold generate
  rw [bind_ok (copySeed_run seed _)]
  simp only [if_true]
  unfold searchIterateTrans
  simp only [if_true]
  unfold searchIterateAdds
  simp only [bind_getBuf, hl, bind_liftO_some, if_true]
  unfold searchIterateDels
  simp only [if_true]
  exact testAndThrow_no o _ seed hc ho

/-- Distance 0 without a positive fixed distance: the direct test of lines
420-423 and then the composition (0,0,0,0), which tests the seed again. -/
theorem searchBody_zero (o : Oracle) (fuel : Nat) (seed : Str) (distance : Int)
    (log : List Ev) (hs : NoNul seed) (hd : distance ≤ 0) (ho : o seed = false) :
    M.bind (testSeed o seed distance 0)
        (fun _ => loopEdits (generate o fuel seed) 0 (0 + 2) 0) { buf := freshBuf, log := log }
      = (Except.ok (), { buf := memcpySeed freshBuf seed, log := logZero seed ++ log }) := by
  have hts : testSeed o seed distance 0 { buf := freshBuf, log := log }
      = (Except.ok (), { buf := memcpySeed freshBuf seed, log := Ev.test seed :: log }) := by
    unfold testSeed
    rw [if_pos ⟨rfl, hd⟩, bind_ok (copySeed_run seed _)]
    exact testAndThrow_no o _ seed (cstr_memcpySeed _ seed hs) ho
  rw [bind_ok hts]
  apply loopEdits_zero_run
  simp only
  rw [generate_zero_any o seed fuel _ _ hs ho, memcpySeed_twice]
  rfl

/-- The first event of the loop nest of a distance `D ≥ 1` is the
announcement of the composition (0,0,0,D). -/
theorem loopEdits_first (o : Oracle) (fuel : Nat) (seed : Str) (D : Nat) (hD : 1 ≤ D)
    (s : St) :
    ∃ evs, (loopEdits (generate o fuel seed) D (D + 2) 0 s).2.log
      = evs ++ Ev.comp 0 0 0 D :: s.log := by
  rw [loopEdits_go _ D (D + 1) 0 (by omega)]
  rw [loopTrans_go _ D 0 (D + 1) 0 (by omega)]
  rw [loopAdds_go _ D 0 0 (D + 1) 0 (by omega)]
  simp only [bind_assoc]
  rw [bind_announce]
  have hs : Sim o
      (M.bind (M.bind (generate o fuel seed 0 0 0 (D - 0 - 0 - 0)) fun _ =>
          loopAdds (generate o fuel seed) D 0 0 (D + 1) (0 + 1)) fun _ =>
        M.bind (loopTrans (generate o fuel seed) D 0 (D + 1) (0 + 1)) fun _ =>
          loopEdits (generate o fuel seed) D (D + 1) (0 + 1))
      (M.bind (M.bind (generate rejectAll fuel seed 0 0 0 (D - 0 - 0 - 0)) fun _ =>
          loopAdds (generate rejectAll fuel seed) D 0 0 (D + 1) (0 + 1)) fun _ =>
        M.bind (loopTrans (generate rejectAll fuel seed) D 0 (D + 1) (0 + 1)) fun _ =>
          loopEdits (generate rejectAll fuel seed) D (D + 1) (0 + 1)) := by
    have hg : ∀ e t a d, Sim o (generate o fuel seed e t a d)
        (generate rejectAll fuel seed e t a d) := fun e t a d => sim_generate o fuel seed e t a d
    exact sim_bind o (sim_bind o (hg _ _ _ _) (fun _ => sim_loopAdds o _ _ hg _ _ _ _ _))
      (fun _ => sim_bind o (sim_loopTrans o _ _ hg _ _ _ _)
        (fun _ => sim_loopEdits o _ _ hg _ _ _))
  obtain ⟨evs, he⟩ := sim_grows hs
    { buf := s.buf, log := Ev.comp 0 0 0 (D - 0 - 0 - 0) :: s.log }
  refine ⟨evs, ?_⟩
  simp only [Nat.sub_zero] at he ⊢
  rw [← he]

/-- A call `search(D)` with `D ≥ 1` that is not for a fixed distance 0
begins with the announcement of (0,0,0,D). -/
theorem search_first_comp (o : Oracle) (fuel : Nat) (seed : Str) (distance : Int)
    (depth D : Nat) (log : List Ev) (hD : 1 ≤ D) (hlen : ¬ seed.length > MAX_PWD_LEN / 2) :
    ∃ evs, (search o (generate o fuel seed) seed distance (depth + 1) D log).2
      = evs ++ Ev.comp 0 0 0 D :: log := by
  have hT : testSeed o seed distance D = M.pure () := by
    unfold testSeed
    rw [if_neg (by omega)]
  obtain ⟨evs, he⟩ := loopEdits_first o fuel seed D hD { buf := freshBuf, log := log }
  rcases hb : loopEdits (generate o fuel seed) D (D + 2) 0 { buf := freshBuf, log := log }
    with ⟨r, s1⟩
  rw [hb] at he
  simp only at he
  have hbody : M.bind (testSeed o seed distance D)
      (fun _ => loopEdits (generate o fuel seed) D (D + 2) 0) { buf := freshBuf, log := log }
      = (r, s1) := by
    rw [hT, bind_ok (pure_run _ _)]
    exact hb
  cases r with
  | error e =>
    refine ⟨evs, ?_⟩
    simp only [search, hlen, if_false, hbody, he]
  | ok a =>
    by_cases hcont : D < seed.length ∧ distance < 0
    · obtain ⟨evs2, h2⟩ := search_grows o fuel seed distance depth (D + 1) s1.log
      refine ⟨evs2 ++ evs, ?_⟩
      simp only [search, hlen, if_false, hbody, hcont, and_self, if_true]
      rw [h2, he, List.append_assoc]
    · refine ⟨evs, ?_⟩
      simp only [search, hlen, if_false, hbody, hcont, he]

/-- The run of `search(0)` without a positive fixed distance, under an
oracle that rejects the seed: the events of distance 0 and what follows. -/
theorem search_zero_run (o : Oracle) (fuel : Nat) (seed : Str) (distance : Int) (depth : Nat)
    (hlen : ¬ seed.length > MAX_PWD_LEN / 2) (hs : NoNul seed) (hd : distance ≤ 0)
    (ho : o seed = false) :
    search o (generate o fuel seed) seed distance (depth + 1) 0 []
      = if 0 < seed.length ∧ distance < 0
        then search o (generate o fuel seed) seed distance depth (0 + 1) (logZero seed)
        else (Outcome.notFound, logZero seed) := by
  have hb := searchBody_zero o fuel seed distance [] hs hd ho
  rw [search]
  simp only [hlen, if_false, hb, List.append_nil]

/-! ## When the insertion stage is skipped -/

theorem grows_of_sim {α : Type} {x : M α} (h : Sim rejectAll x x) : Grows x := by
  intro s
  unfold Sim at h
  obtain ⟨evs, hlog, _, _⟩ := h s
  exact ⟨evs, hlog⟩

theorem grows_of_silent {α : Type} {x : M α} (h : Silent x) : Grows x := by
  intro s
  unfold Silent at h
  exact ⟨[], by simpa using (h s).1⟩

theorem probes_halt {α : Type} (e : Stop) : Probes (halt e : M α) := by
  intro s a h
  unfold halt at h
  cases h

theorem probes_testAndThrow : Probes (testAndThrow rejectAll) := by
  intro s a h
  unfold testAndThrow at h ⊢
  cases hc : cstrAt s.buf 0 with
  | none => simp [hc] at h
  | some c => exact ⟨[], c, [], by simp [rejectAll]⟩

theorem probes_bind_left {α β : Type} {x : M α} {f : α → M β}
    (hx : Probes x) (hf : ∀ a, Grows (f a)) : Probes (M.bind x f) := by
  intro s b h
  rcases hxs : x s with ⟨r, s1⟩
  cases r with
  | error e => rw [bind_err hxs] at h; cases h
  | ok a =>
    obtain ⟨post, c, pre, h1⟩ := hx s a (by rw [hxs])
    obtain ⟨evs2, h2⟩ := hf a s1
    rw [hxs] at h1
    simp only at h1
    rw [bind_ok hxs, h2, h1]
    exact ⟨evs2 ++ post, c, pre, by simp⟩

theorem probes_bind_right {α β : Type} {x : M α} {f : α → M β}
    (hx : Grows x) (hf : ∀ a, Probes (f a)) : Probes (M.bind x f) := by
  intro s b h
  rcases hxs : x s with ⟨r, s1⟩
  cases r with
  | error e => rw [bind_err hxs] at h; cases h
  | ok a =>
    obtain ⟨evs, h1⟩ := hx s
    rw [hxs] at h1
    simp only at h1
    rw [bind_ok hxs] at h ⊢
    obtain ⟨post, c, pre, h2⟩ := hf a s1 b h
    rw [h2, h1]
    exact ⟨post, c, pre ++ evs, by simp⟩

theorem probes_delsLoop (dels k : Nat) (delsArr savedArr : List Nat) :
    Probes (delsLoop rejectAll dels k delsArr savedArr) := by
  cases k with
  | zero =>
    unfold delsLoop
    exact probes_halt _
  | succ k =>
    unfold delsLoop
    refine probes_bind_right (grows_of_silent (silent_delsDelete _ _ _)) fun saved1 =>
      probes_bind_left probes_testAndThrow fun _ => grows_of_sim ?_
    refine sim_bind _ (sim_of_silent _ (silent_delsRestore _ _ _ _)) fun _ =>
      sim_bind _ (sim_of_silent _ (silent_delsAdvance _ _)) fun r => ?_
    split
    · exact sim_of_silent _ (silent_pure _)
    · exact sim_delsLoop _ _ _ _ _

theorem probes_searchIterateDels (fuel dels : Nat) :
    Probes (searchIterateDels rejectAll fuel dels) := by
  unfold searchIterateDels
  split
  · exact probes_testAndThrow
  · exact probes_delsLoop _ _ _ _

theorem probes_searchIterateAtInsertions (fuelD adds dels : Nat) (pts : List Int) (k : Nat) :
    Probes (searchIterateAtInsertions rejectAll fuelD adds dels pts k) := by
  cases k with
  | zero =>
    unfold searchIterateAtInsertions
    exact probes_halt _
  | succ k =>
    unfold searchIterateAtInsertions
    refine probes_bind_left (probes_searchIterateDels _ _) fun _ => grows_of_sim ?_
    repeat' first
      | apply sim_bind | split
      | exact sim_of_silent _ (silent_liftO _) | exact sim_of_silent _ silent_getBuf
      | exact sim_of_silent _ (silent_setBuf _) | exact sim_of_silent _ (silent_pure _)
      | exact sim_of_silent _ (silent_insCarry _ _)
      | exact sim_of_silent _ (silent_insReset _ _ _)
      | exact sim_searchIterateAtInsertions _ _ _ _ _ _
      | intro _

theorem bind_liftO_fn {α β : Type} (a : α) (f : α → M β) :
    M.bind (liftO (some a)) f = f a := by
  funext s
  rw [bind_liftO_some]

/-- The loop of lines 351-378 entered with its first insertion point inside
the buffer: it returns normally only after a call of `testMatch`. -/
theorem probes_addsLoop (fuelD fuelI adds dels len k : Nat) (addsArr : List Int) (a0 : Int)
    (h0 : addsArr[0]? = some a0) (ha : 0 ≤ a0) :
    Probes (addsLoop rejectAll fuelD fuelI adds dels len k addsArr) := by
  cases k with
  | zero =>
    unfold addsLoop
    exact probes_halt _
  | succ k =>
    unfold addsLoop
    rw [h0, bind_liftO_fn, if_neg (by omega)]
    refine probes_bind_right (grows_of_silent (silent_addsOpen _ _)) fun _ =>
      probes_bind_right (grows_of_silent (silent_addsInit _ _)) fun _ =>
      probes_bind_left (probes_searchIterateAtInsertions _ _ _ _ _) fun _ => grows_of_sim ?_
    refine sim_bind _ (sim_of_silent _ (silent_addsClose _ _)) fun _ =>
      sim_bind _ (sim_of_silent _ (silent_liftO _)) fun r => ?_
    exact sim_addsLoop _ _ _ _ _ _ _ _

/-- Lines 343-344: with `adds ≥ 1` and `adds + strlen ≥ MAX_PWD_LEN` the call
returns at once. -/
theorem searchIterateAdds_skip (o : Oracle) (s : St) (L a d fuel : Nat)
    (hL : strlenAt s.buf 0 = some L) (ha : 1 ≤ a) (h : MAX_PWD_LEN ≤ a + L) :
    searchIterateAdds o fuel a d s = (Except.ok (), s) := by
  unfold searchIterateAdds
  rw [bind_getBuf, hL, bind_liftO_some, if_neg (by omega), if_pos (by omega), pure_run]

/-- With `adds ≥ 1` and `adds + strlen < MAX_PWD_LEN` the loop of lines
351-378 is entered with every insertion point at the end of the string. -/
theorem searchIterateAdds_enter (o : Oracle) (s : St) (L a d fuel : Nat)
    (hL : strlenAt s.buf 0 = some L) (ha : 1 ≤ a) (h : a + L < MAX_PWD_LEN) :
    searchIterateAdds o fuel a d s
      = addsLoop o fuel fuel a d L fuel (List.replicate a (L : Int)) s := by
  unfold searchIterateAdds
  rw [bind_getBuf, hL, bind_liftO_some, if_neg (by omega), if_neg (by omega)]

theorem searchIterateAdds_probes (s : St) (L a d fuel : Nat)
    (hL : strlenAt s.buf 0 = some L) (ha : 1 ≤ a) (h : a + L < MAX_PWD_LEN)
    (hok : (searchIterateAdds rejectAll fuel a d s).1 = Except.ok ()) :
    ∃ post c pre, (searchIterateAdds rejectAll fuel a d s).2.log
      = post ++ Ev.test c :: (pre ++ s.log) := by
  rw [searchIterateAdds_enter rejectAll s L a d fuel hL ha h] at hok ⊢
  obtain ⟨b, rfl⟩ : ∃ b, a = b + 1 := ⟨a - 1, by omega⟩
  exact probes_addsLoop fuel fuel (b + 1) d L fuel _ (L : Int)
    (by simp [List.replicate_succ]) (by omega) s () hok

theorem length_charCands (u v : Str) (ch k : Nat) : (charCands u v ch k).length = k := by
  simp [charCands]

theorem length_insCands (ur v : Str) : (insCands ur v).length = 95 * (ur.length + 1) := by
  induction ur generalizing v with
  | nil => simp [insCands, length_charCands]
  | cons x ur ih =>
    rw [insCands, List.length_append, length_charCands, ih]
    simp only [List.length_cons]
    omega

/-- One insertion and no deletion, on any string that leaves room. -/
theorem searchIterateAdds_one (w : Str) (y : Option Nat) (R : Mem) (log : List Ev)
    (fuel : Nat) (hw : NoNul w) (hn : w.length + 1 < MAX_PWD_LEN) (hT : 95 ≤ fuel)
    (hf : w.length + 2 ≤ fuel) :
    searchIterateAdds rejectAll fuel 1 0 { buf := cells [] w (y :: R), log := log }
      = (Except.ok (),
          { buf := cells [] w (some 0 :: R),
            log := ((insCands w.reverse []).map Ev.test).reverse ++ log }) := by
  have hl := strlenAt_cells_zero [] w (y :: R) (fun _ h => by cases h) hw
  simp only [List.length_nil, Nat.zero_add] at hl
  rw [searchIterateAdds_enter rejectAll _ w.length 1 0 fuel hl (le_refl 1) (by omega)]
  have h := addsLoop_one w.reverse [] R y log fuel fuel fuel w.length
    (fun c hc => hw c (List.mem_reverse.1 hc)) (fun _ h => by cases h) hT
    (by simpa using hf)
  simp only [List.reverse_reverse, List.append_nil] at h
  rw [List.replicate_one]
  exact h

/-! ## More deletions than characters -/

theorem rd_fresh_tail (w : Str) (k p : Nat) (hp : w.length < p) :
    rd (cells [] w (List.replicate k none)) p = none := by
  unfold rd cells
  simp only [List.map_nil, List.nil_append, List.get?_eq_getElem?]
  rw [List.getElem?_append_right (by simp; omega)]
  obtain ⟨j, hj⟩ : ∃ j, p - (w.map some).length = j + 1 := ⟨p - w.length - 1, by simp; omega⟩
  rw [hj, List.getElem?_cons_succ]
  rw [List.getElem?_replicate]
  split <;> rfl

theorem strlenAt_fresh_tail (w : Str) (k p : Nat) (hp : w.length < p) :
    strlenAt (cells [] w (List.replicate k none)) p = none := by
  unfold strlenAt cstrAt cells
  simp only [List.map_nil, List.nil_append]
  obtain ⟨j, hj⟩ : ∃ j, p = (w.map some).length + 1 + j := ⟨p - w.length - 1, by simp; omega⟩
  have hd : List.drop p (List.map some w ++ some 0 :: List.replicate k none)
      = List.replicate (k - j) none := by
    rw [show List.map some w ++ some 0 :: List.replicate k none
        = (List.map some w ++ [some 0]) ++ List.replicate k none by simp, hj,
      show (w.map some).length + 1 + j = (List.map some w ++ [some 0]).length + j by simp,
      List.drop_append]
    simp
  rw [hd]
  cases k - j with
  | zero => rfl
  | succ n => rfl

/-- The deletion stage called with more deletions than the string has
characters, the bytes behind the terminator never written: the first thing
the loop of lines 279-282 does is read such a byte. -/
theorem searchIterateDels_beyond (w : Str) (k : Nat) (log : List Ev) (d fuel : Nat)
    (hd : w.length < d) (hf : 1 ≤ fuel) :
    searchIterateDels rejectAll fuel d
        { buf := cells [] w (List.replicate k none), log := log }
      = (Except.error Stop.fault,
          { buf := cells [] w (List.replicate k none), log := log }) := by
  obtain ⟨f, rfl⟩ : ∃ f, fuel = f + 1 := ⟨fuel - 1, by omega⟩
  obtain ⟨e, rfl⟩ : ∃ e, d = e + 1 := ⟨d - 1, by omega⟩
  unfold searchIterateDels
  rw [if_neg (by omega), delsLoop]
  apply bind_err
  rw [delsDelete]
  have h1 : (List.range (e + 1))[e]? = some e := by
    rw [List.getElem?_range (by omega)]
  rw [h1, bind_liftO_some, bind_getBuf]
  simp only
  by_cases he : e = w.length
  · have hr : rd (cells [] w (List.replicate k none)) e = some 0 := by
      subst he
      have := rd_cells_end w (List.replicate k none)
      rw [show cells w [] (List.replicate k none) = cells [] w (List.replicate k none) by
        simp [cells]] at this
      exact this
    rw [hr, bind_liftO_some, strlenAt_fresh_tail w k (e + 1) (by omega)]
    exact bind_err (liftO_none_run _)
  · rw [rd_fresh_tail w k e (by omega)]
    exact bind_err (liftO_none_run _)

/-- The composition (0,0,0,D) with `D` above the length of the seed, from
the freshly declared buffer. -/
theorem generate_dels_beyond (seed : Str) (D fuel : Nat) (log : List Ev) (hs : NoNul seed)
    (hD : seed.length < D) (hf : 1 ≤ fuel) :
    generate rejectAll fuel seed 0 0 0 D { buf := freshBuf, log := log }
      = (Except.error Stop.fault, { buf := memcpySeed freshBuf seed, log := log }) := by
  unfold generate
  rw [bind_ok (copySeed_run seed _)]
  simp only [if_true]
  unfold searchIterateTrans
  simp only [if_true]
  unfold searchIterateAdds
  rw [memcpySeed_fresh]
  have hl := strlenAt_cells_zero [] seed (List.replicate (BUF_LEN - (seed.length + 1)) none)
    (fun _ h => by cases h) hs
  simp only [List.length_nil, Nat.zero_add] at hl
  simp only [bind_getBuf, hl, bind_liftO_some, if_true]
  exact searchIterateDels_beyond seed _ log D fuel hD hf

/-- A fixed distance above the length of the seed: the run stops in its
first composition, before any candidate is tested. -/
theorem runSearch_beyond (seed : Str) (D fuel : Nat) (hs : NoNul seed)
    (hn : seed.length ≤ 50) (hD : seed.length < D) (hf : 1 ≤ fuel) :
    runSearch rejectAll fuel seed (D : Int) = (Outcome.fault, [Ev.comp 0 0 0 D]) := by
  have hDi : (if (D : Int) < 0 then 0 else (D : Int).toNat) = D := by
    have : ¬ ((D : Int) < 0) := by omega
    simp [this]
  have hb : searchBody rejectAll (generate rejectAll fuel seed) seed (D : Int) D []
      = (Except.error Stop.fault,
          { buf := memcpySeed freshBuf seed, log := [Ev.comp 0 0 0 D] }) := by
    unfold searchBody testSeed
    have h0 : ¬ (D = 0 ∧ (D : Int) ≤ 0) := by omega
    simp only [h0, if_false, bind_pure]
    rw [loopEdits_go _ D (D + 1) 0 (by omega)]
    rw [loopTrans_go _ D 0 (D + 1) 0 (by omega)]
    rw [loopAdds_go _ D 0 0 (D + 1) 0 (by omega)]
    simp only [bind_assoc]
    rw [bind_announce]
    simp only [Nat.sub_zero]
    exact bind_err (bind_err (generate_dels_beyond seed D fuel _ hs hD hf))
  unfold runSearch
  rw [hDi, show seed.length + 2 = seed.length + 1 + 1 from rfl,
    search_fixed rejectAll _ seed D (seed.length + 1) [] hn, hb]
  rfl

/-! ## The compositions of a search with no fixed distance -/

/-- When a fixed distance `D >= 0` is requested (seed of at most 50
characters, any oracle), the compositions `search(D)` delegates are a leading
part of the compositions of `D`, so each has the sum `D` and none belongs to
distance `D + 1`; for `D >= 1` the first thing the run does is announce the
composition (0,0,0,D), the seed is not tested directly before it; a returned
password was accepted by the oracle; and when the enumeration of distance `D`
runs to its end the result is NotFound, all compositions of `D` having been
delegated and no further distance started. -/
theorem fixed_distance_search (o : Oracle) (fuel : Nat) (seed : Str) (D : Nat)
    (hlen : seed.length ≤ 50) :
    compsOf (runSearch o fuel seed (D : Int)).2 <+: compositions D ∧
    (∀ q ∈ compsOf (runSearch o fuel seed (D : Int)).2, q.1 + q.2.1 + q.2.2.1 + q.2.2.2 = D) ∧
    (1 ≤ D → (runSearch o fuel seed (D : Int)).2.head? = some (Ev.comp 0 0 0 D)) ∧
    (∀ c, (runSearch o fuel seed (D : Int)).1 = Outcome.found c → o c = true) ∧
    ((searchBody o (generate o fuel seed) seed (D : Int) D []).1 = Except.ok () →
      (runSearch o fuel seed (D : Int)).1 = Outcome.notFound ∧
      compsOf (runSearch o fuel seed (D : Int)).2 = compositions D) := by
  have hD : (if (D : Int) < 0 then 0 else (D : Int).toNat) = D := by
    have : ¬ ((D : Int) < 0) := by omega
    simp [this]
  have hR : runSearch o fuel seed (D : Int)
      = ((match searchBody o (generate o fuel seed) seed (D : Int) D [] with
          | (Except.error e, s1) => (Outcome.ofStop e, s1.log)
          | (Except.ok _, s1) => (Outcome.notFound, s1.log)).1,
         (searchBody o (generate o fuel seed) seed (D : Int) D []).2.log.reverse) := by
    unfold runSearch
    rw [hD, search_fixed o _ seed D (seed.length + 1) [] hlen]
    rcases searchBody o (generate o fuel seed) seed (D : Int) D [] with ⟨r, s1⟩
    cases r <;> rfl
  have hE := emits_run (emits_bind (emits_testSeed o seed (D : Int) D)
    (fun _ => emits_loopEdits (generate o fuel seed)
      (fun e t a d => emits_generate o fuel seed e t a d) D (D + 2) 0))
    { buf := freshBuf, log := [] }
  rw [rowE_zero, List.nil_append] at hE
  obtain ⟨done, hlog, hpre, hok⟩ := hE
  have hcomps : compsOf (runSearch o fuel seed (D : Int)).2 = done := by
    rw [hR]
    simp only [compsOf_reverse]
    unfold searchBody
    rw [hlog]
    simp [compsOf]
  refine ⟨hcomps ▸ hpre, ?_, ?_, ?_, ?_⟩
  · intro q hq
    rw [hcomps] at hq
    exact (mem_compositions D q).1 (List.IsPrefix.subset hpre hq)
  · intro h1
    obtain ⟨evs, he⟩ := searchBody_first o fuel seed D h1
    rw [hR]
    simp only [he, List.reverse_append, List.reverse_cons, List.reverse_nil, List.nil_append,
      List.singleton_append, List.head?_cons]
  · intro c hc
    obtain ⟨hnf, h⟩ := runSearch_cut o fuel seed (D : Int)
    rcases h with ⟨_, heq⟩ | ⟨c1, A, B, hoc, _, _, hr, _⟩
    · rw [heq] at hc
      exact absurd hc (hnf c)
    · rw [hr] at hc
      injection hc with hc
      rw [← hc]
      exact hoc
  · intro hbody
    have hdone := hok () hbody
    refine ⟨?_, by rw [hcomps, hdone]⟩
    rw [hR]
    rcases hb : searchBody o (generate o fuel seed) seed (D : Int) D [] with ⟨r, s1⟩
    rw [hb] at hbody
    simp only at hbody
    subst hbody
    rfl

/-! ## A generator that always returns -/

/-- C1: for every non-empty seed `s` of at most 50 characters (a C string:
no NUL among its characters) and every string `x` obtained from `s` by one
edit (one deletion, one insertion of a character of [0x20, 0x7E] at any
point, one swap of adjacent characters, one replacement by a character of
[0x20, 0x7E]), `search(0)` with no fixed distance and the oracle
exact-match(`x`) returns exactly `x`. -/
theorem search_finds_one_edit (s x : Str) (fuel : Nat) (hs : NoNul s) (hne : s ≠ [])
    (hlen : s.length ≤ 50) (hx : OneEdit s x) (hfuel : 95 ≤ fuel) :
    (runSearch (exactMatch x) fuel s (-1)).1 = Outcome.found x := by
  cases s with
  | nil => exact absurd rfl hne
  | cons a v =>
    simp only [List.length_cons] at hlen
    obtain ⟨evs, he⟩ := search_upto_one a v fuel hs hlen (by omega) hfuel
    have hmem : x ∈ testedOf (runSearch rejectAll fuel (a :: v) (-1)).2 := by
      have hd : (if (-1 : Int) < 0 then 0 else (-1 : Int).toNat) = 0 := by decide
      simp only [runSearch, hd, he, List.reverse_append, testedOf_append, List.mem_append]
      left
      exact oneEdit_tested (a :: v) x hx
    obtain ⟨_, h⟩ := runSearch_cut (exactMatch x) fuel (a :: v) (-1)
    rcases h with ⟨hnone, _⟩ | ⟨c, A, B, hoc, _, _, hr, _⟩
    · rw [List.find?_eq_none] at hnone
      have := hnone x hmem
      simp [exactMatch] at this
    · have hcx : c = x := by simpa [exactMatch] using hoc
      rw [hr, hcx]

/-- C1 at the two scenarios of the specification: seed "abcd" with target
"abd" (one deletion) and seed "passw0rd" with target "password" (one
substitution). -/
theorem search_finds_one_edit_witness :
    (runSearch (exactMatch [97, 98, 100]) 100 [97, 98, 99, 100] (-1)).1
      = Outcome.found [97, 98, 100] ∧
    (runSearch (exactMatch [112, 97, 115, 115, 119, 111, 114, 100]) 100
        [112, 97, 115, 115, 119, 48, 114, 100] (-1)).1
      = Outcome.found [112, 97, 115, 115, 119, 111, 114, 100] :=
  ⟨search_finds_one_edit [97, 98, 99, 100] [97, 98, 100] 100
      (by unfold NoNul; decide) (by decide) (by decide)
      (OneEdit.del [97, 98] 99 [100] rfl) (by decide),
   search_finds_one_edit [112, 97, 115, 115, 119, 48, 114, 100]
      [112, 97, 115, 115, 119, 111, 114, 100] 100
      (by unfold NoNul; decide) (by decide) (by decide)
      (OneEdit.sub [112, 97, 115, 115, 119] 48 [114, 100] 111 rfl (by decide)) (by decide)⟩

/-- C9: for every seed `s` of length `n` with 1 <= n <= 50 (a C string),
the fixed distance 1 and dry-run enabled (the checker being a command with a
non-empty match string, as `main` requires): the candidates reported are, in
this order, the `n` single deletions by index, the 95(n+1) single insertions
(point `n` down to 0, character 0x20 up to 0x7E), the `n-1` adjacent swaps
by index and the 95n single substitutions (index 0 up, character 0x20 up) --
192n + 94 in all; every effect is such a report; and the result is
NotFound. -/
theorem dryrun_distance_one (cfg : Config) (s : Str) (fuel : Nat)
    (hc : cfg.checkCmd = true) (hd : cfg.dryrun = true) (hm : cfg.matchStr ≠ [])
    (hs : NoNul s) (h1 : 1 ≤ s.length) (h50 : s.length ≤ 50) (hf : 95 ≤ fuel) :
    (runSearch (oracleOf cfg) fuel s 1).1 = Outcome.notFound ∧
    reportedOf cfg (runSearch (oracleOf cfg) fuel s 1).2 = distanceOneCandidates s ∧
    (distanceOneCandidates s).length = 192 * s.length + 94 ∧
    effectsOf cfg (runSearch (oracleOf cfg) fuel s 1).2
      = (distanceOneCandidates s).map Effect.info := by
  rw [oracleOf_dryrun cfg hc hd hm]
  cases s with
  | nil => simp at h1
  | cons a v =>
    simp only [List.length_cons] at h50
    have hrun := runSearch_one a v fuel hs h50 (by omega) hf
    have ht : testedOf (runSearch rejectAll fuel (a :: v) 1).2 = distanceOneCandidates (a :: v) := by
      rw [hrun, testedOf_logOne, cands_distanceOne]
    refine ⟨by rw [hrun], ?_, length_distanceOneCandidates _ h1, ?_⟩
    · rw [reportedOf_dryrun cfg hc hd, ht]
    · unfold effectsOf
      rw [ht]
      induction distanceOneCandidates (a :: v) with
      | nil => rfl
      | cons c r ih =>
        simp only [List.flatMap_cons, List.map_cons, ih]
        simp [testMatch, execAndCapture, hc, hd]

set_option maxRecDepth 1000000 in
/-- C9 at the seed "ab" with the match string "ok": 478 candidates are
reported, beginning "b", "a" and containing "ba", and the result is
NotFound. -/
theorem dryrun_distance_one_witness :
    (runSearch (oracleOf ⟨true, true, [111, 107], fun _ => [], fun _ => false⟩)
        100 [97, 98] 1).1 = Outcome.notFound ∧
    (reportedOf ⟨true, true, [111, 107], fun _ => [], fun _ => false⟩
      (runSearch (oracleOf ⟨true, true, [111, 107], fun _ => [], fun _ => false⟩)
        100 [97, 98] 1).2).length = 478 ∧
    (reportedOf ⟨true, true, [111, 107], fun _ => [], fun _ => false⟩
      (runSearch (oracleOf ⟨true, true, [111, 107], fun _ => [], fun _ => false⟩)
        100 [97, 98] 1).2).take 2 = [[98], [97]] ∧
    [98, 97] ∈ reportedOf ⟨true, true, [111, 107], fun _ => [], fun _ => false⟩
      (runSearch (oracleOf ⟨true, true, [111, 107], fun _ => [], fun _ => false⟩)
        100 [97, 98] 1).2 := by
  have h := dryrun_distance_one ⟨true, true, [111, 107], fun _ => [], fun _ => false⟩
    [97, 98] 100 rfl rfl (by decide) (by unfold NoNul; decide) (by decide) (by decide)
    (by decide)
  refine ⟨h.1, ?_, ?_, ?_⟩
  · rw [h.2.1, h.2.2.1]; rfl
  · rw [h.2.1]; decide!
  · rw [h.2.1]; decide!

set_option maxRecDepth 1000000 in
/-- C5 fails on the seed "abc": the composition (0,2,0,0) of distance 2
hands the oracle exactly the candidates of the composition (0,1,0,0),
"bac" and "acb", each the seed with a single swap applied. -/
theorem two_transpositions_test_single_swaps :
    testedOf (generate rejectAll 100 [97, 98, 99] 0 2 0 0
        { buf := freshBuf, log := [] }).2.log.reverse = [[98, 97, 99], [97, 99, 98]] ∧
    testedOf (generate rejectAll 100 [97, 98, 99] 0 1 0 0
        { buf := freshBuf, log := [] }).2.log.reverse = [[98, 97, 99], [97, 99, 98]] := by
  decide!

set_option maxRecDepth 1000000 in
/-- C8 fails on the seed "ab" with the budget (0,0,2,0): the enumeration
stops at its first candidate with the buffer holding 'a','b',' ',' ' and
no terminator, so the buffer does not hold the seed. -/
theorem two_insertions_leave_buffer_unterminated :
    (generate rejectAll 100 [97, 98] 0 0 2 0 { buf := freshBuf, log := [] }).1
      = Except.error Stop.fault ∧
    (generate rejectAll 100 [97, 98] 0 0 2 0 { buf := freshBuf, log := [] }).2.buf.take 5
      = [some 97, some 98, some 32, some 32, none] ∧
    cstrAt (generate rejectAll 100 [97, 98] 0 0 2 0 { buf := freshBuf, log := [] }).2.buf 0
      = none := by
  decide!

/-- C10 fails when the checker is a plugin: with dry-run enabled
`testMatch` still calls the plugin's decrypt routine and returns its answer,
so a plugin that accepts "a" makes `search` return "a" from the seed "a". -/
theorem plugin_mode_ignores_dryrun :
    testMatch ⟨false, true, [], fun _ => [], fun c => decide (c = [97])⟩ [97]
      = (true, [Effect.decrypt [97]]) ∧
    (runSearch (oracleOf ⟨false, true, [], fun _ => [], fun c => decide (c = [97])⟩)
      100 [97] (-1)).1 = Outcome.found [97] := by
  decide!

set_option maxRecDepth 1000000 in
/-- C7 as stated fails on the seed "aa" with the budget (0,0,0,1): the
two deletions give the same string "a". -/
theorem deletion_repeats_candidate :
    ¬ (testedOf (generate rejectAll 100 [97, 97] 0 0 0 1
        { buf := freshBuf, log := [] }).2.log).Nodup := by
  decide!

/-- C7 amended: for every non-empty seed (a C string) in which no two
adjacent characters are equal, and for the budgets (0,0,0,1) and (0,1,0,0),
when the oracle rejects every candidate the enumeration of that composition
returns and the candidates it tests contain no string twice. -/
theorem single_deletion_or_swap_no_repeat (seed : Str) (fuel : Nat) (B : Mem)
    (hs : NoNul seed) (hne : seed ≠ []) (hadj : List.Chain' (fun a b => a ≠ b) seed)
    (hf : seed.length + 1 ≤ fuel) :
    (generate rejectAll fuel seed 0 0 0 1 { buf := B, log := [] }).1 = Except.ok () ∧
    (testedOf (generate rejectAll fuel seed 0 0 0 1 { buf := B, log := [] }).2.log).Nodup ∧
    (generate rejectAll fuel seed 0 1 0 0 { buf := B, log := [] }).1 = Except.ok () ∧
    (testedOf (generate rejectAll fuel seed 0 1 0 0 { buf := B, log := [] }).2.log).Nodup := by
  cases seed with
  | nil => exact absurd rfl hne
  | cons x v =>
    have h1 := generate_del x v fuel B _ [] hs (by simp at hf; omega)
      (memcpySeed_any B (x :: v))
    have h2 := generate_swap (x :: v) fuel B _ [] hs hf (memcpySeed_any B (x :: v))
    rw [h1, h2]
    refine ⟨rfl, ?_, rfl, ?_⟩
    · simp only [List.append_nil, ← List.map_reverse, testedOf_map_test]
      exact List.nodup_reverse.2 (nodup_delCands (x :: v) [] hadj)
    · simp only [List.append_nil, ← List.map_reverse, testedOf_map_test]
      exact List.nodup_reverse.2 (nodup_swapCands (x :: v) [] hadj)

/-- C7 amended at the seed "ab": neither the single deletions nor the
single swap repeat a string. -/
theorem single_deletion_or_swap_no_repeat_witness :
    (testedOf (generate rejectAll 100 [97, 98] 0 0 0 1
        { buf := freshBuf, log := [] }).2.log).Nodup ∧
    (testedOf (generate rejectAll 100 [97, 98] 0 1 0 0
        { buf := freshBuf, log := [] }).2.log).Nodup :=
  ⟨(single_deletion_or_swap_no_repeat [97, 98] 100 freshBuf (by unfold NoNul; decide)
      (by decide) (by simp) (by decide)).2.1,
   (single_deletion_or_swap_no_repeat [97, 98] 100 freshBuf (by unfold NoNul; decide)
      (by decide) (by simp) (by decide)).2.2.2⟩

/-- C13: in process mode with dry-run off, for every candidate, every match
string and every captured output `out`, `testMatch` returns true if and only
if the match string occurs as a contiguous substring of `out`. -/
theorem testMatch_finds_substring (cfg : Config) (pwd out : Str)
    (hc : cfg.checkCmd = true) (hd : cfg.dryrun = false)
    (hout : readLoop (cfg.reads pwd) [] 0 = out) :
    (execAndCapture cfg pwd).1 = out ∧
    ((testMatch cfg pwd).1 = true ↔ cfg.matchStr <:+: out) := by
  have h := capture_of_reads cfg pwd hd
  rw [hout] at h
  refine ⟨h, ?_⟩
  rw [← h]
  exact testMatch_of_capture cfg pwd hc

/-- C13 at the match string "ok": the captured output "xoky" (read in the
chunks "xo" and "ky") matches, the captured output "o k" does not. -/
theorem testMatch_finds_substring_witness :
    (testMatch ⟨true, false, [111, 107],
      fun _ => [ReadResult.data [120, 111], ReadResult.data [107, 121], ReadResult.eof],
      fun _ => false⟩ [97]).1 = true ∧
    ¬ (testMatch ⟨true, false, [111, 107],
      fun _ => [ReadResult.data [111, 32, 107], ReadResult.eof],
      fun _ => false⟩ [97]).1 = true :=
  ⟨(testMatch_finds_substring ⟨true, false, [111, 107],
      fun _ => [ReadResult.data [120, 111], ReadResult.data [107, 121], ReadResult.eof],
      fun _ => false⟩ [97] [120, 111, 107, 121] rfl rfl rfl).2.2 ⟨[120], [121], rfl⟩,
   fun h => absurd ((testMatch_finds_substring ⟨true, false, [111, 107],
      fun _ => [ReadResult.data [111, 32, 107], ReadResult.eof],
      fun _ => false⟩ [97] [111, 32, 107] rfl rfl rfl).2.1 h) (by decide)⟩

/-- C14 as stated fails: the child writes "ok", then the read is interrupted
51 times.  The read is abandoned at the 51st interruption, but the data
captured before it is returned and `testMatch` finds the match string "ok" in
it: the candidate is treated as matching. -/
theorem abandoned_capture_still_matches :
    (execAndCapture ⟨true, false, [111, 107],
      fun _ => ReadResult.data [111, 107] :: List.replicate 51 ReadResult.eintr,
      fun _ => false⟩ [97]).1 = [111, 107] ∧
    (testMatch ⟨true, false, [111, 107],
      fun _ => ReadResult.data [111, 107] :: List.replicate 51 ReadResult.eintr,
      fun _ => false⟩ [97]).1 = true := by
  decide

/-- C14 amended: in process mode with dry-run off, let the reads of one
capture begin with `pre`, a sequence of data chunks and interrupted reads.
If `pre` holds at most 50 interruptions and is followed by the end of the
stream, every chunk of `pre` is captured: the interrupted reads were retried.
If `pre` holds exactly 50 interruptions and is followed by one more, the read
is abandoned there, whatever would have come after; the data captured so far,
the chunks of `pre`, is returned, and `testMatch` returns true if and only if
the match string occurs in that data. -/
theorem interrupted_capture (cfg : Config) (pwd : Str) (pre rest : List ReadResult)
    (hc : cfg.checkCmd = true) (hd : cfg.dryrun = false) (hp : DataOrEintr pre) :
    (interruptsOf pre ≤ 50 → cfg.reads pwd = pre ++ ReadResult.eof :: rest →
      (execAndCapture cfg pwd).1 = chunksOf pre) ∧
    (interruptsOf pre = 50 → cfg.reads pwd = pre ++ ReadResult.eintr :: rest →
      (execAndCapture cfg pwd).1 = chunksOf pre ∧
      ((testMatch cfg pwd).1 = true ↔ cfg.matchStr <:+: chunksOf pre)) := by
  constructor
  · intro hn hr
    rw [capture_of_reads cfg pwd hd, hr, readLoop_through pre _ [] 0 hp (by omega)]
    simp [readLoop]
  · intro hn hr
    have h : (execAndCapture cfg pwd).1 = chunksOf pre := by
      rw [capture_of_reads cfg pwd hd, hr, readLoop_through pre _ [] 0 hp (by omega)]
      simp [readLoop, hn]
    refine ⟨h, ?_⟩
    rw [← h]
    exact testMatch_of_capture cfg pwd hc

/-- C14 amended at two captures with the match string "ok": 50 interruptions
and then "ok" and the end of the stream give a match; 51 interruptions before
any data give no match, although the child would have written "ok" next. -/
theorem interrupted_capture_witness :
    (execAndCapture ⟨true, false, [111, 107],
      fun _ => (List.replicate 50 ReadResult.eintr ++ [ReadResult.data [111, 107]])
        ++ ReadResult.eof :: [],
      fun _ => false⟩ [97]).1 = [111, 107] ∧
    ¬ (testMatch ⟨true, false, [111, 107],
      fun _ => List.replicate 50 ReadResult.eintr
        ++ ReadResult.eintr :: [ReadResult.data [111, 107], ReadResult.eof],
      fun _ => false⟩ [97]).1 = true := by
  have hp1 : DataOrEintr (List.replicate 50 ReadResult.eintr ++ [ReadResult.data [111, 107]]) := by
    intro r hr
    simp only [List.mem_append, List.mem_replicate, List.mem_singleton] at hr
    rcases hr with ⟨_, h⟩ | h <;> rw [h] <;> exact ⟨by decide, by decide⟩
  have hp2 : DataOrEintr (List.replicate 50 ReadResult.eintr) := by
    intro r hr
    rw [(List.mem_replicate.1 hr).2]
    exact ⟨by decide, by decide⟩
  refine ⟨?_, ?_⟩
  · exact (interrupted_capture ⟨true, false, [111, 107],
      fun _ => (List.replicate 50 ReadResult.eintr ++ [ReadResult.data [111, 107]])
        ++ ReadResult.eof :: [],
      fun _ => false⟩ [97] _ [] rfl rfl hp1).1 (by decide) rfl
  · intro h
    exact absurd (((interrupted_capture ⟨true, false, [111, 107],
      fun _ => List.replicate 50 ReadResult.eintr
        ++ ReadResult.eintr :: [ReadResult.data [111, 107], ReadResult.eof],
      fun _ => false⟩ [97] _ _ rfl rfl hp2).2 (by decide) rfl).2.1 h) (by decide)

/-- C15 fails: with a plugin whose initializer returns null, `ABORT` at line
553 calls `exit(2)` before the statement `return RETURN_CODE_PLUGIN_INIT;` of
line 554 is reached, so the process ends with status 2, the status of every
other fatal abort, and not with 4.  Neither decrypt nor finalize is called. -/
theorem plugin_init_failure_exits_with_two :
    main ⟨[], [112], false, -1, some [97], fun _ => [], true, false, fun _ => true⟩ 100
      = (Exit.exited 2, [Act.init]) ∧
    (main ⟨[], [112], false, -1, some [97], fun _ => [], true, false, fun _ => true⟩ 100).1.status
      ≠ some RETURN_CODE_PLUGIN_INIT := by
  rw [main_plugin_init_null _ 100 rfl (by decide) rfl rfl]
  exact ⟨rfl, by decide⟩

set_option maxRecDepth 1000000 in
/-- C12 fails when the password is the string "NOT_FOUND": with the seed
"NOT_FOUND" and a checker command that prints "ok" for exactly that password,
the oracle accepts the first candidate, `search` returns it, and `main`
compares the returned string with "NOT_FOUND" and exits with status 1. -/
theorem found_sentinel_exits_with_one :
    oracleOf (Args.config ⟨[111, 107], [], false, -1, some NOT_FOUND,
        fun c => if c = NOT_FOUND then [ReadResult.data [111, 107], ReadResult.eof]
          else [ReadResult.eof],
        false, false, fun _ => false⟩) NOT_FOUND = true ∧
    runSearch (oracleOf (Args.config ⟨[111, 107], [], false, -1, some NOT_FOUND,
        fun c => if c = NOT_FOUND then [ReadResult.data [111, 107], ReadResult.eof]
          else [ReadResult.eof],
        false, false, fun _ => false⟩)) 100 NOT_FOUND (-1)
      = (Outcome.found NOT_FOUND, [Ev.test NOT_FOUND]) ∧
    main ⟨[111, 107], [], false, -1, some NOT_FOUND,
        fun c => if c = NOT_FOUND then [ReadResult.data [111, 107], ReadResult.eof]
          else [ReadResult.eof],
        false, false, fun _ => false⟩ 100
      = (Exit.returned 1, [Act.oracle (Effect.spawn NOT_FOUND), Act.print NOT_FOUND]) := by
  decide!

/-- C11: for every oracle, seed and distance setting, `search` ends with the
fatal abort if and only if the seed is longer than MAX_PWD_LEN/2 = 50
characters.  When it is, nothing at all has been handed to the oracle, and
`main` (here with a checker command) ends with `exit(2)`.  A seed of at most
50 characters, 50 included, is searched: the first thing the run does is test
the seed itself (no positive fixed distance) or announce the composition
(0,0,0,D) of the fixed distance D. -/
theorem search_aborts_iff_seed_too_long (o : Oracle) (fuel : Nat) (seed : Str)
    (distance : Int) :
    ((runSearch o fuel seed distance).1 = Outcome.abort ↔ seed.length > 50) ∧
    (seed.length > 50 → runSearch o fuel seed distance = (Outcome.abort, [])) ∧
    (seed.length > 50 → ∀ a : Args, a.matchStr ≠ [] → a.seedPwd = some seed →
      main a fuel = (Exit.exited 2, [])) ∧
    (seed.length ≤ 50 → NoNul seed →
      (runSearch o fuel seed distance).2.head?
        = some (if distance ≤ 0 then Ev.test seed else Ev.comp 0 0 0 distance.toNat)) := by
  have h50 : MAX_PWD_LEN / 2 = 50 := by decide
  refine ⟨⟨?_, ?_⟩, ?_, ?_, ?_⟩
  · intro h
    by_contra hle
    have hlen : ¬ seed.length > MAX_PWD_LEN / 2 := by rw [h50]; exact hle
    exact search_no_abort o (generate o fuel seed)
      (fun e t a d => noAbort_generate o fuel seed e t a d) seed distance hlen _ _ _
      (by simpa [runSearch] using h)
  · intro h
    rw [runSearch_too_long o fuel seed distance (by rw [h50]; exact h)]
  · intro h
    exact runSearch_too_long o fuel seed distance (by rw [h50]; exact h)
  · intro h a hm hs
    exact main_seed_too_long a fuel seed hm hs (by rw [h50]; exact h)
  · intro hle hs
    have hlen : ¬ seed.length > MAX_PWD_LEN / 2 := by rw [h50]; omega
    by_cases hd : distance ≤ 0
    · have h0 : (if distance < 0 then 0 else distance.toNat) = 0 := by
        split
        · rfl
        · omega
      obtain ⟨evs, he⟩ := search_tests_seed_first o fuel seed distance (seed.length + 1)
        hlen hs hd
      simp only [runSearch, h0, he, hd, if_true, List.reverse_append, List.reverse_cons,
        List.reverse_nil, List.nil_append, List.singleton_append, List.head?_cons]
    · obtain ⟨D, hD⟩ : ∃ D : Nat, distance = (D : Int) := ⟨distance.toNat, by omega⟩
      subst hD
      have hD1 : 1 ≤ D := by omega
      have h0 : (if (D : Int) < 0 then 0 else (D : Int).toNat) = D := by
        have : ¬ ((D : Int) < 0) := by omega
        simp [this]
      obtain ⟨evs, he⟩ := searchBody_first o fuel seed D hD1
      have hR := search_fixed o (generate o fuel seed) seed D (seed.length + 1) [] hle
      have h2 : (search o (generate o fuel seed) seed (D : Int) (seed.length + 1 + 1) D []).2
          = evs ++ [Ev.comp 0 0 0 D] := by
        rw [hR, ← he]
        rcases searchBody o (generate o fuel seed) seed (D : Int) D [] with ⟨r, s1⟩
        cases r <;> rfl
      have hd0 : ¬ ((D : Int) < 0) := by omega
      simp only [runSearch, hd0, if_false, Int.toNat_ofNat, hd]
      rw [show seed.length + 2 = seed.length + 1 + 1 from rfl, h2]
      simp only [List.reverse_append, List.reverse_cons,
        List.reverse_nil, List.nil_append, List.singleton_append, List.head?_cons]

/-- C11 at a seed of 51 characters, which aborts with nothing tested, and at
a seed of 50 characters, which is searched: the seed is tested first. -/
theorem search_aborts_iff_seed_too_long_witness :
    runSearch rejectAll 100 (List.replicate 51 97) (-1) = (Outcome.abort, []) ∧
    (runSearch rejectAll 100 (List.replicate 50 97) (-1)).2.head?
      = some (Ev.test (List.replicate 50 97)) :=
  ⟨(search_aborts_iff_seed_too_long rejectAll 100 (List.replicate 51 97) (-1)).2.1
      (by decide),
   (search_aborts_iff_seed_too_long rejectAll 100 (List.replicate 50 97) (-1)).2.2.2
      (by decide) (fun c hc => by rw [(List.mem_replicate.1 hc).2]; decide)⟩

set_option maxRecDepth 1000000 in
/-- C17 fails on the buffer content "abcd": with t = 2 the candidates
tested are "bacd", "acbd" and "abdc", each the content with ONE swap applied
(the candidates of t = 1), and none of the strings with two swaps, such as
"badc" (swaps at 0 and 2), is tested; with t = 3 the same three candidates are
tested and the third pass then starts from a swap position that was never
assigned. -/
theorem two_swaps_are_never_applied :
    (searchIterateTrans rejectAll 100 2 0 0
        { buf := memcpySeed freshBuf [97, 98, 99, 100], log := [] }).1 = Except.ok () ∧
    testedOf (searchIterateTrans rejectAll 100 2 0 0
        { buf := memcpySeed freshBuf [97, 98, 99, 100], log := [] }).2.log.reverse
      = [[98, 97, 99, 100], [97, 99, 98, 100], [97, 98, 100, 99]] ∧
    testedOf (searchIterateTrans rejectAll 100 1 0 0
        { buf := memcpySeed freshBuf [97, 98, 99, 100], log := [] }).2.log.reverse
      = [[98, 97, 99, 100], [97, 99, 98, 100], [97, 98, 100, 99]] ∧
    [98, 97, 100, 99] ∉ testedOf (searchIterateTrans rejectAll 100 2 0 0
        { buf := memcpySeed freshBuf [97, 98, 99, 100], log := [] }).2.log ∧
    (searchIterateTrans rejectAll 100 3 0 0
        { buf := memcpySeed freshBuf [97, 98, 99, 100], log := [] }).1
      = Except.error Stop.fault := by
  decide!

set_option maxRecDepth 1000000 in
/-- C18 fails on the buffer content "a" with a = 2 (L + a = 3 < 100): the
first point tuple has both insertion points at the end of the content; the
two `memmove` calls of lines 353-354 each move the terminator by one place
only, and lines 355-356 then overwrite it, so the buffer holds 'a',' ',' '
followed by a byte that was never written.  No candidate is handed to the
oracle and the enumeration stops there, instead of C(3,2)*95^2 = 27075
oracle calls. -/
theorem two_insertions_test_nothing :
    searchIterateAdds rejectAll 100 2 0 { buf := memcpySeed freshBuf [97], log := [] }
      = (Except.error Stop.fault,
          { buf := [some 97, some 32, some 32] ++ List.replicate 198 none, log := [] }) ∧
    cstrAt ([some 97, some 32, some 32] ++ List.replicate 198 none) 0 = none := by
  decide!

/-- C16 fails on the claim's own example, the seed "abc" with k = 2 (from
the freshly declared buffer, rejecting oracle).  The position sets {0,1},
{0,2} and {1,2} are enumerated, but when the second pointer moves on, index 0
is not blanked again: the odometer of {0,2} starts with index 0 at 'a', so
the assignments with ' ' at index 2 and a character below 'a' at index 0 are
skipped, among them " b ".  After {1,2} the pointers move to {2,3}, index 3
being the terminator, which is overwritten with ' '; the buffer then has no
terminator and the run stops.  27010 candidates have been tested, not
C(3,2)*95^2 = 27075. -/
theorem two_substitutions_miss_candidates :
    (generate rejectAll 9025 [97, 98, 99] 2 0 0 0 { buf := freshBuf, log := [] }).1
      = Except.error Stop.fault ∧
    (generate rejectAll 9025 [97, 98, 99] 2 0 0 0
        { buf := freshBuf, log := [] }).2.buf.take 5
      = [some 97, some 98, some 32, some 32, none] ∧
    (testedOf (generate rejectAll 9025 [97, 98, 99] 2 0 0 0
        { buf := freshBuf, log := [] }).2.log).length = 27010 ∧
    [32, 98, 32] ∉ testedOf (generate rejectAll 9025 [97, 98, 99] 2 0 0 0
        { buf := freshBuf, log := [] }).2.log ∧
    Nat.choose 3 2 * 95 ^ 2 = 27075 := by
  have hrun := generate_two_of_three 97 98 99 9025 freshBuf (freshBuf.drop 5) []
    (by intro x hx; simp at hx; rcases hx with rfl | rfl | rfl <;> omega) (by norm_num) rfl
  rw [hrun]
  refine ⟨rfl, rfl, ?_, ?_, by decide⟩
  · simp only [List.append_nil, testedOf_append, testedOf_reverse, testedOf_map_comp,
      List.length_append, List.length_reverse, List.length_map, length_odometer,
      length_odoFrom_cons]
    have h1 : (odoFrom [32]).tail.length = 94 := by
      simp [odoFrom]
    rw [h1]
    norm_num
  · simp only [List.append_nil, testedOf_append, testedOf_reverse, testedOf_map_comp,
      List.mem_append, List.mem_reverse, List.mem_map]
    rintro (⟨d, _, hd⟩ | ⟨d, hd, he⟩ | ⟨d, _, hd⟩)
    · cases d with
      | nil => simp [weave] at hd
      | cons d0 d1 => cases d1 <;> simp [weave] at hd
    · obtain ⟨x, r1, rfl, hr⟩ := mem_odoFrom_cons 97 [32] d hd
      rcases hr with ⟨rfl, hx⟩ | hr
      · simp [weave] at he
        omega
      · have hr1 : r1 ∈ (List.range' 33 94).map fun y => [y] := by
          simpa [odoFrom, List.range'_succ] using hr
        simp only [List.mem_map, List.mem_range'_1] at hr1
        obtain ⟨y, hy, rfl⟩ := hr1
        simp [weave] at he
        omega
    · have := congrArg List.getLast? hd
      simp at this

set_option maxRecDepth 1000000 in
/-- C20 as stated fails on the seed "ab" with two substitutions: the first
three candidates are "  ", "! " and "\" ", so the character that changes
from one candidate to the next is the one at index 0, the leftmost
substituted position, not the rightmost. -/
theorem rightmost_position_is_not_fastest :
    (testedOf (generate rejectAll 9025 [97, 98] 2 0 0 0
        { buf := freshBuf, log := [] }).2.log.reverse).take 3
      = [[32, 32], [33, 32], [34, 32]] := by
  rw [generate_two_substitutions 97 98 9025 freshBuf (freshBuf.drop 4) [] (by decide)
    (by decide) (by norm_num) rfl]
  simp only [List.append_nil, List.reverse_reverse, testedOf_map_test]
  decide

/-- C20 amended: in the substitution stage the character assignments of a
position set are enumerated like an odometer in which the LEFTMOST
(lowest-index) substituted position cycles fastest.  For any position set,
given by the untouched segments `sgs` before each position and the rest `z`
of the string, the odometer loop started with the characters `ds` at the
positions tests the strings of `odoFrom ds` in order and leaves every
position at 0x20; the order is that of repeated `tick` steps, in which the
first character advances by one and a character that passes 0x7E returns to
0x20 while the next one to its right advances; from all positions at 0x20
these are all 95^k assignments.  In a run of the composition (k,0,0,0) on a
seed of at least k characters, the first 95^k candidates are those of the
position set {0,...,k-1} in that order. -/
theorem substitution_odometer (x z : Str) (sgs : List Str) (ds : List Nat) (fuel : Nat)
    (B R : Mem) (log : List Ev)
    (hx : 1 ≤ x.length) (hk : x.length ≤ MAX_PWD_LEN) (hs : NoNul (x ++ z))
    (hl : sgs.length = ds.length) (hp : Printable ds) (hsg : ∀ sg ∈ sgs, NoNul sg)
    (hf : 95 ^ x.length ≤ fuel) (hfd : 95 ^ ds.length ≤ fuel) :
    subOdometer rejectAll fuel ds.length 0 0 0 (weavePos 0 sgs) fuel
        { buf := cells [] (weave sgs ds ++ z) R, log := log }
      = (Except.ok (),
          { buf := cells [] (weave sgs (List.replicate ds.length 32) ++ z) R,
            log := ((odoFrom ds).map fun d => Ev.test (weave sgs d ++ z)).reverse ++ log }) ∧
    odoFrom ds = ds :: (if (tick ds).2 then odoFrom (tick ds).1 else []) ∧
    odoFrom (List.replicate ds.length 32) = odometer ds.length ∧
    (odometer ds.length).length = 95 ^ ds.length ∧
    (∃ rest, testedOf (generate rejectAll fuel (x ++ z) x.length 0 0 0
        { buf := B, log := [] }).2.log.reverse
      = (odometer x.length).map (fun d => d ++ z) ++ rest) := by
  refine ⟨?_, odoFrom_step ds hp, odoFrom_start _, length_odometer _, ?_⟩
  · exact subOdometer_weave fuel ds sgs z R log fuel hl hp hsg hs.right
      (le_trans (length_odoFrom_le ds hp) hfd)
  · obtain ⟨later, hlog⟩ := generate_sub_first x z fuel B [] hx hk hs hf
    refine ⟨testedOf later.reverse, ?_⟩
    rw [hlog]
    simp only [List.append_nil, List.reverse_append, List.reverse_reverse, testedOf_append,
      testedOf_map_comp]

set_option maxRecDepth 1000000 in
/-- C20 amended at the seed "ab" with two substitutions: the candidates
begin "  ", "! ", and after "~ " comes " !", index 0 back at 0x20 and index
1 advanced by one. -/
theorem substitution_odometer_witness :
    (∃ rest, testedOf (generate rejectAll 9025 [97, 98] 2 0 0 0
        { buf := freshBuf, log := [] }).2.log.reverse
      = (odometer 2).map (fun d => d ++ []) ++ rest) ∧
    (odometer 2).take 2 = [[32, 32], [33, 32]] ∧
    ((odometer 2).drop 94).take 2 = [[126, 32], [32, 33]] ∧
    tick [126, 32] = ([32, 33], true) :=
  ⟨(substitution_odometer [97, 98] [] [[], []] [32, 32] 9025 freshBuf [] []
      (by decide) (by decide) (by unfold NoNul; decide) rfl
      (by unfold Printable; decide) (by intro sg hsg; simp at hsg; subst hsg; intro c hc; cases hc)
      (by norm_num) (by norm_num)).2.2.2.2,
    by decide, by decide, by decide⟩

/-- C19: `searchIterateDels` on a buffer holding the string `w`, with
`dels ≤ strlen w` and an oracle that rejects everything, returns normally
with the buffer as it found it, having tested, in this order, `w` without the
characters at the indices `T`, once for each `T` of
`combosFrom w.length dels 0`.  These tuples are exactly the strictly
increasing `dels`-tuples of indices below `w.length`, they come in strictly
increasing lexicographic order from `(0, 1, …, dels - 1)`, and there are
`C(w.length, dels)` of them; with `dels = 0` the one candidate is `w`. -/
theorem deletions_visit_every_tuple (w : Str) (R : Mem) (log : List Ev) (d fuel : Nat)
    (hw : NoNul w) (hd : d ≤ w.length) (hf : w.length.choose d ≤ fuel) :
    searchIterateDels rejectAll fuel d { buf := cells [] w R, log := log }
        = (Except.ok (),
            { buf := cells [] w R,
              log := ((combosFrom w.length d 0).map fun T =>
                Ev.test (removeIdxs w T)).reverse ++ log })
      ∧ (∀ T, T ∈ combosFrom w.length d 0 ↔
          T.length = d ∧ T.Pairwise (fun a b => a < b) ∧ ∀ i ∈ T, i < w.length)
      ∧ (combosFrom w.length d 0).Pairwise (List.Lex fun a b => a < b)
      ∧ (combosFrom w.length d 0).head? = some (List.range d)
      ∧ (combosFrom w.length d 0).length = w.length.choose d
      ∧ (d = 0 → (combosFrom w.length d 0).map (removeIdxs w) = [w]) := by
  have hmem : ∀ T, T ∈ combosFrom w.length d 0 ↔
      T.length = d ∧ T.Pairwise (fun a b => a < b) ∧ ∀ i ∈ T, i < w.length := by
    intro T
    rw [mem_combosFrom]
    simp
  have hlen : (combosFrom w.length d 0).length = w.length.choose d := by
    rw [length_combosFrom, Nat.sub_zero]
  have hmap : ((combosFrom w.length d 0).map fun T => Ev.test (eraseAll w T))
      = (combosFrom w.length d 0).map fun T => Ev.test (removeIdxs w T) := by
    apply List.map_congr_left
    intro T hT
    rw [eraseAll_eq_removeIdxs w T ((hmem T).1 hT).2.1]
  refine ⟨?_, hmem, combosFrom_lex _ _ _, ?_, hlen, ?_⟩
  · rcases Nat.eq_zero_or_pos d with h0 | h1
    · subst h0
      unfold searchIterateDels
      rw [if_pos rfl, testAndThrow_reject _ w (cstr_cells [] w R (by intro c hc; cases hc) hw)]
      simp [combosFrom, removeIdxs, dropIdxs_nil]
    · rw [searchIterateDels_run w R log hw d fuel h1 hd (by omega), hmap]
  · rw [head_combosFrom _ _ _ (by omega), List.range_eq_range']
  · rintro rfl
    simp [combosFrom, removeIdxs, dropIdxs_nil]

/-- C19 at the content "abcd" with two deletions: the six candidates, the
last one tested first in the list. -/
theorem deletions_visit_every_tuple_witness :
    (searchIterateDels rejectAll 6 2
        { buf := cells [] [97, 98, 99, 100] (List.replicate 196 none), log := [] }).2.log
      = [Ev.test [97, 98], Ev.test [97, 99], Ev.test [97, 100], Ev.test [98, 99],
          Ev.test [98, 100], Ev.test [99, 100]] := by
  rw [(deletions_visit_every_tuple [97, 98, 99, 100] (List.replicate 196 none) [] 2 6
    (by unfold NoNul; decide) (by decide) (by decide)).1]
  rfl

set_option maxRecDepth 1000000 in
/-- C21 as stated fails on the seed "a" with the fixed distance 0 and the
rejecting oracle: the whole run is distance 0, and `testMatch` is called on
the unmodified seed twice. -/
theorem seed_is_tested_twice :
    testedOf (runSearch rejectAll 0 [97] 0).2 = [[97], [97]] := by
  decide!

/-- C21 amended: when distance 0 is searched without a positive fixed
distance and the oracle rejects the seed, `testMatch` is called on the
unmodified seed exactly twice during distance 0, once directly (lines
420-423) and once by the composition (0,0,0,0), and on nothing else.  The run
begins with these three events; with the fixed distance 0 or the empty seed
they are the whole run and the result is NotFound, otherwise the next event
is the announcement of (0,0,0,1), the first composition of distance 1. -/
theorem seed_tested_twice_at_distance_zero (o : Oracle) (fuel : Nat) (seed : Str)
    (distance : Int) (hlen : seed.length ≤ 50) (hs : NoNul seed) (hd : distance ≤ 0)
    (ho : o seed = false) :
    ∃ rest, (runSearch o fuel seed distance).2
        = [Ev.test seed, Ev.comp 0 0 0 0, Ev.test seed] ++ rest ∧
      (distance = 0 ∨ seed = [] →
        rest = [] ∧ (runSearch o fuel seed distance).1 = Outcome.notFound) ∧
      (distance < 0 → seed ≠ [] → rest.head? = some (Ev.comp 0 0 0 1)) := by
  have hl : ¬ seed.length > MAX_PWD_LEN / 2 := by
    simp [MAX_PWD_LEN]; omega
  have hD : (if distance < 0 then 0 else distance.toNat) = 0 := by
    split
    · rfl
    · omega
  have hrun := search_zero_run o fuel seed distance (seed.length + 1) hl hs hd ho
  unfold runSearch
  simp only [hD]
  rw [show seed.length + 2 = seed.length + 1 + 1 from rfl, hrun]
  by_cases hc : 0 < seed.length ∧ distance < 0
  · rw [if_pos hc]
    obtain ⟨evs, he⟩ := search_first_comp o fuel seed distance seed.length 1 (logZero seed)
      (le_refl 1) hl
    rw [show (0 : Nat) + 1 = 1 from rfl, he]
    refine ⟨Ev.comp 0 0 0 1 :: evs.reverse, ?_, ?_, ?_⟩
    · simp [logZero]
    · rintro (h | h)
      · omega
      · rw [h] at hc
        exact absurd hc.1 (by simp)
    · intro _ _
      rfl
  · rw [if_neg hc]
    refine ⟨[], ?_, ?_, ?_⟩
    · simp [logZero]
    · intro _
      exact ⟨rfl, rfl⟩
    · intro h1 h2
      exact absurd ⟨List.length_pos.2 h2, h1⟩ hc

/-- C21 amended at the seed "a" with no fixed distance: the seed is tested
twice, then distance 1 begins. -/
theorem seed_tested_twice_at_distance_zero_witness :
    ∃ rest, (runSearch rejectAll 0 [97] (-1)).2
        = [Ev.test [97], Ev.comp 0 0 0 0, Ev.test [97]] ++ rest ∧
      rest.head? = some (Ev.comp 0 0 0 1) := by
  obtain ⟨rest, h1, _, h3⟩ := seed_tested_twice_at_distance_zero rejectAll 0 [97] (-1)
    (by decide) (by unfold NoNul; decide) (by decide) (by simp [rejectAll])
  exact ⟨rest, h1, h3 (by decide) (by decide)⟩

/-- C22 as stated fails on a seed of 50 characters with 50 insertions: the
grown length 100 fits the buffer of 201 bytes with room to spare, and
`1 ≤ a ≤ n ≤ 50`, yet the stage is skipped: the call returns at once, nothing
tested, the buffer untouched. -/
theorem fifty_insertions_are_skipped :
    searchIterateAdds rejectAll 1 50 0
        { buf := memcpySeed freshBuf (List.replicate 50 97), log := [] }
      = (Except.ok (), { buf := memcpySeed freshBuf (List.replicate 50 97), log := [] }) ∧
    50 + 50 + 1 ≤ BUF_LEN := by
  refine ⟨?_, by decide⟩
  refine searchIterateAdds_skip rejectAll _ 50 50 0 1 ?_ (by decide) (by decide)
  rw [memcpySeed_any]
  have h := strlenAt_cells_zero [] (List.replicate 50 97)
    (freshBuf.drop ((List.replicate 50 97).length + 1)) (fun _ h => by cases h)
    (fun c hc => by rw [(List.mem_replicate.1 hc).2]; decide)
  simpa using h

/-- C22 amended: for a buffer holding the string `w` and `a ≥ 1` insertions,
`searchIterateAdds` skips the composition (returns at once, nothing tested,
buffer untouched) exactly when `a + strlen w ≥ MAX_PWD_LEN = 100`, whatever
the capacity of the buffer.  When it does not skip, it never returns normally
without a call of `testMatch`.  For a seed of length `n ≤ 50` and `1 ≤ a ≤ n`
the stage is skipped exactly for `n = a = 50`.  With one insertion, no
deletion and `strlen w + 1 < 100` the stage tests the `95 (strlen w + 1)`
single insertions and returns. -/
theorem insertions_skipped_from_max_pwd_len (w : Str) (y : Option Nat) (R : Mem)
    (log : List Ev) (a d fuel : Nat) (hw : NoNul w) (ha : 1 ≤ a) :
    (searchIterateAdds rejectAll fuel a d { buf := cells [] w (y :: R), log := log }
        = (Except.ok (), { buf := cells [] w (y :: R), log := log })
      ↔ MAX_PWD_LEN ≤ a + w.length) ∧
    (a + w.length < MAX_PWD_LEN →
      (searchIterateAdds rejectAll fuel a d
        { buf := cells [] w (y :: R), log := log }).1 = Except.ok () →
      ∃ post c pre, (searchIterateAdds rejectAll fuel a d
        { buf := cells [] w (y :: R), log := log }).2.log = post ++ Ev.test c :: (pre ++ log)) ∧
    (w.length ≤ 50 → a ≤ w.length →
      (MAX_PWD_LEN ≤ a + w.length ↔ w.length = 50 ∧ a = 50)) ∧
    (w.length + 1 < MAX_PWD_LEN → 95 ≤ fuel → w.length + 2 ≤ fuel →
      searchIterateAdds rejectAll fuel 1 0 { buf := cells [] w (y :: R), log := log }
        = (Except.ok (),
            { buf := cells [] w (some 0 :: R),
              log := ((insCands w.reverse []).map Ev.test).reverse ++ log }) ∧
      (insCands w.reverse []).length = 95 * (w.length + 1)) := by
  have hl := strlenAt_cells_zero [] w (y :: R) (fun _ h => by cases h) hw
  simp only [List.length_nil, Nat.zero_add] at hl
  have hp : a + w.length < MAX_PWD_LEN →
      (searchIterateAdds rejectAll fuel a d
        { buf := cells [] w (y :: R), log := log }).1 = Except.ok () →
      ∃ post c pre, (searchIterateAdds rejectAll fuel a d
        { buf := cells [] w (y :: R), log := log }).2.log = post ++ Ev.test c :: (pre ++ log) :=
    fun h hok => searchIterateAdds_probes _ w.length a d fuel hl ha h hok
  refine ⟨⟨?_, ?_⟩, hp, ?_, ?_⟩
  · intro h
    by_contra hn
    obtain ⟨post, c, pre, hlog⟩ := hp (by omega) (by rw [h])
    rw [h] at hlog
    have := congrArg List.length hlog
    simp at this
    omega
  · exact fun h => searchIterateAdds_skip rejectAll _ w.length a d fuel hl ha h
  · intro h1 h2
    simp only [MAX_PWD_LEN]
    omega
  · intro hn hT hf
    exact ⟨searchIterateAdds_one w y R log fuel hw hn hT hf, by
      rw [length_insCands, List.length_reverse]⟩

/-- C22 amended at the content "a" with one insertion: the stage is not
skipped and tests 190 candidates. -/
theorem insertions_skipped_from_max_pwd_len_witness :
    (testedOf (searchIterateAdds rejectAll 95 1 0
        { buf := cells [] [97] (none :: []), log := [] }).2.log).length = 190 := by
  have h := (insertions_skipped_from_max_pwd_len [97] none [] [] 1 0 95
    (by unfold NoNul; decide) (by decide)).2.2.2 (by decide) (by decide) (by decide)
  rw [h.1]
  simp only [List.append_nil, testedOf_reverse, testedOf_map_test, List.length_reverse]
  exact h.2

set_option maxRecDepth 1000000 in
/-- C23 fails on the claim's own example, the seed "a" with the fixed
distance 2.  The first composition is (0,0,0,2); `searchIterateDels` is
called with two deletions on a string of one character, sets its pointers to
indices 0 and 1, and reads the byte at index 2, which was never written: the
run stops there.  On a buffer whose bytes behind the terminator are written,
here 'a', NUL, 'b', NUL, the same call returns normally after testing the
three candidates "b", "" and "a". -/
theorem deletions_beyond_length_misbehave :
    runSearch rejectAll 1 [97] 2 = (Outcome.fault, [Ev.comp 0 0 0 2]) ∧
    searchIterateDels rejectAll 3 2
        { buf := [some 97, some 0, some 98, some 0], log := [] }
      = (Except.ok (),
          { buf := [some 97, some 0, some 98, some 0],
            log := [Ev.test [97], Ev.test [], Ev.test [98]] }) := by
  refine ⟨?_, ?_⟩
  · exact runSearch_beyond [97] 2 1 (by unfold NoNul; decide) (by decide) (by decide)
      (by decide)
  · decide!

set_option maxRecDepth 1000000 in
/-- C24 fails on the claim's own example, the seed "ab" with the composition
(2,0,0,0) (from the freshly declared buffer, rejecting oracle).  After the
position set (0,1) the pointer advance of lines 462-472, run on the restored
buffer, yields the position set (1,2), whose second index is n = 2, the index
of the terminator; lines 475-481 then read the terminator into `savedArr` and
overwrite it with ' '.  In the whole composition the 95^2 candidates of the
position set (0,1) are tested, and the run stops at the next call of
`testMatch`, the buffer holding 'a', ' ', ' ' and no terminator. -/
theorem substitution_overwrites_terminator :
    subCarry 1 [0, 1] { buf := memcpySeed freshBuf [97, 98], log := [] }
      = (Except.ok ([1, 2], some 0), { buf := memcpySeed freshBuf [97, 98], log := [] }) ∧
    subReinit 2 0 [1, 2] [97, 98] { buf := memcpySeed freshBuf [97, 98], log := [] }
      = (Except.ok ([1, 2], [98, 0]),
          { buf := [some 97, some 32, some 32] ++ List.replicate 198 none, log := [] }) ∧
    (generate rejectAll 9025 [97, 98] 2 0 0 0 { buf := freshBuf, log := [] }).1
      = Except.error Stop.fault ∧
    (generate rejectAll 9025 [97, 98] 2 0 0 0
        { buf := freshBuf, log := [] }).2.buf.take 4
      = [some 97, some 32, some 32, none] ∧
    (testedOf (generate rejectAll 9025 [97, 98] 2 0 0 0
        { buf := freshBuf, log := [] }).2.log).length = 95 ^ 2 := by
  have hrun := generate_two_substitutions 97 98 9025 freshBuf (freshBuf.drop 4) []
    (by decide) (by decide) (by norm_num) rfl
  rw [hrun]
  refine ⟨by decide!, by decide!, rfl, rfl, ?_⟩
  simp only [List.append_nil, testedOf_reverse, testedOf_map_test, List.length_reverse,
    length_odometer]

set_option maxRecDepth 1000000 in
/-- C4 fails on the seed "abc" with no fixed distance and the rejecting
oracle.  Distance 3 = n is searched, and (0,3,0,0) is one of its
compositions.  In it the first pass of the loop of lines 389-400 tests "bac"
and "acb", the second pass starts behind the last swap and assigns nothing to
`transArr[1]`, and the third pass starts from `transArr[1] + 1`, a pointer
that was never assigned: the run does not come to its end. -/
theorem three_swaps_end_the_search :
    (0, 3, 0, 0) ∈ compositions 3 ∧
    generate rejectAll 5 [97, 98, 99] 0 3 0 0 { buf := freshBuf, log := [] }
      = (Except.error Stop.fault,
          { buf := memcpySeed freshBuf [97, 98, 99],
            log := [Ev.test [97, 99, 98], Ev.test [98, 97, 99]] }) := by
  decide!

set_option maxRecDepth 1000000 in
/-- C6 fails on the seed "a" with the fixed distance 2 and the rejecting
oracle: no candidate is accepted and the result is not NotFound.  (0,2,0,0)
is one of the compositions of 2; in it the first pass of the loop of lines
389-400 finds no pair to swap and assigns nothing to `transArr[0]`, and the
second pass starts from `transArr[0] + 1`, a pointer that was never
assigned.  (The run of the model stops before that, in the composition
(0,0,0,2), at the read of a byte that was never written.) -/
theorem fixed_distance_two_ends_in_two_swaps :
    (0, 2, 0, 0) ∈ compositions 2 ∧
    generate rejectAll 5 [97] 0 2 0 0 { buf := freshBuf, log := [] }
      = (Except.error Stop.fault, { buf := memcpySeed freshBuf [97], log := [] }) ∧
    (runSearch rejectAll 5 [97] 2).1 = Outcome.fault := by
  decide!

end Cracker
